import Mathlib

/-!
Inverted-index search engine: embedding and verified properties.

Shallow embedding of the four programs of the repository
(`parsing.cpp`, `merging.cpp`, `index.cpp`, `querying.cpp`).

Conventions.
* A byte is a `Nat` (`unsigned char`); a byte string is a `List Nat`.
* `uint32_t` values are `Nat` reduced `% 2 ^ 32` where the code computes them,
  `uint64_t` values `% 2 ^ 64`; `int` values are `Int`.
* A read outside a vector is undefined behaviour in the source and `none` here.
* Loops whose iteration count is not structurally evident take a fuel argument.
-/

namespace WSE

/-! ## Shared data -/

/-- One record of the binary temp-file / merged-stream format
`u32 termLen | term bytes | i32 docId | i32 freq`. -/
structure Record where
  term : List Nat
  docId : Int
  freq : Int
deriving DecidableEq, Repr

/-- Value of `static_cast<uint32_t>(x)` for an `int` (or wider) `x`. -/
def toU32 (x : Int) : Nat := (x % 2 ^ 32).toNat

/-- The constant `UINT32_MAX`. -/
def UINT32_MAX : Nat := 2 ^ 32 - 1

/-- C `strcmp` on the contents of two NUL-terminated strings (bytes compared as
`unsigned char`); only the sign of the result is used by the callers.  The same
function gives the sign of `std::string::compare`. -/
def strcmp : List Nat → List Nat → Int
  | [], [] => 0
  | [], _ :: _ => -1
  | _ :: _, [] => 1
  | a :: as, b :: bs => if a = b then strcmp as bs else if a < b then -1 else 1

/-- The order `(term bytes, docId)` ascending, non-strict. -/
def keyLe (t1 : List Nat) (d1 : Int) (t2 : List Nat) (d2 : Int) : Prop :=
  strcmp t1 t2 < 0 ∨ (t1 = t2 ∧ d1 ≤ d2)

/-- The order `(term bytes, docId)` ascending, strict. -/
def keyLt (t1 : List Nat) (d1 : Int) (t2 : List Nat) (d2 : Int) : Prop :=
  strcmp t1 t2 < 0 ∨ (t1 = t2 ∧ d1 < d2)

instance (t1 : List Nat) (d1 : Int) (t2 : List Nat) (d2 : Int) : Decidable (keyLe t1 d1 t2 d2) := by
  unfold keyLe; infer_instance

instance (t1 : List Nat) (d1 : Int) (t2 : List Nat) (d2 : Int) : Decidable (keyLt t1 d1 t2 d2) := by
  unfold keyLt; infer_instance

/-- Records sorted by `(term, docId)` ascending: the order of the merged stream. -/
def recordLe (a b : Record) : Prop := keyLe a.term a.docId b.term b.docId

/-- Strict order of records by `(term bytes, docId)`. -/
def recordLt (a b : Record) : Prop := keyLt a.term a.docId b.term b.docId

instance (a b : Record) : Decidable (recordLe a b) := by
  unfold recordLe; infer_instance

instance (a b : Record) : Decidable (recordLt a b) := by
  unfold recordLt; infer_instance

/-! ## index.cpp: varbyte encoding -/

/-- Source `writeByte(buffer, val)` with `val : uint8_t`. -/
def writeByte (buffer : List Nat) (val : Nat) : List Nat :=
  buffer ++ [val % 256]

/-- The `while (num >= 128)` loop of `varbyteEncode` followed by the final
`writeByte`; `fuel` bounds the number of loop iterations. -/
def varbyteEncodeLoop : Nat → List Nat → Nat → List Nat
  | 0, buffer, num => writeByte buffer num
  | fuel + 1, buffer, num =>
    if num ≥ 128 then
      varbyteEncodeLoop fuel (writeByte buffer (128 + (num &&& 127))) (num >>> 7)
    else
      writeByte buffer num

/-- Source `varbyteEncode(buffer, num)`, `num : uint32_t`.  A 32-bit value is
below 128 after at most four shifts by 7, so five units of fuel never run out. -/
def varbyteEncode (buffer : List Nat) (num : Nat) : List Nat :=
  varbyteEncodeLoop 5 buffer (num % 2 ^ 32)

/-! ## querying.cpp: varbyte decoding -/

/-- The `do ... while (curr >= 128)` loop of `ListPointer::varbyteDecode`, run
on the bytes from `pos` on; `num` is a `uint32_t` accumulator.  A read past
the last byte of the buffer gives `none`.  The shifted group is reduced
`% 2 ^ 32`; the encodings of 32-bit numbers never shift by more than 28. -/
def varbyteDecodeLoop : List Nat → Nat → Nat → Nat → Option (Nat × Nat)
  | [], _, _, _ => none
  | curr :: rest, num, shift, pos =>
    let num1 := (num + (((curr &&& 127) <<< shift) % 2 ^ 32)) % 2 ^ 32
    if curr ≥ 128 then varbyteDecodeLoop rest num1 (shift + 7) (pos + 1)
    else some (num1, pos + 1)

/-- Source `ListPointer::varbyteDecode(buf, pos)`: the decoded number and the
updated position. -/
def varbyteDecode (buf : List Nat) (pos : Nat) : Option (Nat × Nat) :=
  varbyteDecodeLoop (buf.drop pos) 0 0 pos

/-! ## index.cpp: blocks and the index builder -/

/-- Source constant `MAX_BUF_POSTINGS`. -/
def MAX_BUF_POSTINGS : Nat := 128

/-- Source `struct BlockMetadata` (three `uint32_t`). -/
structure BlockMetadata where
  lastDocId : Nat
  docSize : Nat
  freqSize : Nat
deriving DecidableEq, Repr

/-- Source `struct LexiconEntry` (three `uint32_t`). -/
structure LexiconEntry where
  startBlock : Nat
  startIndex : Nat
  listLength : Nat
deriving DecidableEq, Repr

/-- Source `struct Block`: parallel vectors of `int`. -/
structure Block where
  docIds : List Int
  freqs : List Int
deriving DecidableEq, Repr

/-- First loop of `compressBlock`: `delta = docId - prevDocId` converted to
`uint32_t`, varbyte-encoded onto `buffer`; `prevDocId = docId`. -/
def encodeDocIds : List Int → Int → List Nat → List Nat
  | [], _, buffer => buffer
  | docId :: rest, prevDocId, buffer =>
    encodeDocIds rest docId (varbyteEncode buffer (toU32 (docId - prevDocId)))

/-- Second loop of `compressBlock`: each freq cast to `uint32_t` and encoded. -/
def encodeFreqs : List Int → List Nat → List Nat
  | [], buffer => buffer
  | freq :: rest, buffer => encodeFreqs rest (varbyteEncode buffer (toU32 freq))

/-- The docId byte stream `compressBlock` writes for a block (its `buffer`
after the first loop, which starts with `prevDocId = 0`). -/
def docStream (block : Block) : List Nat := encodeDocIds block.docIds 0 []

/-- The freq byte stream `compressBlock` writes for a block. -/
def freqStream (block : Block) : List Nat := encodeFreqs block.freqs []

/-- Source `compressBlock(ofs, block, buffer, metadata, blockCount)`: the new
contents of the index file, of the metadata vector and of `blockCount`.
`block.docIds.back()` on an empty block is undefined in the source; the builder
never passes one, and the model reads it as `0`. -/
def compressBlock (ofs : List Nat) (block : Block) (metadata : List BlockMetadata)
    (blockCount : Nat) : List Nat × List BlockMetadata × Nat :=
  let docBytes := docStream block
  let lastDocId := toU32 (block.docIds.getLastD 0)
  let docByteCount := docBytes.length % 2 ^ 32
  let freqBytes := freqStream block
  let freqByteCount := freqBytes.length % 2 ^ 32
  (ofs ++ docBytes ++ freqBytes,
   metadata ++ [⟨lastDocId, docByteCount, freqByteCount⟩],
   (blockCount + 1) % 2 ^ 32)

/-- The decoding steps of `ListPointer::nextGEQ` applied to one doc buffer until
it is consumed: `gap = varbyteDecode(docBuffer, docBufPos)`,
`doc = prevDocId + gap` in `uint32_t`, `prevDocId = doc`.  Returns the docIds
in decoding order; each step consumes at least one byte, so `fuel` equal to the
buffer length is enough. -/
def decodeDocStream (docBuffer : List Nat) : Nat → Nat → Nat → Option (List Nat)
  | 0, docBufPos, _ => if docBufPos ≥ docBuffer.length then some [] else none
  | fuel + 1, docBufPos, prevDocId =>
    if docBufPos ≥ docBuffer.length then some []
    else
      match varbyteDecode docBuffer docBufPos with
      | none => none
      | some (gap, pos1) =>
        let doc := (prevDocId + gap) % 2 ^ 32
        (decodeDocStream docBuffer fuel pos1 doc).map (fun ds => doc :: ds)

/-! ## merging.cpp: k-way merge -/

namespace Merging

/-- Source `struct PostingEntry` of merging.cpp. -/
structure PostingEntry where
  term : List Nat
  docId : Int
  freq : Int
  fileIndex : Nat
deriving DecidableEq, Repr

/-- Source `ComparePosting::operator()`: `a.term > b.term` when the terms
differ, `a.docId > b.docId` otherwise. -/
def ComparePosting (a b : PostingEntry) : Bool :=
  if a.term ≠ b.term then decide (strcmp a.term b.term > 0)
  else decide (a.docId > b.docId)

/-- Source `readNextRecord(fileIndex, p)`.  An input file is the list of the
records still unread; `none` is the source's `false` (end of file, or a zero
`termLen`).  On success the entry and the files with that record consumed. -/
def readNextRecord (inputFiles : List (List Record)) (fileIndex : Nat) :
    Option (PostingEntry × List (List Record)) :=
  match inputFiles[fileIndex]? with
  | none => none
  | some [] => none
  | some (r :: rest) =>
    if r.term.length = 0 then none
    else some (⟨r.term, r.docId, r.freq, fileIndex⟩, inputFiles.set fileIndex rest)

/-- One iteration of the heap-initialisation loop of `mergeBuffers`. -/
def initStep (st : List (List Record) × List PostingEntry) (i : Nat) :
    List (List Record) × List PostingEntry :=
  match readNextRecord st.1 i with
  | some (p, files1) => (files1, p :: st.2)
  | none => st

/-- The heap-initialisation loop `for (i = 0; i < inputFiles.size(); ++i)`. -/
def mergeInit (inputFiles : List (List Record)) :
    List (List Record) × List PostingEntry :=
  (List.range inputFiles.length).foldl initStep (inputFiles, [])

/-- The `(term, docId, freq)` fields of an entry, as written to a file. -/
def entryRecord (p : PostingEntry) : Record := ⟨p.term, p.docId, p.freq⟩

/-- Source `writeMergedRecord`: the record is appended to the output (the
in-memory batching of the bytes does not change the byte sequence written). -/
def writeMergedRecord (ofs : List Record) (p : PostingEntry) : List Record :=
  ofs ++ [entryRecord p]

/-- The `while (!minHeap.empty())` loop of `mergeBuffers`.  The priority queue
is a bag of entries; `pop` stands for `top()` followed by `pop()`.  Every
iteration consumes one record, so fuel above the number of records is enough. -/
def mergeLoop (pop : List PostingEntry → Option (PostingEntry × List PostingEntry)) :
    Nat → List (List Record) → List PostingEntry → List Record → Option (List Record)
  | 0, _, minHeap, ofs => if minHeap.isEmpty then some ofs else none
  | fuel + 1, inputFiles, minHeap, ofs =>
    if minHeap.isEmpty then some ofs
    else
      match pop minHeap with
      | none => none
      | some (top, heap1) =>
        match readNextRecord inputFiles top.fileIndex with
        | some (nextToFill, files1) =>
          mergeLoop pop fuel files1 (nextToFill :: heap1) (writeMergedRecord ofs top)
        | none => mergeLoop pop fuel inputFiles heap1 (writeMergedRecord ofs top)

/-- Source `mergeBuffers(filenames, outFile)`: the records written to the
output file. -/
def mergeBuffers (pop : List PostingEntry → Option (PostingEntry × List PostingEntry))
    (inputFiles : List (List Record)) : Option (List Record) :=
  let st := mergeInit inputFiles
  mergeLoop pop ((inputFiles.map List.length).sum + 1) st.1 st.2 []

/-- Contract of `std::priority_queue<PostingEntry, vector, ComparePosting>`:
`top()`/`pop()` of a non-empty queue removes one entry that is not ordered
before any other entry by the comparator. -/
def PopSpec (pop : List PostingEntry → Option (PostingEntry × List PostingEntry)) : Prop :=
  ∀ h : List PostingEntry, h ≠ [] →
    ∃ x rest, pop h = some (x, rest) ∧ List.Perm (x :: rest) h ∧
      ∀ y ∈ h, ComparePosting x y = false

/-- Scan for the top of the queue: the first entry that no later one beats. -/
def heapTop : PostingEntry → List PostingEntry → PostingEntry
  | best, [] => best
  | best, y :: ys => if ComparePosting best y then heapTop y ys else heapTop best ys

/-- A concrete priority queue meeting `PopSpec`. -/
def heapPop : List PostingEntry → Option (PostingEntry × List PostingEntry)
  | [] => none
  | x :: xs => some (heapTop x xs, (x :: xs).erase (heapTop x xs))

end Merging

/-- The records a reader obtains from a file: those before the first zero
`termLen`, which the format reads as the end of the stream. -/
def fileRecords (file : List Record) : List Record :=
  file.takeWhile (fun r => decide (r.term.length ≠ 0))

/-- Loop invariant of the merge: `total` is the multiset of all records; the
first `k` files have been opened. -/
structure MergeInv (k : Nat) (total : List Record) (files : List (List Record))
    (heap : List Merging.PostingEntry) (out : List Record) : Prop where
  perm : List.Perm (out ++ (heap.map Merging.entryRecord ++ (files.map fileRecords).flatten)) total
  sorted : out.Pairwise recordLe
  outLe : ∀ o ∈ out, ∀ h ∈ heap, recordLe o (Merging.entryRecord h)
  cover : ∀ i, i < k → ∀ f, files[i]? = some f → ∀ r ∈ fileRecords f,
    ∃ h ∈ heap, h.fileIndex = i ∧ recordLe (Merging.entryRecord h) r
  filesSorted : ∀ f ∈ files, (fileRecords f).Pairwise recordLe

/-! ## parsing.cpp: sort and collapse -/

namespace Parsing

/-- Source `struct Posting`.  `termPtr` points to a NUL-terminated term in the
term buffer and is modelled by the bytes of that term. -/
structure Posting where
  termPtr : List Nat
  docId : Int
deriving DecidableEq, Repr, Inhabited

/-- Source `compareCstring(a, b)`. -/
def compareCstring (a b : Posting) : Bool :=
  if strcmp a.termPtr b.termPtr = 0 then decide (a.docId < b.docId)
  else decide (strcmp a.termPtr b.termPtr < 0)

/-- The call `swap(postingBuffer[i], postingBuffer[j])`. -/
def swap (buf : List Posting) (i j : Nat) : List Posting :=
  (buf.set i (buf.getD j default)).set j (buf.getD i default)

/-- The `for (j = low; j <= high - 1; j++)` loop of `partition`, with `n`
iterations left.  `i1` is the source's `i + 1` (`i` starts at `low - 1`, which
is `-1` when `low = 0`); the source increments `i` and then swaps at `i`. -/
def partitionLoop (pivot : Posting) : Nat → Nat → Nat → List Posting → Nat × List Posting
  | 0, _, i1, buf => (i1, buf)
  | n + 1, j, i1, buf =>
    if compareCstring (buf.getD j default) pivot then
      partitionLoop pivot n (j + 1) (i1 + 1) (swap buf i1 j)
    else
      partitionLoop pivot n (j + 1) i1 buf

/-- Source `partition(low, high)`: the returned index and the buffer. -/
def partition (low high : Nat) (buf : List Posting) : Nat × List Posting :=
  let pivot := buf.getD high default
  let r := partitionLoop pivot (high - low) low low buf
  (r.1, swap r.2 r.1 high)

/-- Source `quickSortBuffer(low, high)`.  `high` is an `Int` because the source
calls itself with `partitionIndex - 1`, which is `-1` for `partitionIndex = 0`.
`none` means the fuel (recursion depth) ran out. -/
def quickSortBuffer : Nat → Nat → Int → List Posting → Option (List Posting)
  | 0, _, _, _ => none
  | fuel + 1, low, high, buf =>
    if (low : Int) < high then
      let r := partition low high.toNat buf
      match quickSortBuffer fuel low ((r.1 : Int) - 1) r.2 with
      | none => none
      | some buf1 => quickSortBuffer fuel (r.1 + 1) high buf1
    else some buf

/-- The `for (int i = 0; i < postingBufferIndex; ++i)` loop of `outputFile`
over the sorted buffer, followed by the write of the final term.  `ofs` is the
list of records written so far. -/
def collapseLoop : List Posting → List Nat → Int → Int → List Record → List Record
  | [], lastTermPtr, lastDoc, freq, ofs => ofs ++ [⟨lastTermPtr, lastDoc, freq⟩]
  | p :: rest, lastTermPtr, lastDoc, freq, ofs =>
    if strcmp p.termPtr lastTermPtr = 0 ∧ p.docId = lastDoc then
      collapseLoop rest lastTermPtr lastDoc (freq + 1) ofs
    else
      collapseLoop rest p.termPtr p.docId 1 (ofs ++ [⟨lastTermPtr, lastDoc, freq⟩])

/-- Source `outputFile()`, applied to the active slice
`postingBuffer[0 .. postingBufferIndex)`: the records written to the temp file
(`some []` when there is nothing to flush and no file is written).  The
recursion depth of the sort is at most the slice length. -/
def outputFile (postingBuffer : List Posting) : Option (List Record) :=
  if postingBuffer.length = 0 then some []
  else
    match quickSortBuffer (postingBuffer.length + 1) 0 ((postingBuffer.length : Int) - 1)
        postingBuffer with
    | none => none
    | some sorted =>
      some (collapseLoop sorted (sorted.getD 0 default).termPtr (sorted.getD 0 default).docId 1 [])

end Parsing

/-- Order of the posting buffer after sorting: `(term bytes, docId)`
non-decreasing, the order of `compareCstring`. -/
def postingLe (a b : Parsing.Posting) : Prop :=
  keyLe a.termPtr a.docId b.termPtr b.docId

instance (a b : Parsing.Posting) : Decidable (postingLe a b) := by
  unfold postingLe; infer_instance

/-- Number of postings of the buffer with the given term and docId: the number
of times the term was tokenized in that document within the batch. -/
def occurrences (buf : List Parsing.Posting) (term : List Nat) (docId : Int) : Nat :=
  buf.countP (fun p => decide (p.termPtr = term ∧ p.docId = docId))

/-! ## index.cpp: generateInvertedIndex -/

namespace Index

/-- The files and local variables of `generateInvertedIndex`.  `ofs` is the
compressed index file, `lexicon` the entries written to the lexicon file,
`metadata` the metadata vector (written out at the end).  `blocks` is not
program state: it records the blocks passed to `compressBlock`, in order. -/
structure BuilderState where
  ofs : List Nat
  lexicon : List (List Nat × LexiconEntry)
  metadata : List BlockMetadata
  blocks : List Block
  currentTerm : List Nat
  block : Block
  blockCount : Nat
  termStartBlock : Nat
  termStartIndex : Nat
  termPostingCount : Nat
  haveOnePosting : Bool
deriving DecidableEq, Repr

/-- The variables before the read loop. -/
def initialState : BuilderState :=
  ⟨[], [], [], [], [], ⟨[], []⟩, 0, 0, 0, 0, false⟩

/-- Source `writeLexiconEntry(lexicon, term, entry)`. -/
def writeLexiconEntry (lexicon : List (List Nat × LexiconEntry)) (term : List Nat)
    (entry : LexiconEntry) : List (List Nat × LexiconEntry) :=
  lexicon ++ [(term, entry)]

/-- The statements `compressBlock(ofs, block, buffer, metadata, blockCount);
block.clear();`. -/
def flushBlock (s : BuilderState) : BuilderState :=
  let r := compressBlock s.ofs s.block s.metadata s.blockCount
  { s with ofs := r.1, metadata := r.2.1, blockCount := r.2.2,
           blocks := s.blocks ++ [s.block], block := (Block.mk [] []) }

/-- The four assignments that start tracking a term (they occur twice in the
source: for the first posting ever and at every change of term). -/
def startTerm (s : BuilderState) (term : List Nat) : BuilderState :=
  { s with currentTerm := term, termStartBlock := s.blockCount,
           termStartIndex := s.block.docIds.length % 2 ^ 32, termPostingCount := 0 }

/-- Body of the `while (readNextRecord(ifs, p))` loop for one record `p`. -/
def processRecord (s : BuilderState) (p : Record) : BuilderState :=
  let s1 := if s.haveOnePosting then s else { startTerm s p.term with haveOnePosting := true }
  let s2 :=
    if p.term ≠ s1.currentTerm then
      startTerm
        { s1 with lexicon := (writeLexiconEntry s1.lexicon s1.currentTerm
            (LexiconEntry.mk s1.termStartBlock s1.termStartIndex s1.termPostingCount)) }
        p.term
    else s1
  let s3 := { s2 with block := (Block.mk (s2.block.docIds ++ [p.docId])
                        (s2.block.freqs ++ [p.freq])),
                      termPostingCount := (s2.termPostingCount + 1) % 2 ^ 32 }
  if s3.block.docIds.length = MAX_BUF_POSTINGS then flushBlock s3 else s3

/-- The read loop.  `readNextRecord` of index.cpp returns `false` at the end of
the file and at a record whose `termLen` is zero; both end the loop. -/
def readLoop : List Record → BuilderState → BuilderState
  | [], s => s
  | p :: ifs, s => if p.term.length = 0 then s else readLoop ifs (processRecord s p)

/-- Source `generateInvertedIndex()` on the merged stream `ifs`: the final
state, whose `ofs`, `lexicon` and `metadata` are the three output files. -/
def generateInvertedIndex (ifs : List Record) : BuilderState :=
  let s := readLoop ifs initialState
  if s.haveOnePosting then
    let s1 := if s.block.docIds.isEmpty then s else flushBlock s
    { s1 with lexicon := (writeLexiconEntry s1.lexicon s1.currentTerm
        (LexiconEntry.mk s1.termStartBlock s1.termStartIndex s1.termPostingCount)) }
  else s

end Index

/-- Stream position of the first posting of a lexicon entry: block
`startBlock`, index `startIndex`. -/
def entryPos (e : LexiconEntry) : Nat := 128 * e.startBlock + e.startIndex

/-- The term of the record at a stream position, if any. -/
def termAt (recs : List Record) (q : Nat) : Option (List Nat) := recs[q]?.map Record.term

/-- Each term's postings are contiguous in the stream. -/
def TermsContiguous (recs : List Record) : Prop :=
  ∀ i j k, i ≤ j → j ≤ k → k < recs.length → termAt recs i = termAt recs k →
    termAt recs j = termAt recs i

/-- The `(docId, freq)` pairs of a block. -/
def blockPairs (b : Block) : List (Int × Int) := b.docIds.zip b.freqs

/-- The metadata entry `compressBlock` records for a block. -/
def blockMeta (b : Block) : BlockMetadata :=
  ⟨toU32 (b.docIds.getLastD 0), (docStream b).length % 2 ^ 32, (freqStream b).length % 2 ^ 32⟩

/-- The bytes `compressBlock` appends to the index file for a block. -/
def blockBytes (b : Block) : List Nat := docStream b ++ freqStream b

/-- Invariant of the builder on the blocks, after reading the records `P`. -/
structure BlocksInv (P : List Record) (s : Index.BuilderState) : Prop where
  pairs : (s.blocks.map blockPairs).flatten ++ blockPairs s.block =
    P.map (fun r => (r.docId, r.freq))
  full : ∀ b ∈ s.blocks, b.docIds.length = 128 ∧ b.freqs.length = 128
  cur : s.block.docIds.length < 128 ∧ s.block.freqs.length = s.block.docIds.length
  count : s.blocks.length * 128 + s.block.docIds.length = P.length
  metaEq : s.metadata = s.blocks.map blockMeta
  ofsEq : s.ofs = (s.blocks.map blockBytes).flatten
  bc : s.blockCount = s.blocks.length % 2 ^ 32

/-- A lexicon entry describes a maximal run of its term in `P`. -/
def EntryLocal (P : List Record) (x : List Nat × LexiconEntry) : Prop :=
  x.2.startIndex < 128 ∧ 1 ≤ x.2.listLength ∧
  (∀ q, entryPos x.2 ≤ q → q < entryPos x.2 + x.2.listLength → termAt P q = some x.1) ∧
  termAt P (entryPos x.2 + x.2.listLength) ≠ some x.1 ∧
  (entryPos x.2 = 0 ∨ termAt P (entryPos x.2 - 1) ≠ some x.1)

/-- The entries cover the positions from `a` up to `b` back to back. -/
def Chain : Nat → List (List Nat × LexiconEntry) → Nat → Prop
  | a, [], b => a = b
  | a, x :: xs, b => entryPos x.2 = a ∧ Chain (a + x.2.listLength) xs b

/-- Invariant of the builder on the term tracking, after reading the non-empty
sequence of records `P`. -/
structure TermInv (P : List Record) (s : Index.BuilderState) : Prop where
  have1 : s.haveOnePosting = true
  curTerm : termAt P (P.length - 1) = some s.currentTerm
  idx : s.termStartIndex < 128
  cnt : 1 ≤ s.termPostingCount
  pos : 128 * s.termStartBlock + s.termStartIndex + s.termPostingCount = P.length
  run : ∀ q, 128 * s.termStartBlock + s.termStartIndex ≤ q → q < P.length →
    termAt P q = some s.currentTerm
  left : 128 * s.termStartBlock + s.termStartIndex = 0 ∨
    termAt P (128 * s.termStartBlock + s.termStartIndex - 1) ≠ some s.currentTerm
  chain : Chain 0 s.lexicon (128 * s.termStartBlock + s.termStartIndex)
  closed : ∀ x ∈ s.lexicon, EntryLocal P x ∧
    entryPos x.2 + x.2.listLength ≤ 128 * s.termStartBlock + s.termStartIndex

/-! ## querying.cpp: block offsets and the list cursor -/

namespace Querying

/-- Loop of `computeBlockOffsets`; `off` is the `uint64_t` running sum. -/
def computeBlockOffsetsLoop : List BlockMetadata → Nat → List Nat
  | [], _ => []
  | m :: rest, off =>
    off :: computeBlockOffsetsLoop rest ((off + (m.docSize + m.freqSize)) % 2 ^ 64)

/-- Source `computeBlockOffsets(metadata)`. -/
def computeBlockOffsets (metadata : List BlockMetadata) : List Nat :=
  computeBlockOffsetsLoop metadata 0

/-- Data members of `class ListPointer` (the `term` string is not used by the
methods modelled).  Members the constructor leaves uninitialised start as `0`. -/
structure ListPointer where
  listLength : Nat
  currentPos : Nat
  currentDoc : Nat
  currentFreq : Nat
  blockNum : Nat
  finalBlock : Nat
  startBlock : Nat
  startIndex : Nat
  prevDocId : Nat
  docBuffer : List Nat
  freqBuffer : List Nat
  docBufPos : Nat
  freqBufPos : Nat
deriving DecidableEq, Repr

/-- Subtraction of two `uint32_t` values. -/
def subU32 (a b : Nat) : Nat := (a % 2 ^ 32 + 2 ^ 32 - b % 2 ^ 32) % 2 ^ 32

/-- Source constructor `ListPointer(term, lexicon)`. -/
def ListPointer.new (lexicon : LexiconEntry) : ListPointer :=
  let postingsLeft :=
    if lexicon.listLength > subU32 128 lexicon.startIndex then
      subU32 lexicon.listLength (subU32 128 lexicon.startIndex)
    else 0
  { listLength := lexicon.listLength, currentPos := 0, currentDoc := 0, currentFreq := 0,
    blockNum := lexicon.startBlock,
    finalBlock := (lexicon.startBlock + ((postingsLeft + 127) % 2 ^ 32) / 128) % 2 ^ 32,
    startBlock := lexicon.startBlock, startIndex := lexicon.startIndex, prevDocId := 0,
    docBuffer := [], freqBuffer := [], docBufPos := 0, freqBufPos := 0 }

/-- Value of a byte vector after `resize(n)`. -/
def resize (buf : List Nat) (n : Nat) : List Nat := (buf ++ List.replicate n 0).take n

/-- The skip loop of `loadBlock`, `n` iterations left. -/
def skipLoop : Nat → ListPointer → Option ListPointer
  | 0, lp => some lp
  | n + 1, lp =>
    match varbyteDecode lp.docBuffer lp.docBufPos with
    | none => none
    | some (gap, dpos) =>
      match varbyteDecode lp.freqBuffer lp.freqBufPos with
      | none => none
      | some (_, fpos) =>
        skipLoop n { lp with prevDocId := (lp.prevDocId + gap) % 2 ^ 32,
                             docBufPos := dpos, freqBufPos := fpos }

/-- Source `ListPointer::loadBlock(ifs, metadata, blockOffsets)`; `ifs` is the
content of the index file.  A read that reaches the end of the file leaves the
rest of the resized buffer as it was and makes the following read fail. -/
def loadBlock (ifs : List Nat) (metadata : List BlockMetadata) (blockOffsets : List Nat)
    (lp : ListPointer) : Option ListPointer :=
  if lp.blockNum ≥ metadata.length then some lp
  else
    match blockOffsets[lp.blockNum]?, metadata[lp.blockNum]? with
    | some off, some md =>
      let docGot := (ifs.drop off).take md.docSize
      let freqGot :=
        if docGot.length = md.docSize then (ifs.drop (off + md.docSize)).take md.freqSize
        else []
      let lp1 := { lp with
        docBuffer := docGot ++ (resize lp.docBuffer md.docSize).drop docGot.length,
        freqBuffer := freqGot ++ (resize lp.freqBuffer md.freqSize).drop freqGot.length,
        docBufPos := 0, freqBufPos := 0, prevDocId := 0 }
      let lp2 :=
        if lp1.blockNum = lp1.startBlock ∧ lp1.startIndex > 0 then skipLoop lp1.startIndex lp1
        else some lp1
      lp2.map (fun l => { l with currentPos := 0 })
    | _, _ => none

/-- The statements of the `nextGEQ` loop body that decode one posting. -/
def decodePosting (lp : ListPointer) : Option ListPointer :=
  match varbyteDecode lp.docBuffer lp.docBufPos with
  | none => none
  | some (gap, dpos) =>
    match varbyteDecode lp.freqBuffer lp.freqBufPos with
    | none => none
    | some (freq, fpos) =>
      some { lp with prevDocId := (lp.prevDocId + gap) % 2 ^ 32,
                     docBufPos := dpos, freqBufPos := fpos,
                     currentPos := (lp.currentPos + 1) % 2 ^ 32,
                     currentDoc := (lp.prevDocId + gap) % 2 ^ 32, currentFreq := freq }

/-- The `while (true)` loop of `nextGEQ`: the returned value and the cursor. -/
def nextGEQLoop (targetDoc : Nat) (ifs : List Nat) (metadata : List BlockMetadata)
    (blockOffsets : List Nat) : Nat → ListPointer → Option (Nat × ListPointer)
  | 0, _ => none
  | fuel + 1, lp =>
    if lp.docBufPos ≥ lp.docBuffer.length then
      if (lp.blockNum + 1) % 2 ^ 32 > lp.finalBlock ∨
          (lp.blockNum + 1) % 2 ^ 32 ≥ metadata.length then
        some (UINT32_MAX, { lp with blockNum := (lp.blockNum + 1) % 2 ^ 32 })
      else
        match (loadBlock ifs metadata blockOffsets
            { lp with blockNum := (lp.blockNum + 1) % 2 ^ 32 }).bind decodePosting with
        | none => none
        | some lp3 =>
          if lp3.currentDoc ≥ targetDoc then some (lp3.currentDoc, lp3)
          else nextGEQLoop targetDoc ifs metadata blockOffsets fuel lp3
    else
      match decodePosting lp with
      | none => none
      | some lp3 =>
        if lp3.currentDoc ≥ targetDoc then some (lp3.currentDoc, lp3)
        else nextGEQLoop targetDoc ifs metadata blockOffsets fuel lp3

/-- Source `ListPointer::nextGEQ(targetDoc, ifs, metadata, blockOffsets)`.
Every iteration of the loop decodes at least one byte of a doc buffer, and a
block is loaded at most once, so the fuel below is never exhausted. -/
def nextGEQ (targetDoc : Nat) (ifs : List Nat) (metadata : List BlockMetadata)
    (blockOffsets : List Nat) (lp : ListPointer) : Option (Nat × ListPointer) :=
  if lp.currentPos ≥ lp.listLength then some (UINT32_MAX, lp)
  else
    nextGEQLoop targetDoc ifs metadata blockOffsets
      (lp.docBuffer.length + (metadata.map BlockMetadata.docSize).sum + 1) lp

/-- Iteration of a cursor as `disjunctiveDAAT` drives a single list:
`nextGEQ(0)`, then `nextGEQ(previous + 1)`, until `UINT32_MAX` is returned.
The docIds returned before the first `UINT32_MAX`, in order. -/
def enumerate (ifs : List Nat) (metadata : List BlockMetadata) (blockOffsets : List Nat) :
    Nat → Nat → ListPointer → Option (List Nat)
  | 0, _, _ => none
  | fuel + 1, targetDoc, lp =>
    match nextGEQ targetDoc ifs metadata blockOffsets lp with
    | none => none
    | some (d, lp1) =>
      if d = UINT32_MAX then some []
      else (enumerate ifs metadata blockOffsets fuel ((d + 1) % 2 ^ 32) lp1).map
        (fun ds => d :: ds)

/-- A fresh cursor for a lexicon entry of an index, after `loadBlock`. -/
def openList (idx : Index.BuilderState) (entry : LexiconEntry) : Option ListPointer :=
  loadBlock idx.ofs idx.metadata (computeBlockOffsets idx.metadata) (ListPointer.new entry)

end Querying

/-! ## Example inputs -/

/-- A merged stream whose first term crosses a block boundary: term `a` with
the 129 docIds `1 .. 129` (freq 1), then term `b` with the single docId 200.
Block 0 holds postings `1 .. 128` of `a`; block 1 holds the last posting of
`a` followed by the posting of `b`. -/
def crossingStream : List Record :=
  (List.range 129).map (fun i => ⟨[97], (i : Int) + 1, 1⟩) ++ [⟨[98], 200, 1⟩]

/-- A merged stream of two terms sharing one block: `a` with docId 1 and `b`
with docId 10. -/
def sharedBlockStream : List Record := [⟨[97], 1, 1⟩, ⟨[98], 10, 1⟩]

/-! ## parsing.cpp and querying.cpp: text normalisation -/

/-- C `tolower` on an `unsigned char` value, in the default "C" locale. -/
def tolower (c : Nat) : Nat := if 65 ≤ c ∧ c ≤ 90 then c + 32 else c

/-- C `ispunct` in the "C" locale: the printable ASCII characters that are
neither alphanumeric nor the space. -/
def ispunct (c : Nat) : Bool :=
  decide ((33 ≤ c ∧ c ≤ 47) ∨ (58 ≤ c ∧ c ≤ 64) ∨ (91 ≤ c ∧ c ≤ 96) ∨ (123 ≤ c ∧ c ≤ 126))

/-- C `isupper` in the "C" locale. -/
def isupper (c : Nat) : Bool := decide (65 ≤ c ∧ c ≤ 90)

/-- Whitespace of the classic locale, which delimits `stream >> string`:
space, `\t`, `\n`, `\v`, `\f`, `\r`. -/
def isspace (c : Nat) : Bool := decide (c = 32 ∨ (9 ≤ c ∧ c ≤ 13))

/-- The loop `while (ss >> term)` over a `stringstream`: the successive values
of `term`, i.e. the maximal runs of non-whitespace bytes.  `cur` is the run
being read. -/
def streamTokensLoop : List Nat → List Nat → List (List Nat)
  | [], cur => if cur = [] then [] else [cur]
  | c :: rest, cur =>
    if isspace c then
      if cur = [] then streamTokensLoop rest [] else cur :: streamTokensLoop rest []
    else streamTokensLoop rest (cur ++ [c])

/-- The terms `ss >> term` extracts from a string. -/
def streamTokens (s : List Nat) : List (List Nat) := streamTokensLoop s []

/-- The byte appended to `cleaned` for the byte `c`, in `cleanSentence` and in
`cleanQuery` (the two loop bodies are the same text). -/
def cleanByte (c : Nat) : Nat :=
  if tolower (c % 256) ≤ 127 ∧ ispunct (tolower (c % 256)) = false then tolower (c % 256)
  else 32

/-- The loop of `cleanSentence`; `cleaned` is the string built so far. -/
def Parsing.cleanSentenceLoop : List Nat → List Nat → List Nat
  | [], cleaned => cleaned
  | c :: rest, cleaned => Parsing.cleanSentenceLoop rest (cleaned ++ [cleanByte c])

/-- Source `cleanSentence(sentence)` of parsing.cpp: the new value of
`sentence`. -/
def Parsing.cleanSentence (sentence : List Nat) : List Nat :=
  Parsing.cleanSentenceLoop sentence []

/-- The loop of `cleanQuery` of querying.cpp; `cleaned` is the string built so
far and `uc` the value of `unsigned char uc = tolower((unsigned char)c)`. -/
def Querying.cleanQueryLoop : List Nat → List Nat → List Nat
  | [], cleaned => cleaned
  | c :: rest, cleaned =>
    let uc := tolower (c % 256) % 256
    if uc ≤ 127 ∧ ispunct uc = false then Querying.cleanQueryLoop rest (cleaned ++ [uc])
    else Querying.cleanQueryLoop rest (cleaned ++ [32])

/-- Source `cleanQuery(query)` of querying.cpp: the new value of `query`. -/
def Querying.cleanQuery (query : List Nat) : List Nat := Querying.cleanQueryLoop query []

/-! ## querying.cpp: scoring, top-k heap and the query loop -/

namespace Querying

/-- Source constant `k` (size of the top-k heap). -/
def k : Nat := 1000

/-- Source constant `N`, read in the field `F`. -/
def N {F : Type} [Field F] : F := 1000000

/-- Source constant `k1 = 1.2`. -/
def k1 {F : Type} [Field F] : F := 12 / 10

/-- Source constant `b = 0.75`. -/
def b {F : Type} [Field F] : F := 75 / 100

/-- Source `ListPointer::getScore(docLength, averageDocLength)`, with the
`double` arithmetic read in a field `F` and `log` given as `ln`. -/
def getScore {F : Type} [Field F] (ln : F → F) (lp : ListPointer)
    (docLength averageDocLength : F) : F :=
  let logNum := N - (lp.listLength : F) + 1 / 2
  let logDenom := (lp.listLength : F) + 1 / 2
  let operand_one := ln (logNum / logDenom)
  let normalized_doc := docLength / averageDocLength
  let big_k := k1 * ((1 - b) + (b * normalized_doc))
  let num := (k1 + 1) * (lp.currentFreq : F)
  let denom := big_k + (lp.currentFreq : F)
  let operand_two := num / denom
  operand_one * operand_two

/-- Source `struct ScoreDoc`. -/
structure ScoreDoc (F : Type) where
  score : F
  docId : Nat
deriving DecidableEq, Repr

/-- Source `MinHeapComp::operator()`. -/
def MinHeapComp {F : Type} [LinearOrder F] (a b : ScoreDoc F) : Bool :=
  if a.score = b.score then decide (a.docId > b.docId) else decide (a.score > b.score)

/-- Contract of `std::priority_queue<ScoreDoc, vector<ScoreDoc>, MinHeapComp>`:
`top()`/`pop()` of a non-empty queue removes one entry that the comparator
orders before no other entry. -/
def TopSpec {F : Type} [LinearOrder F]
    (pop : List (ScoreDoc F) → Option (ScoreDoc F × List (ScoreDoc F))) : Prop :=
  ∀ h : List (ScoreDoc F), h ≠ [] →
    ∃ x rest, pop h = some (x, rest) ∧ List.Perm (x :: rest) h ∧
      ∀ y ∈ h, MinHeapComp x y = false

/-- Scan for the top of the queue. -/
def topScan {F : Type} [LinearOrder F] : ScoreDoc F → List (ScoreDoc F) → ScoreDoc F
  | best, [] => best
  | best, y :: ys => if MinHeapComp best y then topScan y ys else topScan best ys

/-- A concrete priority queue meeting `TopSpec`. -/
def topPop {F : Type} [LinearOrder F] :
    List (ScoreDoc F) → Option (ScoreDoc F × List (ScoreDoc F))
  | [] => none
  | x :: xs => some (topScan x xs, (x :: xs).erase (topScan x xs))

/-- Conversion of a `uint32_t` docId to the `int` key of the page table. -/
def toI32 (x : Nat) : Int :=
  if x % 2 ^ 32 < 2 ^ 31 then (x % 2 ^ 32 : Nat) else ((x % 2 ^ 32 : Nat) : Int) - 2 ^ 32

/-- Computation of `candidate`: the minimum of the `currDoc[i]` different from
`UINT32_MAX`, or `UINT32_MAX` when there is none. -/
def minCandidate (currDoc : List Nat) : Nat :=
  currDoc.foldl (fun c d => if d ≠ UINT32_MAX then min c d else c) UINT32_MAX

/-- The loop `for (size_t idx : order)` of the main loop for one candidate:
the cursors, `currDoc`, `score` and `remainingMax` after it.  The page table
is the function returning `pageTable[key]` (`0` for an absent key). -/
def scoreLoop {F : Type} [Field F] (ln : F → F) (ifs : List Nat)
    (metadata : List BlockMetadata) (blockOffsets : List Nat) (pageTable : Int → Int)
    (averageDocLength : F) (maxScores : List F) (candidate : Nat) :
    List Nat → List ListPointer × List Nat × F × F →
      Option (List ListPointer × List Nat × F × F)
  | [], st => some st
  | idx :: rest, (lp, currDoc, score, remainingMax) =>
    if currDoc[idx]? = some candidate then
      match lp[idx]? with
      | none => none
      | some p =>
        match nextGEQ ((candidate + 1) % 2 ^ 32) ifs metadata blockOffsets p with
        | none => none
        | some (d, p1) =>
          scoreLoop ln ifs metadata blockOffsets pageTable averageDocLength maxScores candidate
            rest
            (lp.set idx p1, currDoc.set idx d,
             score + getScore ln p ((pageTable (toI32 candidate) : Int) : F) averageDocLength,
             remainingMax)
    else
      scoreLoop ln ifs metadata blockOffsets pageTable averageDocLength maxScores candidate
        rest (lp, currDoc, score, remainingMax + maxScores.getD idx 0)

/-- Variables of the main loop of `disjunctiveDAAT`.  `visited` and `pruned`
are not program state: they count the candidates visited and those skipped by
the prune step. -/
structure DaatState (F : Type) where
  lp : List ListPointer
  currDoc : List Nat
  topK : List (ScoreDoc F)
  visited : Nat
  pruned : Nat

/-- The prune test and the heap maintenance for one candidate: the new heap
and whether the candidate was pruned.  With `usePrune = false` the prune step
is removed.  `top()` of an empty queue is undefined (`none`). -/
def heapUpdate {F : Type} [LinearOrderedField F]
    (pop : List (ScoreDoc F) → Option (ScoreDoc F × List (ScoreDoc F))) (usePrune : Bool)
    (topK : List (ScoreDoc F)) (score remainingMax : F) (candidate : Nat) :
    Option (List (ScoreDoc F) × Bool) :=
  if topK.length < k then
    some (⟨score, candidate⟩ :: topK, false)
  else
    match pop topK with
    | none => none
    | some (top, rest) =>
      if usePrune = true ∧ score + remainingMax ≤ top.score then some (topK, true)
      else if score > top.score then some (⟨score, candidate⟩ :: rest, false)
      else some (topK, false)

/-- The `while (true)` loop of `disjunctiveDAAT`. -/
def mainLoop {F : Type} [LinearOrderedField F] (ln : F → F)
    (pop : List (ScoreDoc F) → Option (ScoreDoc F × List (ScoreDoc F))) (usePrune : Bool)
    (ifs : List Nat) (metadata : List BlockMetadata) (blockOffsets : List Nat)
    (pageTable : Int → Int) (averageDocLength : F) (maxScores : List F) (order : List Nat) :
    Nat → DaatState F → Option (DaatState F)
  | 0, _ => none
  | fuel + 1, st =>
    if minCandidate st.currDoc = UINT32_MAX then some st
    else
      match scoreLoop ln ifs metadata blockOffsets pageTable averageDocLength maxScores
          (minCandidate st.currDoc) order (st.lp, st.currDoc, 0, 0) with
      | none => none
      | some (lp1, currDoc1, score, remainingMax) =>
        match heapUpdate pop usePrune st.topK score remainingMax (minCandidate st.currDoc) with
        | none => none
        | some (topK1, wasPruned) =>
          mainLoop ln pop usePrune ifs metadata blockOffsets pageTable averageDocLength
            maxScores order fuel
            { lp := lp1, currDoc := currDoc1, topK := topK1, visited := st.visited + 1,
              pruned := if wasPruned then st.pruned + 1 else st.pruned }

/-- The loop that opens the lists: constructor and `loadBlock` for each query
term.  `termToIndex.at` of an absent term and `lexicon[i]` outside the vector
give `none`. -/
def openLists (termToIndex : List Nat → Option Nat) (lexicon : List LexiconEntry)
    (ifs : List Nat) (metadata : List BlockMetadata) (blockOffsets : List Nat) :
    List (List Nat) → Option (List ListPointer)
  | [] => some []
  | term :: rest =>
    match termToIndex term with
    | none => none
    | some i =>
      match lexicon[i]? with
      | none => none
      | some entry =>
        match loadBlock ifs metadata blockOffsets (ListPointer.new entry) with
        | none => none
        | some p =>
          (openLists termToIndex lexicon ifs metadata blockOffsets rest).map
            (fun ps => p :: ps)

/-- Source `setCurrentFrequency(val)`. -/
def setCurrentFrequency (lp : ListPointer) (val : Nat) : ListPointer :=
  { lp with currentFreq := val % 2 ^ 32 }

/-- The loop computing `maxScores`: each cursor after
`setCurrentFrequency(listLength)` and its score against `pageTable[8841709]`. -/
def computeMaxScores {F : Type} [Field F] (ln : F → F) (pageTable : Int → Int)
    (averageDocLength : F) (lp : List ListPointer) : List ListPointer × List F :=
  (lp.map (fun p => setCurrentFrequency p p.listLength),
   lp.map (fun p => getScore ln (setCurrentFrequency p p.listLength)
     ((pageTable 8841709 : Int) : F) averageDocLength))

/-- The indices `0 .. numTerms - 1` sorted by `maxScores` ascending (the
source calls `std::sort`, which may order equal bounds differently). -/
def sortOrder {F : Type} [LinearOrderedField F] (maxScores : List F) : List Nat :=
  (List.range maxScores.length).insertionSort
    (fun a b => maxScores.getD a 0 ≤ maxScores.getD b 0)

/-- The loop `currDoc[i] = lp[i]->nextGEQ(0, ...)`. -/
def initCurrDoc (ifs : List Nat) (metadata : List BlockMetadata) (blockOffsets : List Nat) :
    List ListPointer → Option (List ListPointer × List Nat)
  | [] => some ([], [])
  | p :: rest =>
    match nextGEQ 0 ifs metadata blockOffsets p with
    | none => none
    | some (d, p1) =>
      (initCurrDoc ifs metadata blockOffsets rest).map (fun r => (p1 :: r.1, d :: r.2))

/-- The loop that drains the heap into `results`. -/
def drainLoop {F : Type} (pop : List (ScoreDoc F) → Option (ScoreDoc F × List (ScoreDoc F))) :
    Nat → List (ScoreDoc F) → List (ScoreDoc F) → Option (List (ScoreDoc F))
  | 0, topK, results => if topK.isEmpty then some results else none
  | fuel + 1, topK, results =>
    if topK.isEmpty then some results
    else
      match pop topK with
      | none => none
      | some (top, rest) => drainLoop pop fuel rest (results ++ [top])

/-- Source `disjunctiveDAAT` up to the end of the main loop: the final loop
state.  Successive candidates increase, so `2 ^ 32` iterations are enough. -/
def daatRun {F : Type} [LinearOrderedField F] (ln : F → F)
    (pop : List (ScoreDoc F) → Option (ScoreDoc F × List (ScoreDoc F))) (usePrune : Bool)
    (queryTerms : List (List Nat)) (termToIndex : List Nat → Option Nat) (ifs : List Nat)
    (lexicon : List LexiconEntry) (metadata : List BlockMetadata) (blockOffsets : List Nat)
    (pageTable : Int → Int) (averageDocLength : F) : Option (DaatState F) :=
  match openLists termToIndex lexicon ifs metadata blockOffsets queryTerms with
  | none => none
  | some lp0 =>
    match initCurrDoc ifs metadata blockOffsets
        (computeMaxScores ln pageTable averageDocLength lp0).1 with
    | none => none
    | some (lp1, currDoc) =>
      mainLoop ln pop usePrune ifs metadata blockOffsets pageTable averageDocLength
        (computeMaxScores ln pageTable averageDocLength lp0).2
        (sortOrder (computeMaxScores ln pageTable averageDocLength lp0).2)
        (2 ^ 32) ⟨lp1, currDoc, [], 0, 0⟩

/-- Source `disjunctiveDAAT`: the drained heap, lowest score first.
`usePrune = true` is the source; `false` is the loop with the prune step
removed. -/
def disjunctiveDAAT {F : Type} [LinearOrderedField F] (ln : F → F)
    (pop : List (ScoreDoc F) → Option (ScoreDoc F × List (ScoreDoc F))) (usePrune : Bool)
    (queryTerms : List (List Nat)) (termToIndex : List Nat → Option Nat) (ifs : List Nat)
    (lexicon : List LexiconEntry) (metadata : List BlockMetadata) (blockOffsets : List Nat)
    (pageTable : Int → Int) (averageDocLength : F) : Option (List (ScoreDoc F)) :=
  match daatRun ln pop usePrune queryTerms termToIndex ifs lexicon metadata blockOffsets
      pageTable averageDocLength with
  | none => none
  | some st => drainLoop pop st.topK.length st.topK []

/-- The loop of `processQuery` over `queryTerms` that collects the terms found
in `termToIndex`; `found` is `foundQueryTerms` so far. -/
def foundLoop (termToIndex : List Nat → Option Nat) :
    List (List Nat) → List (List Nat) → List (List Nat)
  | [], found => found
  | term :: rest, found =>
    if (termToIndex term).isSome then foundLoop termToIndex rest (found ++ [term])
    else foundLoop termToIndex rest found

/-- Source `processQuery` (the `queryId` parameter is unused).  `termToIndex`
is the lookup of the map: `none` for a term that is not a key. -/
def processQuery {F : Type} [LinearOrderedField F] (ln : F → F)
    (pop : List (ScoreDoc F) → Option (ScoreDoc F × List (ScoreDoc F))) (usePrune : Bool)
    (query : List Nat) (termToIndex : List Nat → Option Nat) (indexIfs : List Nat)
    (lexicon : List LexiconEntry) (metadata : List BlockMetadata) (blockOffsets : List Nat)
    (pageTable : Int → Int) (averageDocLength : F) : Option (List (ScoreDoc F)) :=
  let queryTerms := streamTokens query
  let foundQueryTerms := foundLoop termToIndex queryTerms []
  let results :=
    if foundQueryTerms.isEmpty = false then
      disjunctiveDAAT ln pop usePrune foundQueryTerms termToIndex indexIfs lexicon metadata
        blockOffsets pageTable averageDocLength
    else some []
  results.map List.reverse

/-- The calls `disjunctiveDAAT` makes on one cursor: `nextGEQ(0)`, then
`nextGEQ(d + 1)` after each returned docId `d`, until `UINT32_MAX` is
returned.  The docIds returned, each with the cursor state in which
`getScore` is evaluated for it. -/
def cursorRun (ifs : List Nat) (metadata : List BlockMetadata) (blockOffsets : List Nat) :
    Nat → Nat → ListPointer → Option (List (Nat × ListPointer))
  | 0, _, _ => none
  | fuel + 1, targetDoc, lp =>
    match nextGEQ targetDoc ifs metadata blockOffsets lp with
    | none => none
    | some (d, lp1) =>
      if d = UINT32_MAX then some []
      else (cursorRun ifs metadata blockOffsets fuel ((d + 1) % 2 ^ 32) lp1).map
        (fun ds => (d, lp1) :: ds)

/-- A cursor carrying only what `getScore` reads: `listLength = df` and
`currentFreq = freq`. -/
def scoreCursor (df freq : Nat) : ListPointer :=
  { listLength := df, currentPos := 0, currentDoc := 0, currentFreq := freq, blockNum := 0,
    finalBlock := 0, startBlock := 0, startIndex := 0, prevDocId := 0, docBuffer := [],
    freqBuffer := [], docBufPos := 0, freqBufPos := 0 }

/-- Reference scorer of the specification.  A query term is given by its
document frequency and its posting list of `(docId, freq)` pairs; the score
of a docId is the sum of `getScore` over the terms whose list contains it. -/
def referenceScore {F : Type} [Field F] (ln : F → F) (pageTable : Int → Int)
    (averageDocLength : F) (terms : List (Nat × List (Nat × Nat))) (d : Nat) : F :=
  (terms.map (fun t =>
    ((t.2.filter (fun q => q.1 = d)).map (fun q =>
      getScore ln (scoreCursor t.1 q.2) ((pageTable (toI32 d) : Int) : F)
        averageDocLength)).sum)).sum

/-- The docIds the reference visits: the union of the posting lists. -/
def unionDocs (terms : List (Nat × List (Nat × Nat))) : List Nat :=
  ((terms.map (fun t => t.2.map Prod.fst)).flatten).dedup

end Querying

/-! ## querying.cpp: enumerated lists and invariants of the query loop -/

namespace Querying

/-- The loop over the cursors of a query that records what each enumerates:
its `listLength` and the `(docId, freq)` pairs it yields when driven as
`disjunctiveDAAT` drives it. -/
def enumerateLists (ifs : List Nat) (metadata : List BlockMetadata) (blockOffsets : List Nat) :
    List ListPointer → Option (List (Nat × List (Nat × Nat)))
  | [] => some []
  | p :: rest =>
    match cursorRun ifs metadata blockOffsets (2 ^ 32) 0 p with
    | none => none
    | some l =>
      (enumerateLists ifs metadata blockOffsets rest).map
        (fun ts => (p.listLength, l.map (fun e => (e.1, e.2.currentFreq))) :: ts)

/-- The posting lists the cursors of a query enumerate, in query order. -/
def queryLists (queryTerms : List (List Nat)) (termToIndex : List Nat → Option Nat)
    (ifs : List Nat) (lexicon : List LexiconEntry) (metadata : List BlockMetadata)
    (blockOffsets : List Nat) : Option (List (Nat × List (Nat × Nat))) :=
  match openLists termToIndex lexicon ifs metadata blockOffsets queryTerms with
  | none => none
  | some lp0 =>
    enumerateLists ifs metadata blockOffsets
      (lp0.map (fun p => setCurrentFrequency p p.listLength))

/-- Cursor `p` with `currDoc` value `c` stands at the head of the run `r` of
`(docId, cursor state)` pairs it still has to yield. -/
def CursorAt (ifs : List Nat) (metadata : List BlockMetadata) (blockOffsets : List Nat)
    (p : ListPointer) (c : Nat) (r : List (Nat × ListPointer)) : Prop :=
  (c = UINT32_MAX ∧ r = []) ∨
    (c < UINT32_MAX ∧ ∃ rest fuel, r = (c, p) :: rest ∧
      cursorRun ifs metadata blockOffsets fuel ((c + 1) % 2 ^ 32) p = some rest)

/-- All cursors of the main loop stand at the heads of the runs `rs`. -/
def CursorsAt (ifs : List Nat) (metadata : List BlockMetadata) (blockOffsets : List Nat)
    (lp : List ListPointer) (currDoc : List Nat) (rs : List (List (Nat × ListPointer))) :
    Prop :=
  lp.length = rs.length ∧ currDoc.length = rs.length ∧
    ∀ (i : Nat) p c r, lp[i]? = some p → currDoc[i]? = some c → rs[i]? = some r →
      CursorAt ifs metadata blockOffsets p c r

/-- A run after the candidate `c` has been processed: its head is dropped when
it is `c`. -/
def popHead (c : Nat) : List (Nat × ListPointer) → List (Nat × ListPointer)
  | [] => []
  | e :: rest => if e.1 = c then rest else e :: rest

/-- What the run `r` adds to the score of candidate `c`: `g` at its head when
the head is `c`. -/
def headScore {F : Type} [Field F] (g : ListPointer → F) (c : Nat) :
    List (Nat × ListPointer) → F
  | [] => 0
  | e :: _ => if e.1 = c then g e.2 else 0

/-- Sum over the runs `ls` of `g` at the entries with docId `d`. -/
def runScore {F : Type} [Field F] (g : ListPointer → F) (ls : List (List (Nat × ListPointer)))
    (d : Nat) : F :=
  (ls.map (fun l => ((l.filter (fun e => e.1 = d)).map (fun e => g e.2)).sum)).sum

/-- The heap `h` holds the best `min(k, |v|)` of the visited docIds `v`, each
with its score `ref`. -/
def HeapInv {F : Type} [LinearOrderedField F] (ref : Nat → F) (h : List (ScoreDoc F))
    (v : List Nat) : Prop :=
  (∀ e ∈ h, e.docId ∈ v ∧ e.score = ref e.docId) ∧
    (h.map ScoreDoc.docId).Nodup ∧
    h.length = min k v.length ∧
    ∀ d ∈ v, d ∉ h.map ScoreDoc.docId → ∀ e ∈ h, ref d ≤ e.score

end Querying

/-- The term entry `t` of the reference is what the cursor run `l` enumerates:
document frequency `t.1` in every state and the `(docId, freq)` pairs `t.2`. -/
def Querying.TermOf (t : Nat × List (Nat × Nat)) (l : List (Nat × Querying.ListPointer)) :
    Prop :=
  t.2 = l.map (fun e => (e.1, e.2.currentFreq)) ∧ ∀ e ∈ l, e.2.listLength = t.1

/-! ## querying.cpp: the candidates of the main loop -/

/-- The successive values of `candidate` in the `while (true)` loop of
`disjunctiveDAAT`, one per iteration that does not break.  Not program state:
the function follows `mainLoop` and records the candidates.  A run that ends in
undefined behaviour (where `mainLoop` gives `none`) has the candidates up to
that iteration; the trace is `none` only when the fuel runs out. -/
def Querying.candidateTrace {F : Type} [LinearOrderedField F] (ln : F → F)
    (pop : List (Querying.ScoreDoc F) → Option (Querying.ScoreDoc F × List (Querying.ScoreDoc F)))
    (usePrune : Bool) (ifs : List Nat) (metadata : List BlockMetadata)
    (blockOffsets : List Nat) (pageTable : Int → Int) (averageDocLength : F)
    (maxScores : List F) (order : List Nat) : Nat → Querying.DaatState F → Option (List Nat)
  | 0, _ => none
  | fuel + 1, st =>
    if Querying.minCandidate st.currDoc = UINT32_MAX then some []
    else
      match Querying.scoreLoop ln ifs metadata blockOffsets pageTable averageDocLength
          maxScores (Querying.minCandidate st.currDoc) order (st.lp, st.currDoc, 0, 0) with
      | none => some [Querying.minCandidate st.currDoc]
      | some (lp1, currDoc1, score, remainingMax) =>
        match Querying.heapUpdate pop usePrune st.topK score remainingMax
            (Querying.minCandidate st.currDoc) with
        | none => some [Querying.minCandidate st.currDoc]
        | some (topK1, wasPruned) =>
          (Querying.candidateTrace ln pop usePrune ifs metadata blockOffsets pageTable
            averageDocLength maxScores order fuel
            { lp := lp1, currDoc := currDoc1, topK := topK1, visited := st.visited + 1,
              pruned := if wasPruned then st.pruned + 1 else st.pruned }).map
            (fun cs => Querying.minCandidate st.currDoc :: cs)

/-- The candidates of a run of `disjunctiveDAAT`, in the order the main loop
visits them; none when the run fails before the main loop. -/
def Querying.daatCandidates {F : Type} [LinearOrderedField F] (ln : F → F)
    (pop : List (Querying.ScoreDoc F) → Option (Querying.ScoreDoc F × List (Querying.ScoreDoc F)))
    (usePrune : Bool) (queryTerms : List (List Nat)) (termToIndex : List Nat → Option Nat)
    (ifs : List Nat) (lexicon : List LexiconEntry) (metadata : List BlockMetadata)
    (blockOffsets : List Nat) (pageTable : Int → Int) (averageDocLength : F) :
    Option (List Nat) :=
  match Querying.openLists termToIndex lexicon ifs metadata blockOffsets queryTerms with
  | none => some []
  | some lp0 =>
    match Querying.initCurrDoc ifs metadata blockOffsets
        (Querying.computeMaxScores ln pageTable averageDocLength lp0).1 with
    | none => some []
    | some (lp1, currDoc) =>
      Querying.candidateTrace ln pop usePrune ifs metadata blockOffsets pageTable
        averageDocLength (Querying.computeMaxScores ln pageTable averageDocLength lp0).2
        (Querying.sortOrder (Querying.computeMaxScores ln pageTable averageDocLength lp0).2)
        (2 ^ 32) ⟨lp1, currDoc, [], 0, 0⟩

/-! ## parsing.cpp: readFile and tokenizeSentence -/

namespace Parsing

/-- Source constant `DATASET_SIZE`. -/
def DATASET_SIZE : Nat := 1000000

/-- Source constant `TEMP_FILES_NUM`. -/
def TEMP_FILES_NUM : Nat := 16

/-- Source constant `DOCS_PER_FILE`. -/
def DOCS_PER_FILE : Nat := DATASET_SIZE / TEMP_FILES_NUM

/-- Source constant `POSTING_BUFFER_SIZE`, with `sizeof(Posting) = 16` (a
pointer and an `int` on an LP64 target). -/
def POSTING_BUFFER_SIZE : Nat := (100 * 1024 * 1024) / 16

/-- Source constant `TERM_BUFFER_SIZE`. -/
def TERM_BUFFER_SIZE : Nat := 150 * 1024 * 1024

/-- The ways a run of the parser leaves defined behaviour. -/
inductive Fault where
  /-- the write `postingBuffer[postingBufferIndex++]` with
  `postingBufferIndex = POSTING_BUFFER_SIZE` -/
  | postingBufferOverflow
  /-- the `memcpy` into `termBuffer` past `TERM_BUFFER_SIZE` -/
  | termBufferOverflow
  /-- a use of the local `docId` of `readFile` before any extraction wrote it -/
  | uninitializedDocId
  /-- the recursion of `quickSortBuffer` deeper than the model allows -/
  | sortDepth
deriving DecidableEq, Repr

/-- The globals of parsing.cpp that `readFile` changes, and the locals `docId`
and `sentence` of `readFile`, which live across the iterations of its loop.
`postingBuffer` is the slice `postingBuffer[0 .. postingBufferIndex)`;
`tempFiles` are the files `outputFile` has written; `docId = none` is the
uninitialised local. -/
structure ParserState where
  postingBuffer : List Posting
  termBufferOffset : Nat
  pageTable : List (Int × Int)
  tempFiles : List (List Record)
  docCount : Int
  docId : Option Int
  sentence : List Nat
deriving DecidableEq, Repr

/-- The state when `readFile` is entered. -/
def ParserState.init : ParserState := ⟨[], 0, [], [], 0, none, []⟩

/-- The assignment `pageTable[key] = value` on the map kept as a list of
entries: the entry of the key is replaced, or a new entry is added. -/
def mapSet : List (Int × Int) → Int → Int → List (Int × Int)
  | [], key, value => [(key, value)]
  | (k1, v1) :: rest, key, value =>
    if k1 = key then (key, value) :: rest else (k1, v1) :: mapSet rest key value

/-- The content of the C string that starts at a term copied with
`memcpy(ptr, term.c_str(), termLen)`: the bytes before the first NUL. -/
def cstr (term : List Nat) : List Nat := term.takeWhile (fun c => decide (c ≠ 0))

/-- The `while (ss >> term)` loop of `tokenizeSentence` over the terms of the
sentence: posting buffer, `termBufferOffset` and `termCount` after it. -/
def tokenizeLoop (docId : Int) :
    List (List Nat) → List Posting × Nat × Int → Except Fault (List Posting × Nat × Int)
  | [], st => .ok st
  | term :: rest, (postingBuffer, termBufferOffset, termCount) =>
    if term = [] then tokenizeLoop docId rest (postingBuffer, termBufferOffset, termCount)
    else if termBufferOffset + (term.length + 1) > TERM_BUFFER_SIZE then
      .error .termBufferOverflow
    else if postingBuffer.length ≥ POSTING_BUFFER_SIZE then .error .postingBufferOverflow
    else
      tokenizeLoop docId rest
        (postingBuffer ++ [⟨cstr term, docId⟩], termBufferOffset + (term.length + 1),
          termCount + 1)

/-- Source `tokenizeSentence(docId, sentence)`: the buffers after it and the
returned `termCount`. -/
def tokenizeSentence (docId : Int) (sentence : List Nat) (postingBuffer : List Posting)
    (termBufferOffset : Nat) : Except Fault (List Posting × Nat × Int) :=
  tokenizeLoop docId (streamTokens sentence) (postingBuffer, termBufferOffset, 0)

/-- The lines `getline(ifs, line)` returns until it fails: the pieces between
newline bytes, the last one only when it is not empty.  `cur` is the line
being read. -/
def fileLinesLoop : List Nat → List Nat → List (List Nat)
  | [], cur => if cur = [] then [] else [cur]
  | c :: rest, cur =>
    if c = 10 then cur :: fileLinesLoop rest [] else fileLinesLoop rest (cur ++ [c])

/-- The lines of a file. -/
def fileLines (ifs : List Nat) : List (List Nat) := fileLinesLoop ifs []

/-- Decimal digit bytes. -/
def isdigit (c : Nat) : Bool := decide (48 ≤ c ∧ c ≤ 57)

/-- Value of a run of decimal digits, `acc` being the value so far. -/
def digitsValue : List Nat → Nat → Nat
  | [], acc => acc
  | c :: rest, acc => digitsValue rest (10 * acc + (c - 48))

/-- The statements `ss >> docId; getline(ss, sentence);` on a stream holding
`line`, for the values `docId` and `sentence` had before: the new values.
The extraction skips whitespace; on an empty rest it fails and leaves `docId`
as it was; otherwise it reads an optional sign and decimal digits, stores `0`
when there is no digit and the nearest `int` when the value is out of range,
both being failures.  `getline` replaces `sentence` by the rest of the stream
only when the stream is good: neither failed nor at its end. -/
def extractLine (line : List Nat) (docId : Option Int) (sentence : List Nat) :
    Option Int × List Nat :=
  let s := line.dropWhile isspace
  if s = [] then (docId, sentence)
  else
    let negative := decide (s.head? = some 45)
    let s1 := if s.head? = some 45 ∨ s.head? = some 43 then s.tail else s
    let digits := s1.takeWhile isdigit
    let rest := s1.dropWhile isdigit
    if digits = [] then (some 0, sentence)
    else
      let value : Int := if negative then - (digitsValue digits 0 : Int) else digitsValue digits 0
      if value > 2 ^ 31 - 1 then (some (2 ^ 31 - 1), sentence)
      else if value < - 2 ^ 31 then (some (- 2 ^ 31), sentence)
      else if rest = [] then (some value, sentence)
      else (some value, rest)

/-- The call `outputFile()` inside `readFile`: nothing when the posting buffer
is empty, else a temp file is written and both buffers are reset. -/
def flush (st : ParserState) : Except Fault ParserState :=
  if st.postingBuffer.length = 0 then .ok st
  else
    match outputFile st.postingBuffer with
    | none => .error .sortDepth
    | some records =>
      .ok { st with postingBuffer := [], termBufferOffset := 0,
                    tempFiles := st.tempFiles ++ [records] }

/-- Body of the `while (getline(ifs, line))` loop of `readFile` for one line. -/
def readLine (st : ParserState) (line : List Nat) : Except Fault ParserState :=
  let r := extractLine line st.docId st.sentence
  let sentence := cleanSentence r.2
  match r.1 with
  | none => .error .uninitializedDocId
  | some docId =>
    match tokenizeSentence docId sentence st.postingBuffer st.termBufferOffset with
    | .error f => .error f
    | .ok (postingBuffer, termBufferOffset, docLength) =>
      let st1 : ParserState :=
        { postingBuffer := postingBuffer, termBufferOffset := termBufferOffset,
          pageTable := mapSet st.pageTable docId docLength, tempFiles := st.tempFiles,
          docCount := st.docCount + 1, docId := some docId, sentence := sentence }
      if st1.docCount > 0 ∧ st1.docCount % (DOCS_PER_FILE : Int) = 0 then flush st1
      else .ok st1

/-- The loop of `readFile` over the lines of the file. -/
def readFileLoop : List (List Nat) → ParserState → Except Fault ParserState
  | [], st => .ok st
  | line :: rest, st =>
    match readLine st line with
    | .error f => .error f
    | .ok st1 => readFileLoop rest st1

/-- Source `readFile(ifs)` from the initial globals. -/
def readFile (ifs : List Nat) : Except Fault ParserState :=
  readFileLoop (fileLines ifs) ParserState.init

end Parsing

/-! ## Example inputs for the query engine -/

/-- A merged stream of two terms: `a` in the documents 5 (freq 1) and 7
(freq 2), `b` in the documents 7 (freq 1) and 100 (freq 3). -/
def twoTermStream : List Record := [⟨[97], 5, 1⟩, ⟨[97], 7, 2⟩, ⟨[98], 7, 1⟩, ⟨[98], 100, 3⟩]

/-- The map `termToIndex` for the lexicon of `twoTermStream`. -/
def twoTermLookup : List Nat → Option Nat :=
  fun t => if t = [97] then some 0 else if t = [98] then some 1 else none

/-! ## Lemmas: varbyte -/

theorem land_127 (n : Nat) : n &&& 127 = n % 128 := by
  have h := Nat.and_pow_two_sub_one_eq_mod n 7
  simpa using h

theorem shr_7 (n : Nat) : n >>> 7 = n / 128 := by
  rw [Nat.shiftRight_eq_div_pow]

theorem varbyteEncodeLoop_append (fuel : Nat) : ∀ (buffer : List Nat) (num : Nat),
    varbyteEncodeLoop fuel buffer num = buffer ++ varbyteEncodeLoop fuel [] num := by
  induction fuel with
  | zero => intro buffer num; simp [varbyteEncodeLoop, writeByte]
  | succ f ih =>
    intro buffer num
    simp only [varbyteEncodeLoop]
    split
    · rw [ih (writeByte buffer _), ih (writeByte [] _)]
      simp [writeByte]
    · simp [writeByte]

theorem varbyteEncode_append (buffer : List Nat) (num : Nat) :
    varbyteEncode buffer num = buffer ++ varbyteEncode [] num := by
  unfold varbyteEncode
  exact varbyteEncodeLoop_append _ _ _

theorem varbyteDecodeLoop_encode (fuel : Nat) : ∀ (num : Nat), num < 128 ^ (fuel + 1) →
    ∀ (acc shift pos : Nat) (rest : List Nat),
    varbyteDecodeLoop (varbyteEncodeLoop fuel [] num ++ rest) acc shift pos =
      some ((acc + num * 2 ^ shift) % 2 ^ 32,
        pos + (varbyteEncodeLoop fuel [] num).length) := by
  induction fuel with
  | zero =>
    intro num hnum acc shift pos rest
    have h128 : num < 128 := by simpa using hnum
    have h1 : num % 256 = num := Nat.mod_eq_of_lt (by omega)
    have h2 : num % 128 = num := Nat.mod_eq_of_lt h128
    simp [varbyteEncodeLoop, writeByte, varbyteDecodeLoop, h1, land_127, h2, Nat.shiftLeft_eq,
      Nat.not_le.mpr h128]
  | succ f ih =>
    intro num hnum acc shift pos rest
    simp only [varbyteEncodeLoop]
    split
    · rename_i hge
      rw [varbyteEncodeLoop_append]
      have hb : (128 + (num &&& 127)) % 256 = 128 + num % 128 := by
        rw [land_127]; omega
      have hdiv : num >>> 7 < 128 ^ (f + 1) := by
        rw [shr_7]
        rw [Nat.div_lt_iff_lt_mul (by norm_num)]
        calc num < 128 ^ (f + 1 + 1) := hnum
          _ = 128 ^ (f + 1) * 128 := by ring
      simp only [writeByte, List.nil_append, List.singleton_append, List.cons_append, hb,
        varbyteDecodeLoop]
      have hc : (128 + num % 128) &&& 127 = num % 128 := by
        rw [land_127]; omega
      rw [hc, if_pos (by omega)]
      show varbyteDecodeLoop (([] ++ varbyteEncodeLoop f [] (num >>> 7)) ++ rest) _ _ _ = _
      rw [List.nil_append, ih _ hdiv]
      simp only [List.length_cons, Option.some.injEq, Prod.mk.injEq]
      refine ⟨?_, by omega⟩
      rw [shr_7, Nat.shiftLeft_eq]
      have e : num * 2 ^ shift = num % 128 * 2 ^ shift + num / 128 * 2 ^ (shift + 7) := by
        have hdm := Nat.div_add_mod num 128
        rw [pow_add]
        nth_rewrite 1 [← hdm]
        ring
      rw [e]
      omega
    · rename_i hlt
      have h128 : num < 128 := by omega
      have h1 : num % 256 = num := Nat.mod_eq_of_lt (by omega)
      have h2 : num % 128 = num := Nat.mod_eq_of_lt h128
      simp [writeByte, varbyteDecodeLoop, h1, land_127, h2, Nat.shiftLeft_eq,
        Nat.not_le.mpr h128]

/-- Decoding at the start of an encoding: for a 32-bit `n` the decoder returns
`n` and advances by the length of the encoding. -/
theorem varbyteDecode_encode (n : Nat) (hn : n < 2 ^ 32) (pre rest : List Nat) :
    varbyteDecode (pre ++ varbyteEncode [] n ++ rest) pre.length =
      some (n, pre.length + (varbyteEncode [] n).length) := by
  unfold varbyteDecode
  rw [List.append_assoc, List.drop_left]
  unfold varbyteEncode
  have h6 : n < 128 ^ (5 + 1) := lt_of_lt_of_le hn (by norm_num)
  rw [Nat.mod_eq_of_lt hn, varbyteDecodeLoop_encode 5 n h6]
  have hn1 : n < 4294967296 := by norm_num at hn; exact hn
  simp [Nat.mod_eq_of_lt hn1]

/-! ## Lemmas: block compression -/

theorem toU32_lt (x : Int) : toU32 x < 2 ^ 32 := by
  unfold toU32
  have h1 : (0 : Int) ≤ x % 2 ^ 32 := Int.emod_nonneg _ (by norm_num)
  have h2 : x % 2 ^ 32 < 2 ^ 32 := Int.emod_lt_of_pos _ (by norm_num)
  omega

theorem toU32_of_nonneg (x : Int) (h0 : 0 ≤ x) (h1 : x < 2 ^ 32) : (toU32 x : Int) = x := by
  unfold toU32
  rw [Int.emod_eq_of_lt h0 h1]
  omega

theorem toU32_add_sub (d p : Int) : (toU32 p + toU32 (d - p)) % 2 ^ 32 = toU32 d := by
  unfold toU32
  have h1 : (0 : Int) ≤ p % 2 ^ 32 := Int.emod_nonneg _ (by norm_num)
  have h2 : (0 : Int) ≤ (d - p) % 2 ^ 32 := Int.emod_nonneg _ (by norm_num)
  have h3 : (0 : Int) ≤ d % 2 ^ 32 := Int.emod_nonneg _ (by norm_num)
  have h4 : p % 2 ^ 32 < 2 ^ 32 := Int.emod_lt_of_pos _ (by norm_num)
  have h5 : (d - p) % 2 ^ 32 < 2 ^ 32 := Int.emod_lt_of_pos _ (by norm_num)
  have h6 : d % 2 ^ 32 < 2 ^ 32 := Int.emod_lt_of_pos _ (by norm_num)
  omega

theorem varbyteEncodeLoop_length_pos (fuel : Nat) (num : Nat) :
    0 < (varbyteEncodeLoop fuel [] num).length := by
  cases fuel with
  | zero => simp [varbyteEncodeLoop, writeByte]
  | succ f =>
    simp only [varbyteEncodeLoop]
    split
    · rw [varbyteEncodeLoop_append]; simp [writeByte]
    · simp [writeByte]

theorem varbyteEncode_length_pos (n : Nat) : 0 < (varbyteEncode [] n).length :=
  varbyteEncodeLoop_length_pos _ _

theorem encodeDocIds_append (docIds : List Int) : ∀ (prev : Int) (buffer : List Nat),
    encodeDocIds docIds prev buffer = buffer ++ encodeDocIds docIds prev [] := by
  induction docIds with
  | nil => intro prev buffer; simp [encodeDocIds]
  | cons d ds ih =>
    intro prev buffer
    simp only [encodeDocIds]
    rw [ih d (varbyteEncode buffer _), ih d (varbyteEncode [] _), varbyteEncode_append buffer]
    simp

theorem encodeFreqs_append (freqs : List Int) : ∀ (buffer : List Nat),
    encodeFreqs freqs buffer = buffer ++ encodeFreqs freqs [] := by
  induction freqs with
  | nil => intro buffer; simp [encodeFreqs]
  | cons d ds ih =>
    intro buffer
    simp only [encodeFreqs]
    rw [ih (varbyteEncode buffer _), ih (varbyteEncode [] _), varbyteEncode_append buffer]
    simp

/-- Decoding the gap stream of `docIds` written after `pre`, from position
`pre.length` with `prevDocId` equal to the encoder's, yields the docIds. -/
theorem decodeDocStream_encodeDocIds (docIds : List Int) :
    ∀ (pre : List Nat) (prev : Int) (fuel : Nat),
      (encodeDocIds docIds prev []).length ≤ fuel →
      decodeDocStream (pre ++ encodeDocIds docIds prev []) fuel pre.length (toU32 prev) =
        some (docIds.map toU32) := by
  induction docIds with
  | nil =>
    intro pre prev fuel _
    cases fuel <;> simp [decodeDocStream, encodeDocIds]
  | cons d ds ih =>
    intro pre prev fuel hfuel
    simp only [encodeDocIds] at hfuel ⊢
    rw [encodeDocIds_append] at hfuel ⊢
    have hpos := varbyteEncode_length_pos (toU32 (d - prev))
    rw [List.length_append] at hfuel
    cases fuel with
    | zero => omega
    | succ f =>
      have hdec := varbyteDecode_encode (toU32 (d - prev)) (toU32_lt _) pre
        (encodeDocIds ds d [])
      rw [List.append_assoc] at hdec
      simp only [decodeDocStream]
      rw [if_neg (by simp only [List.length_append]; omega), hdec]
      simp only [toU32_add_sub]
      have hih := ih (pre ++ varbyteEncode [] (toU32 (d - prev))) d f (by omega)
      rw [List.length_append, List.append_assoc] at hih
      rw [hih]
      simp

/-! ## Lemmas: the byte-string order -/

theorem strcmp_eq_zero : ∀ (a b : List Nat), strcmp a b = 0 ↔ a = b
  | [], [] => by simp [strcmp]
  | [], _ :: _ => by simp [strcmp]
  | _ :: _, [] => by simp [strcmp]
  | a :: as, b :: bs => by
    simp only [strcmp]
    by_cases h : a = b
    · simp [h, strcmp_eq_zero as bs]
    · by_cases h2 : a < b <;> simp [h, h2]

theorem strcmp_self (a : List Nat) : strcmp a a = 0 := (strcmp_eq_zero a a).2 rfl

theorem strcmp_swap : ∀ (a b : List Nat), strcmp b a = - strcmp a b
  | [], [] => by simp [strcmp]
  | [], _ :: _ => by simp [strcmp]
  | _ :: _, [] => by simp [strcmp]
  | a :: as, b :: bs => by
    simp only [strcmp]
    by_cases h : a = b
    · subst h; simp [strcmp_swap as bs]
    · have h1 : ¬ b = a := fun e => h e.symm
      by_cases h2 : a < b
      · have h3 : ¬ b < a := by omega
        simp [h, h1, h2, h3]
      · have h3 : b < a := by omega
        simp [h, h1, h2, h3]

theorem strcmp_trans : ∀ (a b c : List Nat), strcmp a b < 0 → strcmp b c < 0 → strcmp a c < 0
  | [], [], _ => by simp [strcmp]
  | [], _ :: _, [] => by simp [strcmp]
  | [], _ :: _, _ :: _ => by simp [strcmp]
  | _ :: _, [], _ => by simp [strcmp]
  | _ :: _, _ :: _, [] => by simp [strcmp]
  | a :: as, b :: bs, c :: cs => by
    simp only [strcmp]
    intro h1 h2
    by_cases hab : a = b
    · subst hab
      by_cases hac : a = c
      · subst hac
        simp only [if_true] at h1 h2 ⊢
        exact strcmp_trans as bs cs h1 h2
      · simp only [if_true, hac, if_false] at h1 h2 ⊢
        exact h2
    · simp only [hab, if_false] at h1
      have hlt : a < b := by
        by_contra hn
        simp [hn] at h1
      by_cases hbc : b = c
      · subst hbc
        simp [hab, hlt]
      · simp only [hbc, if_false] at h2
        have hlt2 : b < c := by
          by_contra hn
          simp [hn] at h2
        have hne : ¬ a = c := by omega
        have hlt3 : a < c := by omega
        simp [hne, hlt3]

theorem keyLe_refl (t : List Nat) (d : Int) : keyLe t d t d := Or.inr ⟨rfl, le_refl _⟩

theorem keyLe_trans {t1 t2 t3 : List Nat} {d1 d2 d3 : Int} (h1 : keyLe t1 d1 t2 d2)
    (h2 : keyLe t2 d2 t3 d3) : keyLe t1 d1 t3 d3 := by
  unfold keyLe at *
  rcases h1 with h1 | ⟨e1, c1⟩
  · rcases h2 with h2 | ⟨e2, _⟩
    · exact Or.inl (strcmp_trans _ _ _ h1 h2)
    · rw [← e2]; exact Or.inl h1
  · rcases h2 with h2 | ⟨e2, c2⟩
    · rw [e1]; exact Or.inl h2
    · exact Or.inr ⟨e1.trans e2, le_trans c1 c2⟩

theorem keyLe_total (t1 : List Nat) (d1 : Int) (t2 : List Nat) (d2 : Int) :
    keyLe t1 d1 t2 d2 ∨ keyLe t2 d2 t1 d1 := by
  unfold keyLe
  by_cases h : t1 = t2
  · rcases le_total d1 d2 with hd | hd
    · exact Or.inl (Or.inr ⟨h, hd⟩)
    · exact Or.inr (Or.inr ⟨h.symm, hd⟩)
  · have hne : strcmp t1 t2 ≠ 0 := fun e => h ((strcmp_eq_zero _ _).1 e)
    have hsw := strcmp_swap t1 t2
    rcases lt_or_gt_of_ne hne with hlt | hgt
    · exact Or.inl (Or.inl hlt)
    · exact Or.inr (Or.inl (by omega))

theorem keyLt_of_le_of_ne {t1 t2 : List Nat} {d1 d2 : Int} (h : keyLe t1 d1 t2 d2)
    (hne : ¬ (t2 = t1 ∧ d2 = d1)) : keyLt t1 d1 t2 d2 := by
  unfold keyLe at h
  unfold keyLt
  rcases h with h | ⟨e, c⟩
  · exact Or.inl h
  · refine Or.inr ⟨e, ?_⟩
    rcases lt_or_eq_of_le c with c | c
    · exact c
    · exact absurd ⟨e.symm, c.symm⟩ hne

theorem keyLe_of_lt {t1 t2 : List Nat} {d1 d2 : Int} (h : keyLt t1 d1 t2 d2) :
    keyLe t1 d1 t2 d2 := by
  unfold keyLt at h
  unfold keyLe
  rcases h with h | ⟨e, c⟩
  · exact Or.inl h
  · exact Or.inr ⟨e, le_of_lt c⟩

theorem keyLt_of_lt_of_le {t1 t2 t3 : List Nat} {d1 d2 d3 : Int} (h1 : keyLt t1 d1 t2 d2)
    (h2 : keyLe t2 d2 t3 d3) : keyLt t1 d1 t3 d3 := by
  unfold keyLt keyLe at *
  rcases h1 with h1 | ⟨e1, c1⟩
  · rcases h2 with h2 | ⟨e2, _⟩
    · exact Or.inl (strcmp_trans _ _ _ h1 h2)
    · rw [← e2]; exact Or.inl h1
  · rcases h2 with h2 | ⟨e2, c2⟩
    · rw [e1]; exact Or.inl h2
    · exact Or.inr ⟨e1.trans e2, lt_of_lt_of_le c1 c2⟩

theorem keyLt_irrefl (t : List Nat) (d : Int) : ¬ keyLt t d t d := by
  unfold keyLt
  rw [strcmp_self]
  intro h
  rcases h with h | ⟨_, h⟩
  · exact absurd h (by decide)
  · exact lt_irrefl _ h

theorem recordLe_refl (a : Record) : recordLe a a := keyLe_refl _ _

theorem recordLe_trans {a b c : Record} (h1 : recordLe a b) (h2 : recordLe b c) :
    recordLe a c := keyLe_trans h1 h2

theorem recordLe_total (a b : Record) : recordLe a b ∨ recordLe b a := keyLe_total _ _ _ _

/-! ## Lemmas: the merge -/

theorem comparePosting_false_iff (x y : Merging.PostingEntry) :
    Merging.ComparePosting x y = false ↔
      recordLe (Merging.entryRecord x) (Merging.entryRecord y) := by
  unfold Merging.ComparePosting recordLe keyLe Merging.entryRecord
  by_cases h : x.term = y.term
  · have hz : strcmp x.term y.term = 0 := (strcmp_eq_zero _ _).2 h
    simp [h, strcmp_self]
  · have hne : strcmp x.term y.term ≠ 0 := fun e => h ((strcmp_eq_zero _ _).1 e)
    simp only [ne_eq, h, not_false_eq_true, if_true, decide_eq_false_iff_not, false_and,
      or_false]
    omega

theorem fileRecords_cons_of_ne (r : Record) (rest : List Record) (h : r.term.length ≠ 0) :
    fileRecords (r :: rest) = r :: fileRecords rest := by
  have h1 : r.term ≠ [] := fun e => h (by simp [e])
  simp [fileRecords, h1]

theorem fileRecords_cons_of_eq (r : Record) (rest : List Record) (h : r.term.length = 0) :
    fileRecords (r :: rest) = [] := by
  have h1 : r.term = [] := List.length_eq_zero.1 h
  simp [fileRecords, h1]

/-- A file without zero-length terms is read in full. -/
theorem fileRecords_eq_self : ∀ (file : List Record), (∀ r ∈ file, r.term ≠ []) →
    fileRecords file = file
  | [], _ => rfl
  | r :: rest, h => by
    have h1 : r.term.length ≠ 0 := fun e => h r (List.mem_cons_self _ _) (List.length_eq_zero.1 e)
    rw [fileRecords_cons_of_ne r rest h1,
      fileRecords_eq_self rest (fun x hx => h x (List.mem_cons_of_mem _ hx))]

theorem readNextRecord_some {files : List (List Record)} {i : Nat}
    {p : Merging.PostingEntry} {files1 : List (List Record)}
    (h : Merging.readNextRecord files i = some (p, files1)) :
    ∃ r rest, files[i]? = some (r :: rest) ∧ r.term.length ≠ 0 ∧
      p = ⟨r.term, r.docId, r.freq, i⟩ ∧ files1 = files.set i rest := by
  unfold Merging.readNextRecord at h
  split at h
  · simp at h
  · simp at h
  · rename_i r rest hget
    split at h
    · simp at h
    · rename_i hne
      simp only [Option.some.injEq, Prod.mk.injEq] at h
      exact ⟨r, rest, hget, hne, h.1.symm, h.2.symm⟩

theorem readNextRecord_none {files : List (List Record)} {i : Nat}
    (h : Merging.readNextRecord files i = none) :
    ∀ f, files[i]? = some f → fileRecords f = [] := by
  intro f hf
  unfold Merging.readNextRecord at h
  rw [hf] at h
  cases f with
  | nil => rfl
  | cons r rest =>
    simp only at h
    split at h
    · rename_i hz; exact fileRecords_cons_of_eq r rest hz
    · simp at h

theorem flatten_fileRecords_set : ∀ (files : List (List Record)) (i : Nat) (r : Record)
    (rest : List Record), files[i]? = some (r :: rest) → r.term.length ≠ 0 →
    List.Perm (files.map fileRecords).flatten
      (r :: ((files.set i rest).map fileRecords).flatten)
  | [], i, r, rest, h, _ => by simp at h
  | f :: fs, 0, r, rest, h, hne => by
    simp only [List.getElem?_cons_zero, Option.some.injEq] at h
    subst h
    simp [fileRecords_cons_of_ne r rest hne]
  | f :: fs, i + 1, r, rest, h, hne => by
    simp only [List.getElem?_cons_succ] at h
    have ih := flatten_fileRecords_set fs i r rest h hne
    simp only [List.set_cons_succ, List.map_cons, List.flatten_cons]
    exact (List.Perm.append_left _ ih).trans List.perm_middle

theorem sum_length_set : ∀ (files : List (List Record)) (i : Nat) (r : Record)
    (rest : List Record), files[i]? = some (r :: rest) →
    ((files.set i rest).map List.length).sum + 1 = (files.map List.length).sum
  | [], i, r, rest, h => by simp at h
  | f :: fs, 0, r, rest, h => by
    simp only [List.getElem?_cons_zero, Option.some.injEq] at h
    subst h
    simp; omega
  | f :: fs, i + 1, r, rest, h => by
    simp only [List.getElem?_cons_succ] at h
    have ih := sum_length_set fs i r rest h
    simp only [List.set_cons_succ, List.map_cons, List.sum_cons]
    omega

/-- Reading the next record of file `i` and pushing it keeps the invariant,
provided no heap entry currently stands for file `i`. -/
theorem MergeInv.read_push (k : Nat) (total : List Record) (files : List (List Record))
    (heap : List Merging.PostingEntry) (out : List Record) (i : Nat)
    (hperm : List.Perm (out ++ (heap.map Merging.entryRecord ++
      (files.map fileRecords).flatten)) total)
    (hsorted : out.Pairwise recordLe)
    (houtLe : ∀ o ∈ out, ∀ h ∈ heap, recordLe o (Merging.entryRecord h))
    (hcover : ∀ j, j < k → j ≠ i → ∀ f, files[j]? = some f → ∀ r ∈ fileRecords f,
      ∃ h ∈ heap, h.fileIndex = j ∧ recordLe (Merging.entryRecord h) r)
    (hfs : ∀ f ∈ files, (fileRecords f).Pairwise recordLe)
    (houtFile : ∀ o ∈ out, ∀ f, files[i]? = some f → ∀ r ∈ fileRecords f, recordLe o r) :
    (∀ p files1, Merging.readNextRecord files i = some (p, files1) →
      MergeInv k total files1 (p :: heap) out ∧
        (files1.map List.length).sum + 1 = (files.map List.length).sum ∧
        files1.length = files.length) ∧
    (Merging.readNextRecord files i = none → MergeInv k total files heap out) := by
  constructor
  · intro p files1 hread
    obtain ⟨r, rest, hget, hne, hp, hf1⟩ := readNextRecord_some hread
    subst hf1
    have hpr : Merging.entryRecord p = r := by subst hp; rfl
    have hmem : (r :: rest) ∈ files := List.getElem?_mem hget
    have hsr := hfs _ hmem
    rw [fileRecords_cons_of_ne r rest hne, List.pairwise_cons] at hsr
    refine ⟨⟨?_, hsorted, ?_, ?_, ?_⟩, sum_length_set files i r rest hget, by simp⟩
    · refine List.Perm.trans ?_ hperm
      refine List.Perm.append_left _ ?_
      simp only [List.map_cons, hpr, List.cons_append]
      exact ((List.Perm.append_left _
        (flatten_fileRecords_set files i r rest hget hne)).trans List.perm_middle).symm
    · intro o ho h hh
      rcases List.mem_cons.1 hh with e | hh
      · subst e
        rw [hpr]
        exact houtFile o ho _ hget r (by rw [fileRecords_cons_of_ne r rest hne]; simp)
      · exact houtLe o ho h hh
    · intro j hj f hf r1 hr1
      by_cases hji : j = i
      · subst hji
        have hlt : j < files.length := by
          have := List.getElem?_eq_some.1 hget
          exact this.1
        rw [List.getElem?_set_self hlt] at hf
        simp only [Option.some.injEq] at hf
        subst hf
        refine ⟨p, List.mem_cons_self _ _, by subst hp; rfl, ?_⟩
        rw [hpr]
        exact hsr.1 r1 hr1
      · rw [List.getElem?_set_ne (fun e => hji e.symm)] at hf
        obtain ⟨h, hh, hfi, hle⟩ := hcover j hj hji f hf r1 hr1
        exact ⟨h, List.mem_cons_of_mem _ hh, hfi, hle⟩
    · intro f hf
      rcases List.mem_or_eq_of_mem_set hf with hf | hf
      · exact hfs f hf
      · subst hf; exact hsr.2
  · intro hread
    have hnil := readNextRecord_none hread
    refine ⟨hperm, hsorted, houtLe, ?_, hfs⟩
    intro j hj f hf r hr
    by_cases hji : j = i
    · subst hji
      rw [hnil f hf] at hr
      simp at hr
    · exact hcover j hj hji f hf r hr

theorem mergeInit_inv (files : List (List Record))
    (hs : ∀ f ∈ files, (fileRecords f).Pairwise recordLe) :
    ∀ k, k ≤ files.length →
      MergeInv k (files.map fileRecords).flatten
        ((List.range k).foldl Merging.initStep (files, [])).1
        ((List.range k).foldl Merging.initStep (files, [])).2 [] ∧
      ((List.range k).foldl Merging.initStep (files, [])).2.length +
        (((List.range k).foldl Merging.initStep (files, [])).1.map List.length).sum
          ≤ (files.map List.length).sum ∧
      ((List.range k).foldl Merging.initStep (files, [])).1.length = files.length := by
  intro k
  induction k with
  | zero =>
    intro _
    refine ⟨⟨by simp, List.Pairwise.nil, ?_, ?_, hs⟩, by simp, by simp⟩
    · intro o ho; simp at ho
    · intro i hi; omega
  | succ k ih =>
    intro hk
    obtain ⟨hinv, hmeas, hlen⟩ := ih (by omega)
    rw [List.range_succ, List.foldl_append]
    simp only [List.foldl_cons, List.foldl_nil]
    generalize (List.range k).foldl Merging.initStep (files, []) = st at hinv hmeas hlen
    obtain ⟨fs, heap⟩ := st
    simp only at hinv hmeas hlen
    have hrp := MergeInv.read_push (k + 1) _ fs heap [] k hinv.perm hinv.sorted hinv.outLe
      (fun j hj hne => hinv.cover j (by omega)) hinv.filesSorted
      (fun o ho => by simp at ho)
    unfold Merging.initStep
    simp only
    cases hread : Merging.readNextRecord fs k with
    | none =>
      simp only
      exact ⟨hrp.2 hread, hmeas, hlen⟩
    | some pr =>
      obtain ⟨p, files1⟩ := pr
      simp only
      obtain ⟨h1, h2, h3⟩ := hrp.1 p files1 hread
      refine ⟨h1, ?_, by rw [h3, hlen]⟩
      simp only [List.length_cons]
      omega

theorem flatten_eq_nil_of_cover {total : List Record} {files : List (List Record)}
    {out : List Record} (h : MergeInv files.length total files [] out) :
    (files.map fileRecords).flatten = [] := by
  rw [List.flatten_eq_nil_iff]
  intro l hl
  obtain ⟨f, hf, rfl⟩ := List.mem_map.1 hl
  obtain ⟨i, hi⟩ := List.mem_iff_getElem?.1 hf
  have hlt : i < files.length := (List.getElem?_eq_some.1 hi).1
  cases hfr : fileRecords f with
  | nil => rfl
  | cons r rs =>
    obtain ⟨x, hx, _⟩ := h.cover i hlt f hi r (by rw [hfr]; simp)
    simp at hx

theorem mergeLoop_correct (pop : List Merging.PostingEntry →
      Option (Merging.PostingEntry × List Merging.PostingEntry))
    (hpop : Merging.PopSpec pop) (total : List Record) :
    ∀ (fuel : Nat) (files : List (List Record)) (heap : List Merging.PostingEntry)
      (out : List Record),
      MergeInv files.length total files heap out →
      heap.length + (files.map List.length).sum < fuel →
      ∃ res, Merging.mergeLoop pop fuel files heap out = some res ∧
        res.Pairwise recordLe ∧ List.Perm res total := by
  intro fuel
  induction fuel with
  | zero => intro files heap out _ h; omega
  | succ fuel ih =>
    intro files heap out hinv hmeas
    cases heap with
    | nil =>
      refine ⟨out, by simp [Merging.mergeLoop], hinv.sorted, ?_⟩
      have hp := hinv.perm
      rw [flatten_eq_nil_of_cover hinv] at hp
      simpa using hp
    | cons y ys =>
      obtain ⟨x, rest, hpopx, hperm, hmin⟩ := hpop (y :: ys) (by simp)
      have hxmem : x ∈ y :: ys := hperm.subset (List.mem_cons_self _ _)
      have hminle : ∀ h ∈ y :: ys, recordLe (Merging.entryRecord x) (Merging.entryRecord h) :=
        fun h hh => (comparePosting_false_iff x h).1 (hmin h hh)
      have hlen : rest.length + 1 = (y :: ys).length := by
        have := hperm.length_eq
        simpa using this
      have hrp := MergeInv.read_push files.length total files rest
        (Merging.writeMergedRecord out x) x.fileIndex
        (by
          refine List.Perm.trans ?_ hinv.perm
          unfold Merging.writeMergedRecord
          rw [List.append_assoc]
          refine List.Perm.append_left _ ?_
          have h1 : List.Perm (Merging.entryRecord x :: rest.map Merging.entryRecord)
              ((y :: ys).map Merging.entryRecord) := by
            have := hperm.map Merging.entryRecord
            simpa using this
          simpa using List.Perm.append_right _ h1)
        (by
          unfold Merging.writeMergedRecord
          rw [List.pairwise_append]
          refine ⟨hinv.sorted, by simp, ?_⟩
          intro o ho b hb
          simp only [List.mem_singleton] at hb
          subst hb
          exact hinv.outLe o ho x hxmem)
        (by
          intro o ho h hh
          have hh2 : h ∈ y :: ys := hperm.subset (List.mem_cons_of_mem _ hh)
          unfold Merging.writeMergedRecord at ho
          rcases List.mem_append.1 ho with ho | ho
          · exact hinv.outLe o ho h hh2
          · simp only [List.mem_singleton] at ho
            subst ho
            exact hminle h hh2)
        (by
          intro j hj hne f hf r hr
          obtain ⟨h, hh, hfi, hle⟩ := hinv.cover j hj f hf r hr
          have hh2 : h ∈ x :: rest := hperm.symm.subset hh
          rcases List.mem_cons.1 hh2 with e | hh3
          · subst e; exact absurd hfi.symm hne
          · exact ⟨h, hh3, hfi, hle⟩)
        hinv.filesSorted
        (by
          intro o ho f hf r hr
          have hlt : x.fileIndex < files.length := (List.getElem?_eq_some.1 hf).1
          obtain ⟨h, hh, _, hle⟩ := hinv.cover x.fileIndex hlt f hf r hr
          unfold Merging.writeMergedRecord at ho
          rcases List.mem_append.1 ho with ho | ho
          · exact recordLe_trans (hinv.outLe o ho h hh) hle
          · simp only [List.mem_singleton] at ho
            subst ho
            exact recordLe_trans (hminle h hh) hle)
      simp only [Merging.mergeLoop, List.isEmpty_cons, Bool.false_eq_true, if_false, hpopx]
      cases hread : Merging.readNextRecord files x.fileIndex with
      | none =>
        simp only
        have hinv2 := hrp.2 hread
        exact ih files rest _ hinv2 (by omega)
      | some pr =>
        obtain ⟨p, files1⟩ := pr
        simp only
        obtain ⟨h1, h2, h3⟩ := hrp.1 p files1 hread
        rw [← h3] at h1
        exact ih files1 (p :: rest) _ h1 (by simp only [List.length_cons]; omega)

theorem heapTop_mem : ∀ (ys : List Merging.PostingEntry) (best : Merging.PostingEntry),
    Merging.heapTop best ys ∈ best :: ys
  | [], best => by simp [Merging.heapTop]
  | y :: ys, best => by
    simp only [Merging.heapTop]
    split
    · exact List.mem_cons_of_mem _ (heapTop_mem ys y)
    · have := heapTop_mem ys best
      rcases List.mem_cons.1 this with e | h
      · rw [e]; exact List.mem_cons_self _ _
      · exact List.mem_cons_of_mem _ (List.mem_cons_of_mem _ h)

theorem heapTop_le : ∀ (ys : List Merging.PostingEntry) (best : Merging.PostingEntry),
    recordLe (Merging.entryRecord (Merging.heapTop best ys)) (Merging.entryRecord best) ∧
    ∀ y ∈ ys, recordLe (Merging.entryRecord (Merging.heapTop best ys)) (Merging.entryRecord y)
  | [], best => by simp [Merging.heapTop, recordLe_refl]
  | y :: ys, best => by
    simp only [Merging.heapTop]
    split
    · rename_i hc
      have ih := heapTop_le ys y
      have hyb : recordLe (Merging.entryRecord y) (Merging.entryRecord best) := by
        rcases recordLe_total (Merging.entryRecord y) (Merging.entryRecord best) with h | h
        · exact h
        · have := (comparePosting_false_iff best y).2 h
          rw [hc] at this
          exact absurd this (by simp)
      refine ⟨recordLe_trans ih.1 hyb, ?_⟩
      intro z hz
      rcases List.mem_cons.1 hz with e | hz
      · rw [e]; exact ih.1
      · exact ih.2 z hz
    · rename_i hc
      have hc2 : Merging.ComparePosting best y = false := by simpa using hc
      have ih := heapTop_le ys best
      refine ⟨ih.1, ?_⟩
      intro z hz
      rcases List.mem_cons.1 hz with e | hz
      · rw [e]; exact recordLe_trans ih.1 ((comparePosting_false_iff best y).1 hc2)
      · exact ih.2 z hz

theorem heapPop_spec : Merging.PopSpec Merging.heapPop := by
  intro h hne
  cases h with
  | nil => exact absurd rfl hne
  | cons x xs =>
    refine ⟨Merging.heapTop x xs, (x :: xs).erase (Merging.heapTop x xs), rfl, ?_, ?_⟩
    · exact (List.perm_cons_erase (heapTop_mem xs x)).symm
    · intro y hy
      rw [comparePosting_false_iff]
      have hle := heapTop_le xs x
      rcases List.mem_cons.1 hy with e | hy
      · rw [e]; exact hle.1
      · exact hle.2 y hy

/-! ## Lemmas: quicksort of the posting buffer -/

theorem getD_of_lt (buf : List Parsing.Posting) (k : Nat) (h : k < buf.length) :
    buf[k]? = some (buf.getD k default) := by
  rw [List.getD_eq_getElem?_getD, List.getElem?_eq_getElem h]
  rfl

theorem length_swap (buf : List Parsing.Posting) (i j : Nat) :
    (Parsing.swap buf i j).length = buf.length := by
  simp [Parsing.swap]

theorem getD_swap (buf : List Parsing.Posting) (i j k : Nat) (hi : i < buf.length)
    (hj : j < buf.length) :
    (Parsing.swap buf i j).getD k default =
      if k = j then buf.getD i default
      else if k = i then buf.getD j default else buf.getD k default := by
  unfold Parsing.swap
  simp only [List.getD_eq_getElem?_getD, List.getElem?_set, List.length_set]
  by_cases h1 : j = k
  · subst h1
    simp [hj, List.getElem?_eq_getElem hi]
  · have h1b : ¬ k = j := fun e => h1 e.symm
    by_cases h2 : i = k
    · subst h2
      simp [h1, h1b, hi, List.getElem?_eq_getElem hj]
    · have h2b : ¬ k = i := fun e => h2 e.symm
      simp [h1, h1b, h2, h2b]

theorem getElem?_swap_of_ne (buf : List Parsing.Posting) (i j k : Nat) (hki : k ≠ i)
    (hkj : k ≠ j) : (Parsing.swap buf i j)[k]? = buf[k]? := by
  unfold Parsing.swap
  rw [List.getElem?_set_ne (fun e => hkj e.symm), List.getElem?_set_ne (fun e => hki e.symm)]

theorem swap_perm (buf : List Parsing.Posting) (i j : Nat) (hi : i < buf.length)
    (hj : j < buf.length) : List.Perm (Parsing.swap buf i j) buf := by
  rw [List.perm_iff_count]
  intro a
  unfold Parsing.swap
  have hxi : buf.getD i default = buf[i] := by
    rw [List.getD_eq_getElem?_getD, List.getElem?_eq_getElem hi]; rfl
  have hxj : buf.getD j default = buf[j] := by
    rw [List.getD_eq_getElem?_getD, List.getElem?_eq_getElem hj]; rfl
  rw [hxi, hxj]
  have hci : (if buf[i] == a then 1 else 0) ≤ buf.count a := by
    have := List.boole_getElem_le_countP (fun x => x == a) buf i hi
    simpa [List.count_eq_countP] using this
  by_cases hij : i = j
  · subst hij
    rw [List.set_set, List.count_set _ _ _ _ hi]
    omega
  · have hj2 : j < (buf.set i buf[j]).length := by simpa using hj
    rw [List.count_set _ _ _ _ hj2, List.count_set _ _ _ _ hi]
    have e : (buf.set i buf[j])[j] = buf[j] := by
      rw [List.getElem_set_ne hij]
    rw [e]
    by_cases h1 : (buf[i] == a) = true <;> by_cases h2 : (buf[j] == a) = true <;>
      simp only [h1, h2, if_true, if_false] at hci ⊢ <;> omega

/-- A permutation that leaves every position outside `[lo, hi)` unchanged maps
the elements of the range to elements of the range. -/
theorem range_transfer (buf buf1 : List Parsing.Posting) (lo hi : Nat)
    (hlh : lo ≤ hi) (hhi : hi ≤ buf.length)
    (hlen : buf1.length = buf.length) (hperm : List.Perm buf1 buf)
    (hout : ∀ k, k < lo ∨ hi ≤ k → buf1[k]? = buf[k]?)
    (Q : Parsing.Posting → Prop)
    (hQ : ∀ k, lo ≤ k → k < hi → Q (buf.getD k default)) :
    ∀ k, lo ≤ k → k < hi → Q (buf1.getD k default) := by
  have d : ∀ l : List Parsing.Posting,
      l = l.take lo ++ ((l.drop lo).take (hi - lo) ++ l.drop hi) := by
    intro l
    have h1 : l.drop hi = (l.drop lo).drop (hi - lo) := by
      rw [List.drop_drop]; congr 1; omega
    rw [h1, List.take_append_drop, List.take_append_drop]
  have e1 : buf1.take lo = buf.take lo := by
    apply List.ext_getElem?
    intro n
    simp only [List.getElem?_take]
    split
    · exact hout n (Or.inl (by assumption))
    · rfl
  have e2 : buf1.drop hi = buf.drop hi := by
    apply List.ext_getElem?
    intro n
    simp only [List.getElem?_drop]
    exact hout (hi + n) (Or.inr (by omega))
  have hp : List.Perm ((buf1.drop lo).take (hi - lo)) ((buf.drop lo).take (hi - lo)) := by
    have hp0 := hperm
    rw [d buf1, d buf, e1, e2] at hp0
    exact (List.perm_append_right_iff _).1 ((List.perm_append_left_iff _).1 hp0)
  intro k hk1 hk2
  have hk3 : k < buf1.length := by omega
  have hmem : buf1.getD k default ∈ (buf1.drop lo).take (hi - lo) := by
    rw [List.mem_iff_getElem?]
    refine ⟨k - lo, ?_⟩
    rw [List.getElem?_take, if_pos (by omega), List.getElem?_drop]
    rw [show lo + (k - lo) = k by omega]
    exact getD_of_lt buf1 k hk3
  have hmem2 := hp.subset hmem
  rw [List.mem_iff_getElem?] at hmem2
  obtain ⟨m, hm⟩ := hmem2
  rw [List.getElem?_take] at hm
  split at hm
  · rename_i hmlt
    rw [List.getElem?_drop] at hm
    have hlt : lo + m < buf.length := (List.getElem?_eq_some.1 hm).1
    have := getD_of_lt buf (lo + m) hlt
    rw [hm] at this
    simp only [Option.some.injEq] at this
    rw [this]
    exact hQ (lo + m) (by omega) (by omega)
  · simp at hm

theorem compareCstring_false_iff (a b : Parsing.Posting) :
    Parsing.compareCstring a b = false ↔ postingLe b a := by
  unfold Parsing.compareCstring postingLe keyLe
  have hsw := strcmp_swap a.termPtr b.termPtr
  by_cases h : a.termPtr = b.termPtr
  · have hz : strcmp a.termPtr b.termPtr = 0 := (strcmp_eq_zero _ _).2 h
    simp [h, strcmp_self]
  · have hne : strcmp a.termPtr b.termPtr ≠ 0 := fun e => h ((strcmp_eq_zero _ _).1 e)
    have h2 : ¬ b.termPtr = a.termPtr := fun e => h e.symm
    simp only [hne, if_false, decide_eq_false_iff_not, h2, false_and, or_false]
    omega

theorem postingLe_of_compareCstring (a b : Parsing.Posting)
    (h : Parsing.compareCstring a b = true) : postingLe a b := by
  unfold Parsing.compareCstring at h
  unfold postingLe keyLe
  by_cases hz : strcmp a.termPtr b.termPtr = 0
  · rw [if_pos hz] at h
    have := (strcmp_eq_zero _ _).1 hz
    simp only [decide_eq_true_eq] at h
    exact Or.inr ⟨this, le_of_lt h⟩
  · rw [if_neg hz] at h
    simp only [decide_eq_true_eq] at h
    exact Or.inl h

theorem postingLe_trans {a b c : Parsing.Posting} (h1 : postingLe a b) (h2 : postingLe b c) :
    postingLe a c := keyLe_trans h1 h2

theorem partitionLoop_spec (pivot : Parsing.Posting) (low high : Nat) :
    ∀ (n j i1 : Nat) (buf : List Parsing.Posting),
      low ≤ i1 → i1 ≤ j → j + n = high → high < buf.length →
      (∀ k, low ≤ k → k < i1 → Parsing.compareCstring (buf.getD k default) pivot = true) →
      (∀ k, i1 ≤ k → k < j → Parsing.compareCstring (buf.getD k default) pivot = false) →
      low ≤ (Parsing.partitionLoop pivot n j i1 buf).1 ∧
      (Parsing.partitionLoop pivot n j i1 buf).1 ≤ high ∧
      (Parsing.partitionLoop pivot n j i1 buf).2.length = buf.length ∧
      List.Perm (Parsing.partitionLoop pivot n j i1 buf).2 buf ∧
      (∀ k, k < low ∨ high ≤ k → (Parsing.partitionLoop pivot n j i1 buf).2[k]? = buf[k]?) ∧
      (∀ k, low ≤ k → k < (Parsing.partitionLoop pivot n j i1 buf).1 →
        Parsing.compareCstring ((Parsing.partitionLoop pivot n j i1 buf).2.getD k default)
          pivot = true) ∧
      (∀ k, (Parsing.partitionLoop pivot n j i1 buf).1 ≤ k → k < high →
        Parsing.compareCstring ((Parsing.partitionLoop pivot n j i1 buf).2.getD k default)
          pivot = false) := by
  intro n
  induction n with
  | zero =>
    intro j i1 buf h1 h2 h3 h4 h5 h6
    have hj : j = high := by omega
    subst hj
    refine ⟨h1, h2, ?_, ?_, ?_, h5, h6⟩
    · simp [Parsing.partitionLoop]
    · simp [Parsing.partitionLoop]
    · intro k _; simp [Parsing.partitionLoop]
  | succ n ih =>
    intro j i1 buf h1 h2 h3 h4 h5 h6
    simp only [Parsing.partitionLoop]
    split
    · rename_i hc
      have hi1 : i1 < buf.length := by omega
      have hj : j < buf.length := by omega
      have hih := ih (j + 1) (i1 + 1) (Parsing.swap buf i1 j) (by omega) (by omega) (by omega)
        (by rw [length_swap]; exact h4)
        (by
          intro k hk1 hk2
          rw [getD_swap buf i1 j k hi1 hj]
          by_cases e1 : k = j
          · subst e1
            have : i1 = k := by omega
            subst this
            simpa using hc
          · by_cases e2 : k = i1
            · subst e2; simpa [e1] using hc
            · simp only [e1, e2, if_false]
              exact h5 k hk1 (by omega))
        (by
          intro k hk1 hk2
          rw [getD_swap buf i1 j k hi1 hj]
          by_cases e1 : k = j
          · subst e1
            simp only [if_true]
            exact h6 i1 (le_refl _) (by omega)
          · have e2 : ¬ k = i1 := by omega
            simp only [e1, e2, if_false]
            exact h6 k (by omega) (by omega))
      obtain ⟨g1, g2, g3, g4, g5, g6, g7⟩ := hih
      refine ⟨by omega, g2, by rw [g3, length_swap], g4.trans (swap_perm buf i1 j hi1 hj),
        ?_, g6, g7⟩
      intro k hk
      rw [g5 k hk]
      exact getElem?_swap_of_ne buf i1 j k (by omega) (by omega)
    · rename_i hc
      have hc2 : Parsing.compareCstring (buf.getD j default) pivot = false := by
        simpa using hc
      have hih := ih (j + 1) i1 buf h1 (by omega) (by omega) h4 h5
        (by
          intro k hk1 hk2
          by_cases e1 : k = j
          · subst e1; exact hc2
          · exact h6 k hk1 (by omega))
      exact hih

theorem partition_spec (low high : Nat) (buf : List Parsing.Posting) (hlh : low ≤ high)
    (hhigh : high < buf.length) :
    low ≤ (Parsing.partition low high buf).1 ∧
    (Parsing.partition low high buf).1 ≤ high ∧
    (Parsing.partition low high buf).2.length = buf.length ∧
    List.Perm (Parsing.partition low high buf).2 buf ∧
    (∀ k, k < low ∨ high < k → (Parsing.partition low high buf).2[k]? = buf[k]?) ∧
    (∀ k, low ≤ k → k < (Parsing.partition low high buf).1 →
      postingLe ((Parsing.partition low high buf).2.getD k default)
        ((Parsing.partition low high buf).2.getD (Parsing.partition low high buf).1 default)) ∧
    (∀ k, (Parsing.partition low high buf).1 < k → k ≤ high →
      postingLe ((Parsing.partition low high buf).2.getD (Parsing.partition low high buf).1 default)
        ((Parsing.partition low high buf).2.getD k default)) := by
  have hl := partitionLoop_spec (buf.getD high default) low high (high - low) low low buf
    (le_refl _) (le_refl _) (by omega) hhigh (fun k h1 h2 => by omega) (fun k h1 h2 => by omega)
  unfold Parsing.partition
  simp only
  generalize Parsing.partitionLoop (buf.getD high default) (high - low) low low buf = r at hl
  obtain ⟨i1, buf1⟩ := r
  simp only at hl ⊢
  obtain ⟨g1, g2, g3, g4, g5, g6, g7⟩ := hl
  have hi1 : i1 < buf1.length := by omega
  have hh1 : high < buf1.length := by omega
  have hpiv : buf1.getD high default = buf.getD high default := by
    rw [List.getD_eq_getElem?_getD, List.getD_eq_getElem?_getD, g5 high (Or.inr (le_refl _))]
  have hat : (Parsing.swap buf1 i1 high).getD i1 default = buf.getD high default := by
    rw [getD_swap buf1 i1 high i1 hi1 hh1]
    by_cases e : i1 = high
    · subst e; simpa using hpiv
    · simp only [e, if_false, if_true]; exact hpiv
  refine ⟨g1, g2, by rw [length_swap, g3], (swap_perm buf1 i1 high hi1 hh1).trans g4, ?_, ?_, ?_⟩
  · intro k hk
    rw [getElem?_swap_of_ne buf1 i1 high k (by omega) (by omega)]
    exact g5 k (by omega)
  · intro k hk1 hk2
    rw [hat, getD_swap buf1 i1 high k hi1 hh1]
    have e1 : ¬ k = high := by omega
    have e2 : ¬ k = i1 := by omega
    simp only [e1, e2, if_false]
    exact postingLe_of_compareCstring _ _ (g6 k hk1 hk2)
  · intro k hk1 hk2
    rw [hat, getD_swap buf1 i1 high k hi1 hh1]
    by_cases e1 : k = high
    · subst e1
      simp only [if_true]
      exact (compareCstring_false_iff _ _).1 (g7 i1 (le_refl _) (by omega))
    · have e2 : ¬ k = i1 := by omega
      simp only [e1, e2, if_false]
      exact (compareCstring_false_iff _ _).1 (g7 k (by omega) (by omega))

theorem getD_eq_of_getElem? (b1 b2 : List Parsing.Posting) (k : Nat) (h : b1[k]? = b2[k]?) :
    b1.getD k default = b2.getD k default := by
  rw [List.getD_eq_getElem?_getD, List.getD_eq_getElem?_getD, h]

/-- Correctness of `quickSortBuffer` on the range `[low, high]`: with fuel above
the range length it returns a permutation that changes nothing outside the
range and is sorted inside it. -/
theorem quickSortBuffer_spec : ∀ (fuel low : Nat) (high : Int) (buf : List Parsing.Posting),
    high < buf.length → 0 < fuel → high + 1 - low < fuel →
    ∃ buf2, Parsing.quickSortBuffer fuel low high buf = some buf2 ∧
      buf2.length = buf.length ∧ List.Perm buf2 buf ∧
      (∀ k : Nat, (k < low ∨ high < k) → buf2[k]? = buf[k]?) ∧
      (∀ a b : Nat, low ≤ a → a < b → (b : Int) ≤ high →
        postingLe (buf2.getD a default) (buf2.getD b default)) := by
  intro fuel
  induction fuel with
  | zero => intro low high buf _ h; omega
  | succ fuel ih =>
    intro low high buf hhigh _ hfuel
    simp only [Parsing.quickSortBuffer]
    by_cases hlt : (low : Int) < high
    · rw [if_pos hlt]
      obtain ⟨h, hh⟩ : ∃ h : Nat, high = (h : Int) := ⟨high.toNat, by omega⟩
      subst hh
      simp only [Int.toNat_ofNat]
      have hlh : low ≤ h := by omega
      have hhl : h < buf.length := by omega
      obtain ⟨p1, p2, p3, p4, p5, p6, p7⟩ := partition_spec low h buf hlh hhl
      generalize Parsing.partition low h buf = r at p1 p2 p3 p4 p5 p6 p7
      obtain ⟨p, bufp⟩ := r
      simp only at p1 p2 p3 p4 p5 p6 p7 ⊢
      obtain ⟨buf1, q1, q2, q3, q4, q5⟩ := ih low ((p : Int) - 1) bufp (by omega) (by omega)
        (by omega)
      rw [q1]
      simp only
      obtain ⟨buf2, s1, s2, s3, s4, s5⟩ := ih (p + 1) (h : Int) buf1 (by omega) (by omega)
        (by push_cast; omega)
      refine ⟨buf2, s1, by omega, (s3.trans q3).trans p4, ?_, ?_⟩
      · intro k hk
        rw [s4 k (by omega), q4 k (by omega), p5 k (by omega)]
      · -- the pivot stays at position `p`
        have hpiv1 : buf1.getD p default = bufp.getD p default :=
          getD_eq_of_getElem? _ _ _ (q4 p (Or.inr (by omega)))
        have hpiv2 : buf2.getD p default = bufp.getD p default := by
          rw [getD_eq_of_getElem? _ _ _ (s4 p (Or.inl (by omega)))]; exact hpiv1
        -- elements left of `p`
        have hleft1 : ∀ k, low ≤ k → k < p →
            postingLe (buf1.getD k default) (bufp.getD p default) :=
          range_transfer bufp buf1 low p p1 (by omega) q2 q3
            (fun k hk => q4 k (by omega)) (fun x => postingLe x (bufp.getD p default)) p6
        have hleft2 : ∀ k, low ≤ k → k < p →
            postingLe (buf2.getD k default) (bufp.getD p default) := by
          intro k hk1 hk2
          rw [getD_eq_of_getElem? _ _ _ (s4 k (Or.inl (by omega)))]
          exact hleft1 k hk1 hk2
        -- elements right of `p`
        have hright1 : ∀ k, p + 1 ≤ k → k < h + 1 →
            postingLe (bufp.getD p default) (buf1.getD k default) := by
          intro k hk1 hk2
          rw [getD_eq_of_getElem? _ _ _ (q4 k (Or.inr (by omega)))]
          exact p7 k (by omega) (by omega)
        have hright2 : ∀ k, p + 1 ≤ k → k < h + 1 →
            postingLe (bufp.getD p default) (buf2.getD k default) :=
          range_transfer buf1 buf2 (p + 1) (h + 1) (by omega) (by omega) s2 s3
            (fun k hk => s4 k (by omega)) (fun x => postingLe (bufp.getD p default) x) hright1
        intro a b ha hab hb
        have hb2 : b ≤ h := by omega
        by_cases c1 : b < p
        · rw [getD_eq_of_getElem? _ _ _ (s4 a (Or.inl (by omega))),
            getD_eq_of_getElem? _ _ _ (s4 b (Or.inl (by omega)))]
          exact q5 a b ha hab (by omega)
        · by_cases c2 : b = p
          · subst c2
            rw [hpiv2]
            exact hleft2 a ha hab
          · by_cases c3 : a < p
            · exact postingLe_trans (hleft2 a ha c3) (hright2 b (by omega) (by omega))
            · by_cases c4 : a = p
              · subst c4
                rw [hpiv2]
                exact hright2 b (by omega) (by omega)
              · exact s5 a b (by omega) hab hb
    · rw [if_neg hlt]
      refine ⟨buf, rfl, rfl, List.Perm.refl _, fun _ _ => rfl, ?_⟩
      intro a b ha hab hb
      omega

theorem quickSortBuffer_sorted (buf : List Parsing.Posting) :
    ∃ sorted, Parsing.quickSortBuffer (buf.length + 1) 0 ((buf.length : Int) - 1) buf =
        some sorted ∧
      List.Perm sorted buf ∧ sorted.Pairwise postingLe := by
  obtain ⟨s, h1, h2, h3, _, h5⟩ := quickSortBuffer_spec (buf.length + 1) 0
    ((buf.length : Int) - 1) buf (by omega) (by omega) (by omega)
  refine ⟨s, h1, h3, ?_⟩
  rw [List.pairwise_iff_getElem]
  intro i j hi hj hij
  have := h5 i j (Nat.zero_le _) hij (by omega)
  have e1 := getD_of_lt s i hi
  have e2 := getD_of_lt s j hj
  rw [List.getElem?_eq_getElem hi] at e1
  rw [List.getElem?_eq_getElem hj] at e2
  simp only [Option.some.injEq] at e1 e2
  rw [e1, e2]
  exact this

/-! ## Lemmas: run-length collapse -/

theorem occurrences_cons (p : Parsing.Posting) (l : List Parsing.Posting) (t : List Nat)
    (d : Int) :
    occurrences (p :: l) t d =
      occurrences l t d + (if p.termPtr = t ∧ p.docId = d then 1 else 0) := by
  unfold occurrences
  rw [List.countP_cons]
  simp

theorem occurrences_eq_zero (l : List Parsing.Posting) (t : List Nat) (d : Int)
    (h : ∀ p ∈ l, ¬ (p.termPtr = t ∧ p.docId = d)) : occurrences l t d = 0 := by
  unfold occurrences
  rw [List.countP_eq_zero]
  intro p hp
  simpa using h p hp

theorem occurrences_perm {l1 l2 : List Parsing.Posting} (h : List.Perm l1 l2) (t : List Nat)
    (d : Int) : occurrences l1 t d = occurrences l2 t d := by
  unfold occurrences
  exact h.countP_eq _

/-- What the collapse loop writes, given a sorted remainder `l` whose postings
are not below the pending key `(lastTermPtr, lastDoc)` and an output strictly
below it. -/
theorem collapseLoop_spec : ∀ (l : List Parsing.Posting) (lastTermPtr : List Nat)
    (lastDoc freq : Int) (ofs : List Record),
    l.Pairwise postingLe →
    (∀ p ∈ l, keyLe lastTermPtr lastDoc p.termPtr p.docId) →
    ofs.Pairwise recordLt →
    (∀ o ∈ ofs, keyLt o.term o.docId lastTermPtr lastDoc) →
    (Parsing.collapseLoop l lastTermPtr lastDoc freq ofs).Pairwise recordLt ∧
    (∀ o ∈ ofs, o ∈ Parsing.collapseLoop l lastTermPtr lastDoc freq ofs) ∧
    (∃ r ∈ Parsing.collapseLoop l lastTermPtr lastDoc freq ofs,
      r.term = lastTermPtr ∧ r.docId = lastDoc) ∧
    (∀ p ∈ l, ∃ r ∈ Parsing.collapseLoop l lastTermPtr lastDoc freq ofs,
      r.term = p.termPtr ∧ r.docId = p.docId) ∧
    (∀ r ∈ Parsing.collapseLoop l lastTermPtr lastDoc freq ofs, r ∈ ofs ∨
      (((r.term = lastTermPtr ∧ r.docId = lastDoc) ∨
          ∃ p ∈ l, p.termPtr = r.term ∧ p.docId = r.docId) ∧
        r.freq = (if r.term = lastTermPtr ∧ r.docId = lastDoc then freq else 0) +
          (occurrences l r.term r.docId : Int)))
  | [], lastTermPtr, lastDoc, freq, ofs, _, _, hofs, hlt => by
    simp only [Parsing.collapseLoop]
    refine ⟨?_, ?_, ?_, ?_, ?_⟩
    · rw [List.pairwise_append]
      refine ⟨hofs, by simp, ?_⟩
      intro a ha b hb
      simp only [List.mem_singleton] at hb
      subst hb
      exact hlt a ha
    · intro o ho; exact List.mem_append_left _ ho
    · exact ⟨_, List.mem_append_right _ (List.mem_singleton_self _), rfl, rfl⟩
    · intro p hp; simp at hp
    · intro r hr
      rcases List.mem_append.1 hr with hr | hr
      · exact Or.inl hr
      · simp only [List.mem_singleton] at hr
        subst hr
        exact Or.inr ⟨Or.inl ⟨rfl, rfl⟩, by simp [occurrences]⟩
  | p :: rest, lastTermPtr, lastDoc, freq, ofs, hl, hge, hofs, hlt => by
    rw [List.pairwise_cons] at hl
    simp only [Parsing.collapseLoop]
    by_cases hc : strcmp p.termPtr lastTermPtr = 0 ∧ p.docId = lastDoc
    · rw [if_pos hc]
      have hpt : p.termPtr = lastTermPtr := (strcmp_eq_zero _ _).1 hc.1
      have hpd : p.docId = lastDoc := hc.2
      obtain ⟨g1, g2, g3, g4, g5⟩ := collapseLoop_spec rest lastTermPtr lastDoc (freq + 1) ofs
        hl.2 (fun q hq => hge q (List.mem_cons_of_mem _ hq)) hofs hlt
      refine ⟨g1, g2, g3, ?_, ?_⟩
      · intro q hq
        rcases List.mem_cons.1 hq with e | hq
        · subst e
          obtain ⟨r, hr, e1, e2⟩ := g3
          exact ⟨r, hr, by rw [e1, hpt], by rw [e2, hpd]⟩
        · exact g4 q hq
      · intro r hr
        rcases g5 r hr with h | ⟨h1, h2⟩
        · exact Or.inl h
        · refine Or.inr ⟨?_, ?_⟩
          · rcases h1 with h1 | ⟨q, hq, e⟩
            · exact Or.inl h1
            · exact Or.inr ⟨q, List.mem_cons_of_mem _ hq, e⟩
          · rw [h2, occurrences_cons, hpt, hpd]
            by_cases hk : r.term = lastTermPtr ∧ r.docId = lastDoc
            · have hk2 : lastTermPtr = r.term ∧ lastDoc = r.docId := ⟨hk.1.symm, hk.2.symm⟩
              rw [if_pos hk, if_pos hk, if_pos hk2]
              push_cast
              ring
            · have hk2 : ¬ (lastTermPtr = r.term ∧ lastDoc = r.docId) :=
                fun e => hk ⟨e.1.symm, e.2.symm⟩
              rw [if_neg hk, if_neg hk, if_neg hk2]
              push_cast
              ring
    · rw [if_neg hc]
      have hne : ¬ (p.termPtr = lastTermPtr ∧ p.docId = lastDoc) := by
        intro e
        exact hc ⟨(strcmp_eq_zero _ _).2 e.1, e.2⟩
      have hplt : keyLt lastTermPtr lastDoc p.termPtr p.docId :=
        keyLt_of_le_of_ne (hge p (List.mem_cons_self _ _)) hne
      have hrest : ∀ q ∈ rest, keyLe p.termPtr p.docId q.termPtr q.docId := hl.1
      have hall : ∀ q ∈ p :: rest, keyLt lastTermPtr lastDoc q.termPtr q.docId := by
        intro q hq
        rcases List.mem_cons.1 hq with e | hq
        · subst e; exact hplt
        · exact keyLt_of_lt_of_le hplt (hrest q hq)
      obtain ⟨g1, g2, g3, g4, g5⟩ := collapseLoop_spec rest p.termPtr p.docId 1
        (ofs ++ [⟨lastTermPtr, lastDoc, freq⟩]) hl.2 hrest
        (by
          rw [List.pairwise_append]
          refine ⟨hofs, by simp, ?_⟩
          intro a ha b hb
          simp only [List.mem_singleton] at hb
          subst hb
          exact hlt a ha)
        (by
          intro o ho
          rcases List.mem_append.1 ho with ho | ho
          · exact keyLt_of_lt_of_le (hlt o ho) (keyLe_of_lt hplt)
          · simp only [List.mem_singleton] at ho
            subst ho
            exact hplt)
      refine ⟨g1, ?_, ?_, ?_, ?_⟩
      · intro o ho
        exact g2 o (List.mem_append_left _ ho)
      · exact ⟨_, g2 _ (List.mem_append_right _ (List.mem_singleton_self _)), rfl, rfl⟩
      · intro q hq
        rcases List.mem_cons.1 hq with e | hq
        · subst e; exact g3
        · exact g4 q hq
      · intro r hr
        rcases g5 r hr with h | ⟨h1, h2⟩
        · rcases List.mem_append.1 h with h | h
          · exact Or.inl h
          · simp only [List.mem_singleton] at h
            subst h
            refine Or.inr ⟨Or.inl ⟨rfl, rfl⟩, ?_⟩
            have hz : occurrences (p :: rest) lastTermPtr lastDoc = 0 := by
              apply occurrences_eq_zero
              intro q hq e
              have := hall q hq
              rw [e.1, e.2] at this
              exact keyLt_irrefl _ _ this
            simp [hz]
        · have hmem : ∃ q ∈ p :: rest, q.termPtr = r.term ∧ q.docId = r.docId := by
            rcases h1 with h1 | ⟨q, hq, e⟩
            · exact ⟨p, List.mem_cons_self _ _, h1.1.symm, h1.2.symm⟩
            · exact ⟨q, List.mem_cons_of_mem _ hq, e⟩
          refine Or.inr ⟨Or.inr hmem, ?_⟩
          have hnl : ¬ (r.term = lastTermPtr ∧ r.docId = lastDoc) := by
            intro e
            obtain ⟨q, hq, e2⟩ := hmem
            have := hall q hq
            rw [e2.1, e2.2, e.1, e.2] at this
            exact keyLt_irrefl _ _ this
          rw [h2, occurrences_cons]
          by_cases hk : r.term = p.termPtr ∧ r.docId = p.docId
          · have hk2 : p.termPtr = r.term ∧ p.docId = r.docId := ⟨hk.1.symm, hk.2.symm⟩
            rw [if_pos hk, if_neg hnl, if_pos hk2]
            push_cast
            ring
          · have hk2 : ¬ (p.termPtr = r.term ∧ p.docId = r.docId) :=
              fun e => hk ⟨e.1.symm, e.2.symm⟩
            rw [if_neg hk, if_neg hnl, if_neg hk2]
            push_cast
            ring

/-- What `outputFile` writes for a non-empty buffer: the records are strictly
increasing by `(term, docId)`, their keys are exactly the keys of the buffer,
and the freq written for a key is its number of occurrences, plus one for the
key of the first posting of the sorted buffer. -/
theorem outputFile_spec (buf : List Parsing.Posting) (hne : buf ≠ []) :
    ∃ (first : Parsing.Posting) (out : List Record),
      Parsing.outputFile buf = some out ∧
      first ∈ buf ∧ (∀ p ∈ buf, postingLe first p) ∧
      out.Pairwise recordLt ∧
      (∀ p ∈ buf, ∃ r ∈ out, r.term = p.termPtr ∧ r.docId = p.docId) ∧
      (∀ r ∈ out, (∃ p ∈ buf, p.termPtr = r.term ∧ p.docId = r.docId) ∧
        r.freq = (if r.term = first.termPtr ∧ r.docId = first.docId then 1 else 0) +
          (occurrences buf r.term r.docId : Int)) := by
  obtain ⟨sorted, hs, hperm, hsorted⟩ := quickSortBuffer_sorted buf
  have hlen : buf.length ≠ 0 := fun e => hne (List.length_eq_zero.1 e)
  unfold Parsing.outputFile
  rw [if_neg hlen, hs]
  simp only
  cases sorted with
  | nil => exact absurd (hperm.symm.eq_nil) hne
  | cons s0 rest =>
    have hfirst : (s0 :: rest).getD 0 default = s0 := rfl
    rw [hfirst]
    have hge : ∀ p ∈ s0 :: rest, keyLe s0.termPtr s0.docId p.termPtr p.docId := by
      intro p hp
      rcases List.mem_cons.1 hp with e | hp
      · subst e; exact keyLe_refl _ _
      · exact (List.pairwise_cons.1 hsorted).1 p hp
    obtain ⟨g1, _, _, g4, g5⟩ := collapseLoop_spec (s0 :: rest) s0.termPtr s0.docId 1 []
      hsorted hge List.Pairwise.nil (fun o ho => by simp at ho)
    refine ⟨s0, _, rfl, hperm.subset (List.mem_cons_self _ _), ?_, g1, ?_, ?_⟩
    · intro p hp
      exact hge p (hperm.symm.subset hp)
    · intro p hp
      exact g4 p (hperm.symm.subset hp)
    · intro r hr
      rcases g5 r hr with h | ⟨h1, h2⟩
      · simp at h
      · refine ⟨?_, ?_⟩
        · rcases h1 with h1 | ⟨q, hq, e⟩
          · exact ⟨s0, hperm.subset (List.mem_cons_self _ _), h1.1.symm, h1.2.symm⟩
          · exact ⟨q, hperm.subset hq, e⟩
        · rw [h2, occurrences_perm hperm]

theorem countP_key_le_one : ∀ (out : List Record), out.Pairwise recordLt →
    ∀ (t : List Nat) (d : Int),
      out.countP (fun r => decide (r.term = t ∧ r.docId = d)) ≤ 1
  | [], _, _, _ => by simp
  | a :: l, h, t, d => by
    rw [List.pairwise_cons] at h
    have ih := countP_key_le_one l h.2 t d
    rw [List.countP_cons]
    by_cases hk : a.term = t ∧ a.docId = d
    · have hz : l.countP (fun r => decide (r.term = t ∧ r.docId = d)) = 0 := by
        rw [List.countP_eq_zero]
        intro r hr
        simp only [decide_eq_true_eq]
        intro e
        have := h.1 r hr
        unfold recordLt at this
        rw [e.1, e.2, hk.1, hk.2] at this
        exact keyLt_irrefl _ _ this
      rw [hz]
      split <;> omega
    · have : decide (a.term = t ∧ a.docId = d) = false := by simpa using hk
      rw [this]
      simpa using ih

/-! ## Lemmas: the index builder -/

theorem readLoop_eq_foldl : ∀ (ifs : List Record) (s : Index.BuilderState),
    Index.readLoop ifs s = (fileRecords ifs).foldl Index.processRecord s
  | [], s => by simp [Index.readLoop, fileRecords]
  | p :: ifs, s => by
    simp only [Index.readLoop]
    by_cases h : p.term.length = 0
    · rw [if_pos h, fileRecords_cons_of_eq p ifs h]; rfl
    · rw [if_neg h, fileRecords_cons_of_ne p ifs h, List.foldl_cons]
      exact readLoop_eq_foldl ifs _

theorem processRecord_block (s : Index.BuilderState) (p : Record) :
    (Index.processRecord s p).block =
      if s.block.docIds.length + 1 = 128 then ⟨[], []⟩
      else ⟨s.block.docIds ++ [p.docId], s.block.freqs ++ [p.freq]⟩ := by
  unfold Index.processRecord Index.startTerm Index.flushBlock MAX_BUF_POSTINGS
  by_cases h1 : s.haveOnePosting = true <;> by_cases h2 : p.term = s.currentTerm <;>
    by_cases h3 : s.block.docIds.length + 1 = 128 <;> simp [h1, h2, h3]

theorem processRecord_blocks (s : Index.BuilderState) (p : Record) :
    (Index.processRecord s p).blocks =
      if s.block.docIds.length + 1 = 128 then
        s.blocks ++ [⟨s.block.docIds ++ [p.docId], s.block.freqs ++ [p.freq]⟩]
      else s.blocks := by
  unfold Index.processRecord Index.startTerm Index.flushBlock MAX_BUF_POSTINGS
  by_cases h1 : s.haveOnePosting = true <;> by_cases h2 : p.term = s.currentTerm <;>
    by_cases h3 : s.block.docIds.length + 1 = 128 <;> simp [h1, h2, h3]

theorem processRecord_metadata (s : Index.BuilderState) (p : Record) :
    (Index.processRecord s p).metadata =
      if s.block.docIds.length + 1 = 128 then
        s.metadata ++ [blockMeta ⟨s.block.docIds ++ [p.docId], s.block.freqs ++ [p.freq]⟩]
      else s.metadata := by
  unfold Index.processRecord Index.startTerm Index.flushBlock MAX_BUF_POSTINGS compressBlock
    blockMeta
  by_cases h1 : s.haveOnePosting = true <;> by_cases h2 : p.term = s.currentTerm <;>
    by_cases h3 : s.block.docIds.length + 1 = 128 <;> simp [h1, h2, h3]

theorem processRecord_ofs (s : Index.BuilderState) (p : Record) :
    (Index.processRecord s p).ofs =
      if s.block.docIds.length + 1 = 128 then
        s.ofs ++ blockBytes ⟨s.block.docIds ++ [p.docId], s.block.freqs ++ [p.freq]⟩
      else s.ofs := by
  unfold Index.processRecord Index.startTerm Index.flushBlock MAX_BUF_POSTINGS compressBlock
    blockBytes
  by_cases h1 : s.haveOnePosting = true <;> by_cases h2 : p.term = s.currentTerm <;>
    by_cases h3 : s.block.docIds.length + 1 = 128 <;> simp [h1, h2, h3]

theorem processRecord_blockCount (s : Index.BuilderState) (p : Record) :
    (Index.processRecord s p).blockCount =
      if s.block.docIds.length + 1 = 128 then (s.blockCount + 1) % 2 ^ 32
      else s.blockCount := by
  unfold Index.processRecord Index.startTerm Index.flushBlock MAX_BUF_POSTINGS compressBlock
  by_cases h1 : s.haveOnePosting = true <;> by_cases h2 : p.term = s.currentTerm <;>
    by_cases h3 : s.block.docIds.length + 1 = 128 <;> simp [h1, h2, h3]

theorem processRecord_have (s : Index.BuilderState) (p : Record) :
    (Index.processRecord s p).haveOnePosting = true := by
  unfold Index.processRecord Index.startTerm Index.flushBlock MAX_BUF_POSTINGS
  by_cases h1 : s.haveOnePosting = true <;> by_cases h2 : p.term = s.currentTerm <;>
    by_cases h3 : s.block.docIds.length + 1 = 128 <;> simp [h1, h2, h3]

theorem processRecord_currentTerm (s : Index.BuilderState) (p : Record) :
    (Index.processRecord s p).currentTerm = p.term := by
  unfold Index.processRecord Index.startTerm Index.flushBlock MAX_BUF_POSTINGS
  by_cases h1 : s.haveOnePosting = true <;> by_cases h2 : p.term = s.currentTerm <;>
    by_cases h3 : s.block.docIds.length + 1 = 128 <;> simp [h1, h2, h3]

/-- The term-tracking variables after one record: a new term starts when this
is the first record or its term differs from `currentTerm`. -/
theorem processRecord_term (s : Index.BuilderState) (p : Record) :
    (s.haveOnePosting = true ∧ p.term = s.currentTerm →
      (Index.processRecord s p).lexicon = s.lexicon ∧
      (Index.processRecord s p).termStartBlock = s.termStartBlock ∧
      (Index.processRecord s p).termStartIndex = s.termStartIndex ∧
      (Index.processRecord s p).termPostingCount = (s.termPostingCount + 1) % 2 ^ 32) ∧
    (¬ (s.haveOnePosting = true ∧ p.term = s.currentTerm) →
      (Index.processRecord s p).lexicon =
        (if s.haveOnePosting = true then
          s.lexicon ++ [(s.currentTerm,
            ⟨s.termStartBlock, s.termStartIndex, s.termPostingCount⟩)]
        else s.lexicon) ∧
      (Index.processRecord s p).termStartBlock = s.blockCount ∧
      (Index.processRecord s p).termStartIndex = s.block.docIds.length % 2 ^ 32 ∧
      (Index.processRecord s p).termPostingCount = 1) := by
  unfold Index.processRecord Index.startTerm Index.flushBlock MAX_BUF_POSTINGS
    Index.writeLexiconEntry
  by_cases h1 : s.haveOnePosting = true <;> by_cases h2 : p.term = s.currentTerm <;>
    by_cases h3 : s.block.docIds.length + 1 = 128 <;> simp [h1, h2, h3]

theorem blocksInv_init : BlocksInv [] Index.initialState := by
  refine ⟨by simp [Index.initialState, blockPairs], ?_, by simp [Index.initialState],
    by simp [Index.initialState], by simp [Index.initialState], by simp [Index.initialState],
    by simp [Index.initialState]⟩
  intro b hb
  simp [Index.initialState] at hb

theorem blockPairs_snoc (b : Block) (d f : Int) (h : b.freqs.length = b.docIds.length) :
    blockPairs ⟨b.docIds ++ [d], b.freqs ++ [f]⟩ = blockPairs b ++ [(d, f)] := by
  unfold blockPairs
  simp only
  rw [List.zip_append h.symm]
  rfl

theorem blocksInv_step (P : List Record) (s : Index.BuilderState) (p : Record)
    (h : BlocksInv P s) : BlocksInv (P ++ [p]) (Index.processRecord s p) := by
  obtain ⟨h1, h2, h3, h4, h5, h6, h7⟩ := h
  have hp := blockPairs_snoc s.block p.docId p.freq h3.2
  by_cases hc : s.block.docIds.length + 1 = 128
  · refine ⟨?_, ?_, ?_, ?_, ?_, ?_, ?_⟩
    · rw [processRecord_blocks, processRecord_block, if_pos hc, if_pos hc]
      simp only [List.map_append, List.map_cons, List.map_nil, List.flatten_append,
        List.flatten_cons, List.flatten_nil, List.append_nil, hp]
      rw [← List.append_assoc, h1]
      simp [blockPairs]
    · rw [processRecord_blocks, if_pos hc]
      intro b hb
      rcases List.mem_append.1 hb with hb | hb
      · exact h2 b hb
      · simp only [List.mem_singleton] at hb
        subst hb
        simp only [List.length_append, List.length_singleton]
        omega
    · rw [processRecord_block, if_pos hc]
      simp
    · rw [processRecord_blocks, processRecord_block, if_pos hc, if_pos hc]
      simp only [List.length_append, List.length_singleton, List.length_nil]
      omega
    · rw [processRecord_blocks, processRecord_metadata, if_pos hc, if_pos hc, h5]
      simp
    · rw [processRecord_blocks, processRecord_ofs, if_pos hc, if_pos hc, h6]
      simp
    · rw [processRecord_blocks, processRecord_blockCount, if_pos hc, if_pos hc, h7]
      simp only [List.length_append, List.length_singleton]
      omega
  · refine ⟨?_, ?_, ?_, ?_, ?_, ?_, ?_⟩
    · rw [processRecord_blocks, processRecord_block, if_neg hc, if_neg hc, hp,
        ← List.append_assoc, h1]
      simp
    · rw [processRecord_blocks, if_neg hc]
      exact h2
    · rw [processRecord_block, if_neg hc]
      simp only [List.length_append, List.length_singleton]
      omega
    · rw [processRecord_blocks, processRecord_block, if_neg hc, if_neg hc]
      simp only [List.length_append, List.length_singleton]
      omega
    · rw [processRecord_blocks, processRecord_metadata, if_neg hc, if_neg hc, h5]
    · rw [processRecord_blocks, processRecord_ofs, if_neg hc, if_neg hc, h6]
    · rw [processRecord_blocks, processRecord_blockCount, if_neg hc, if_neg hc, h7]

theorem termAt_append_left (P : List Record) (p : Record) (q : Nat) (h : q < P.length) :
    termAt (P ++ [p]) q = termAt P q := by
  unfold termAt
  rw [List.getElem?_append_left h]

theorem termAt_append_last (P : List Record) (p : Record) :
    termAt (P ++ [p]) P.length = some p.term := by
  unfold termAt
  simp

theorem termAt_none (P : List Record) (q : Nat) (h : P.length ≤ q) : termAt P q = none := by
  unfold termAt
  rw [List.getElem?_eq_none h]
  rfl

theorem chain_append : ∀ (xs : List (List Nat × LexiconEntry)) (a m : Nat)
    (x : List Nat × LexiconEntry), Chain a xs m → entryPos x.2 = m →
    Chain a (xs ++ [x]) (m + x.2.listLength)
  | [], a, m, x, h, hx => by
    simp only [Chain] at h
    subst h
    simp [Chain, hx]
  | y :: ys, a, m, x, h, hx => by
    simp only [Chain, List.cons_append] at h ⊢
    exact ⟨h.1, chain_append ys _ m x h.2 hx⟩

theorem entryLocal_extend (P : List Record) (p : Record) (x : List Nat × LexiconEntry)
    (h : EntryLocal P x) (hlt : entryPos x.2 + x.2.listLength < P.length) :
    EntryLocal (P ++ [p]) x := by
  obtain ⟨h1, h2, h3, h4, h5⟩ := h
  refine ⟨h1, h2, ?_, ?_, ?_⟩
  · intro q hq1 hq2
    rw [termAt_append_left P p q (by omega)]
    exact h3 q hq1 hq2
  · rw [termAt_append_left P p _ hlt]
    exact h4
  · rcases h5 with h5 | h5
    · exact Or.inl h5
    · refine Or.inr ?_
      rw [termAt_append_left P p _ (by omega)]
      exact h5

theorem termInv_first (s : Index.BuilderState) (p : Record)
    (hb : BlocksInv [] s) (hh : s.haveOnePosting = false) (hl : s.lexicon = []) :
    TermInv [p] (Index.processRecord s p) := by
  have hcnt := hb.count
  have hbc := hb.bc
  simp only [List.length_nil] at hcnt
  have hblocks : s.blocks.length = 0 := by omega
  have hblk : s.block.docIds.length = 0 := by omega
  have hne : ¬ (s.haveOnePosting = true ∧ p.term = s.currentTerm) := by simp [hh]
  obtain ⟨e1, e2, e3, e4⟩ := (processRecord_term s p).2 hne
  rw [hbc, hblocks] at e2
  rw [hblk] at e3
  simp only [Nat.zero_mod] at e2 e3
  have e1b : (Index.processRecord s p).lexicon = [] := by rw [e1, hh, hl]; simp
  refine ⟨processRecord_have s p, ?_, by omega, by omega, ?_, ?_, ?_, ?_, ?_⟩
  · rw [processRecord_currentTerm]; simp [termAt]
  · rw [e2, e3, e4]; simp
  · intro q _ hq2
    simp only [List.length_singleton] at hq2
    have : q = 0 := by omega
    subst this
    rw [processRecord_currentTerm]; simp [termAt]
  · left; rw [e2, e3]
  · rw [e1b, e2, e3]; simp [Chain]
  · rw [e1b]; intro x hx; simp at hx

theorem termInv_step (P : List Record) (s : Index.BuilderState) (p : Record)
    (hb : BlocksInv P s) (ht : TermInv P s) (hlen : P.length + 1 < 2 ^ 32) :
    TermInv (P ++ [p]) (Index.processRecord s p) := by
  obtain ⟨t1, t2, t3, t4, t5, t6, t7, t8, t9⟩ := ht
  have hcnt := hb.count
  have hbc := hb.bc
  have hcur := hb.cur
  have hn : 1 ≤ P.length := by omega
  have hlast : (P ++ [p]).length - 1 = P.length := by simp
  have hlen2 : (P ++ [p]).length = P.length + 1 := by simp
  by_cases hsame : s.haveOnePosting = true ∧ p.term = s.currentTerm
  · obtain ⟨e1, e2, e3, e4⟩ := (processRecord_term s p).1 hsame
    have e4b : (Index.processRecord s p).termPostingCount = s.termPostingCount + 1 := by
      rw [e4]; exact Nat.mod_eq_of_lt (by omega)
    refine ⟨processRecord_have s p, ?_, by rw [e3]; exact t3, by omega, ?_, ?_, ?_, ?_, ?_⟩
    · rw [hlast, processRecord_currentTerm, termAt_append_last]
    · rw [e2, e3, e4b, hlen2]; omega
    · intro q hq1 hq2
      rw [e2, e3] at hq1
      rw [processRecord_currentTerm]
      by_cases hq : q < P.length
      · rw [termAt_append_left P p q hq, t6 q hq1 hq, hsame.2]
      · have : q = P.length := by rw [hlen2] at hq2; omega
        subst this
        exact termAt_append_last P p
    · rw [e2, e3, processRecord_currentTerm, hsame.2]
      rcases t7 with t7 | t7
      · exact Or.inl t7
      · refine Or.inr ?_
        rw [termAt_append_left P p _ (by omega)]
        exact t7
    · rw [e1, e2, e3]; exact t8
    · rw [e1, e2, e3]
      intro x hx
      obtain ⟨l1, l2⟩ := t9 x hx
      exact ⟨entryLocal_extend P p x l1 (by omega), l2⟩
  · obtain ⟨e1, e2, e3, e4⟩ := (processRecord_term s p).2 hsame
    rw [if_pos t1] at e1
    have hdiff : p.term ≠ s.currentTerm := fun e => hsame ⟨t1, e⟩
    have e2b : (Index.processRecord s p).termStartBlock = s.blocks.length := by
      rw [e2, hbc]; exact Nat.mod_eq_of_lt (by omega)
    have e3b : (Index.processRecord s p).termStartIndex = s.block.docIds.length := by
      rw [e3]; exact Nat.mod_eq_of_lt (by omega)
    have hpos : 128 * (Index.processRecord s p).termStartBlock +
        (Index.processRecord s p).termStartIndex = P.length := by
      rw [e2b, e3b]; omega
    have hprev : termAt (P ++ [p]) (P.length - 1) = some s.currentTerm := by
      rw [termAt_append_left P p _ (by omega)]; exact t2
    refine ⟨processRecord_have s p, ?_, by rw [e3b]; exact hcur.1, by omega, ?_, ?_, ?_, ?_, ?_⟩
    · rw [hlast, processRecord_currentTerm, termAt_append_last]
    · rw [hpos, e4, hlen2]
    · intro q hq1 hq2
      rw [hpos] at hq1
      have : q = P.length := by rw [hlen2] at hq2; omega
      subst this
      rw [processRecord_currentTerm]
      exact termAt_append_last P p
    · refine Or.inr ?_
      rw [hpos, hprev, processRecord_currentTerm]
      intro e
      exact hdiff (Option.some.inj e).symm
    · rw [e1, hpos]
      have := chain_append s.lexicon 0 _
        (s.currentTerm, ⟨s.termStartBlock, s.termStartIndex, s.termPostingCount⟩) t8 rfl
      simp only at this
      rw [t5] at this
      exact this
    · rw [e1, hpos]
      intro x hx
      rcases List.mem_append.1 hx with hx | hx
      · obtain ⟨l1, l2⟩ := t9 x hx
        exact ⟨entryLocal_extend P p x l1 (by omega), by omega⟩
      · simp only [List.mem_singleton] at hx
        subst hx
        unfold EntryLocal entryPos
        dsimp only
        refine ⟨⟨t3, t4, ?_, ?_, ?_⟩, by omega⟩
        · intro q hq1 hq2
          rw [termAt_append_left P p q (by omega)]
          exact t6 q hq1 (by omega)
        · rw [t5, termAt_append_last]
          intro e
          exact hdiff (Option.some.inj e)
        · rcases t7 with t7 | t7
          · exact Or.inl t7
          · refine Or.inr ?_
            rw [termAt_append_left P p _ (by omega)]
            exact t7

/-- Both invariants hold after the read loop has consumed the records `Q`
following a prefix `P` for which they hold. -/
theorem builder_inv : ∀ (Q P : List Record) (s : Index.BuilderState),
    BlocksInv P s →
    (P = [] → s.haveOnePosting = false ∧ s.lexicon = []) →
    (P ≠ [] → TermInv P s) →
    (P ++ Q).length < 2 ^ 32 →
    BlocksInv (P ++ Q) (Q.foldl Index.processRecord s) ∧
    (P ++ Q = [] → (Q.foldl Index.processRecord s).haveOnePosting = false ∧
      (Q.foldl Index.processRecord s).lexicon = []) ∧
    (P ++ Q ≠ [] → TermInv (P ++ Q) (Q.foldl Index.processRecord s))
  | [], P, s, hb, h0, h1, _ => by
    simp only [List.append_nil, List.foldl_nil]
    exact ⟨hb, h0, h1⟩
  | p :: Q, P, s, hb, h0, h1, hlen => by
    have e : P ++ p :: Q = (P ++ [p]) ++ Q := by simp
    rw [e] at hlen ⊢
    simp only [List.foldl_cons]
    have hlen1 : P.length + 1 < 2 ^ 32 := by
      simp only [List.length_append, List.length_singleton] at hlen
      omega
    refine builder_inv Q (P ++ [p]) _ (blocksInv_step P s p hb) (fun e => by simp at e) ?_ hlen
    intro _
    by_cases hP : P = []
    · subst hP
      exact termInv_first s p hb (h0 rfl).1 (h0 rfl).2
    · exact termInv_step P s p hb (h1 hP) hlen1

theorem blocksInv_foldl : ∀ (Q P : List Record) (s : Index.BuilderState),
    BlocksInv P s → BlocksInv (P ++ Q) (Q.foldl Index.processRecord s)
  | [], P, s, hb => by simpa using hb
  | p :: Q, P, s, hb => by
    have e : P ++ p :: Q = (P ++ [p]) ++ Q := by simp
    rw [e]
    exact blocksInv_foldl Q (P ++ [p]) _ (blocksInv_step P s p hb)

theorem foldl_have_iff : ∀ (Q : List Record) (s : Index.BuilderState),
    (Q.foldl Index.processRecord s).haveOnePosting =
      (if Q = [] then s.haveOnePosting else true)
  | [], s => by simp
  | p :: Q, s => by
    simp only [List.foldl_cons]
    rw [foldl_have_iff Q _, processRecord_have]
    simp

theorem generateInvertedIndex_of_nil (ifs : List Record) (h : fileRecords ifs = []) :
    Index.generateInvertedIndex ifs = Index.initialState := by
  unfold Index.generateInvertedIndex
  rw [readLoop_eq_foldl, h]
  simp [Index.initialState]

/-- The outputs of `generateInvertedIndex` in terms of the state `s` after the
read loop, when at least one record was read. -/
theorem generateInvertedIndex_of_ne (ifs : List Record) (h : fileRecords ifs ≠ []) :
    (Index.generateInvertedIndex ifs).blocks =
        ((fileRecords ifs).foldl Index.processRecord Index.initialState).blocks ++
          (if ((fileRecords ifs).foldl Index.processRecord Index.initialState).block.docIds = []
            then []
            else [((fileRecords ifs).foldl Index.processRecord Index.initialState).block]) ∧
      (Index.generateInvertedIndex ifs).metadata =
        ((fileRecords ifs).foldl Index.processRecord Index.initialState).metadata ++
          (if ((fileRecords ifs).foldl Index.processRecord Index.initialState).block.docIds = []
            then []
            else [blockMeta
              ((fileRecords ifs).foldl Index.processRecord Index.initialState).block]) ∧
      (Index.generateInvertedIndex ifs).ofs =
        ((fileRecords ifs).foldl Index.processRecord Index.initialState).ofs ++
          (if ((fileRecords ifs).foldl Index.processRecord Index.initialState).block.docIds = []
            then []
            else blockBytes
              ((fileRecords ifs).foldl Index.processRecord Index.initialState).block) ∧
      (Index.generateInvertedIndex ifs).lexicon =
        ((fileRecords ifs).foldl Index.processRecord Index.initialState).lexicon ++
          [(((fileRecords ifs).foldl Index.processRecord Index.initialState).currentTerm,
            ⟨((fileRecords ifs).foldl Index.processRecord Index.initialState).termStartBlock,
             ((fileRecords ifs).foldl Index.processRecord Index.initialState).termStartIndex,
             ((fileRecords ifs).foldl Index.processRecord
               Index.initialState).termPostingCount⟩)] := by
  have hh := foldl_have_iff (fileRecords ifs) Index.initialState
  rw [if_neg h] at hh
  unfold Index.generateInvertedIndex
  rw [readLoop_eq_foldl]
  generalize (fileRecords ifs).foldl Index.processRecord Index.initialState = s at hh
  simp only [hh, if_true]
  by_cases hb : s.block.docIds = []
  · simp [hb, Index.writeLexiconEntry]
  · simp [hb, Index.writeLexiconEntry, Index.flushBlock, compressBlock, blockMeta, blockBytes]

/-- The blocks passed to `compressBlock` partition the records read, and the
metadata and index file are their images. -/
theorem generateInvertedIndex_blocks (ifs : List Record) :
    ((Index.generateInvertedIndex ifs).blocks.map blockPairs).flatten =
        (fileRecords ifs).map (fun r => (r.docId, r.freq)) ∧
      (∀ b ∈ (Index.generateInvertedIndex ifs).blocks,
        1 ≤ b.docIds.length ∧ b.docIds.length ≤ 128 ∧ b.freqs.length = b.docIds.length) ∧
      (∀ b ∈ (Index.generateInvertedIndex ifs).blocks.dropLast, b.docIds.length = 128) ∧
      (Index.generateInvertedIndex ifs).blocks.length = ((fileRecords ifs).length + 127) / 128 ∧
      (Index.generateInvertedIndex ifs).metadata =
        (Index.generateInvertedIndex ifs).blocks.map blockMeta ∧
      (Index.generateInvertedIndex ifs).ofs =
        ((Index.generateInvertedIndex ifs).blocks.map blockBytes).flatten := by
  by_cases h : fileRecords ifs = []
  · rw [generateInvertedIndex_of_nil ifs h, h]
    simp [Index.initialState]
  · obtain ⟨e1, e2, e3, _⟩ := generateInvertedIndex_of_ne ifs h
    have hb := blocksInv_foldl (fileRecords ifs) [] Index.initialState blocksInv_init
    rw [List.nil_append] at hb
    generalize (fileRecords ifs).foldl Index.processRecord Index.initialState = s at e1 e2 e3 hb
    obtain ⟨h1, h2, h3, h4, h5, h6, _⟩ := hb
    rw [e1, e2, e3]
    by_cases hc : s.block.docIds = []
    · have hf : s.block.freqs = [] := by
        have := h3.2
        rw [hc] at this
        exact List.length_eq_zero.1 this
      have hp : blockPairs s.block = [] := by simp [blockPairs, hc]
      rw [hp, List.append_nil] at h1
      rw [hc] at h4
      simp only [hc, if_true, List.append_nil]
      refine ⟨h1, ?_, ?_, ?_, h5, h6⟩
      · intro b hb
        have := h2 b hb
        omega
      · intro b hb
        exact (h2 b (List.mem_of_mem_dropLast hb)).1
      · simp only [List.length_nil] at h4
        omega
    · have hlen : 0 < s.block.docIds.length := List.length_pos.2 hc
      simp only [hc, if_false]
      refine ⟨?_, ?_, ?_, ?_, ?_, ?_⟩
      · simpa using h1
      · intro b hb
        rcases List.mem_append.1 hb with hb | hb
        · have := h2 b hb
          omega
        · simp only [List.mem_singleton] at hb
          subst hb
          omega
      · rw [List.dropLast_concat]
        intro b hb
        exact (h2 b hb).1
      · simp only [List.length_append, List.length_singleton]
        omega
      · rw [h5]; simp
      · rw [h6]; simp

theorem chain_le : ∀ (xs : List (List Nat × LexiconEntry)) (a b : Nat), Chain a xs b → a ≤ b
  | [], a, b, h => by simp only [Chain] at h; omega
  | x :: xs, a, b, h => by
    simp only [Chain] at h
    have := chain_le xs _ b h.2
    omega

theorem chain_mem : ∀ (xs : List (List Nat × LexiconEntry)) (a b : Nat), Chain a xs b →
    ∀ x ∈ xs, a ≤ entryPos x.2 ∧ entryPos x.2 + x.2.listLength ≤ b
  | [], _, _, _, x, hx => by simp at hx
  | y :: ys, a, b, h, x, hx => by
    simp only [Chain] at h
    rcases List.mem_cons.1 hx with e | hx
    · subst e
      have := chain_le ys _ b h.2
      omega
    · have := chain_mem ys _ b h.2 x hx
      omega

theorem chain_pairwise : ∀ (xs : List (List Nat × LexiconEntry)) (a b : Nat), Chain a xs b →
    xs.Pairwise (fun x y => entryPos x.2 + x.2.listLength ≤ entryPos y.2)
  | [], _, _, _ => List.Pairwise.nil
  | y :: ys, a, b, h => by
    simp only [Chain] at h
    rw [List.pairwise_cons]
    refine ⟨?_, chain_pairwise ys _ b h.2⟩
    intro x hx
    have := chain_mem ys _ b h.2 x hx
    omega

theorem chain_cover : ∀ (xs : List (List Nat × LexiconEntry)) (a b : Nat), Chain a xs b →
    ∀ q, a ≤ q → q < b → ∃ x ∈ xs, entryPos x.2 ≤ q ∧ q < entryPos x.2 + x.2.listLength
  | [], a, b, h, q, h1, h2 => by simp only [Chain] at h; omega
  | y :: ys, a, b, h, q, h1, h2 => by
    simp only [Chain] at h
    by_cases hq : q < a + y.2.listLength
    · exact ⟨y, List.mem_cons_self _ _, by omega, by omega⟩
    · obtain ⟨x, hx, hx1, hx2⟩ := chain_cover ys _ b h.2 q (by omega) h2
      exact ⟨x, List.mem_cons_of_mem _ hx, hx1, hx2⟩

/-- The lexicon written for a stream of fewer than `2 ^ 32` records tiles the
stream by maximal runs of equal terms. -/
theorem generateInvertedIndex_lexicon (ifs : List Record)
    (hlen : (fileRecords ifs).length < 2 ^ 32) :
    Chain 0 (Index.generateInvertedIndex ifs).lexicon (fileRecords ifs).length ∧
      ∀ x ∈ (Index.generateInvertedIndex ifs).lexicon, EntryLocal (fileRecords ifs) x := by
  by_cases h : fileRecords ifs = []
  · rw [generateInvertedIndex_of_nil ifs h, h]
    simp [Index.initialState, Chain]
  · obtain ⟨_, _, _, e4⟩ := generateInvertedIndex_of_ne ifs h
    obtain ⟨_, _, ht⟩ := builder_inv (fileRecords ifs) [] Index.initialState blocksInv_init
      (fun _ => by simp [Index.initialState]) (fun e => absurd rfl e) (by simpa using hlen)
    rw [List.nil_append] at ht
    have ht := ht h
    generalize (fileRecords ifs).foldl Index.processRecord Index.initialState = s at e4 ht
    obtain ⟨_, t2, t3, t4, t5, t6, t7, t8, t9⟩ := ht
    rw [e4]
    constructor
    · have := chain_append s.lexicon 0 _
        (s.currentTerm, ⟨s.termStartBlock, s.termStartIndex, s.termPostingCount⟩) t8 rfl
      simp only at this
      rw [t5] at this
      exact this
    · intro x hx
      rcases List.mem_append.1 hx with hx | hx
      · exact (t9 x hx).1
      · simp only [List.mem_singleton] at hx
        subst hx
        unfold EntryLocal entryPos
        dsimp only
        refine ⟨t3, t4, ?_, ?_, t7⟩
        · intro q hq1 hq2
          exact t6 q hq1 (by omega)
        · rw [t5, termAt_none _ _ (le_refl _)]
          simp

theorem flatten_getElem?_chunks {α : Type} : ∀ (L : List (List α)),
    (∀ l ∈ L, l.length ≤ 128) → (∀ l ∈ L.dropLast, l.length = 128) →
    ∀ q, L.flatten[q]? = (L[q / 128]?).bind (fun l => l[q % 128]?)
  | [], _, _, q => by simp
  | [l], h1, _, q => by
    have hl := h1 l (List.mem_singleton_self _)
    simp only [List.flatten_cons, List.flatten_nil, List.append_nil]
    by_cases hq : q < 128
    · have e1 : q / 128 = 0 := by omega
      have e2 : q % 128 = q := by omega
      rw [e1, e2]; simp
    · have e1 : 1 ≤ q / 128 := by omega
      rw [List.getElem?_eq_none (by omega), List.getElem?_eq_none (by simpa using e1)]
      rfl
  | l :: m :: rest, h1, h2, q => by
    have hl : l.length = 128 := h2 l (by simp [List.dropLast])
    have ih := flatten_getElem?_chunks (m :: rest)
      (fun x hx => h1 x (List.mem_cons_of_mem _ hx))
      (fun x hx => h2 x (by
        rw [List.dropLast_cons₂]
        exact List.mem_cons_of_mem _ hx))
    rw [List.flatten_cons]
    by_cases hq : q < 128
    · have e1 : q / 128 = 0 := by omega
      have e2 : q % 128 = q := by omega
      rw [List.getElem?_append_left (by omega), e1, e2]
      simp
    · rw [List.getElem?_append_right (by omega), hl, ih (q - 128)]
      have e1 : q / 128 = (q - 128) / 128 + 1 := by omega
      have e2 : q % 128 = (q - 128) % 128 := by omega
      rw [e1, e2, List.getElem?_cons_succ]

/-- The record at stream position `q` is stored in block `q / 128` at index
`q % 128`. -/
theorem generateInvertedIndex_position (ifs : List Record) (q : Nat) :
    ((Index.generateInvertedIndex ifs).blocks[q / 128]?).bind
        (fun b => (blockPairs b)[q % 128]?) =
      ((fileRecords ifs)[q]?).map (fun r => (r.docId, r.freq)) := by
  obtain ⟨h1, h2, h3, _, _, _⟩ := generateInvertedIndex_blocks ifs
  have hlenp : ∀ b ∈ (Index.generateInvertedIndex ifs).blocks,
      (blockPairs b).length = b.docIds.length := by
    intro b hb
    have := h2 b hb
    simp only [blockPairs, List.length_zip]
    omega
  have key := flatten_getElem?_chunks ((Index.generateInvertedIndex ifs).blocks.map blockPairs)
    (by
      intro l hl
      obtain ⟨b, hb, rfl⟩ := List.mem_map.1 hl
      rw [hlenp b hb]
      exact (h2 b hb).2.1)
    (by
      intro l hl
      rw [← List.map_dropLast] at hl
      obtain ⟨b, hb, rfl⟩ := List.mem_map.1 hl
      rw [hlenp b (List.mem_of_mem_dropLast hb)]
      exact h3 b hb)
    q
  rw [h1] at key
  rw [List.getElem?_map] at key
  rw [key, List.getElem?_map]
  cases (Index.generateInvertedIndex ifs).blocks[q / 128]? <;> rfl

theorem termAt_eq_some_iff (recs : List Record) (q : Nat) (t : List Nat) :
    termAt recs q = some t ↔ ∃ r, recs[q]? = some r ∧ r.term = t := by
  unfold termAt
  cases recs[q]? <;> simp

/-! ## Lemmas: block offsets -/

theorem varbyteEncodeLoop_length_le (fuel : Nat) : ∀ (num : Nat),
    (varbyteEncodeLoop fuel [] num).length ≤ fuel + 1 := by
  induction fuel with
  | zero => intro num; simp [varbyteEncodeLoop, writeByte]
  | succ f ih =>
    intro num
    simp only [varbyteEncodeLoop]
    split
    · rw [varbyteEncodeLoop_append]
      have := ih (num >>> 7)
      simp only [writeByte, List.nil_append, List.length_append, List.length_singleton]
      omega
    · simp [writeByte]

theorem varbyteEncode_length_le (n : Nat) : (varbyteEncode [] n).length ≤ 6 :=
  varbyteEncodeLoop_length_le 5 _

theorem encodeDocIds_length_le : ∀ (docIds : List Int) (prev : Int),
    (encodeDocIds docIds prev []).length ≤ 6 * docIds.length
  | [], _ => by simp [encodeDocIds]
  | d :: ds, prev => by
    simp only [encodeDocIds]
    rw [encodeDocIds_append]
    have h1 := varbyteEncode_length_le (toU32 (d - prev))
    have h2 := encodeDocIds_length_le ds d
    simp only [List.length_append, List.length_cons]
    omega

theorem encodeFreqs_length_le : ∀ (freqs : List Int),
    (encodeFreqs freqs []).length ≤ 6 * freqs.length
  | [] => by simp [encodeFreqs]
  | d :: ds => by
    simp only [encodeFreqs]
    rw [encodeFreqs_append]
    have h1 := varbyteEncode_length_le (toU32 d)
    have h2 := encodeFreqs_length_le ds
    simp only [List.length_append, List.length_cons]
    omega

theorem blockMeta_sizes (b : Block) (hd : b.docIds.length ≤ 128) (hf : b.freqs.length ≤ 128) :
    (blockMeta b).docSize = (docStream b).length ∧
      (blockMeta b).freqSize = (freqStream b).length := by
  have h1 := encodeDocIds_length_le b.docIds 0
  have h2 := encodeFreqs_length_le b.freqs
  unfold blockMeta docStream freqStream
  simp only
  constructor
  · exact Nat.mod_eq_of_lt (by omega)
  · exact Nat.mod_eq_of_lt (by omega)

theorem computeBlockOffsetsLoop_length : ∀ (metadata : List BlockMetadata) (off : Nat),
    (Querying.computeBlockOffsetsLoop metadata off).length = metadata.length
  | [], _ => rfl
  | m :: rest, off => by
    simp only [Querying.computeBlockOffsetsLoop, List.length_cons]
    rw [computeBlockOffsetsLoop_length rest]

theorem computeBlockOffsetsLoop_getElem? : ∀ (metadata : List BlockMetadata) (off i : Nat),
    off < 2 ^ 64 → i < metadata.length →
    (Querying.computeBlockOffsetsLoop metadata off)[i]? =
      some ((off + ((metadata.take i).map (fun m => m.docSize + m.freqSize)).sum) % 2 ^ 64)
  | [], _, _, _, hi => by simp at hi
  | m :: rest, off, 0, hoff, _ => by
    simp only [Querying.computeBlockOffsetsLoop, List.getElem?_cons_zero, List.take_zero,
      List.map_nil, List.sum_nil, Nat.add_zero]
    rw [Nat.mod_eq_of_lt hoff]
  | m :: rest, off, i + 1, _, hi => by
    simp only [Querying.computeBlockOffsetsLoop, List.getElem?_cons_succ, List.take_succ_cons,
      List.map_cons, List.sum_cons]
    rw [computeBlockOffsetsLoop_getElem? rest _ i (Nat.mod_lt _ (by norm_num))
      (by simpa using hi)]
    congr 1
    omega

theorem sum_sizes_eq_length : ∀ (B : List Block),
    (∀ b ∈ B, b.docIds.length ≤ 128 ∧ b.freqs.length ≤ 128) →
    ((B.map blockMeta).map (fun m => m.docSize + m.freqSize)).sum =
      ((B.map blockBytes).flatten).length
  | [], _ => rfl
  | b :: B, h => by
    have hb := h b (List.mem_cons_self _ _)
    obtain ⟨e1, e2⟩ := blockMeta_sizes b hb.1 hb.2
    have ih := sum_sizes_eq_length B (fun x hx => h x (List.mem_cons_of_mem _ hx))
    simp only [List.map_cons, List.sum_cons, List.flatten_cons, List.length_append, ih, e1, e2,
      blockBytes]

theorem flatten_split {α : Type} : ∀ (L : List (List α)) (i : Nat) (l : List α),
    L[i]? = some l →
    L.flatten = (L.take i).flatten ++ (l ++ (L.drop (i + 1)).flatten)
  | [], i, l, h => by simp at h
  | x :: L, 0, l, h => by
    simp only [List.getElem?_cons_zero, Option.some.injEq] at h
    subst h
    simp
  | x :: L, i + 1, l, h => by
    simp only [List.getElem?_cons_succ] at h
    have ih := flatten_split L i l h
    simp only [List.take_succ_cons, List.flatten_cons, List.drop_succ_cons, List.append_assoc]
    rw [← ih]

/-! ## Lemmas: the list cursor -/

theorem decodePosting_currentDoc_lt {lp lp3 : Querying.ListPointer}
    (h : Querying.decodePosting lp = some lp3) : lp3.currentDoc < 2 ^ 32 := by
  unfold Querying.decodePosting at h
  split at h
  · simp at h
  · split at h
    · simp at h
    · simp only [Option.some.injEq] at h
      subst h
      exact Nat.mod_lt _ (by norm_num)

/-- Every value the loop of `nextGEQ` returns is `UINT32_MAX` or the docId just
decoded, and is not below a 32-bit target. -/
theorem nextGEQLoop_ge (targetDoc : Nat) (ifs : List Nat) (metadata : List BlockMetadata)
    (blockOffsets : List Nat) (ht : targetDoc ≤ UINT32_MAX) :
    ∀ (fuel : Nat) (lp : Querying.ListPointer) (d : Nat) (lp1 : Querying.ListPointer),
      Querying.nextGEQLoop targetDoc ifs metadata blockOffsets fuel lp = some (d, lp1) →
      targetDoc ≤ d ∧ d ≤ UINT32_MAX ∧ (d = UINT32_MAX ∨ d = lp1.currentDoc) := by
  intro fuel
  induction fuel with
  | zero => intro lp d lp1 h; simp [Querying.nextGEQLoop] at h
  | succ fuel ih =>
    intro lp d lp1 h
    have key : ∀ lp3 : Querying.ListPointer, lp3.currentDoc < 2 ^ 32 →
        (if lp3.currentDoc ≥ targetDoc then some (lp3.currentDoc, lp3)
          else Querying.nextGEQLoop targetDoc ifs metadata blockOffsets fuel lp3) =
          some (d, lp1) →
        targetDoc ≤ d ∧ d ≤ UINT32_MAX ∧ (d = UINT32_MAX ∨ d = lp1.currentDoc) := by
      intro lp3 hlt h3
      split at h3
      · rename_i hge
        simp only [Option.some.injEq, Prod.mk.injEq] at h3
        obtain ⟨e1, e2⟩ := h3
        subst e2
        subst e1
        refine ⟨hge, ?_, Or.inr rfl⟩
        unfold UINT32_MAX
        omega
      · exact ih lp3 d lp1 h3
    simp only [Querying.nextGEQLoop] at h
    split at h
    · split at h
      · simp only [Option.some.injEq, Prod.mk.injEq] at h
        rw [← h.1]
        exact ⟨ht, le_refl _, Or.inl rfl⟩
      · split at h
        · simp at h
        · rename_i lp3 hb
          obtain ⟨lp2, _, hdec⟩ := Option.bind_eq_some.1 hb
          exact key lp3 (decodePosting_currentDoc_lt hdec) h
    · split at h
      · simp at h
      · rename_i lp3 hdec
        exact key lp3 (decodePosting_currentDoc_lt hdec) h

theorem nextGEQ_ge (targetDoc : Nat) (ifs : List Nat) (metadata : List BlockMetadata)
    (blockOffsets : List Nat) (ht : targetDoc ≤ UINT32_MAX) (lp : Querying.ListPointer)
    (d : Nat) (lp1 : Querying.ListPointer)
    (h : Querying.nextGEQ targetDoc ifs metadata blockOffsets lp = some (d, lp1)) :
    targetDoc ≤ d ∧ d ≤ UINT32_MAX ∧ (d = UINT32_MAX ∨ d = lp1.currentDoc) := by
  unfold Querying.nextGEQ at h
  split at h
  · simp only [Option.some.injEq, Prod.mk.injEq] at h
    rw [← h.1]
    exact ⟨ht, le_refl _, Or.inl rfl⟩
  · exact nextGEQLoop_ge targetDoc ifs metadata blockOffsets ht _ lp d lp1 h


/-! ## Lemmas: text normalisation -/

theorem cleanSentenceLoop_eq (s cleaned : List Nat) :
    Parsing.cleanSentenceLoop s cleaned = cleaned ++ s.map cleanByte := by
  induction s generalizing cleaned with
  | nil => simp [Parsing.cleanSentenceLoop]
  | cons c rest ih => simp [Parsing.cleanSentenceLoop, ih]

theorem cleanSentence_eq_map (s : List Nat) : Parsing.cleanSentence s = s.map cleanByte := by
  simp [Parsing.cleanSentence, cleanSentenceLoop_eq]

theorem tolower_not_upper (c : Nat) : isupper (tolower c) = false := by
  unfold isupper tolower
  split <;> simp <;> omega

theorem ispunct_tolower (c : Nat) : ispunct (tolower c) = ispunct c := by
  unfold ispunct tolower
  split
  · rw [decide_eq_decide]; omega
  · rfl

theorem tolower_le_iff (c : Nat) : tolower c ≤ 127 ↔ c ≤ 127 := by
  unfold tolower
  split <;> omega

/-- The byte `cleanSentence` writes, in terms of the input byte. -/
theorem cleanByte_eq (c : Nat) (hc : c < 256) :
    cleanByte c = if c ≤ 127 ∧ ispunct c = false then tolower c else 32 := by
  unfold cleanByte
  rw [Nat.mod_eq_of_lt hc, ispunct_tolower]
  by_cases h : c ≤ 127
  · simp [h, (tolower_le_iff c).2 h]
  · simp [h, mt (tolower_le_iff c).1 h]

theorem cleanByte_clean (c : Nat) :
    isupper (cleanByte c) = false ∧ ispunct (cleanByte c) = false ∧ cleanByte c ≤ 127 := by
  unfold cleanByte
  split
  · rename_i h
    exact ⟨tolower_not_upper _, h.2, h.1⟩
  · decide

/-- Every term `ss >> term` yields is non-empty and made of bytes of the
string (or of the run being read). -/
theorem streamTokensLoop_mem (s : List Nat) :
    ∀ cur : List Nat, ∀ term ∈ streamTokensLoop s cur,
      term ≠ [] ∧ ∀ c ∈ term, (c ∈ cur ∨ c ∈ s) ∧ isspace c = false ∨ c ∈ cur := by
  induction s with
  | nil =>
    intro cur term h
    unfold streamTokensLoop at h
    split at h
    · simp at h
    · rename_i hne
      simp only [List.mem_singleton] at h
      subst h
      exact ⟨hne, fun c hc => Or.inr hc⟩
  | cons c rest ih =>
    intro cur term h
    unfold streamTokensLoop at h
    split at h
    · split at h
      · obtain ⟨h1, h2⟩ := ih [] term h
        refine ⟨h1, fun x hx => ?_⟩
        rcases h2 x hx with ⟨h3 | h3, h4⟩ | h3
        · simp at h3
        · exact Or.inl ⟨Or.inr (List.mem_cons_of_mem _ h3), h4⟩
        · simp at h3
      · rename_i hne
        rcases List.mem_cons.1 h with h | h
        · subst h
          exact ⟨hne, fun x hx => Or.inr hx⟩
        · obtain ⟨h1, h2⟩ := ih [] term h
          refine ⟨h1, fun x hx => ?_⟩
          rcases h2 x hx with ⟨h3 | h3, h4⟩ | h3
          · simp at h3
          · exact Or.inl ⟨Or.inr (List.mem_cons_of_mem _ h3), h4⟩
          · simp at h3
    · rename_i hsp
      obtain ⟨h1, h2⟩ := ih (cur ++ [c]) term h
      refine ⟨h1, fun x hx => ?_⟩
      rcases h2 x hx with ⟨h3 | h3, h4⟩ | h3
      · rcases List.mem_append.1 h3 with h5 | h5
        · exact Or.inr h5
        · exact Or.inl ⟨Or.inr (by simp at h5; simp [h5]), h4⟩
      · exact Or.inl ⟨Or.inr (List.mem_cons_of_mem _ h3), h4⟩
      · rcases List.mem_append.1 h3 with h5 | h5
        · exact Or.inr h5
        · simp only [List.mem_singleton] at h5
          subst h5
          exact Or.inl ⟨Or.inr (List.mem_cons_self _ _), by simpa using hsp⟩

theorem streamTokens_mem (s : List Nat) (term : List Nat) (h : term ∈ streamTokens s) :
    term ≠ [] ∧ ∀ c ∈ term, c ∈ s ∧ isspace c = false := by
  obtain ⟨h1, h2⟩ := streamTokensLoop_mem s [] term h
  refine ⟨h1, fun c hc => ?_⟩
  rcases h2 c hc with ⟨h3 | h3, h4⟩ | h3
  · simp at h3
  · exact ⟨h3, h4⟩
  · simp at h3

/-! ## Lemmas: processQuery -/

theorem foundLoop_eq (termToIndex : List Nat → Option Nat) (ts found : List (List Nat)) :
    Querying.foundLoop termToIndex ts found =
      found ++ ts.filter (fun t => (termToIndex t).isSome) := by
  induction ts generalizing found with
  | nil => simp [Querying.foundLoop]
  | cons t rest ih =>
    unfold Querying.foundLoop
    by_cases h : (termToIndex t).isSome = true
    · rw [if_pos h, ih]
      simp [List.filter_cons, h]
    · rw [if_neg h, ih]
      simp [List.filter_cons, h]

/-! ## Lemmas: the top-k heap -/

section Heap

variable {F : Type} [LinearOrderedField F]

theorem MinHeapComp_true_iff (a b : Querying.ScoreDoc F) :
    Querying.MinHeapComp a b = true ↔
      b.score < a.score ∨ (a.score = b.score ∧ b.docId < a.docId) := by
  unfold Querying.MinHeapComp
  by_cases h : a.score = b.score
  · simp [h]
  · simp only [if_neg h, decide_eq_true_eq, gt_iff_lt]
    constructor
    · exact fun h1 => Or.inl h1
    · rintro (h1 | ⟨h1, _⟩)
      · exact h1
      · exact absurd h1 h

theorem MinHeapComp_false_iff (a b : Querying.ScoreDoc F) :
    Querying.MinHeapComp a b = false ↔
      a.score < b.score ∨ (a.score = b.score ∧ a.docId ≤ b.docId) := by
  rw [← Bool.not_eq_true, MinHeapComp_true_iff]
  constructor
  · intro h
    rcases lt_trichotomy a.score b.score with h1 | h1 | h1
    · exact Or.inl h1
    · refine Or.inr ⟨h1, ?_⟩
      by_contra h2
      exact h (Or.inr ⟨h1, by omega⟩)
    · exact absurd (Or.inl h1) h
  · rintro (h1 | ⟨h1, h2⟩) (h3 | ⟨h3, h4⟩)
    · exact absurd h1 (not_lt.2 h3.le)
    · exact absurd h1 (by rw [h3]; exact lt_irrefl _)
    · exact absurd h3 (by rw [h1]; exact lt_irrefl _)
    · omega

/-- An entry the comparator orders before no entry of the heap has the
minimum score, and among the entries of that score the smallest docId. -/
theorem MinHeapComp_false_score {a b : Querying.ScoreDoc F}
    (h : Querying.MinHeapComp a b = false) :
    a.score ≤ b.score ∧ (b.score = a.score → a.docId ≤ b.docId) := by
  rcases (MinHeapComp_false_iff a b).1 h with h1 | ⟨h1, h2⟩
  · exact ⟨h1.le, fun h3 => absurd h1 (by rw [h3]; exact lt_irrefl _)⟩
  · exact ⟨h1.le, fun _ => h2⟩

theorem MinHeapComp_false_trans {a b c : Querying.ScoreDoc F}
    (h1 : Querying.MinHeapComp a b = false) (h2 : Querying.MinHeapComp b c = false) :
    Querying.MinHeapComp a c = false := by
  rw [MinHeapComp_false_iff] at h1 h2 ⊢
  rcases h1 with h1 | ⟨h1, h1b⟩ <;> rcases h2 with h2 | ⟨h2, h2b⟩
  · exact Or.inl (h1.trans h2)
  · exact Or.inl (h2 ▸ h1)
  · exact Or.inl (h1 ▸ h2)
  · exact Or.inr ⟨h1.trans h2, h1b.trans h2b⟩

theorem MinHeapComp_false_of_true {a b : Querying.ScoreDoc F}
    (h : Querying.MinHeapComp a b = true) : Querying.MinHeapComp b a = false := by
  rw [MinHeapComp_true_iff] at h
  rw [MinHeapComp_false_iff]
  rcases h with h | ⟨h1, h2⟩
  · exact Or.inl h
  · exact Or.inr ⟨h1.symm, h2.le⟩

theorem MinHeapComp_self (a : Querying.ScoreDoc F) : Querying.MinHeapComp a a = false := by
  rw [MinHeapComp_false_iff]
  exact Or.inr ⟨rfl, le_refl _⟩

theorem topScan_spec (ys : List (Querying.ScoreDoc F)) :
    ∀ best : Querying.ScoreDoc F,
      Querying.topScan best ys ∈ best :: ys ∧
        Querying.MinHeapComp (Querying.topScan best ys) best = false ∧
        ∀ y ∈ ys, Querying.MinHeapComp (Querying.topScan best ys) y = false := by
  induction ys with
  | nil =>
    intro best
    simp [Querying.topScan, MinHeapComp_self]
  | cons y ys ih =>
    intro best
    unfold Querying.topScan
    by_cases h : Querying.MinHeapComp best y = true
    · rw [if_pos h]
      obtain ⟨h1, h2, h3⟩ := ih y
      refine ⟨List.mem_cons_of_mem _ h1, ?_, ?_⟩
      · exact MinHeapComp_false_trans h2 (MinHeapComp_false_of_true h)
      · intro z hz
        rcases List.mem_cons.1 hz with hz | hz
        · rw [hz]; exact h2
        · exact h3 z hz
    · rw [if_neg h]
      obtain ⟨h1, h2, h3⟩ := ih best
      refine ⟨?_, h2, ?_⟩
      · rcases List.mem_cons.1 h1 with h1 | h1
        · rw [h1]; exact List.mem_cons_self _ _
        · exact List.mem_cons_of_mem _ (List.mem_cons_of_mem _ h1)
      · intro z hz
        rcases List.mem_cons.1 hz with hz | hz
        · rw [hz]
          exact MinHeapComp_false_trans h2 (by simpa using h)
        · exact h3 z hz

/-- The concrete queue `topPop` meets the contract `TopSpec`. -/
theorem topPop_spec : Querying.TopSpec (Querying.topPop : List (Querying.ScoreDoc F) → _) := by
  intro h hne
  cases h with
  | nil => exact absurd rfl hne
  | cons x xs =>
    obtain ⟨h1, h2, h3⟩ := topScan_spec xs x
    refine ⟨Querying.topScan x xs, (x :: xs).erase (Querying.topScan x xs), rfl, ?_, ?_⟩
    · exact (List.perm_cons_erase h1).symm
    · intro y hy
      rcases List.mem_cons.1 hy with hy | hy
      · rw [hy]; exact h2
      · exact h3 y hy

/-- The drain loop empties a heap of the given length: it returns the entries
in the order the queue gives them, each ordered before none of the later. -/
theorem drainLoop_spec
    (pop : List (Querying.ScoreDoc F) → Option (Querying.ScoreDoc F × List (Querying.ScoreDoc F)))
    (hpop : Querying.TopSpec pop) :
    ∀ (n : Nat) (topK results : List (Querying.ScoreDoc F)), topK.length = n →
      ∃ d, Querying.drainLoop pop n topK results = some (results ++ d) ∧ List.Perm d topK ∧
        d.Pairwise (fun a b => Querying.MinHeapComp a b = false) := by
  intro n
  induction n with
  | zero =>
    intro topK results hlen
    have h0 : topK = [] := List.length_eq_zero.1 hlen
    subst h0
    exact ⟨[], by simp [Querying.drainLoop], List.Perm.refl _, List.Pairwise.nil⟩
  | succ n ih =>
    intro topK results hlen
    have hne : topK ≠ [] := by
      intro h0; rw [h0] at hlen; simp at hlen
    obtain ⟨x, rest, hp, hperm, hmin⟩ := hpop topK hne
    have hlen2 : rest.length = n := by
      have := hperm.length_eq
      simp only [List.length_cons] at this
      omega
    obtain ⟨d, hd, hdperm, hdsorted⟩ := ih rest (results ++ [x]) hlen2
    refine ⟨x :: d, ?_, ?_, ?_⟩
    · unfold Querying.drainLoop
      have he : topK.isEmpty = false := by
        cases topK with
        | nil => exact absurd rfl hne
        | cons a l => rfl
      simp only [he, Bool.false_eq_true, if_false, hp]
      rw [hd, List.append_assoc]
      rfl
    · exact (List.Perm.cons x hdperm).trans hperm
    · refine List.Pairwise.cons ?_ hdsorted
      intro y hy
      exact hmin y (hperm.subset (List.mem_cons_of_mem _ (hdperm.subset hy)))

/-- Length of the heap after one candidate. -/
theorem heapUpdate_length
    (pop : List (Querying.ScoreDoc F) → Option (Querying.ScoreDoc F × List (Querying.ScoreDoc F)))
    (hpop : Querying.TopSpec pop) (usePrune : Bool) (topK : List (Querying.ScoreDoc F))
    (score remainingMax : F) (candidate : Nat) (topK1 : List (Querying.ScoreDoc F))
    (wasPruned : Bool) (hle : topK.length ≤ Querying.k)
    (h : Querying.heapUpdate pop usePrune topK score remainingMax candidate =
      some (topK1, wasPruned)) :
    topK1.length = min Querying.k (topK.length + 1) := by
  unfold Querying.heapUpdate at h
  split at h
  · rename_i hlt
    simp only [Option.some.injEq, Prod.mk.injEq] at h
    rw [← h.1, List.length_cons]
    omega
  · rename_i hge
    have hk : topK.length = Querying.k := by omega
    have hne : topK ≠ [] := by
      intro h0; rw [h0] at hk; simp [Querying.k] at hk
    obtain ⟨x, rest, hp, hperm, _⟩ := hpop topK hne
    have hlen2 := hperm.length_eq
    simp only [List.length_cons] at hlen2
    rw [hp] at h
    simp only at h
    split at h
    · simp only [Option.some.injEq, Prod.mk.injEq] at h
      rw [← h.1]; omega
    · split at h
      · simp only [Option.some.injEq, Prod.mk.injEq] at h
        rw [← h.1, List.length_cons]; omega
      · simp only [Option.some.injEq, Prod.mk.injEq] at h
        rw [← h.1]; omega

/-- The main loop keeps `topK.size() = min(k, candidates visited)`. -/
theorem mainLoop_length (ln : F → F)
    (pop : List (Querying.ScoreDoc F) → Option (Querying.ScoreDoc F × List (Querying.ScoreDoc F)))
    (hpop : Querying.TopSpec pop) (usePrune : Bool) (ifs : List Nat)
    (metadata : List BlockMetadata) (blockOffsets : List Nat) (pageTable : Int → Int)
    (averageDocLength : F) (maxScores : List F) (order : List Nat) :
    ∀ (fuel : Nat) (st st1 : Querying.DaatState F),
      st.topK.length = min Querying.k st.visited →
      Querying.mainLoop ln pop usePrune ifs metadata blockOffsets pageTable averageDocLength
        maxScores order fuel st = some st1 →
      st1.topK.length = min Querying.k st1.visited := by
  intro fuel
  induction fuel with
  | zero => intro st st1 _ h; simp [Querying.mainLoop] at h
  | succ fuel ih =>
    intro st st1 hinv h
    unfold Querying.mainLoop at h
    split at h
    · simp only [Option.some.injEq] at h
      rw [← h]; exact hinv
    · split at h
      · simp at h
      · split at h
        · simp at h
        · rename_i topK1 wasPruned hu
          refine ih _ st1 ?_ h
          have := heapUpdate_length pop hpop usePrune st.topK _ _ _ topK1 wasPruned
            (by rw [hinv]; exact min_le_left _ _) hu
          simp only
          rw [this, hinv]
          omega

end Heap

/-! ## Lemmas: the prune step -/

section Prune

variable {F : Type} [LinearOrderedField F]

/-- With a non-negative `remainingMax` the prune step leaves the heap as the
loop without it does. -/
theorem heapUpdate_prune_eq
    (pop : List (Querying.ScoreDoc F) → Option (Querying.ScoreDoc F × List (Querying.ScoreDoc F)))
    (topK : List (Querying.ScoreDoc F)) (score remainingMax : F) (candidate : Nat)
    (hrm : 0 ≤ remainingMax) :
    (Querying.heapUpdate pop true topK score remainingMax candidate).map Prod.fst =
      (Querying.heapUpdate pop false topK score remainingMax candidate).map Prod.fst := by
  unfold Querying.heapUpdate
  split
  · rfl
  · cases hp : pop topK with
    | none => rfl
    | some r =>
      obtain ⟨top, rest⟩ := r
      simp only
      by_cases h : score + remainingMax ≤ top.score
      · have h2 : ¬ score > top.score := by
          intro h3
          have : score ≤ top.score := le_trans (le_add_of_nonneg_right hrm) h
          exact absurd h3 (not_lt.2 this)
        simp [h, h2]
      · simp [h]

/-- With a negative `remainingMax` the prune step can skip a candidate that
scores above the heap top, which the loop without it admits. -/
theorem heapUpdate_prune_diverges
    (pop : List (Querying.ScoreDoc F) → Option (Querying.ScoreDoc F × List (Querying.ScoreDoc F)))
    (topK : List (Querying.ScoreDoc F)) (score remainingMax : F) (candidate : Nat)
    (x : Querying.ScoreDoc F) (rest : List (Querying.ScoreDoc F))
    (hfull : Querying.k ≤ topK.length) (hx : pop topK = some (x, rest))
    (hs : x.score < score) (hrm : score + remainingMax ≤ x.score) :
    Querying.heapUpdate pop true topK score remainingMax candidate = some (topK, true) ∧
      Querying.heapUpdate pop false topK score remainingMax candidate =
        some (⟨score, candidate⟩ :: rest, false) := by
  have hk : ¬ topK.length < Querying.k := by omega
  constructor
  · unfold Querying.heapUpdate
    rw [if_neg hk, hx]
    simp [hrm]
  · unfold Querying.heapUpdate
    rw [if_neg hk, hx]
    simp [hs]

theorem scoreLoop_remainingMax_nonneg (ln : F → F) (ifs : List Nat)
    (metadata : List BlockMetadata) (blockOffsets : List Nat) (pageTable : Int → Int)
    (averageDocLength : F) (maxScores : List F) (candidate : Nat)
    (hms : ∀ m ∈ maxScores, 0 ≤ m) :
    ∀ (order : List Nat) (lp lp1 : List Querying.ListPointer) (currDoc currDoc1 : List Nat)
      (score score1 remainingMax remainingMax1 : F), 0 ≤ remainingMax →
      Querying.scoreLoop ln ifs metadata blockOffsets pageTable averageDocLength maxScores
        candidate order (lp, currDoc, score, remainingMax) =
          some (lp1, currDoc1, score1, remainingMax1) →
      0 ≤ remainingMax1 := by
  intro order
  induction order with
  | nil =>
    intro lp lp1 currDoc currDoc1 score score1 remainingMax remainingMax1 h0 h
    simp only [Querying.scoreLoop, Option.some.injEq, Prod.mk.injEq] at h
    rw [← h.2.2.2]; exact h0
  | cons idx rest ih =>
    intro lp lp1 currDoc currDoc1 score score1 remainingMax remainingMax1 h0 h
    unfold Querying.scoreLoop at h
    split at h
    · split at h
      · simp at h
      · split at h
        · simp at h
        · exact ih _ _ _ _ _ _ _ _ h0 h
    · refine ih _ _ _ _ _ _ _ _ ?_ h
      have : 0 ≤ maxScores.getD idx 0 := by
        rw [List.getD_eq_getElem?_getD]
        cases hm : maxScores[idx]? with
        | none => simp
        | some m => simpa using hms m (List.getElem?_mem hm)
      exact add_nonneg h0 this

/-- When no upper bound `maxScores[i]` is negative, the main loop ends with the
same cursors, heap and candidate count with and without the prune step. -/
theorem mainLoop_prune_eq (ln : F → F)
    (pop : List (Querying.ScoreDoc F) → Option (Querying.ScoreDoc F × List (Querying.ScoreDoc F)))
    (ifs : List Nat) (metadata : List BlockMetadata) (blockOffsets : List Nat)
    (pageTable : Int → Int) (averageDocLength : F) (maxScores : List F) (order : List Nat)
    (hms : ∀ m ∈ maxScores, 0 ≤ m) :
    ∀ (fuel : Nat) (lp : List Querying.ListPointer) (currDoc : List Nat)
      (topK : List (Querying.ScoreDoc F)) (visited pruned1 pruned2 : Nat),
      (Querying.mainLoop ln pop true ifs metadata blockOffsets pageTable averageDocLength
          maxScores order fuel ⟨lp, currDoc, topK, visited, pruned1⟩).map
          (fun s => (s.lp, s.currDoc, s.topK, s.visited)) =
        (Querying.mainLoop ln pop false ifs metadata blockOffsets pageTable averageDocLength
          maxScores order fuel ⟨lp, currDoc, topK, visited, pruned2⟩).map
          (fun s => (s.lp, s.currDoc, s.topK, s.visited)) := by
  intro fuel
  induction fuel with
  | zero => intro lp currDoc topK visited pruned1 pruned2; rfl
  | succ fuel ih =>
    intro lp currDoc topK visited pruned1 pruned2
    unfold Querying.mainLoop
    simp only
    split
    · rfl
    · cases hsl : Querying.scoreLoop ln ifs metadata blockOffsets pageTable averageDocLength
          maxScores (Querying.minCandidate currDoc) order (lp, currDoc, 0, 0) with
      | none => rfl
      | some r =>
        obtain ⟨lp1, currDoc1, score, remainingMax⟩ := r
        have hrm := scoreLoop_remainingMax_nonneg ln ifs metadata blockOffsets pageTable
          averageDocLength maxScores _ hms order lp lp1 currDoc currDoc1 0 score 0
          remainingMax (le_refl _) hsl
        have he := heapUpdate_prune_eq pop topK score remainingMax
          (Querying.minCandidate currDoc) hrm
        simp only
        cases h1 : Querying.heapUpdate pop true topK score remainingMax
            (Querying.minCandidate currDoc) with
        | none =>
          rw [h1] at he
          cases h2 : Querying.heapUpdate pop false topK score remainingMax
              (Querying.minCandidate currDoc) with
          | none => rfl
          | some r2 => rw [h2] at he; simp at he
        | some r1 =>
          rw [h1] at he
          cases h2 : Querying.heapUpdate pop false topK score remainingMax
              (Querying.minCandidate currDoc) with
          | none => rw [h2] at he; simp at he
          | some r2 =>
            rw [h2] at he
            simp only [Option.map_some', Option.some.injEq] at he
            obtain ⟨t1, w1⟩ := r1
            obtain ⟨t2, w2⟩ := r2
            simp only at he
            subst he
            simp only
            exact ih lp1 currDoc1 t1 (visited + 1) _ _

/-- When no upper bound `maxScores[i]` of the query is negative,
`disjunctiveDAAT` returns the same list with and without the prune step. -/
theorem disjunctiveDAAT_prune_eq (ln : F → F)
    (pop : List (Querying.ScoreDoc F) → Option (Querying.ScoreDoc F × List (Querying.ScoreDoc F)))
    (queryTerms : List (List Nat)) (termToIndex : List Nat → Option Nat) (ifs : List Nat)
    (lexicon : List LexiconEntry) (metadata : List BlockMetadata) (blockOffsets : List Nat)
    (pageTable : Int → Int) (averageDocLength : F)
    (hms : ∀ lp0, Querying.openLists termToIndex lexicon ifs metadata blockOffsets queryTerms =
        some lp0 →
      ∀ m ∈ (Querying.computeMaxScores ln pageTable averageDocLength lp0).2, 0 ≤ m) :
    Querying.disjunctiveDAAT ln pop true queryTerms termToIndex ifs lexicon metadata
        blockOffsets pageTable averageDocLength =
      Querying.disjunctiveDAAT ln pop false queryTerms termToIndex ifs lexicon metadata
        blockOffsets pageTable averageDocLength := by
  have key : (Querying.daatRun ln pop true queryTerms termToIndex ifs lexicon metadata
        blockOffsets pageTable averageDocLength).map
        (fun s => (s.lp, s.currDoc, s.topK, s.visited)) =
      (Querying.daatRun ln pop false queryTerms termToIndex ifs lexicon metadata
        blockOffsets pageTable averageDocLength).map
        (fun s => (s.lp, s.currDoc, s.topK, s.visited)) := by
    unfold Querying.daatRun
    cases ho : Querying.openLists termToIndex lexicon ifs metadata blockOffsets queryTerms with
    | none => rfl
    | some lp0 =>
      simp only
      cases hi : Querying.initCurrDoc ifs metadata blockOffsets
          (Querying.computeMaxScores ln pageTable averageDocLength lp0).1 with
      | none => rfl
      | some r =>
        obtain ⟨lp1, currDoc⟩ := r
        simp only
        exact mainLoop_prune_eq ln pop ifs metadata blockOffsets pageTable averageDocLength _ _
          (hms lp0 ho) _ lp1 currDoc [] 0 0 0
  unfold Querying.disjunctiveDAAT
  cases h1 : Querying.daatRun ln pop true queryTerms termToIndex ifs lexicon metadata
      blockOffsets pageTable averageDocLength with
  | none =>
    rw [h1] at key
    cases h2 : Querying.daatRun ln pop false queryTerms termToIndex ifs lexicon metadata
        blockOffsets pageTable averageDocLength with
    | none => rfl
    | some s2 => rw [h2] at key; simp at key
  | some s1 =>
    rw [h1] at key
    cases h2 : Querying.daatRun ln pop false queryTerms termToIndex ifs lexicon metadata
        blockOffsets pageTable averageDocLength with
    | none => rw [h2] at key; simp at key
    | some s2 =>
      rw [h2] at key
      simp only [Option.map_some', Option.some.injEq, Prod.mk.injEq] at key
      simp only
      rw [key.2.2.1]

end Prune

/-- Over the reals, the upper bound `maxScores[i]` of a term with
`N / 2 < listLength ≤ N` is negative, for every non-negative reference
document length and positive average length. -/
theorem maxScore_neg (p : Querying.ListPointer) (docLength averageDocLength : ℝ)
    (h1 : 500000 < p.listLength) (h2 : p.listLength ≤ 1000000) (hd : 0 ≤ docLength)
    (ha : 0 < averageDocLength) :
    Querying.getScore Real.log (Querying.setCurrentFrequency p p.listLength) docLength
      averageDocLength < 0 := by
  have hmod : p.listLength % 2 ^ 32 = p.listLength := Nat.mod_eq_of_lt (by omega)
  have hl1 : (500000 : ℝ) < (p.listLength : ℝ) := by exact_mod_cast h1
  have hl2 : (p.listLength : ℝ) ≤ 1000000 := by exact_mod_cast h2
  unfold Querying.getScore Querying.setCurrentFrequency Querying.N Querying.k1 Querying.b
  simp only [hmod]
  apply mul_neg_of_neg_of_pos
  · have hden : (0 : ℝ) < (p.listLength : ℝ) + 1 / 2 := by linarith
    have hnum : (0 : ℝ) < 1000000 - (p.listLength : ℝ) + 1 / 2 := by linarith
    rw [Real.log_neg_iff (div_pos hnum hden), div_lt_one hden]
    linarith
  · apply div_pos
    · apply mul_pos
      · norm_num
      · linarith
    · have : (0 : ℝ) ≤ docLength / averageDocLength := div_nonneg hd ha.le
      have h3 : (0 : ℝ) ≤ 12 / 10 * (1 - 75 / 100 + 75 / 100 * (docLength / averageDocLength)) := by
        apply mul_nonneg (by norm_num)
        have : (0 : ℝ) ≤ 75 / 100 * (docLength / averageDocLength) :=
          mul_nonneg (by norm_num) this
        linarith
      linarith

/-! ## Lemmas: cursor runs -/

theorem skipLoop_listLength (n : Nat) :
    ∀ lp lp1 : Querying.ListPointer, Querying.skipLoop n lp = some lp1 →
      lp1.listLength = lp.listLength := by
  induction n with
  | zero =>
    intro lp lp1 h
    simp only [Querying.skipLoop, Option.some.injEq] at h
    rw [← h]
  | succ n ih =>
    intro lp lp1 h
    unfold Querying.skipLoop at h
    split at h
    · simp at h
    · split at h
      · simp at h
      · have h2 := ih _ _ h
        exact h2

theorem loadBlock_listLength (ifs : List Nat) (metadata : List BlockMetadata)
    (blockOffsets : List Nat) (lp lp1 : Querying.ListPointer)
    (h : Querying.loadBlock ifs metadata blockOffsets lp = some lp1) :
    lp1.listLength = lp.listLength := by
  unfold Querying.loadBlock at h
  split at h
  · simp only [Option.some.injEq] at h
    rw [← h]
  · split at h
    · simp only at h
      obtain ⟨l, hl, he⟩ := Option.map_eq_some'.1 h
      rw [← he]
      simp only
      split at hl
      · have h2 := skipLoop_listLength _ _ _ hl
        exact h2
      · simp only [Option.some.injEq] at hl
        rw [← hl]
    · simp at h

theorem decodePosting_listLength (lp lp1 : Querying.ListPointer)
    (h : Querying.decodePosting lp = some lp1) : lp1.listLength = lp.listLength := by
  unfold Querying.decodePosting at h
  split at h
  · simp at h
  · split at h
    · simp at h
    · simp only [Option.some.injEq] at h
      rw [← h]

theorem nextGEQLoop_listLength (targetDoc : Nat) (ifs : List Nat)
    (metadata : List BlockMetadata) (blockOffsets : List Nat) :
    ∀ (fuel : Nat) (lp : Querying.ListPointer) (d : Nat) (lp1 : Querying.ListPointer),
      Querying.nextGEQLoop targetDoc ifs metadata blockOffsets fuel lp = some (d, lp1) →
      lp1.listLength = lp.listLength := by
  intro fuel
  induction fuel with
  | zero => intro lp d lp1 h; simp [Querying.nextGEQLoop] at h
  | succ fuel ih =>
    intro lp d lp1 h
    have key : ∀ lp3 : Querying.ListPointer, lp3.listLength = lp.listLength →
        (if lp3.currentDoc ≥ targetDoc then some (lp3.currentDoc, lp3)
          else Querying.nextGEQLoop targetDoc ifs metadata blockOffsets fuel lp3) =
          some (d, lp1) → lp1.listLength = lp.listLength := by
      intro lp3 h3 h4
      split at h4
      · simp only [Option.some.injEq, Prod.mk.injEq] at h4
        rw [← h4.2]; exact h3
      · rw [ih lp3 d lp1 h4]; exact h3
    simp only [Querying.nextGEQLoop] at h
    split at h
    · split at h
      · simp only [Option.some.injEq, Prod.mk.injEq] at h
        rw [← h.2]
      · split at h
        · simp at h
        · rename_i lp3 hb
          obtain ⟨lp2, hload, hdec⟩ := Option.bind_eq_some.1 hb
          refine key lp3 ?_ h
          rw [decodePosting_listLength _ _ hdec, loadBlock_listLength _ _ _ _ _ hload]
    · split at h
      · simp at h
      · rename_i lp3 hdec
        exact key lp3 (decodePosting_listLength _ _ hdec) h

theorem nextGEQ_listLength (targetDoc : Nat) (ifs : List Nat) (metadata : List BlockMetadata)
    (blockOffsets : List Nat) (lp : Querying.ListPointer) (d : Nat)
    (lp1 : Querying.ListPointer)
    (h : Querying.nextGEQ targetDoc ifs metadata blockOffsets lp = some (d, lp1)) :
    lp1.listLength = lp.listLength := by
  unfold Querying.nextGEQ at h
  split at h
  · simp only [Option.some.injEq, Prod.mk.injEq] at h
    rw [← h.2]
  · exact nextGEQLoop_listLength targetDoc ifs metadata blockOffsets _ lp d lp1 h

/-- One unfolding of `cursorRun`. -/
theorem cursorRun_some (ifs : List Nat) (metadata : List BlockMetadata)
    (blockOffsets : List Nat) (fuel t : Nat) (p : Querying.ListPointer)
    (l : List (Nat × Querying.ListPointer))
    (h : Querying.cursorRun ifs metadata blockOffsets fuel t p = some l) :
    ∃ fuel1 d p1, fuel = fuel1 + 1 ∧
      Querying.nextGEQ t ifs metadata blockOffsets p = some (d, p1) ∧
      ((d = UINT32_MAX ∧ l = []) ∨
        (d ≠ UINT32_MAX ∧ ∃ rest, l = (d, p1) :: rest ∧
          Querying.cursorRun ifs metadata blockOffsets fuel1 ((d + 1) % 2 ^ 32) p1 =
            some rest)) := by
  cases fuel with
  | zero => simp [Querying.cursorRun] at h
  | succ fuel1 =>
    unfold Querying.cursorRun at h
    split at h
    · simp at h
    · rename_i d p1 hn
      refine ⟨fuel1, d, p1, rfl, hn, ?_⟩
      split at h
      · rename_i hd
        simp only [Option.some.injEq] at h
        exact Or.inl ⟨hd, h.symm⟩
      · rename_i hd
        obtain ⟨rest, hr, he⟩ := Option.map_eq_some'.1 h
        exact Or.inr ⟨hd, rest, he.symm, hr⟩

/-- The docIds of a cursor run are at least the first target, below
`UINT32_MAX` and strictly increasing, and every state of the run has the
`listLength` of the cursor. -/
theorem cursorRun_sorted (ifs : List Nat) (metadata : List BlockMetadata)
    (blockOffsets : List Nat) :
    ∀ (fuel t : Nat) (p : Querying.ListPointer) (l : List (Nat × Querying.ListPointer)),
      t ≤ UINT32_MAX →
      Querying.cursorRun ifs metadata blockOffsets fuel t p = some l →
      (∀ e ∈ l, t ≤ e.1 ∧ e.1 < UINT32_MAX ∧ e.2.listLength = p.listLength) ∧
        l.Pairwise (fun a b => a.1 < b.1) := by
  intro fuel
  induction fuel with
  | zero => intro t p l _ h; simp [Querying.cursorRun] at h
  | succ fuel ih =>
    intro t p l ht h
    obtain ⟨fuel1, d, p1, hf, hn, hcase⟩ := cursorRun_some _ _ _ _ _ _ _ h
    have hf1 : fuel1 = fuel := by omega
    subst hf1
    obtain ⟨hge, hle, _⟩ := nextGEQ_ge t ifs metadata blockOffsets ht p d p1 hn
    have hll := nextGEQ_listLength t ifs metadata blockOffsets p d p1 hn
    rcases hcase with ⟨_, hl⟩ | ⟨hd, rest, hl, hrest⟩
    · subst hl
      exact ⟨by simp, List.Pairwise.nil⟩
    · have hdlt : d < UINT32_MAX := lt_of_le_of_ne hle hd
      have hmod : (d + 1) % 2 ^ 32 = d + 1 := by
        apply Nat.mod_eq_of_lt
        unfold UINT32_MAX at hdlt
        omega
      rw [hmod] at hrest
      obtain ⟨h1, h2⟩ := ih (d + 1) p1 rest (by omega) hrest
      subst hl
      refine ⟨?_, List.Pairwise.cons ?_ h2⟩
      · intro e he
        rcases List.mem_cons.1 he with he | he
        · subst he
          exact ⟨hge, hdlt, hll⟩
        · obtain ⟨h3, h4, h5⟩ := h1 e he
          exact ⟨by omega, h4, by rw [h5, hll]⟩
      · intro e he
        have := (h1 e he).1
        show d < e.1
        omega

/-! ## Lemmas: one candidate of the main loop -/

theorem popHead_eq_filter (c : Nat) (r : List (Nat × Querying.ListPointer))
    (hs : r.Pairwise (fun a b => a.1 < b.1)) (hc : ∀ e ∈ r, c ≤ e.1) :
    Querying.popHead c r = r.filter (fun e => decide (c + 1 ≤ e.1)) := by
  cases r with
  | nil => rfl
  | cons e rest =>
    have hrest : ∀ x ∈ rest, e.1 < x.1 := (List.pairwise_cons.1 hs).1
    have hce := hc e (List.mem_cons_self _ _)
    simp only [Querying.popHead]
    by_cases h : e.1 = c
    · rw [if_pos h, List.filter_cons_of_neg (by simp; omega)]
      symm
      rw [List.filter_eq_self]
      intro x hx
      have := hrest x hx
      simp only [decide_eq_true_eq]
      omega
    · rw [if_neg h]
      symm
      rw [List.filter_eq_self]
      intro x hx
      simp only [decide_eq_true_eq]
      rcases List.mem_cons.1 hx with hx | hx
      · subst hx; omega
      · have := hrest x hx
        omega

theorem headScore_eq_filter {F : Type} [Field F] (g : Querying.ListPointer → F) (c : Nat)
    (r : List (Nat × Querying.ListPointer)) (hs : r.Pairwise (fun a b => a.1 < b.1))
    (hc : ∀ e ∈ r, c ≤ e.1) :
    Querying.headScore g c r =
      ((r.filter (fun e => decide (e.1 = c))).map (fun e => g e.2)).sum := by
  cases r with
  | nil => rfl
  | cons e rest =>
    have hrest : ∀ x ∈ rest, e.1 < x.1 := (List.pairwise_cons.1 hs).1
    have hce := hc e (List.mem_cons_self _ _)
    have hnil : rest.filter (fun e => decide (e.1 = c)) = [] := by
      rw [List.filter_eq_nil_iff]
      intro x hx
      have := hrest x hx
      simp only [decide_eq_true_eq]
      omega
    simp only [Querying.headScore]
    by_cases h : e.1 = c
    · rw [if_pos h, List.filter_cons_of_pos (by simpa using h), hnil]
      simp
    · rw [if_neg h, List.filter_cons_of_neg (by simpa using h), hnil]
      simp

theorem cursorAt_headScore_of_ne {F : Type} [Field F] {ifs : List Nat}
    {metadata : List BlockMetadata} {blockOffsets : List Nat} {p : Querying.ListPointer}
    {cd : Nat} {r : List (Nat × Querying.ListPointer)}
    (h : Querying.CursorAt ifs metadata blockOffsets p cd r) (g : Querying.ListPointer → F)
    (c : Nat) (hne : cd ≠ c) :
    Querying.headScore g c r = 0 ∧ Querying.popHead c r = r := by
  rcases h with ⟨_, hr⟩ | ⟨_, rest, fuel, hr, _⟩
  · subst hr
    exact ⟨rfl, rfl⟩
  · subst hr
    simp [Querying.headScore, Querying.popHead, hne]

section ScoreLoop

variable {F : Type} [LinearOrderedField F]

/-- The loop over `order` for the candidate `c`: every cursor standing at `c`
adds `getScore` to `score` and moves to the next docId of its run; the other
cursors are left as they are. -/
theorem scoreLoop_spec (ln : F → F) (ifs : List Nat) (metadata : List BlockMetadata)
    (blockOffsets : List Nat) (pageTable : Int → Int) (averageDocLength : F)
    (maxScores : List F) (c : Nat) (hc : c < UINT32_MAX) :
    ∀ (order : List Nat) (lp : List Querying.ListPointer) (currDoc : List Nat)
      (rs : List (List (Nat × Querying.ListPointer))) (score remainingMax : F),
      Querying.CursorsAt ifs metadata blockOffsets lp currDoc rs → order.Nodup →
      (∀ i ∈ order, i < rs.length) →
      ∃ lp1 currDoc1 remainingMax1 rs1,
        Querying.scoreLoop ln ifs metadata blockOffsets pageTable averageDocLength maxScores c
            order (lp, currDoc, score, remainingMax) =
          some (lp1, currDoc1,
            score + (order.map (fun i => Querying.headScore
              (fun p => Querying.getScore ln p ((pageTable (Querying.toI32 c) : Int) : F)
                averageDocLength) c (rs.getD i []))).sum,
            remainingMax1) ∧
        Querying.CursorsAt ifs metadata blockOffsets lp1 currDoc1 rs1 ∧
        rs1.length = rs.length ∧
        ∀ i : Nat, rs1[i]? =
          (rs[i]?).map (fun r => if i ∈ order then Querying.popHead c r else r) := by
  intro order
  induction order with
  | nil =>
    intro lp currDoc rs score remainingMax hcur _ _
    refine ⟨lp, currDoc, remainingMax, rs, ?_, hcur, rfl, ?_⟩
    · simp [Querying.scoreLoop]
    · intro i
      cases rs[i]? <;> simp
  | cons idx rest ih =>
    intro lp currDoc rs score remainingMax hcur hnd hlt
    obtain ⟨hl1, hl2, hpt⟩ := hcur
    have hidx : idx < rs.length := hlt idx (List.mem_cons_self _ _)
    have hnotin : idx ∉ rest := (List.nodup_cons.1 hnd).1
    have hnd2 : rest.Nodup := (List.nodup_cons.1 hnd).2
    have hlt2 : ∀ i ∈ rest, i < rs.length := fun i hi => hlt i (List.mem_cons_of_mem _ hi)
    have hp : lp[idx]? = some lp[idx] := List.getElem?_eq_getElem (by omega)
    have hcd : currDoc[idx]? = some currDoc[idx] := List.getElem?_eq_getElem (by omega)
    have hr : rs[idx]? = some rs[idx] := List.getElem?_eq_getElem hidx
    have hat := hpt idx _ _ _ hp hcd hr
    generalize lp[idx] = p at hp hat
    generalize currDoc[idx] = cd at hcd hat
    generalize rs[idx] = r at hr hat
    have hgetD : rs.getD idx [] = r := by
      rw [List.getD_eq_getElem?_getD, hr]; rfl
    unfold Querying.scoreLoop
    by_cases hmatch : cd = c
    · subst hmatch
      rw [if_pos hcd, hp]
      simp only
      rcases hat with ⟨hmax, _⟩ | ⟨_, rest1, fuel, hrr, hrun⟩
      · omega
      · obtain ⟨fuel1, d, p1, _, hn, hcase⟩ := cursorRun_some _ _ _ _ _ _ _ hrun
        rw [hn]
        simp only
        have hdle := (nextGEQ_ge _ ifs metadata blockOffsets
          (by unfold UINT32_MAX; have := Nat.mod_lt (cd + 1) (show 2 ^ 32 > 0 by norm_num); omega)
          p d p1 hn).2.1
        have hat1 : Querying.CursorAt ifs metadata blockOffsets p1 d rest1 := by
          rcases hcase with ⟨hd, hl⟩ | ⟨hd, rest2, hl, hrun2⟩
          · exact Or.inl ⟨hd, hl⟩
          · exact Or.inr ⟨lt_of_le_of_ne hdle hd, rest2, fuel1, hl, hrun2⟩
        have hcur1 : Querying.CursorsAt ifs metadata blockOffsets (lp.set idx p1)
            (currDoc.set idx d) (rs.set idx rest1) := by
          refine ⟨by simp [hl1], by simp [hl2], ?_⟩
          intro i p2 c2 r2 h1 h2 h3
          by_cases hi : idx = i
          · subst hi
            rw [List.getElem?_set_self (by omega)] at h1 h2
            rw [List.getElem?_set_self hidx] at h3
            simp only [Option.some.injEq] at h1 h2 h3
            subst h1; subst h2; subst h3
            exact hat1
          · rw [List.getElem?_set_ne hi] at h1 h2 h3
            exact hpt i p2 c2 r2 h1 h2 h3
        obtain ⟨lp1, currDoc1, rm1, rs1, hs1, hc1, hlen1, hpw1⟩ :=
          ih (lp.set idx p1) (currDoc.set idx d) (rs.set idx rest1)
            (score + Querying.getScore ln p ((pageTable (Querying.toI32 cd) : Int) : F)
              averageDocLength) remainingMax hcur1 hnd2 (by simpa using hlt2)
        refine ⟨lp1, currDoc1, rm1, rs1, ?_, hc1, by simpa using hlen1, ?_⟩
        · rw [hs1]
          have e1 : rest.map (fun i => Querying.headScore
              (fun p => Querying.getScore ln p ((pageTable (Querying.toI32 cd) : Int) : F)
                averageDocLength) cd ((rs.set idx rest1).getD i [])) =
              rest.map (fun i => Querying.headScore
              (fun p => Querying.getScore ln p ((pageTable (Querying.toI32 cd) : Int) : F)
                averageDocLength) cd (rs.getD i [])) := by
            apply List.map_congr_left
            intro i hi
            have hne : idx ≠ i := fun h => hnotin (h ▸ hi)
            rw [List.getD_eq_getElem?_getD, List.getD_eq_getElem?_getD,
              List.getElem?_set_ne hne]
          rw [e1, List.map_cons, List.sum_cons, hgetD, hrr]
          simp only [Querying.headScore, if_true, add_assoc]
        · intro i
          rw [hpw1 i]
          by_cases hi : idx = i
          · subst hi
            rw [List.getElem?_set_self hidx, hr]
            simp only [Option.map_some', if_neg hnotin, List.mem_cons, true_or, if_true]
            rw [hrr]
            simp [Querying.popHead]
          · rw [List.getElem?_set_ne hi]
            cases rs[i]? with
            | none => rfl
            | some r2 =>
              simp only [Option.map_some', List.mem_cons]
              have : (i = idx ∨ i ∈ rest) ↔ i ∈ rest :=
                ⟨fun h => h.resolve_left (fun h2 => hi h2.symm), Or.inr⟩
              simp only [this]
    · have hne : ¬ currDoc[idx]? = some c := by
        rw [hcd]
        simpa using hmatch
      rw [if_neg hne]
      obtain ⟨hz, hpop⟩ := cursorAt_headScore_of_ne hat
        (fun p => Querying.getScore ln p ((pageTable (Querying.toI32 c) : Int) : F)
          averageDocLength) c hmatch
      obtain ⟨lp1, currDoc1, rm1, rs1, hs1, hc1, hlen1, hpw1⟩ :=
        ih lp currDoc rs score (remainingMax + maxScores.getD idx 0) ⟨hl1, hl2, hpt⟩ hnd2 hlt2
      refine ⟨lp1, currDoc1, rm1, rs1, ?_, hc1, hlen1, ?_⟩
      · rw [hs1, List.map_cons, List.sum_cons, hgetD, hz, zero_add]
      · intro i
        rw [hpw1 i]
        by_cases hi : idx = i
        · subst hi
          rw [hr]
          simp only [Option.map_some', if_neg hnotin, List.mem_cons, true_or, if_true, hpop]
        · cases rs[i]? with
          | none => rfl
          | some r2 =>
            simp only [Option.map_some', List.mem_cons]
            have : (i = idx ∨ i ∈ rest) ↔ i ∈ rest :=
              ⟨fun h => h.resolve_left (fun h2 => hi h2.symm), Or.inr⟩
            simp only [this]

end ScoreLoop

/-! ## Lemmas: the main loop without the prune step -/

theorem minCandidate_foldl (cs : List Nat) (hle : ∀ c ∈ cs, c ≤ UINT32_MAX) :
    ∀ a : Nat, a ≤ UINT32_MAX →
      cs.foldl (fun c d => if d ≠ UINT32_MAX then min c d else c) a ≤ a ∧
        (∀ c ∈ cs, cs.foldl (fun c d => if d ≠ UINT32_MAX then min c d else c) a ≤ c) ∧
        (cs.foldl (fun c d => if d ≠ UINT32_MAX then min c d else c) a = a ∨
          cs.foldl (fun c d => if d ≠ UINT32_MAX then min c d else c) a ∈ cs) := by
  induction cs with
  | nil => intro a _; simp
  | cons x xs ih =>
    intro a ha
    have hx : x ≤ UINT32_MAX := hle x (List.mem_cons_self _ _)
    have hxs : ∀ c ∈ xs, c ≤ UINT32_MAX := fun c hc => hle c (List.mem_cons_of_mem _ hc)
    have hstep : (if x ≠ UINT32_MAX then min a x else a) = min a x := by
      split
      · rfl
      · rename_i h
        have : x = UINT32_MAX := by simpa using h
        rw [this, min_eq_left ha]
    simp only [List.foldl_cons, hstep]
    obtain ⟨h1, h2, h3⟩ := ih hxs (min a x) (le_trans (min_le_left _ _) ha)
    refine ⟨le_trans h1 (min_le_left _ _), ?_, ?_⟩
    · intro c hc
      rcases List.mem_cons.1 hc with hc | hc
      · rw [hc]; exact le_trans h1 (min_le_right _ _)
      · exact h2 c hc
    · rcases h3 with h3 | h3
      · rw [h3]
        rcases min_choice a x with h4 | h4
        · exact Or.inl h4
        · right; rw [h4]; exact List.mem_cons_self _ _
      · exact Or.inr (List.mem_cons_of_mem _ h3)

/-- The candidate is `UINT32_MAX` when every cursor is exhausted, and the
least `currDoc[i]` otherwise. -/
theorem minCandidate_spec (cs : List Nat) (hle : ∀ c ∈ cs, c ≤ UINT32_MAX) :
    (Querying.minCandidate cs = UINT32_MAX ∧ ∀ c ∈ cs, c = UINT32_MAX) ∨
      (Querying.minCandidate cs < UINT32_MAX ∧ Querying.minCandidate cs ∈ cs ∧
        ∀ c ∈ cs, Querying.minCandidate cs ≤ c) := by
  obtain ⟨h1, h2, h3⟩ := minCandidate_foldl cs hle UINT32_MAX (le_refl _)
  unfold Querying.minCandidate
  by_cases h : cs.foldl (fun c d => if d ≠ UINT32_MAX then min c d else c) UINT32_MAX =
      UINT32_MAX
  · left
    refine ⟨h, fun c hc => le_antisymm (hle c hc) ?_⟩
    rw [← h]
    exact h2 c hc
  · right
    exact ⟨lt_of_le_of_ne h1 h, h3.resolve_left h, h2⟩

theorem map_getD_range {α β : Type} (l : List α) (d : α) (h : α → β) :
    (List.range l.length).map (fun i => h (l.getD i d)) = l.map h := by
  apply List.ext_getElem
  · simp
  · intro i h1 h2
    simp only [List.length_map, List.length_range] at h1
    simp [List.getD_eq_getElem?_getD, List.getElem?_eq_getElem h1]

section MainLoop

variable {F : Type} [LinearOrderedField F]

/-- One candidate keeps the heap invariant: after a docId not yet visited has
been offered with its score, the heap holds the best `min(k, ·)` of the
visited docIds. -/
theorem heapUpdate_inv
    (pop : List (Querying.ScoreDoc F) → Option (Querying.ScoreDoc F × List (Querying.ScoreDoc F)))
    (hpop : Querying.TopSpec pop) (ref : Nat → F) (h : List (Querying.ScoreDoc F))
    (v : List Nat) (c : Nat) (remainingMax : F) (hinv : Querying.HeapInv ref h v)
    (hc : c ∉ v) :
    ∃ h1, Querying.heapUpdate pop false h (ref c) remainingMax c = some (h1, false) ∧
      Querying.HeapInv ref h1 (c :: v) := by
  obtain ⟨hmem, hnd, hlen, hexc⟩ := hinv
  have hcn : c ∉ h.map Querying.ScoreDoc.docId := by
    intro hin
    obtain ⟨e, he, rfl⟩ := List.mem_map.1 hin
    exact hc (hmem e he).1
  unfold Querying.heapUpdate
  by_cases hlt : h.length < Querying.k
  · rw [if_pos hlt]
    refine ⟨_, rfl, ?_, ?_, ?_, ?_⟩
    · intro e he
      rcases List.mem_cons.1 he with he | he
      · subst he
        exact ⟨List.mem_cons_self _ _, rfl⟩
      · exact ⟨List.mem_cons_of_mem _ (hmem e he).1, (hmem e he).2⟩
    · rw [List.map_cons]
      exact List.nodup_cons.2 ⟨hcn, hnd⟩
    · simp only [List.length_cons]
      omega
    · intro d hd hdn e _
      exfalso
      have hdv : d ∈ v := by
        rcases List.mem_cons.1 hd with hd | hd
        · subst hd
          exact absurd (List.mem_cons_self _ _) hdn
        · exact hd
      have hsub : h.map Querying.ScoreDoc.docId ⊆ v := by
        intro x hx
        obtain ⟨e, he, rfl⟩ := List.mem_map.1 hx
        exact (hmem e he).1
      have hperm : List.Perm (h.map Querying.ScoreDoc.docId) v :=
        (List.subperm_of_subset hnd hsub).perm_of_length_le (by
          rw [List.length_map]; omega)
      exact hdn (List.mem_cons_of_mem _ (hperm.symm.subset hdv))
  · rw [if_neg hlt]
    have hk : h.length = Querying.k := by omega
    have hne : h ≠ [] := by
      intro h0; rw [h0] at hk; simp [Querying.k] at hk
    obtain ⟨x, rest, hp, hperm, hmin⟩ := hpop h hne
    have hxin : x ∈ h := hperm.subset (List.mem_cons_self _ _)
    have hrestin : ∀ e ∈ rest, e ∈ h := fun e he => hperm.subset (List.mem_cons_of_mem _ he)
    have hlen2 := hperm.length_eq
    simp only [List.length_cons] at hlen2
    have hpermd : List.Perm (x.docId :: rest.map Querying.ScoreDoc.docId)
        (h.map Querying.ScoreDoc.docId) := by
      have := hperm.map Querying.ScoreDoc.docId
      simpa using this
    have hndx := (List.Perm.nodup_iff hpermd).2 hnd
    rw [hp]
    simp only [Bool.false_eq_true, false_and, if_false]
    by_cases hs : ref c > x.score
    · rw [if_pos hs]
      refine ⟨_, rfl, ?_, ?_, ?_, ?_⟩
      · intro e he
        rcases List.mem_cons.1 he with he | he
        · subst he
          exact ⟨List.mem_cons_self _ _, rfl⟩
        · exact ⟨List.mem_cons_of_mem _ (hmem e (hrestin e he)).1, (hmem e (hrestin e he)).2⟩
      · rw [List.map_cons]
        refine List.nodup_cons.2 ⟨?_, (List.nodup_cons.1 hndx).2⟩
        intro hin
        exact hcn (hpermd.subset (List.mem_cons_of_mem _ hin))
      · simp only [List.length_cons]
        omega
      · intro d hd hdn e he
        have hdc : d ≠ c := by
          intro h0; subst h0
          exact hdn (by simp)
        have hdv : d ∈ v := by
          rcases List.mem_cons.1 hd with hd | hd
          · exact absurd hd hdc
          · exact hd
        have hdx : ref d ≤ x.score := by
          by_cases hdh : d ∈ h.map Querying.ScoreDoc.docId
          · have := hpermd.symm.subset hdh
            rcases List.mem_cons.1 this with h1 | h1
            · rw [h1, ← (hmem x hxin).2]
            · exact absurd (by simp only [List.map_cons]; exact List.mem_cons_of_mem _ h1) hdn
          · exact hexc d hdv hdh x hxin
        rcases List.mem_cons.1 he with he | he
        · subst he
          exact le_trans hdx hs.le
        · exact le_trans hdx (MinHeapComp_false_score (hmin e (hrestin e he))).1
    · rw [if_neg hs]
      refine ⟨_, rfl, ?_, hnd, ?_, ?_⟩
      · intro e he
        exact ⟨List.mem_cons_of_mem _ (hmem e he).1, (hmem e he).2⟩
      · simp only [List.length_cons]
        omega
      · intro d hd hdn e he
        rcases List.mem_cons.1 hd with hd | hd
        · subst hd
          exact le_trans (not_lt.1 hs) (MinHeapComp_false_score (hmin e he)).1
        · exact hexc d hd hdn e he

end MainLoop

theorem cursorsAt_get {ifs : List Nat} {metadata : List BlockMetadata}
    {blockOffsets : List Nat} {lp : List Querying.ListPointer} {currDoc : List Nat}
    {rs : List (List (Nat × Querying.ListPointer))}
    (h : Querying.CursorsAt ifs metadata blockOffsets lp currDoc rs) (i : Nat)
    (hi : i < rs.length) :
    ∃ p c r, lp[i]? = some p ∧ currDoc[i]? = some c ∧ rs[i]? = some r ∧ c ∈ currDoc ∧
      Querying.CursorAt ifs metadata blockOffsets p c r := by
  obtain ⟨h1, h2, h3⟩ := h
  have hp : lp[i]? = some (lp.get ⟨i, by omega⟩) := List.getElem?_eq_getElem (by omega)
  have hc : currDoc[i]? = some (currDoc.get ⟨i, by omega⟩) :=
    List.getElem?_eq_getElem (by omega)
  have hr : rs[i]? = some (rs.get ⟨i, hi⟩) := List.getElem?_eq_getElem hi
  exact ⟨_, _, _, hp, hc, hr, List.get_mem _ _ _, h3 i _ _ _ hp hc hr⟩

theorem cursorAt_head_le {ifs : List Nat} {metadata : List BlockMetadata}
    {blockOffsets : List Nat} {p : Querying.ListPointer} {c : Nat}
    {r : List (Nat × Querying.ListPointer)}
    (h : Querying.CursorAt ifs metadata blockOffsets p c r)
    (hs : r.Pairwise (fun a b => a.1 < b.1)) : ∀ e ∈ r, c ≤ e.1 := by
  intro e he
  rcases h with ⟨_, hr⟩ | ⟨_, rest, _, hr, _⟩
  · subst hr
    simp at he
  · subst hr
    rcases List.mem_cons.1 he with he | he
    · subst he
      exact le_refl _
    · exact ((List.pairwise_cons.1 hs).1 e he).le

section MainLoop2

variable {F : Type} [LinearOrderedField F]

/-- The main loop without the prune step, started with every cursor at the
first docId `≥ B` of its run and a heap holding the best of the docIds `< B`,
returns with a heap holding the best `min(k, ·)` of all docIds of the runs
`ls`, each scored by `runScore`. -/
theorem mainLoop_correct (ln : F → F)
    (pop : List (Querying.ScoreDoc F) → Option (Querying.ScoreDoc F × List (Querying.ScoreDoc F)))
    (hpop : Querying.TopSpec pop) (ifs : List Nat) (metadata : List BlockMetadata)
    (blockOffsets : List Nat) (pageTable : Int → Int) (averageDocLength : F)
    (maxScores : List F) (order : List Nat) (ls : List (List (Nat × Querying.ListPointer)))
    (hsorted : ∀ l ∈ ls, l.Pairwise (fun a b => a.1 < b.1))
    (horder : List.Perm order (List.range ls.length)) :
    ∀ (fuel : Nat) (st : Querying.DaatState F) (B : Nat) (v : List Nat),
      B ≤ UINT32_MAX → UINT32_MAX - B < fuel →
      Querying.CursorsAt ifs metadata blockOffsets st.lp st.currDoc
        (ls.map (fun l => l.filter (fun e => decide (B ≤ e.1)))) →
      Querying.HeapInv (fun d => Querying.runScore
        (fun p => Querying.getScore ln p ((pageTable (Querying.toI32 d) : Int) : F)
          averageDocLength) ls d) st.topK v →
      v.Nodup →
      (∀ d, d ∈ v ↔ (d < B ∧ ∃ l ∈ ls, ∃ e ∈ l, e.1 = d)) →
      ∃ st1 v1, Querying.mainLoop ln pop false ifs metadata blockOffsets pageTable
          averageDocLength maxScores order fuel st = some st1 ∧
        Querying.HeapInv (fun d => Querying.runScore
          (fun p => Querying.getScore ln p ((pageTable (Querying.toI32 d) : Int) : F)
            averageDocLength) ls d) st1.topK v1 ∧
        v1.Nodup ∧ (∀ d, d ∈ v1 ↔ ∃ l ∈ ls, ∃ e ∈ l, e.1 = d) := by
  intro fuel
  induction fuel with
  | zero => intro st B v _ hf; omega
  | succ fuel ih =>
    intro st B v hB hfuel hcur hheap hnd hv
    have hrslen : (ls.map (fun l => l.filter (fun e => decide (B ≤ e.1)))).length = ls.length :=
      List.length_map _ _
    -- the run of cursor `i`
    have hget : ∀ l ∈ ls, ∃ p c, c ∈ st.currDoc ∧
        Querying.CursorAt ifs metadata blockOffsets p c
          (l.filter (fun e => decide (B ≤ e.1))) := by
      intro l hl
      obtain ⟨i, hi, hli⟩ := List.getElem_of_mem hl
      obtain ⟨p, c, r, _, _, hr, hc, hat⟩ := cursorsAt_get hcur i (by rw [hrslen]; exact hi)
      rw [List.getElem?_map, List.getElem?_eq_getElem hi, hli] at hr
      simp only [Option.map_some', Option.some.injEq] at hr
      subst hr
      exact ⟨p, c, hc, hat⟩
    have hfs : ∀ l ∈ ls, (l.filter (fun e => decide (B ≤ e.1))).Pairwise
        (fun a b => a.1 < b.1) := fun l hl => (hsorted l hl).filter _
    have hcs : ∀ c ∈ st.currDoc, c ≤ UINT32_MAX := by
      intro c hc
      obtain ⟨i, hi, hci⟩ := List.getElem_of_mem hc
      obtain ⟨p, c2, r, _, hc2, _, _, hat⟩ := cursorsAt_get hcur i (by rw [hcur.2.1] at hi; exact hi)
      rw [List.getElem?_eq_getElem hi, hci] at hc2
      simp only [Option.some.injEq] at hc2
      subst hc2
      rcases hat with ⟨h1, _⟩ | ⟨h1, _⟩
      · exact h1.le
      · exact h1.le
    rcases minCandidate_spec st.currDoc hcs with ⟨hm, hall⟩ | ⟨hm, hmem, hmin⟩
    · refine ⟨st, v, ?_, hheap, hnd, ?_⟩
      · unfold Querying.mainLoop
        rw [if_pos hm]
      · intro d
        rw [hv d]
        constructor
        · exact fun h => h.2
        · rintro ⟨l, hl, e, he, hed⟩
          refine ⟨?_, l, hl, e, he, hed⟩
          by_contra hnot
          obtain ⟨p, c, hc, hat⟩ := hget l hl
          have hcm := hall c hc
          have hein : e ∈ l.filter (fun e => decide (B ≤ e.1)) := by
            rw [List.mem_filter]
            exact ⟨he, by simp only [decide_eq_true_eq]; omega⟩
          rcases hat with ⟨_, hr⟩ | ⟨h1, _⟩
          · rw [hr] at hein
            simp at hein
          · omega
    · -- the candidate is the head of a run
      have hhead : B ≤ Querying.minCandidate st.currDoc ∧
          ∃ l ∈ ls, ∃ e ∈ l, e.1 = Querying.minCandidate st.currDoc := by
        obtain ⟨j, hj, hjm⟩ := List.getElem_of_mem hmem
        have hj2 : j < ls.length := by rw [hcur.2.1, hrslen] at hj; exact hj
        obtain ⟨p, c, r, _, hc2, hr, _, hat⟩ := cursorsAt_get hcur j (by rw [hrslen]; exact hj2)
        rw [List.getElem?_eq_getElem hj, hjm] at hc2
        simp only [Option.some.injEq] at hc2
        subst hc2
        rw [List.getElem?_map, List.getElem?_eq_getElem hj2] at hr
        simp only [Option.map_some', Option.some.injEq] at hr
        rcases hat with ⟨h1, _⟩ | ⟨_, rest, _, hrr, _⟩
        · omega
        · have hin : (Querying.minCandidate st.currDoc, p) ∈
              (ls[j]).filter (fun e => decide (B ≤ e.1)) := by
            rw [hr, hrr]
            exact List.mem_cons_self _ _
          rw [List.mem_filter] at hin
          exact ⟨by simpa using hin.2, ls[j], List.getElem_mem _, _, hin.1, rfl⟩
      obtain ⟨hBm, hmdoc⟩ := hhead
      have hge : ∀ l ∈ ls, ∀ e ∈ l.filter (fun e => decide (B ≤ e.1)),
          Querying.minCandidate st.currDoc ≤ e.1 := by
        intro l hl e he
        obtain ⟨p, c, hc, hat⟩ := hget l hl
        exact le_trans (hmin c hc) (cursorAt_head_le hat (hfs l hl) e he)
      have hfilt : ∀ l : List (Nat × Querying.ListPointer),
          (l.filter (fun e => decide (B ≤ e.1))).filter
            (fun e => decide (Querying.minCandidate st.currDoc + 1 ≤ e.1)) =
          l.filter (fun e => decide (Querying.minCandidate st.currDoc + 1 ≤ e.1)) := by
        intro l
        rw [List.filter_filter]
        apply List.filter_congr
        intro e _
        by_cases h : Querying.minCandidate st.currDoc + 1 ≤ e.1
        · simp only [h, decide_True, Bool.true_and, decide_eq_true_eq]
          omega
        · simp [h]
      have hfilt2 : ∀ l : List (Nat × Querying.ListPointer),
          (l.filter (fun e => decide (B ≤ e.1))).filter
            (fun e => decide (e.1 = Querying.minCandidate st.currDoc)) =
          l.filter (fun e => decide (e.1 = Querying.minCandidate st.currDoc)) := by
        intro l
        rw [List.filter_filter]
        apply List.filter_congr
        intro e _
        by_cases h : e.1 = Querying.minCandidate st.currDoc
        · simp only [h, decide_True, Bool.true_and, decide_eq_true_eq]
          exact hBm
        · simp [h]
      have hond : order.Nodup := (horder.nodup_iff).2 (List.nodup_range _)
      have holt : ∀ i ∈ order,
          i < (ls.map (fun l => l.filter (fun e => decide (B ≤ e.1)))).length := by
        intro i hi
        rw [hrslen]
        exact List.mem_range.1 (horder.subset hi)
      obtain ⟨lp1, cd1, rm1, rs1, hs, hcur1, hlen1, hpw⟩ :=
        scoreLoop_spec ln ifs metadata blockOffsets pageTable averageDocLength maxScores
          (Querying.minCandidate st.currDoc) hm order st.lp st.currDoc _ 0 0 hcur hond holt
      have hrs1 : rs1 = ls.map (fun l => l.filter
          (fun e => decide (Querying.minCandidate st.currDoc + 1 ≤ e.1))) := by
        apply List.ext_getElem?
        intro i
        rw [hpw i]
        simp only [List.getElem?_map]
        cases hli : ls[i]? with
        | none => rfl
        | some l =>
          have hi : i < ls.length := by
            by_contra hcon
            rw [List.getElem?_eq_none (by omega)] at hli
            simp at hli
          have hl : l ∈ ls := List.getElem?_mem hli
          have hio : i ∈ order := horder.symm.subset (List.mem_range.2 hi)
          simp only [Option.map_some', if_pos hio]
          rw [popHead_eq_filter _ _ (hfs l hl) (hge l hl), hfilt]
      have hscore : (0 : F) + (order.map (fun i => Querying.headScore
          (fun p => Querying.getScore ln p
            ((pageTable (Querying.toI32 (Querying.minCandidate st.currDoc)) : Int) : F)
            averageDocLength) (Querying.minCandidate st.currDoc)
          ((ls.map (fun l => l.filter (fun e => decide (B ≤ e.1)))).getD i []))).sum =
          Querying.runScore (fun p => Querying.getScore ln p
            ((pageTable (Querying.toI32 (Querying.minCandidate st.currDoc)) : Int) : F)
            averageDocLength) ls (Querying.minCandidate st.currDoc) := by
        rw [zero_add, (horder.map _).sum_eq, ← hrslen,
          map_getD_range (ls.map (fun l => l.filter (fun e => decide (B ≤ e.1)))) []
            (Querying.headScore (fun p => Querying.getScore ln p
              ((pageTable (Querying.toI32 (Querying.minCandidate st.currDoc)) : Int) : F)
              averageDocLength) (Querying.minCandidate st.currDoc))]
        unfold Querying.runScore
        rw [List.map_map]
        congr 1
        apply List.map_congr_left
        intro l hl
        simp only [Function.comp]
        rw [headScore_eq_filter _ _ _ (hfs l hl) (hge l hl), hfilt2]
      have hmv : Querying.minCandidate st.currDoc ∉ v := by
        intro h
        have := ((hv _).1 h).1
        omega
      obtain ⟨h1, hu, hheap1⟩ := heapUpdate_inv pop hpop _ st.topK v
        (Querying.minCandidate st.currDoc) rm1 hheap hmv
      have hv1 : ∀ d, d ∈ Querying.minCandidate st.currDoc :: v ↔
          (d < Querying.minCandidate st.currDoc + 1 ∧ ∃ l ∈ ls, ∃ e ∈ l, e.1 = d) := by
        intro d
        constructor
        · intro hd
          rcases List.mem_cons.1 hd with hd | hd
          · rw [hd]
            exact ⟨by omega, hmdoc⟩
          · obtain ⟨h2, h3⟩ := (hv d).1 hd
            exact ⟨by omega, h3⟩
        · rintro ⟨h2, l, hl, e, he, hed⟩
          by_cases hdB : d < B
          · exact List.mem_cons_of_mem _ ((hv d).2 ⟨hdB, l, hl, e, he, hed⟩)
          · have hein : e ∈ l.filter (fun e => decide (B ≤ e.1)) := by
              rw [List.mem_filter]
              exact ⟨he, by simp only [decide_eq_true_eq]; omega⟩
            have := hge l hl e hein
            have hdm : d = Querying.minCandidate st.currDoc := by omega
            rw [hdm]
            exact List.mem_cons_self _ _
      obtain ⟨st1, v1, hrun, hfin⟩ := ih
        ⟨lp1, cd1, h1, st.visited + 1, st.pruned⟩ (Querying.minCandidate st.currDoc + 1)
        (Querying.minCandidate st.currDoc :: v) (by omega) (by omega)
        (by rw [← hrs1]; exact hcur1) hheap1 (List.nodup_cons.2 ⟨hmv, hnd⟩) hv1
      refine ⟨st1, v1, ?_, hfin⟩
      unfold Querying.mainLoop
      rw [if_neg (ne_of_lt hm), hs]
      simp only
      rw [hscore, hu]
      simp only [Bool.false_eq_true, if_false]
      exact hrun

end MainLoop2

/-! ## Lemmas: disjunctiveDAAT against the reference -/

theorem cursorsAt_cons {ifs : List Nat} {metadata : List BlockMetadata}
    {blockOffsets : List Nat} {p : Querying.ListPointer} {c : Nat}
    {r : List (Nat × Querying.ListPointer)} {lp : List Querying.ListPointer}
    {currDoc : List Nat} {rs : List (List (Nat × Querying.ListPointer))}
    (h1 : Querying.CursorAt ifs metadata blockOffsets p c r)
    (h2 : Querying.CursorsAt ifs metadata blockOffsets lp currDoc rs) :
    Querying.CursorsAt ifs metadata blockOffsets (p :: lp) (c :: currDoc) (r :: rs) := by
  obtain ⟨hl1, hl2, hpt⟩ := h2
  refine ⟨by simp [hl1], by simp [hl2], ?_⟩
  intro i p2 c2 r2 e1 e2 e3
  cases i with
  | zero =>
    simp only [List.getElem?_cons_zero, Option.some.injEq] at e1 e2 e3
    subst e1; subst e2; subst e3
    exact h1
  | succ i =>
    simp only [List.getElem?_cons_succ] at e1 e2 e3
    exact hpt i p2 c2 r2 e1 e2 e3

/-- When every cursor of the query enumerates a list, the loop `currDoc[i] =
nextGEQ(0)` succeeds and leaves every cursor at the head of its run. -/
theorem initCurrDoc_spec (ifs : List Nat) (metadata : List BlockMetadata)
    (blockOffsets : List Nat) :
    ∀ (lps : List Querying.ListPointer) (terms : List (Nat × List (Nat × Nat))),
      Querying.enumerateLists ifs metadata blockOffsets lps = some terms →
      ∃ lp1 currDoc ls,
        Querying.initCurrDoc ifs metadata blockOffsets lps = some (lp1, currDoc) ∧
        Querying.CursorsAt ifs metadata blockOffsets lp1 currDoc ls ∧
        ls.length = lps.length ∧
        (∀ l ∈ ls, l.Pairwise (fun a b => a.1 < b.1)) ∧
        List.Forall₂ Querying.TermOf terms ls := by
  intro lps
  induction lps with
  | nil =>
    intro terms h
    simp only [Querying.enumerateLists, Option.some.injEq] at h
    subst h
    exact ⟨[], [], [], rfl, ⟨rfl, rfl, by simp⟩, rfl, by simp, List.Forall₂.nil⟩
  | cons p rest ih =>
    intro terms h
    unfold Querying.enumerateLists at h
    split at h
    · simp at h
    · rename_i l hl
      obtain ⟨ts, hts, hterms⟩ := Option.map_eq_some'.1 h
      obtain ⟨lp1, currDoc, ls, hi, hcur, hlen, hsorted, hf2⟩ := ih ts hts
      obtain ⟨hmem, hpw⟩ := cursorRun_sorted ifs metadata blockOffsets _ 0 p l
        (Nat.zero_le _) hl
      obtain ⟨fuel1, d, p1, _, hn, hcase⟩ := cursorRun_some _ _ _ _ _ _ _ hl
      have hdle := (nextGEQ_ge 0 ifs metadata blockOffsets (Nat.zero_le _) p d p1 hn).2.1
      have hat : Querying.CursorAt ifs metadata blockOffsets p1 d l := by
        rcases hcase with ⟨hd, hl2⟩ | ⟨hd, rest2, hl2, hrun2⟩
        · exact Or.inl ⟨hd, hl2⟩
        · exact Or.inr ⟨lt_of_le_of_ne hdle hd, rest2, fuel1, hl2, hrun2⟩
      refine ⟨p1 :: lp1, d :: currDoc, l :: ls, ?_, cursorsAt_cons hat hcur, by simp [hlen], ?_,
        ?_⟩
      · unfold Querying.initCurrDoc
        rw [hn]
        simp only
        rw [hi]
        rfl
      · intro l2 hl2
        rcases List.mem_cons.1 hl2 with hl2 | hl2
        · rw [hl2]; exact hpw
        · exact hsorted l2 hl2
      · rw [← hterms]
        exact List.Forall₂.cons ⟨rfl, fun e he => (hmem e he).2.2⟩ hf2

section Reference

variable {F : Type} [Field F]

theorem getScore_scoreCursor (ln : F → F) (p : Querying.ListPointer)
    (docLength averageDocLength : F) :
    Querying.getScore ln p docLength averageDocLength =
      Querying.getScore ln (Querying.scoreCursor p.listLength p.currentFreq) docLength
        averageDocLength := rfl

/-- The reference score over the enumerated posting lists is the sum of
`getScore` over the cursor states standing at the docId. -/
theorem referenceScore_eq_runScore (ln : F → F) (pageTable : Int → Int) (averageDocLength : F)
    (d : Nat) :
    ∀ (terms : List (Nat × List (Nat × Nat))) (ls : List (List (Nat × Querying.ListPointer))),
      List.Forall₂ Querying.TermOf terms ls →
      Querying.referenceScore ln pageTable averageDocLength terms d =
        Querying.runScore (fun p => Querying.getScore ln p
          ((pageTable (Querying.toI32 d) : Int) : F) averageDocLength) ls d := by
  intro terms ls h
  induction h with
  | nil => rfl
  | @cons t l ts ls2 hd _ ih =>
    obtain ⟨h1, h2⟩ := hd
    unfold Querying.referenceScore Querying.runScore at ih ⊢
    rw [List.map_cons, List.map_cons, List.sum_cons, List.sum_cons, ih]
    congr 1
    rw [h1, List.filter_map, List.map_map]
    congr 1
    apply List.map_congr_left
    intro e he
    have hel : e ∈ l := (List.mem_filter.1 he).1
    simp only [Function.comp]
    rw [getScore_scoreCursor ln e.2, h2 e hel]

theorem unionDocs_mem (d : Nat) :
    ∀ (terms : List (Nat × List (Nat × Nat))) (ls : List (List (Nat × Querying.ListPointer))),
      List.Forall₂ Querying.TermOf terms ls →
      (d ∈ Querying.unionDocs terms ↔ ∃ l ∈ ls, ∃ e ∈ l, e.1 = d) := by
  intro terms ls h
  unfold Querying.unionDocs
  rw [List.mem_dedup]
  induction h with
  | nil => simp
  | @cons t l ts ls2 hd _ ih =>
    obtain ⟨h1, _⟩ := hd
    rw [List.map_cons, List.flatten_cons, List.mem_append, ih, h1]
    constructor
    · rintro (h | ⟨l2, hl2, e, he, hed⟩)
      · simp only [List.map_map, List.mem_map, Function.comp] at h
        obtain ⟨e, he, hed⟩ := h
        exact ⟨l, List.mem_cons_self _ _, e, he, hed⟩
      · exact ⟨l2, List.mem_cons_of_mem _ hl2, e, he, hed⟩
    · rintro ⟨l2, hl2, e, he, hed⟩
      rcases List.mem_cons.1 hl2 with hl2 | hl2
      · left
        subst hl2
        simp only [List.map_map, List.mem_map, Function.comp]
        exact ⟨e, he, hed⟩
      · exact Or.inr ⟨l2, hl2, e, he, hed⟩

end Reference

/-! ## Lemmas: the fuel of nextGEQ -/

theorem varbyteDecodeLoop_pos (l : List Nat) :
    ∀ (num shift pos v pos1 : Nat), varbyteDecodeLoop l num shift pos = some (v, pos1) →
      pos < pos1 ∧ pos1 ≤ pos + l.length := by
  induction l with
  | nil => intro num shift pos v pos1 h; simp [varbyteDecodeLoop] at h
  | cons curr rest ih =>
    intro num shift pos v pos1 h
    simp only [varbyteDecodeLoop] at h
    split at h
    · obtain ⟨h1, h2⟩ := ih _ _ _ _ _ h
      simp only [List.length_cons]
      omega
    · simp only [Option.some.injEq, Prod.mk.injEq] at h
      simp only [List.length_cons]
      omega

/-- A successful `varbyteDecode` advances the position and stays inside the
buffer. -/
theorem varbyteDecode_pos (buf : List Nat) (pos v pos1 : Nat)
    (h : varbyteDecode buf pos = some (v, pos1)) : pos < pos1 ∧ pos1 ≤ buf.length := by
  unfold varbyteDecode at h
  obtain ⟨h1, h2⟩ := varbyteDecodeLoop_pos _ _ _ _ _ _ h
  rw [List.length_drop] at h2
  by_cases hp : pos ≤ buf.length
  · exact ⟨h1, by omega⟩
  · rw [List.drop_eq_nil_of_le (by omega)] at h
    simp [varbyteDecodeLoop] at h

theorem decodePosting_pos (lp lp3 : Querying.ListPointer)
    (h : Querying.decodePosting lp = some lp3) :
    lp3.docBuffer = lp.docBuffer ∧ lp.docBufPos < lp3.docBufPos ∧
      lp3.docBufPos ≤ lp.docBuffer.length ∧ lp3.blockNum = lp.blockNum := by
  unfold Querying.decodePosting at h
  split at h
  · simp at h
  · rename_i gap dpos hd
    split at h
    · simp at h
    · simp only [Option.some.injEq] at h
      obtain ⟨h1, h2⟩ := varbyteDecode_pos _ _ _ _ hd
      rw [← h]
      exact ⟨rfl, h1, h2, rfl⟩

theorem skipLoop_buffers (n : Nat) :
    ∀ lp lp1 : Querying.ListPointer, Querying.skipLoop n lp = some lp1 →
      lp1.docBuffer = lp.docBuffer ∧ lp1.blockNum = lp.blockNum := by
  induction n with
  | zero =>
    intro lp lp1 h
    simp only [Querying.skipLoop, Option.some.injEq] at h
    rw [← h]
    exact ⟨rfl, rfl⟩
  | succ n ih =>
    intro lp lp1 h
    unfold Querying.skipLoop at h
    split at h
    · simp at h
    · split at h
      · simp at h
      · have h2 := ih _ _ h
        exact h2

/-- After `loadBlock` of a block of the index the doc buffer has the block's
`docSize` bytes. -/
theorem loadBlock_buffer (ifs : List Nat) (metadata : List BlockMetadata)
    (blockOffsets : List Nat) (lp lp1 : Querying.ListPointer) (md : BlockMetadata)
    (hmd : metadata[lp.blockNum]? = some md)
    (h : Querying.loadBlock ifs metadata blockOffsets lp = some lp1) :
    lp1.docBuffer.length = md.docSize ∧ lp1.blockNum = lp.blockNum := by
  have hlt : lp.blockNum < metadata.length := by
    by_contra hcon
    rw [List.getElem?_eq_none (by omega)] at hmd
    simp at hmd
  unfold Querying.loadBlock at h
  rw [if_neg (by omega), hmd] at h
  split at h
  · rename_i off md2 _ hmd2
    simp only [Option.some.injEq] at hmd2
    subst hmd2
    simp only at h
    obtain ⟨l, hl, he⟩ := Option.map_eq_some'.1 h
    have hlen : ∀ buf : List Nat,
        ((ifs.drop off).take md.docSize ++
          (Querying.resize buf md.docSize).drop ((ifs.drop off).take md.docSize).length).length =
        md.docSize := by
      intro buf
      simp only [List.length_append, List.length_drop, Querying.resize, List.length_take,
        List.length_append, List.length_replicate]
      omega
    rw [← he]
    simp only
    split at hl
    · obtain ⟨h1, h2⟩ := skipLoop_buffers _ _ _ hl
      rw [h1, h2]
      exact ⟨hlen _, rfl⟩
    · simp only [Option.some.injEq] at hl
      rw [← hl]
      exact ⟨hlen _, rfl⟩
  · rename_i hno
    exfalso
    cases hbo : blockOffsets[lp.blockNum]? with
    | none => simp [hbo] at h
    | some off => exact hno off md hbo rfl

theorem sum_docSize_drop (metadata : List BlockMetadata) (n : Nat) (md : BlockMetadata)
    (h : metadata[n]? = some md) :
    ((metadata.drop n).map BlockMetadata.docSize).sum =
      md.docSize + ((metadata.drop (n + 1)).map BlockMetadata.docSize).sum := by
  have hlt : n < metadata.length := by
    by_contra hcon
    rw [List.getElem?_eq_none (by omega)] at h
    simp at h
  rw [List.drop_eq_getElem_cons hlt]
  rw [List.getElem?_eq_getElem hlt] at h
  simp only [Option.some.injEq] at h
  rw [h]
  simp

/-- The loop of `nextGEQ` gives the same result for every fuel above the bytes
left in the doc buffer plus the `docSize` of the later blocks: each iteration
decodes at least one byte, and a block is loaded at most once. -/
theorem nextGEQLoop_fuel (targetDoc : Nat) (ifs : List Nat) (metadata : List BlockMetadata)
    (blockOffsets : List Nat) :
    ∀ (fuel1 fuel2 : Nat) (lp : Querying.ListPointer),
      lp.blockNum + 1 < 2 ^ 32 → metadata.length < 2 ^ 32 →
      (lp.docBuffer.length - lp.docBufPos) +
        ((metadata.drop (lp.blockNum + 1)).map BlockMetadata.docSize).sum < fuel1 →
      (lp.docBuffer.length - lp.docBufPos) +
        ((metadata.drop (lp.blockNum + 1)).map BlockMetadata.docSize).sum < fuel2 →
      Querying.nextGEQLoop targetDoc ifs metadata blockOffsets fuel1 lp =
        Querying.nextGEQLoop targetDoc ifs metadata blockOffsets fuel2 lp := by
  intro fuel1
  induction fuel1 with
  | zero => intro fuel2 lp _ _ h; omega
  | succ fuel1 ih =>
    intro fuel2 lp hb hml h1 h2
    cases fuel2 with
    | zero => omega
    | succ fuel2 =>
      simp only [Querying.nextGEQLoop]
      have hmod : (lp.blockNum + 1) % 2 ^ 32 = lp.blockNum + 1 := Nat.mod_eq_of_lt hb
      split
      · rename_i hend
        split
        · rfl
        · rename_i hcont
          rw [hmod] at hcont ⊢
          have hlt : lp.blockNum + 1 < metadata.length := by omega
          cases hb2 : (Querying.loadBlock ifs metadata blockOffsets
              { lp with blockNum := lp.blockNum + 1 }).bind Querying.decodePosting with
          | none => rfl
          | some lp3 =>
            simp only
            split
            · rfl
            · obtain ⟨lp2, hload, hdec⟩ := Option.bind_eq_some.1 hb2
              have hmd : metadata[lp.blockNum + 1]? = some (metadata[lp.blockNum + 1]) :=
                List.getElem?_eq_getElem hlt
              obtain ⟨hl1, hl2⟩ := loadBlock_buffer ifs metadata blockOffsets _ lp2 _ hmd hload
              obtain ⟨hd1, hd2, hd3, hd4⟩ := decodePosting_pos lp2 lp3 hdec
              have hsum := sum_docSize_drop metadata (lp.blockNum + 1) _ hmd
              simp only at hl2
              have hbn : lp3.blockNum = lp.blockNum + 1 := by rw [hd4, hl2]
              apply ih fuel2 lp3
              · rw [hbn]; omega
              · exact hml
              · rw [hbn, hd1, hl1]
                rw [hl1] at hd3
                omega
              · rw [hbn, hd1, hl1]
                rw [hl1] at hd3
                omega
      · rename_i hin
        cases hdec : Querying.decodePosting lp with
        | none => rfl
        | some lp3 =>
          simp only
          split
          · rfl
          · obtain ⟨hd1, hd2, hd3, hd4⟩ := decodePosting_pos lp lp3 hdec
            apply ih fuel2 lp3
            · rw [hd4]; exact hb
            · exact hml
            · rw [hd4, hd1]; omega
            · rw [hd4, hd1]; omega


theorem sum_drop_le (l : List Nat) (n : Nat) : (l.drop n).sum ≤ l.sum := by
  conv => rhs; rw [← List.take_append_drop n l]
  rw [List.sum_append]
  omega

/-- The fuel `nextGEQ` passes to its loop is never exhausted: for a cursor with
`blockNum < UINT32_MAX` on an index of fewer than `2 ^ 32` blocks, every larger
fuel gives the same result, so `nextGEQ` fails only where the source reads
outside a buffer. -/
theorem nextGEQLoop_fuel_enough (targetDoc : Nat) (ifs : List Nat)
    (metadata : List BlockMetadata) (blockOffsets : List Nat) (lp : Querying.ListPointer)
    (hb : lp.blockNum + 1 < 2 ^ 32) (hml : metadata.length < 2 ^ 32) (fuel : Nat)
    (hf : lp.docBuffer.length + (metadata.map BlockMetadata.docSize).sum + 1 ≤ fuel) :
    Querying.nextGEQLoop targetDoc ifs metadata blockOffsets fuel lp =
      Querying.nextGEQLoop targetDoc ifs metadata blockOffsets
        (lp.docBuffer.length + (metadata.map BlockMetadata.docSize).sum + 1) lp := by
  have h := sum_drop_le (metadata.map BlockMetadata.docSize) (lp.blockNum + 1)
  rw [← List.map_drop] at h
  apply nextGEQLoop_fuel targetDoc ifs metadata blockOffsets _ _ lp hb hml <;> omega

/-! ## Lemmas: length of the varbyte encoding -/

theorem size_div_128 (n : Nat) (h : 128 ≤ n) : Nat.size n = Nat.size (n / 128) + 7 := by
  apply le_antisymm
  · rw [Nat.size_le]
    have h1 : n / 128 < 2 ^ Nat.size (n / 128) := Nat.lt_size_self _
    have h2 : n < 128 * (n / 128) + 128 := by omega
    calc n < 128 * (n / 128) + 128 := h2
      _ ≤ 128 * 2 ^ Nat.size (n / 128) := by omega
      _ = 2 ^ (Nat.size (n / 128) + 7) := by rw [pow_add]; norm_num; ring
  · have hpos : 0 < Nat.size (n / 128) := by
      rw [Nat.size_pos]
      omega
    have h1 : 2 ^ (Nat.size (n / 128) - 1) ≤ n / 128 := by
      rw [← Nat.lt_size]
      omega
    have h2 : 2 ^ (Nat.size (n / 128) - 1 + 7) ≤ n := by
      rw [pow_add]
      have : 128 * (n / 128) ≤ n := Nat.mul_div_le n 128
      calc 2 ^ (Nat.size (n / 128) - 1) * 2 ^ 7 ≤ (n / 128) * 2 ^ 7 :=
            Nat.mul_le_mul_right _ h1
        _ = 128 * (n / 128) := by norm_num; ring
        _ ≤ n := this
    have h3 := Nat.lt_size.2 h2
    omega

/-- The bytes the encoder loop writes for `num`: as many as `num` has 7-bit
groups, every byte but the last with the top bit set, the last without. -/
theorem varbyteEncodeLoop_shape (fuel : Nat) : ∀ (num : Nat), num < 128 ^ (fuel + 1) →
    (varbyteEncodeLoop fuel [] num).length = max 1 ((Nat.size num + 6) / 7) ∧
      (∀ x ∈ (varbyteEncodeLoop fuel [] num).dropLast, 128 ≤ x ∧ x < 256) ∧
      (∀ x ∈ (varbyteEncodeLoop fuel [] num).getLast?, x < 128) := by
  induction fuel with
  | zero =>
    intro num h
    have h7 : Nat.size num ≤ 7 := Nat.size_le.2 (by simpa using h)
    have hm : num % 256 = num := Nat.mod_eq_of_lt (by omega)
    simp only [varbyteEncodeLoop, writeByte, List.nil_append, List.length_singleton, hm]
    refine ⟨by omega, by simp, ?_⟩
    intro x hx
    simp only [List.getLast?_singleton, Option.mem_def, Option.some.injEq] at hx
    omega
  | succ f ih =>
    intro num h
    simp only [varbyteEncodeLoop]
    split
    · rename_i hge
      rw [varbyteEncodeLoop_append, shr_7, land_127]
      have hlt : num / 128 < 128 ^ (f + 1) := by
        rw [Nat.div_lt_iff_lt_mul (by norm_num)]
        rw [pow_succ] at h
        exact h
      obtain ⟨h1, h2, h3⟩ := ih (num / 128) hlt
      have hsz := size_div_128 num hge
      have hne : varbyteEncodeLoop f [] (num / 128) ≠ [] := by
        intro h0
        rw [h0] at h1
        simp at h1
        omega
      have hb : (128 + num % 128) % 256 = 128 + num % 128 := Nat.mod_eq_of_lt (by omega)
      simp only [writeByte, List.nil_append, hb]
      refine ⟨?_, ?_, ?_⟩
      · rw [List.length_append, List.length_singleton, h1, hsz]
        have hpos : 0 < Nat.size (num / 128) := by
          rw [Nat.size_pos]
          omega
        omega
      · intro x hx
        rw [List.singleton_append, List.dropLast_cons_of_ne_nil hne] at hx
        rcases List.mem_cons.1 hx with hx | hx
        · omega
        · exact h2 x hx
      · intro x hx
        obtain ⟨y, ys, hys⟩ := List.exists_cons_of_ne_nil hne
        rw [hys] at h3
        rw [hys, List.singleton_append, List.getLast?_cons_cons] at hx
        exact h3 x hx
    · rename_i hlt
      have h7 : Nat.size num ≤ 7 := Nat.size_le.2 (by norm_num; omega)
      have hm : num % 256 = num := Nat.mod_eq_of_lt (by omega)
      simp only [writeByte, List.nil_append, List.length_singleton, hm]
      refine ⟨by omega, by simp, ?_⟩
      intro x hx
      simp only [List.getLast?_singleton, Option.mem_def, Option.some.injEq] at hx
      omega

theorem ceil_div_nat (x d : Nat) (hd : 0 < d) :
    ⌈(x : ℚ) / d⌉ = (((x + d - 1) / d : Nat) : Int) := by
  generalize hz : (x + d - 1) / d = z
  have h1 : d * z ≤ x + d - 1 := by rw [← hz]; exact Nat.mul_div_le _ _
  have h2 : x + d - 1 < d * z + d := by
    rw [← hz]
    have := Nat.lt_div_mul_add (a := x + d - 1) hd
    have e : (x + d - 1) / d * d = d * ((x + d - 1) / d) := Nat.mul_comm _ _
    omega
  have hdq : (0 : ℚ) < d := by exact_mod_cast hd
  have q1 : (d : ℚ) * z < x + d := by
    exact_mod_cast (show d * z < x + d by omega)
  have q2 : (x : ℚ) ≤ d * z := by
    exact_mod_cast (show x ≤ d * z by omega)
  rw [Int.ceil_eq_iff]
  simp only [Int.cast_natCast]
  constructor
  · rw [lt_div_iff₀ hdq]
    nlinarith
  · rw [div_le_iff₀ hdq]
    linarith

theorem varbyte_encode_unfold (buffer : List Nat) (n : Nat) (hmod : n % 2 ^ 32 = n) :
    varbyteEncode buffer n = buffer ++ varbyteEncodeLoop 5 [] n := by
  unfold varbyteEncode
  rw [hmod, varbyteEncodeLoop_append]

/-! ## Lemmas: ascending candidates -/

section Ascending

variable {F : Type} [LinearOrderedField F]

/-- The loop over `order` for the candidate `c`, the least `currDoc[i]`: every
cursor it passes ends with `currDoc[i] ≥ c + 1`, and no `currDoc[i]` drops
below `c`. -/
theorem scoreLoop_advance (ln : F → F) (ifs : List Nat) (metadata : List BlockMetadata)
    (blockOffsets : List Nat) (pageTable : Int → Int) (averageDocLength : F)
    (maxScores : List F) (c : Nat) (hc : c < UINT32_MAX) :
    ∀ (order done : List Nat) (lp lp1 : List Querying.ListPointer)
      (currDoc currDoc1 : List Nat) (score score1 remainingMax remainingMax1 : F),
      Querying.scoreLoop ln ifs metadata blockOffsets pageTable averageDocLength maxScores c
          order (lp, currDoc, score, remainingMax) =
        some (lp1, currDoc1, score1, remainingMax1) →
      (∀ (i x : Nat), currDoc[i]? = some x →
        c ≤ x ∧ x ≤ UINT32_MAX ∧ (i ∈ done → c + 1 ≤ x)) →
      currDoc1.length = currDoc.length ∧
        ∀ (i x : Nat), currDoc1[i]? = some x →
          c ≤ x ∧ x ≤ UINT32_MAX ∧ ((i ∈ done ∨ i ∈ order) → c + 1 ≤ x) := by
  intro order
  induction order with
  | nil =>
    intro done lp lp1 currDoc currDoc1 score score1 remainingMax remainingMax1 h hinv
    simp only [Querying.scoreLoop, Option.some.injEq, Prod.mk.injEq] at h
    obtain ⟨_, h2, _, _⟩ := h
    subst h2
    refine ⟨rfl, fun i x hx => ?_⟩
    obtain ⟨h1, h2, h3⟩ := hinv i x hx
    exact ⟨h1, h2, fun h => h3 (h.resolve_right (by simp))⟩
  | cons idx rest ih =>
    intro done lp lp1 currDoc currDoc1 score score1 remainingMax remainingMax1 h hinv
    unfold Querying.scoreLoop at h
    have hmod : (c + 1) % 2 ^ 32 = c + 1 := by
      apply Nat.mod_eq_of_lt
      unfold UINT32_MAX at hc
      omega
    split at h
    · rename_i hcd
      split at h
      · simp at h
      · rename_i p hp
        split at h
        · simp at h
        · rename_i d p1 hn
          rw [hmod] at hn
          obtain ⟨hge, hle, _⟩ := nextGEQ_ge (c + 1) ifs metadata blockOffsets
            (by omega) p d p1 hn
          have hinv2 : ∀ (i x : Nat), (currDoc.set idx d)[i]? = some x →
              c ≤ x ∧ x ≤ UINT32_MAX ∧ (i ∈ idx :: done → c + 1 ≤ x) := by
            intro i x hx
            by_cases hi : idx = i
            · subst hi
              have hlt : idx < currDoc.length := by
                by_contra hcon
                rw [List.getElem?_eq_none (by omega)] at hcd
                simp at hcd
              rw [List.getElem?_set_self hlt] at hx
              simp only [Option.some.injEq] at hx
              subst hx
              exact ⟨by omega, hle, fun _ => hge⟩
            · rw [List.getElem?_set_ne hi] at hx
              obtain ⟨h1, h2, h3⟩ := hinv i x hx
              refine ⟨h1, h2, fun hm => ?_⟩
              rcases List.mem_cons.1 hm with hm | hm
              · exact absurd hm.symm hi
              · exact h3 hm
          obtain ⟨e1, e2⟩ := ih (idx :: done) _ _ _ _ _ _ _ _ h hinv2
          refine ⟨by rw [e1, List.length_set], fun i x hx => ?_⟩
          obtain ⟨h1, h2, h3⟩ := e2 i x hx
          refine ⟨h1, h2, fun hm => h3 ?_⟩
          rcases hm with hm | hm
          · exact Or.inl (List.mem_cons_of_mem _ hm)
          · rcases List.mem_cons.1 hm with hm | hm
            · exact Or.inl (hm ▸ List.mem_cons_self _ _)
            · exact Or.inr hm
    · rename_i hcd
      have hinv2 : ∀ (i x : Nat), currDoc[i]? = some x →
          c ≤ x ∧ x ≤ UINT32_MAX ∧ (i ∈ idx :: done → c + 1 ≤ x) := by
        intro i x hx
        obtain ⟨h1, h2, h3⟩ := hinv i x hx
        refine ⟨h1, h2, fun hm => ?_⟩
        rcases List.mem_cons.1 hm with hm | hm
        · subst hm
          have hne : x ≠ c := by
            intro h0
            rw [h0] at hx
            exact hcd hx
          omega
        · exact h3 hm
      obtain ⟨e1, e2⟩ := ih (idx :: done) _ _ _ _ _ _ _ _ h hinv2
      refine ⟨e1, fun i x hx => ?_⟩
      obtain ⟨h1, h2, h3⟩ := e2 i x hx
      refine ⟨h1, h2, fun hm => h3 ?_⟩
      rcases hm with hm | hm
      · exact Or.inl (List.mem_cons_of_mem _ hm)
      · rcases List.mem_cons.1 hm with hm | hm
        · exact Or.inl (hm ▸ List.mem_cons_self _ _)
        · exact Or.inr hm

/-- After the loop over `order`, a permutation of the cursor indices, every
`currDoc[i]` is above the candidate. -/
theorem scoreLoop_above (ln : F → F) (ifs : List Nat) (metadata : List BlockMetadata)
    (blockOffsets : List Nat) (pageTable : Int → Int) (averageDocLength : F)
    (maxScores : List F) (order : List Nat) (lp lp1 : List Querying.ListPointer)
    (currDoc currDoc1 : List Nat) (score remainingMax : F)
    (hcov : ∀ i, i < currDoc.length → i ∈ order)
    (hle : ∀ x ∈ currDoc, x ≤ UINT32_MAX)
    (hne : Querying.minCandidate currDoc ≠ UINT32_MAX)
    (h : Querying.scoreLoop ln ifs metadata blockOffsets pageTable averageDocLength maxScores
        (Querying.minCandidate currDoc) order (lp, currDoc, 0, 0) =
      some (lp1, currDoc1, score, remainingMax)) :
    Querying.minCandidate currDoc < UINT32_MAX ∧ Querying.minCandidate currDoc ∈ currDoc ∧
      currDoc1.length = currDoc.length ∧
      ∀ x ∈ currDoc1, Querying.minCandidate currDoc + 1 ≤ x ∧ x ≤ UINT32_MAX := by
  rcases minCandidate_spec currDoc hle with ⟨hm, _⟩ | ⟨hm, hmem, hmin⟩
  · exact absurd hm hne
  · obtain ⟨e1, e2⟩ := scoreLoop_advance ln ifs metadata blockOffsets pageTable
      averageDocLength maxScores _ hm order [] lp lp1 currDoc currDoc1 0 score 0
      remainingMax h (fun i x hx =>
        ⟨hmin x (List.getElem?_mem hx), hle x (List.getElem?_mem hx), fun h0 => by simp at h0⟩)
    refine ⟨hm, hmem, e1, fun x hx => ?_⟩
    obtain ⟨i, hi, hxi⟩ := List.getElem_of_mem hx
    have hx2 : currDoc1[i]? = some x := by rw [List.getElem?_eq_getElem hi, hxi]
    obtain ⟨_, h2, h3⟩ := e2 i x hx2
    exact ⟨h3 (Or.inr (hcov i (by omega))), h2⟩

/-- The docIds of the heap after one candidate: those before, and the
candidate; they stay distinct when the candidate is new. -/
theorem heapUpdate_docIds
    (pop : List (Querying.ScoreDoc F) → Option (Querying.ScoreDoc F × List (Querying.ScoreDoc F)))
    (hpop : Querying.TopSpec pop) (usePrune : Bool) (topK topK1 : List (Querying.ScoreDoc F))
    (score remainingMax : F) (candidate : Nat) ( wasPruned : Bool)
    (h : Querying.heapUpdate pop usePrune topK score remainingMax candidate =
      some (topK1, wasPruned))
    (hnd : (topK.map Querying.ScoreDoc.docId).Nodup)
    (hnew : candidate ∉ topK.map Querying.ScoreDoc.docId) :
    (topK1.map Querying.ScoreDoc.docId).Nodup ∧
      ∀ e ∈ topK1, e ∈ topK ∨ e.docId = candidate := by
  unfold Querying.heapUpdate at h
  split at h
  · simp only [Option.some.injEq, Prod.mk.injEq] at h
    rw [← h.1]
    refine ⟨by rw [List.map_cons]; exact List.nodup_cons.2 ⟨hnew, hnd⟩, fun e he => ?_⟩
    rcases List.mem_cons.1 he with he | he
    · exact Or.inr (by rw [he])
    · exact Or.inl he
  · rename_i hlen
    cases hp : pop topK with
    | none => rw [hp] at h; simp at h
    | some r =>
      obtain ⟨x, rest⟩ := r
      rw [hp] at h
      simp only at h
      have hne : topK ≠ [] := by
        intro h0
        rw [h0] at hlen
        simp [Querying.k] at hlen
      obtain ⟨x1, rest1, hp1, hperm, _⟩ := hpop topK hne
      rw [hp] at hp1
      simp only [Option.some.injEq, Prod.mk.injEq] at hp1
      obtain ⟨e1, e2⟩ := hp1
      subst e1
      subst e2
      have hpermd := hperm.map Querying.ScoreDoc.docId
      rw [List.map_cons] at hpermd
      have hndx := (List.Perm.nodup_iff hpermd).2 hnd
      split at h
      · simp only [Option.some.injEq, Prod.mk.injEq] at h
        rw [← h.1]
        exact ⟨hnd, fun e he => Or.inl he⟩
      · split at h
        · simp only [Option.some.injEq, Prod.mk.injEq] at h
          rw [← h.1]
          refine ⟨?_, fun e he => ?_⟩
          · rw [List.map_cons]
            refine List.nodup_cons.2 ⟨?_, (List.nodup_cons.1 hndx).2⟩
            intro hin
            exact hnew (hpermd.subset (List.mem_cons_of_mem _ hin))
          · rcases List.mem_cons.1 he with he | he
            · exact Or.inr (by rw [he])
            · exact Or.inl (hperm.subset (List.mem_cons_of_mem _ he))
        · simp only [Option.some.injEq, Prod.mk.injEq] at h
          rw [← h.1]
          exact ⟨hnd, fun e he => Or.inl he⟩

end Ascending

section Ascending2

variable {F : Type} [LinearOrderedField F]

/-- Along the main loop the candidates are strictly increasing, every candidate
counts once in `visited`, and the docIds in the heap are distinct candidates. -/
theorem mainLoop_trace (ln : F → F)
    (pop : List (Querying.ScoreDoc F) → Option (Querying.ScoreDoc F × List (Querying.ScoreDoc F)))
    (hpop : Querying.TopSpec pop) (usePrune : Bool) (ifs : List Nat)
    (metadata : List BlockMetadata) (blockOffsets : List Nat) (pageTable : Int → Int)
    (averageDocLength : F) (maxScores : List F) (order : List Nat) :
    ∀ (fuel : Nat) (st st1 : Querying.DaatState F) (B : Nat),
      (∀ x ∈ st.currDoc, B ≤ x ∧ x ≤ UINT32_MAX) →
      (∀ i, i < st.currDoc.length → i ∈ order) →
      (st.topK.map Querying.ScoreDoc.docId).Nodup →
      (∀ e ∈ st.topK, e.docId < B) →
      Querying.mainLoop ln pop usePrune ifs metadata blockOffsets pageTable averageDocLength
        maxScores order fuel st = some st1 →
      ∃ cs, Querying.candidateTrace ln pop usePrune ifs metadata blockOffsets pageTable
          averageDocLength maxScores order fuel st = some cs ∧
        cs.Pairwise (fun a b => a < b) ∧
        (∀ c ∈ cs, B ≤ c ∧ c < UINT32_MAX) ∧
        st1.visited = st.visited + cs.length ∧
        (st1.topK.map Querying.ScoreDoc.docId).Nodup ∧
        ∀ e ∈ st1.topK, e ∈ st.topK ∨ e.docId ∈ cs := by
  intro fuel
  induction fuel with
  | zero => intro st st1 B _ _ _ _ h; simp [Querying.mainLoop] at h
  | succ fuel ih =>
    intro st st1 B hcd hcov hnd hlt h
    unfold Querying.mainLoop at h
    unfold Querying.candidateTrace
    split at h
    · rename_i hm
      simp only [Option.some.injEq] at h
      subst h
      rw [if_pos hm]
      exact ⟨[], rfl, List.Pairwise.nil, by simp, by simp, hnd, fun e he => Or.inl he⟩
    · rename_i hm
      rw [if_neg hm]
      split at h
      · simp at h
      · rename_i lp1 currDoc1 score remainingMax hsl
        try rw [hsl]
        try simp only
        split at h
        · simp at h
        · rename_i topK1 wasPruned hu
          try rw [hu]
          try simp only
          obtain ⟨hc1, hc2, hc3, hc4⟩ := scoreLoop_above ln ifs metadata blockOffsets pageTable
            averageDocLength maxScores order st.lp lp1 st.currDoc currDoc1 score remainingMax
            hcov (fun x hx => (hcd x hx).2) hm hsl
          have hBc : B ≤ Querying.minCandidate st.currDoc := (hcd _ hc2).1
          have hnew : Querying.minCandidate st.currDoc ∉
              st.topK.map Querying.ScoreDoc.docId := by
            intro hin
            obtain ⟨e, he, hed⟩ := List.mem_map.1 hin
            have := hlt e he
            omega
          obtain ⟨hd1, hd2⟩ := heapUpdate_docIds pop hpop usePrune st.topK topK1 score
            remainingMax _ wasPruned hu hnd hnew
          obtain ⟨cs, ht, hpw, hb, hv, hnd1, hmem⟩ := ih _ st1
            (Querying.minCandidate st.currDoc + 1) hc4
            (fun i hi => hcov i (by simp only at hi; omega)) hd1
            (fun e he => by
              rcases hd2 e he with h1 | h1
              · have := hlt e h1
                omega
              · omega) h
          refine ⟨Querying.minCandidate st.currDoc :: cs, by rw [ht]; rfl, ?_, ?_, ?_, hnd1, ?_⟩
          · refine List.Pairwise.cons (fun c hcs => ?_) hpw
            have := (hb c hcs).1
            omega
          · intro c hcs
            rcases List.mem_cons.1 hcs with hcs | hcs
            · rw [hcs]
              exact ⟨hBc, hc1⟩
            · exact ⟨by have := (hb c hcs).1; omega, (hb c hcs).2⟩
          · rw [hv]
            simp only [List.length_cons]
            omega
          · intro e he
            rcases hmem e he with h1 | h1
            · rcases hd2 e h1 with h2 | h2
              · exact Or.inl h2
              · exact Or.inr (by rw [h2]; exact List.mem_cons_self _ _)
            · exact Or.inr (List.mem_cons_of_mem _ h1)

/-- The main loop ends within `UINT32_MAX - B + 1` iterations, where `B` is a
lower bound of all `currDoc[i]`: the trace of candidates exists for every such
fuel, whether the run ends at the `break` or in undefined behaviour, and it is
strictly increasing. -/
theorem candidateTrace_total (ln : F → F)
    (pop : List (Querying.ScoreDoc F) → Option (Querying.ScoreDoc F × List (Querying.ScoreDoc F)))
    (usePrune : Bool) (ifs : List Nat) (metadata : List BlockMetadata)
    (blockOffsets : List Nat) (pageTable : Int → Int) (averageDocLength : F)
    (maxScores : List F) (order : List Nat) :
    ∀ (fuel : Nat) (st : Querying.DaatState F) (B : Nat),
      (∀ x ∈ st.currDoc, B ≤ x ∧ x ≤ UINT32_MAX) →
      (∀ i, i < st.currDoc.length → i ∈ order) →
      UINT32_MAX - B < fuel →
      ∃ cs, Querying.candidateTrace ln pop usePrune ifs metadata blockOffsets pageTable
          averageDocLength maxScores order fuel st = some cs ∧
        cs.Pairwise (fun a b => a < b) ∧
        (∀ c ∈ cs, B ≤ c ∧ c < UINT32_MAX) := by
  intro fuel
  induction fuel with
  | zero => intro st B _ _ h; omega
  | succ fuel ih =>
    intro st B hcd hcov hfuel
    unfold Querying.candidateTrace
    by_cases hm : Querying.minCandidate st.currDoc = UINT32_MAX
    · rw [if_pos hm]
      exact ⟨[], rfl, List.Pairwise.nil, by simp⟩
    · rw [if_neg hm]
      have hmem : Querying.minCandidate st.currDoc ∈ st.currDoc := by
        rcases minCandidate_spec st.currDoc (fun c hc => (hcd c hc).2) with
          ⟨h1, _⟩ | ⟨_, h2, _⟩
        · exact absurd h1 hm
        · exact h2
      have hB := hcd _ hmem
      have hlt : Querying.minCandidate st.currDoc < UINT32_MAX := by
        have := hB.2
        omega
      have hone : ∃ cs, some [Querying.minCandidate st.currDoc] = some cs ∧
          cs.Pairwise (fun a b => a < b) ∧ (∀ c ∈ cs, B ≤ c ∧ c < UINT32_MAX) :=
        ⟨_, rfl, List.pairwise_singleton _ _, by
          intro c hc
          rw [List.mem_singleton] at hc
          rw [hc]
          exact ⟨hB.1, hlt⟩⟩
      cases hsl : Querying.scoreLoop ln ifs metadata blockOffsets pageTable averageDocLength
          maxScores (Querying.minCandidate st.currDoc) order (st.lp, st.currDoc, 0, 0) with
      | none => exact hone
      | some r =>
        obtain ⟨lp1, currDoc1, score, remainingMax⟩ := r
        simp only
        obtain ⟨_, _, hc3, hc4⟩ := scoreLoop_above ln ifs metadata blockOffsets pageTable
          averageDocLength maxScores order st.lp lp1 st.currDoc currDoc1 score remainingMax
          hcov (fun x hx => (hcd x hx).2) hm hsl
        cases hu : Querying.heapUpdate pop usePrune st.topK score remainingMax
            (Querying.minCandidate st.currDoc) with
        | none => exact hone
        | some r2 =>
          obtain ⟨topK1, wasPruned⟩ := r2
          simp only
          obtain ⟨cs, ht, hpw, hb⟩ := ih
            { lp := lp1, currDoc := currDoc1, topK := topK1, visited := st.visited + 1,
              pruned := if wasPruned then st.pruned + 1 else st.pruned }
            (Querying.minCandidate st.currDoc + 1) hc4
            (fun i hi => hcov i (by simp only at hi; omega)) (by omega)
          refine ⟨Querying.minCandidate st.currDoc :: cs, by rw [ht]; rfl, ?_, ?_⟩
          · refine List.Pairwise.cons (fun c hcs => ?_) hpw
            have := (hb c hcs).1
            omega
          · intro c hcs
            rcases List.mem_cons.1 hcs with hcs | hcs
            · rw [hcs]
              exact ⟨hB.1, hlt⟩
            · exact ⟨by have := (hb c hcs).1; omega, (hb c hcs).2⟩

/-- The main loop gives the same result for every fuel above
`UINT32_MAX - B`, where `B` is a lower bound of all `currDoc[i]`: each
iteration raises the least `currDoc[i]`, so `2 ^ 32` iterations are never
exceeded. -/
theorem mainLoop_fuel (ln : F → F)
    (pop : List (Querying.ScoreDoc F) → Option (Querying.ScoreDoc F × List (Querying.ScoreDoc F)))
    (usePrune : Bool) (ifs : List Nat) (metadata : List BlockMetadata)
    (blockOffsets : List Nat) (pageTable : Int → Int) (averageDocLength : F)
    (maxScores : List F) (order : List Nat) :
    ∀ (fuel1 fuel2 : Nat) (st : Querying.DaatState F) (B : Nat),
      (∀ x ∈ st.currDoc, B ≤ x ∧ x ≤ UINT32_MAX) →
      (∀ i, i < st.currDoc.length → i ∈ order) →
      UINT32_MAX - B < fuel1 → UINT32_MAX - B < fuel2 →
      Querying.mainLoop ln pop usePrune ifs metadata blockOffsets pageTable averageDocLength
          maxScores order fuel1 st =
        Querying.mainLoop ln pop usePrune ifs metadata blockOffsets pageTable averageDocLength
          maxScores order fuel2 st := by
  intro fuel1
  induction fuel1 with
  | zero => intro fuel2 st B _ _ h; omega
  | succ fuel1 ih =>
    intro fuel2 st B hcd hcov h1 h2
    cases fuel2 with
    | zero => omega
    | succ fuel2 =>
      unfold Querying.mainLoop
      split
      · rfl
      · rename_i hm
        cases hsl : Querying.scoreLoop ln ifs metadata blockOffsets pageTable averageDocLength
            maxScores (Querying.minCandidate st.currDoc) order (st.lp, st.currDoc, 0, 0) with
        | none => rfl
        | some r =>
          obtain ⟨lp1, currDoc1, score, remainingMax⟩ := r
          simp only
          cases hu : Querying.heapUpdate pop usePrune st.topK score remainingMax
              (Querying.minCandidate st.currDoc) with
          | none => rfl
          | some r2 =>
            obtain ⟨topK1, wasPruned⟩ := r2
            simp only
            obtain ⟨hc1, hc2, hc3, hc4⟩ := scoreLoop_above ln ifs metadata blockOffsets
              pageTable averageDocLength maxScores order st.lp lp1 st.currDoc currDoc1 score
              remainingMax hcov (fun x hx => (hcd x hx).2) hm hsl
            have hBc : B ≤ Querying.minCandidate st.currDoc := (hcd _ hc2).1
            exact ih fuel2 _ (Querying.minCandidate st.currDoc + 1) hc4
              (fun i hi => hcov i (by simp only at hi; omega)) (by omega) (by omega)

end Ascending2

theorem initCurrDoc_bounds (ifs : List Nat) (metadata : List BlockMetadata)
    (blockOffsets : List Nat) :
    ∀ (lps lp1 : List Querying.ListPointer) (currDoc : List Nat),
      Querying.initCurrDoc ifs metadata blockOffsets lps = some (lp1, currDoc) →
      currDoc.length = lps.length ∧ ∀ x ∈ currDoc, 0 ≤ x ∧ x ≤ UINT32_MAX := by
  intro lps
  induction lps with
  | nil =>
    intro lp1 currDoc h
    simp only [Querying.initCurrDoc, Option.some.injEq, Prod.mk.injEq] at h
    rw [← h.2]
    simp
  | cons p rest ih =>
    intro lp1 currDoc h
    unfold Querying.initCurrDoc at h
    split at h
    · simp at h
    · rename_i d p1 hn
      obtain ⟨r, hr, he⟩ := Option.map_eq_some'.1 h
      simp only [Prod.mk.injEq] at he
      obtain ⟨h1, h2⟩ := ih r.1 r.2 hr
      have hd := (nextGEQ_ge 0 ifs metadata blockOffsets (Nat.zero_le _) p d p1 hn).2.1
      rw [← he.2]
      refine ⟨by simp [h1], fun x hx => ?_⟩
      rcases List.mem_cons.1 hx with hx | hx
      · rw [hx]; exact ⟨Nat.zero_le _, hd⟩
      · exact h2 x hx

/-! ## Lemmas: readFile on one long line -/

theorem fileLinesLoop_no_newline : ∀ (s cur : List Nat), (∀ c ∈ s, c ≠ 10) →
    Parsing.fileLinesLoop s cur = if cur ++ s = [] then [] else [cur ++ s]
  | [], cur, _ => by simp [Parsing.fileLinesLoop]
  | c :: rest, cur, h => by
    have hc : c ≠ 10 := h c (List.mem_cons_self _ _)
    have ih := fileLinesLoop_no_newline rest (cur ++ [c])
      (fun x hx => h x (List.mem_cons_of_mem _ hx))
    simp only [Parsing.fileLinesLoop, if_neg hc, ih, List.append_assoc, List.singleton_append]

theorem streamTokensLoop_replicate (n : Nat) :
    streamTokensLoop (List.replicate n [97, 32]).flatten [] = List.replicate n [97] := by
  induction n with
  | zero => rfl
  | succ n ih =>
    have e : (List.replicate (n + 1) [97, 32]).flatten =
        97 :: 32 :: (List.replicate n [97, 32]).flatten := by
      rw [List.replicate_succ, List.flatten_cons]
      rfl
    rw [e, List.replicate_succ]
    simp only [streamTokensLoop]
    rw [if_neg (by decide), if_pos (by decide), if_neg (by decide), ih]
    rfl

theorem cleanSentence_replicate (n : Nat) :
    Parsing.cleanSentence (9 :: (List.replicate n [97, 32]).flatten) =
      9 :: (List.replicate n [97, 32]).flatten := by
  rw [cleanSentence_eq_map, List.map_cons, List.map_flatten, List.map_replicate]
  have e1 : cleanByte 9 = 9 := by decide
  have e2 : List.map cleanByte [97, 32] = [97, 32] := by decide
  rw [e1, e2]

/-- With no flush in between, the posting that would be entry number
`POSTING_BUFFER_SIZE + 1` of the buffer is written outside the array. -/
theorem tokenizeLoop_replicate (docId : Int) (n : Nat) :
    ∀ (postingBuffer : List Parsing.Posting) (termBufferOffset : Nat) (termCount : Int),
      postingBuffer.length ≤ Parsing.POSTING_BUFFER_SIZE →
      Parsing.POSTING_BUFFER_SIZE < postingBuffer.length + n →
      termBufferOffset + 2 * n ≤ Parsing.TERM_BUFFER_SIZE →
      Parsing.tokenizeLoop docId (List.replicate n [97])
          (postingBuffer, termBufferOffset, termCount) =
        .error .postingBufferOverflow := by
  induction n with
  | zero => intro pb off cnt h1 h2 _; omega
  | succ n ih =>
    intro pb off cnt h1 h2 h3
    rw [List.replicate_succ]
    unfold Parsing.tokenizeLoop
    rw [if_neg (by decide), if_neg (by simp only [List.length_singleton]; omega)]
    by_cases hfull : pb.length ≥ Parsing.POSTING_BUFFER_SIZE
    · rw [if_pos hfull]
    · rw [if_neg hfull]
      apply ih
      · simp only [List.length_append, List.length_singleton]; omega
      · simp only [List.length_append, List.length_singleton]; omega
      · simp only [List.length_singleton]; omega

theorem extractLine_one_tab (x : List Nat) (docId : Option Int) (sentence : List Nat) :
    Parsing.extractLine (49 :: 9 :: x) docId sentence = (some 1, 9 :: x) := by
  simp [Parsing.extractLine, isspace, Parsing.isdigit, List.dropWhile, List.takeWhile,
    Parsing.digitsValue]

/-- A file of one line `1<TAB>` followed by `n` times `a<SPACE>`, with `n`
above `POSTING_BUFFER_SIZE`: `readFile` writes outside the posting buffer. -/
theorem readFile_long_line (n : Nat) (h1 : Parsing.POSTING_BUFFER_SIZE < n)
    (h2 : 2 * n ≤ Parsing.TERM_BUFFER_SIZE) :
    Parsing.readFile (49 :: 9 :: (List.replicate n [97, 32]).flatten) =
      .error .postingBufferOverflow := by
  have hnl : ∀ c ∈ 49 :: 9 :: (List.replicate n [97, 32]).flatten, c ≠ 10 := by
    intro c hc
    simp only [List.mem_cons, List.mem_flatten, List.mem_replicate] at hc
    rcases hc with h | h | ⟨l, ⟨_, hl⟩, hcl⟩
    · omega
    · omega
    · rw [hl] at hcl
      simp only [List.mem_cons, List.mem_singleton, List.not_mem_nil, or_false] at hcl
      omega
  have htok : streamTokensLoop (9 :: (List.replicate n [97, 32]).flatten) [] =
      List.replicate n [97] := by
    simp only [streamTokensLoop]
    rw [if_pos (by decide), if_pos trivial]
    exact streamTokensLoop_replicate _
  unfold Parsing.readFile Parsing.fileLines
  rw [fileLinesLoop_no_newline _ _ hnl, if_neg (by simp)]
  simp only [List.nil_append, Parsing.readFileLoop, Parsing.readLine, Parsing.ParserState.init,
    extractLine_one_tab, cleanSentence_replicate, Parsing.tokenizeSentence, streamTokens]
  rw [htok, tokenizeLoop_replicate 1 n [] 0 0 (by simp) (by simpa using h1) (by simpa using h2)]

/-! ## Lemmas: the first posting of a cursor -/

theorem encodeDocIds_cons (d : Int) (ds : List Int) (prev : Int) :
    encodeDocIds (d :: ds) prev [] =
      varbyteEncode [] (toU32 (d - prev)) ++ encodeDocIds ds d [] := by
  simp only [encodeDocIds]
  rw [encodeDocIds_append]

theorem encodeFreqs_cons (f : Int) (fs : List Int) :
    encodeFreqs (f :: fs) [] = varbyteEncode [] (toU32 f) ++ encodeFreqs fs [] := by
  simp only [encodeFreqs]
  rw [encodeFreqs_append]

/-- The skip loop of `loadBlock` over the encodings of the first postings of a
block: it stops in front of the encoding of the next posting, with
`prevDocId` the last docId skipped. -/
theorem skipLoop_encoded : ∀ (ds1 fs1 ds2 fs2 : List Int) (dpre fpre : List Nat) (prev : Int)
    (lp : Querying.ListPointer),
    fs1.length = ds1.length →
    lp.docBuffer = dpre ++ encodeDocIds (ds1 ++ ds2) prev [] →
    lp.docBufPos = dpre.length → lp.prevDocId = toU32 prev →
    lp.freqBuffer = fpre ++ encodeFreqs (fs1 ++ fs2) [] →
    lp.freqBufPos = fpre.length →
    ∃ lp1, Querying.skipLoop ds1.length lp = some lp1 ∧
      lp1.docBuffer = lp.docBuffer ∧ lp1.freqBuffer = lp.freqBuffer ∧
      lp1.docBufPos = (dpre ++ encodeDocIds ds1 prev []).length ∧
      lp1.prevDocId = toU32 (ds1.getLastD prev) ∧
      lp1.freqBufPos = (fpre ++ encodeFreqs fs1 []).length ∧
      lp1.listLength = lp.listLength
  | [], fs1, ds2, fs2, dpre, fpre, prev, lp, hlen, hd, hdp, hprev, hf, hfp => by
    have hfs : fs1 = [] := List.length_eq_zero.1 hlen
    subst hfs
    refine ⟨lp, rfl, rfl, rfl, ?_, ?_, ?_, rfl⟩
    · simpa [encodeDocIds] using hdp
    · simpa using hprev
    · simpa [encodeFreqs] using hfp
  | d :: ds1, [], ds2, fs2, dpre, fpre, prev, lp, hlen, hd, hdp, hprev, hf, hfp => by
    simp at hlen
  | d :: ds1, f :: fs1, ds2, fs2, dpre, fpre, prev, lp, hlen, hd, hdp, hprev, hf, hfp => by
    have hlen2 : fs1.length = ds1.length := by simpa using hlen
    rw [List.cons_append, encodeDocIds_cons, ← List.append_assoc] at hd
    rw [List.cons_append, encodeFreqs_cons, ← List.append_assoc] at hf
    have hdec : varbyteDecode lp.docBuffer lp.docBufPos =
        some (toU32 (d - prev), dpre.length + (varbyteEncode [] (toU32 (d - prev))).length) := by
      rw [hd, hdp]
      exact varbyteDecode_encode _ (toU32_lt _) dpre _
    have hfdec : varbyteDecode lp.freqBuffer lp.freqBufPos =
        some (toU32 f, fpre.length + (varbyteEncode [] (toU32 f)).length) := by
      rw [hf, hfp]
      exact varbyteDecode_encode _ (toU32_lt _) fpre _
    obtain ⟨lp1, h1, h2, h3, h4, h5, h6, h7⟩ := skipLoop_encoded ds1 fs1 ds2 fs2
      (dpre ++ varbyteEncode [] (toU32 (d - prev)))
      (fpre ++ varbyteEncode [] (toU32 f)) d
      { lp with prevDocId := (lp.prevDocId + toU32 (d - prev)) % 2 ^ 32,
                docBufPos := dpre.length + (varbyteEncode [] (toU32 (d - prev))).length,
                freqBufPos := fpre.length + (varbyteEncode [] (toU32 f)).length }
      hlen2 hd (by simp) (by simp only; rw [hprev, toU32_add_sub]) hf (by simp)
    refine ⟨lp1, ?_, h2, h3, ?_, ?_, ?_, h7⟩
    · simp only [List.length_cons, Querying.skipLoop, hdec, hfdec]
      exact h1
    · rw [h4, encodeDocIds_cons, List.append_assoc]
    · rw [h5]
      cases ds1 <;> simp [List.getLastD]
    · rw [h6, encodeFreqs_cons, List.append_assoc]

/-- Decoding the posting whose encodings start at the cursor's positions. -/
theorem decodePosting_encoded (d f : Int) (ds2 fs2 : List Int) (dpre fpre : List Nat)
    (prev : Int) (lp : Querying.ListPointer)
    (hd : lp.docBuffer = dpre ++ encodeDocIds (d :: ds2) prev [])
    (hdp : lp.docBufPos = dpre.length) (hprev : lp.prevDocId = toU32 prev)
    (hf : lp.freqBuffer = fpre ++ encodeFreqs (f :: fs2) [])
    (hfp : lp.freqBufPos = fpre.length) :
    ∃ lp3, Querying.decodePosting lp = some lp3 ∧ lp3.currentDoc = toU32 d ∧
      lp3.currentFreq = toU32 f ∧ lp.docBufPos < lp.docBuffer.length := by
  rw [encodeDocIds_cons, ← List.append_assoc] at hd
  rw [encodeFreqs_cons, ← List.append_assoc] at hf
  have hdec : varbyteDecode lp.docBuffer lp.docBufPos =
      some (toU32 (d - prev), dpre.length + (varbyteEncode [] (toU32 (d - prev))).length) := by
    rw [hd, hdp]
    exact varbyteDecode_encode _ (toU32_lt _) dpre _
  have hfdec : varbyteDecode lp.freqBuffer lp.freqBufPos =
      some (toU32 f, fpre.length + (varbyteEncode [] (toU32 f)).length) := by
    rw [hf, hfp]
    exact varbyteDecode_encode _ (toU32_lt _) fpre _
  have hres : Querying.decodePosting lp =
      some { lp with prevDocId := (lp.prevDocId + toU32 (d - prev)) % 2 ^ 32,
                     docBufPos := dpre.length + (varbyteEncode [] (toU32 (d - prev))).length,
                     freqBufPos := fpre.length + (varbyteEncode [] (toU32 f)).length,
                     currentPos := (lp.currentPos + 1) % 2 ^ 32,
                     currentDoc := (lp.prevDocId + toU32 (d - prev)) % 2 ^ 32,
                     currentFreq := toU32 f } := by
    simp only [Querying.decodePosting, hdec, hfdec]
  refine ⟨_, hres, ?_, rfl, ?_⟩
  · simp only
    rw [hprev, toU32_add_sub]
  · have hpos := varbyteEncode_length_pos (toU32 (d - prev))
    rw [hd, hdp]
    simp only [List.length_append]
    omega

/-- The bytes of block `i` in the index file written by the builder, at the
offset `computeBlockOffsets` gives. -/
theorem index_block_streams (ifs : List Record)
    (hsize : (Index.generateInvertedIndex ifs).ofs.length < 2 ^ 64) (i : Nat) (b : Block)
    (hb : (Index.generateInvertedIndex ifs).blocks[i]? = some b) :
    ∃ off,
      (Querying.computeBlockOffsets (Index.generateInvertedIndex ifs).metadata)[i]? = some off ∧
      (Index.generateInvertedIndex ifs).metadata[i]? = some (blockMeta b) ∧
      (blockMeta b).docSize = (docStream b).length ∧
      (blockMeta b).freqSize = (freqStream b).length ∧
      ((Index.generateInvertedIndex ifs).ofs.drop off).take (docStream b).length =
        docStream b ∧
      ((Index.generateInvertedIndex ifs).ofs.drop (off + (docStream b).length)).take
        (freqStream b).length = freqStream b := by
  obtain ⟨_, h2, _, _, h5, h6⟩ := generateInvertedIndex_blocks ifs
  generalize (Index.generateInvertedIndex ifs).blocks = B at hb h2 h5 h6
  generalize (Index.generateInvertedIndex ifs).metadata = M at h5
  generalize (Index.generateInvertedIndex ifs).ofs = ofs at h6 hsize
  subst h5 h6
  have hbound : ∀ x ∈ B, x.docIds.length ≤ 128 ∧ x.freqs.length ≤ 128 := by
    intro x hx
    have := h2 x hx
    omega
  have hi : i < B.length := (List.getElem?_eq_some.1 hb).1
  have hbmem : b ∈ B := List.getElem?_mem hb
  obtain ⟨e1, e2⟩ := blockMeta_sizes b (hbound b hbmem).1 (hbound b hbmem).2
  have hsplit := flatten_split (B.map blockBytes) i (blockBytes b)
    (by rw [List.getElem?_map, hb]; rfl)
  have hsum : (((B.map blockMeta).take i).map (fun m => m.docSize + m.freqSize)).sum =
      (((B.map blockBytes).take i).flatten).length := by
    rw [← List.map_take, ← List.map_take]
    exact sum_sizes_eq_length (B.take i) (fun x hx => hbound x (List.mem_of_mem_take hx))
  have hle : (((B.map blockBytes).take i).flatten).length ≤
      ((B.map blockBytes).flatten).length := by
    rw [hsplit]
    simp only [List.length_append]
    omega
  have hoff := computeBlockOffsetsLoop_getElem? (B.map blockMeta) 0 i (by norm_num)
    (by simpa using hi)
  rw [Nat.zero_add, hsum, Nat.mod_eq_of_lt (by omega)] at hoff
  refine ⟨_, hoff, by rw [List.getElem?_map, hb]; rfl, e1, e2, ?_, ?_⟩
  · rw [hsplit, List.drop_left]
    simp [blockBytes]
  · rw [hsplit, ← List.drop_drop, List.drop_left]
    simp [blockBytes]

/-- `loadBlock` on a cursor whose block is block `blockNum` of the index
written by the builder: the buffers hold the block's two streams, and the
skip loop has run over the first `startIndex` postings when the block is the
cursor's start block. -/
theorem loadBlock_builder (ifs : List Record)
    (hsize : (Index.generateInvertedIndex ifs).ofs.length < 2 ^ 64) (b : Block)
    (lp : Querying.ListPointer)
    (hb : (Index.generateInvertedIndex ifs).blocks[lp.blockNum]? = some b) :
    Querying.loadBlock (Index.generateInvertedIndex ifs).ofs
        (Index.generateInvertedIndex ifs).metadata
        (Querying.computeBlockOffsets (Index.generateInvertedIndex ifs).metadata) lp =
      (if lp.blockNum = lp.startBlock ∧ lp.startIndex > 0 then
          Querying.skipLoop lp.startIndex
            { lp with docBuffer := docStream b, freqBuffer := freqStream b, docBufPos := 0,
                      freqBufPos := 0, prevDocId := 0 }
        else
          some { lp with docBuffer := docStream b, freqBuffer := freqStream b, docBufPos := 0,
                         freqBufPos := 0, prevDocId := 0 }).map
        (fun l => { l with currentPos := 0 }) := by
  obtain ⟨off, h1, h2, h3, h4, h5, h6⟩ := index_block_streams ifs hsize lp.blockNum b hb
  have hlt : ¬ lp.blockNum ≥ (Index.generateInvertedIndex ifs).metadata.length := by
    intro hcon
    rw [List.getElem?_eq_none (by omega)] at h2
    simp at h2
  have hres : ∀ (buf : List Nat) (n : Nat), (Querying.resize buf n).drop n = [] := by
    intro buf n
    apply List.drop_eq_nil_of_le
    simp [Querying.resize]
  unfold Querying.loadBlock
  rw [if_neg hlt, h1, h2]
  simp only [h3, h4, h5, h6, List.length_take, hres, List.append_nil, if_true]

theorem encodeDocIds_split : ∀ (ds1 ds2 : List Int) (prev : Int),
    encodeDocIds (ds1 ++ ds2) prev [] =
      encodeDocIds ds1 prev [] ++ encodeDocIds ds2 (ds1.getLastD prev) []
  | [], ds2, prev => by simp [encodeDocIds]
  | d :: ds1, ds2, prev => by
    rw [List.cons_append, encodeDocIds_cons, encodeDocIds_cons, encodeDocIds_split ds1 ds2 d,
      List.append_assoc]
    cases ds1 <;> simp [List.getLastD]

theorem encodeFreqs_split : ∀ (fs1 fs2 : List Int),
    encodeFreqs (fs1 ++ fs2) [] = encodeFreqs fs1 [] ++ encodeFreqs fs2 []
  | [], fs2 => by simp [encodeFreqs]
  | f :: fs1, fs2 => by
    rw [List.cons_append, encodeFreqs_cons, encodeFreqs_cons, encodeFreqs_split fs1 fs2,
      List.append_assoc]

/-- The cursor opened on a lexicon entry of the index the builder wrote
returns, at `nextGEQ(0)`, the posting of the merged stream at the entry's
position. -/
theorem openList_first_posting (ifs : List Record)
    (hlen : (fileRecords ifs).length < 2 ^ 32)
    (hsize : (Index.generateInvertedIndex ifs).ofs.length < 2 ^ 64)
    (x : List Nat × LexiconEntry) (hx : x ∈ (Index.generateInvertedIndex ifs).lexicon) :
    ∃ r lp lp1, (fileRecords ifs)[entryPos x.2]? = some r ∧ r.term = x.1 ∧
      Querying.openList (Index.generateInvertedIndex ifs) x.2 = some lp ∧
      lp.currentPos = 0 ∧
      Querying.nextGEQ 0 (Index.generateInvertedIndex ifs).ofs
        (Index.generateInvertedIndex ifs).metadata
        (Querying.computeBlockOffsets (Index.generateInvertedIndex ifs).metadata) lp =
        some (toU32 r.docId, lp1) ∧
      lp1.currentDoc = toU32 r.docId ∧ lp1.currentFreq = toU32 r.freq := by
  obtain ⟨hsi, hL, hterm, _, _⟩ := (generateInvertedIndex_lexicon ifs hlen).2 x hx
  have ht := hterm (entryPos x.2) le_rfl (by omega)
  simp only [termAt, Option.map_eq_some'] at ht
  obtain ⟨r, hr, hrt⟩ := ht
  have hpos := generateInvertedIndex_position ifs (entryPos x.2)
  have hq : entryPos x.2 / 128 = x.2.startBlock := by
    unfold entryPos
    omega
  have hm : entryPos x.2 % 128 = x.2.startIndex := by
    unfold entryPos
    omega
  rw [hq, hm, hr] at hpos
  simp only [Option.map_some', Option.bind_eq_some] at hpos
  obtain ⟨b, hb, hp⟩ := hpos
  obtain ⟨_, h2, _, _, _, _⟩ := generateInvertedIndex_blocks ifs
  have hfl := h2 b (List.getElem?_mem hb)
  simp only [blockPairs, List.getElem?_zip_eq_some] at hp
  obtain ⟨hd, hf⟩ := hp
  obtain ⟨hdl, hdv⟩ := List.getElem?_eq_some.1 hd
  obtain ⟨hfl2, hfv⟩ := List.getElem?_eq_some.1 hf
  have ed : b.docIds = b.docIds.take x.2.startIndex ++
      (r.docId :: b.docIds.drop (x.2.startIndex + 1)) := by
    rw [← hdv, ← List.drop_eq_getElem_cons hdl, List.take_append_drop]
  have ef : b.freqs = b.freqs.take x.2.startIndex ++
      (r.freq :: b.freqs.drop (x.2.startIndex + 1)) := by
    rw [← hfv, ← List.drop_eq_getElem_cons hfl2, List.take_append_drop]
  have hlt : (b.docIds.take x.2.startIndex).length = x.2.startIndex := by
    rw [List.length_take]
    omega
  have hlf : (b.freqs.take x.2.startIndex).length =
      (b.docIds.take x.2.startIndex).length := by
    rw [List.length_take, List.length_take]
    omega
  have hload := loadBlock_builder ifs hsize b (Querying.ListPointer.new x.2) hb
  obtain ⟨lp2, hs, hs1, hs2, hs3, hs4, hs5, hs6⟩ := skipLoop_encoded
    (b.docIds.take x.2.startIndex) (b.freqs.take x.2.startIndex)
    (r.docId :: b.docIds.drop (x.2.startIndex + 1))
    (r.freq :: b.freqs.drop (x.2.startIndex + 1)) [] [] 0
    { Querying.ListPointer.new x.2 with
        docBuffer := docStream b, freqBuffer := freqStream b,
        docBufPos := 0, freqBufPos := 0, prevDocId := 0 }
    hlf (by simp only [docStream, List.nil_append]; rw [← ed])
    rfl (by simp [toU32]) (by simp only [freqStream, List.nil_append]; rw [← ef]) rfl
  rw [hlt] at hs
  have hopen : Querying.openList (Index.generateInvertedIndex ifs) x.2 =
      some { lp2 with currentPos := 0 } := by
    unfold Querying.openList
    rw [hload]
    by_cases h0 : x.2.startIndex > 0
    · rw [if_pos ⟨rfl, h0⟩]
      simp only [Querying.ListPointer.new] at hs ⊢
      rw [hs]
      rfl
    · have hz : x.2.startIndex = 0 := by omega
      rw [if_neg (by simp only [Querying.ListPointer.new]; omega)]
      rw [hz] at hs
      simp only [Querying.skipLoop, Option.some.injEq] at hs
      rw [hs]
      rfl
  simp only [List.nil_append] at hs3 hs5
  obtain ⟨lp3, hdec, hc, hfq, hbuf⟩ := decodePosting_encoded r.docId r.freq
    (b.docIds.drop (x.2.startIndex + 1)) (b.freqs.drop (x.2.startIndex + 1))
    (encodeDocIds (b.docIds.take x.2.startIndex) 0 [])
    (encodeFreqs (b.freqs.take x.2.startIndex) [])
    ((b.docIds.take x.2.startIndex).getLastD 0)
    { lp2 with currentPos := 0 }
    (by
      show lp2.docBuffer = _
      rw [hs1]
      show docStream b = _
      unfold docStream
      rw [← encodeDocIds_split, ← ed])
    hs3 hs4
    (by
      show lp2.freqBuffer = _
      rw [hs2]
      show freqStream b = _
      unfold freqStream
      rw [← encodeFreqs_split, ← ef])
    hs5
  refine ⟨r, _, lp3, hr, hrt, hopen, rfl, ?_, hc, hfq⟩
  unfold Querying.nextGEQ
  have hll : ¬ (0 : Nat) ≥ lp2.listLength := by
    rw [hs6]
    show ¬ 0 ≥ x.2.listLength
    omega
  rw [if_neg hll]
  simp only [Querying.nextGEQLoop]
  rw [if_neg (not_le.2 hbuf), hdec]
  simp only [ge_iff_le, Nat.zero_le, if_true, hc]

/-- The index file of a stream of fewer than `2 ^ 32` records is shorter than
`2 ^ 64` bytes: a block is at most `2 * 6 * 128` bytes. -/
theorem index_file_size (ifs : List Record) (hlen : (fileRecords ifs).length < 2 ^ 32) :
    (Index.generateInvertedIndex ifs).ofs.length < 2 ^ 64 := by
  obtain ⟨_, h2, _, h4, _, h6⟩ := generateInvertedIndex_blocks ifs
  rw [h6, List.length_flatten]
  have hle : ∀ n ∈ ((Index.generateInvertedIndex ifs).blocks.map blockBytes).map List.length,
      n ≤ 1536 := by
    intro n hn
    simp only [List.mem_map] at hn
    obtain ⟨_, ⟨b, hb, rfl⟩, rfl⟩ := hn
    have := h2 b hb
    have h1 := encodeDocIds_length_le b.docIds 0
    have h3 := encodeFreqs_length_le b.freqs
    simp only [blockBytes, docStream, freqStream, List.length_append]
    omega
  have hs := List.sum_le_card_nsmul _ 1536 hle
  simp only [List.length_map, smul_eq_mul] at hs
  rw [h4] at hs
  have : ((fileRecords ifs).length + 127) / 128 ≤ 2 ^ 25 := by omega
  calc _ ≤ (((fileRecords ifs).length + 127) / 128) * 1536 := hs
    _ ≤ 2 ^ 25 * 1536 := Nat.mul_le_mul_right _ this
    _ < 2 ^ 64 := by norm_num

/-- The first element of a list with a property, by position. -/
theorem find?_first {α : Type} (P : α → Bool) : ∀ (l : List α) (p : Nat) (r : α),
    l[p]? = some r → P r = true → (∀ q s, q < p → l[q]? = some s → P s = false) →
    l.find? P = some r
  | [], p, r, h, _, _ => by simp at h
  | a :: l, 0, r, h, hr, _ => by
    simp only [List.getElem?_cons_zero, Option.some.injEq] at h
    subst h
    simp [List.find?, hr]
  | a :: l, p + 1, r, h, hr, hq => by
    have ha : P a = false := hq 0 a (Nat.succ_pos p) (by simp)
    simp only [List.find?, ha]
    exact find?_first P l p r (by simpa using h) hr
      (fun q s hqp hs => hq (q + 1) s (by omega) (by simpa using hs))

/-- In a stream whose terms are contiguous, the record at the position of a
lexicon entry is the first record of the entry's term. -/
theorem entry_first_record (ifs : List Record) (hlen : (fileRecords ifs).length < 2 ^ 32)
    (hc : TermsContiguous (fileRecords ifs))
    (x : List Nat × LexiconEntry) (hx : x ∈ (Index.generateInvertedIndex ifs).lexicon)
    (r : Record) (hr : (fileRecords ifs)[entryPos x.2]? = some r) :
    (fileRecords ifs).find? (fun s => decide (s.term = x.1)) = some r := by
  obtain ⟨_, hL, hterm, _, hprev⟩ := (generateInvertedIndex_lexicon ifs hlen).2 x hx
  have ht := hterm (entryPos x.2) le_rfl (by omega)
  have hrt : r.term = x.1 := by
    simp only [termAt, hr, Option.map_some', Option.some.injEq] at ht
    exact ht
  have hp : entryPos x.2 < (fileRecords ifs).length := (List.getElem?_eq_some.1 hr).1
  apply find?_first _ _ (entryPos x.2) r hr (by simpa using hrt)
  intro q s hq hs
  by_contra hcon
  have hst : s.term = x.1 := by simpa using hcon
  have hq1 : termAt (fileRecords ifs) q = some x.1 := by
    simp only [termAt, hs, Option.map_some', hst]
  have key := hc q (entryPos x.2 - 1) (entryPos x.2) (by omega) (by omega) hp (by rw [hq1, ht])
  rcases hprev with h0 | h1
  · omega
  · exact h1 (by rw [key, hq1])

/-! ## Lemmas: cleanQuery against cleanSentence -/

theorem tolower_lt_256 (c : Nat) (hc : c < 256) : tolower c < 256 := by
  unfold tolower
  split <;> omega

theorem cleanQueryLoop_eq (s : List Nat) : ∀ cleaned : List Nat,
    Querying.cleanQueryLoop s cleaned = cleaned ++ s.map cleanByte := by
  induction s with
  | nil => intro cleaned; simp [Querying.cleanQueryLoop]
  | cons c rest ih =>
    intro cleaned
    have hm : tolower (c % 256) % 256 = tolower (c % 256) :=
      Nat.mod_eq_of_lt (tolower_lt_256 _ (Nat.mod_lt _ (by norm_num)))
    simp only [Querying.cleanQueryLoop, hm, List.map_cons]
    by_cases h : tolower (c % 256) ≤ 127 ∧ ispunct (tolower (c % 256)) = false
    · rw [if_pos h, ih]
      simp [cleanByte, h]
    · rw [if_neg h, ih]
      simp [cleanByte, h]

theorem cleanQuery_eq_map (s : List Nat) : Querying.cleanQuery s = s.map cleanByte := by
  simp [Querying.cleanQuery, cleanQueryLoop_eq]

/-- The normaliser writes a NUL byte only for a NUL byte. -/
theorem cleanByte_ne_zero (c : Nat) (hc : c % 256 ≠ 0) : cleanByte c ≠ 0 := by
  have ht : tolower (c % 256) ≠ 0 := by
    unfold tolower
    split <;> omega
  unfold cleanByte
  split
  · exact ht
  · decide

/-- A term without a NUL byte is the C string stored for it. -/
theorem cstr_eq_self (t : List Nat) (h : ∀ c ∈ t, c ≠ 0) : Parsing.cstr t = t := by
  unfold Parsing.cstr
  rw [List.takeWhile_eq_self_iff]
  intro c hc
  simpa using h c hc

/-- The loop of `tokenizeSentence` over non-empty terms that fit into both
buffers: one posting per term, holding the C string copied for it. -/
theorem tokenizeLoop_ok (docId : Int) : ∀ (terms : List (List Nat))
    (postingBuffer : List Parsing.Posting) (termBufferOffset : Nat) (termCount : Int),
    (∀ t ∈ terms, t ≠ []) →
    postingBuffer.length + terms.length ≤ Parsing.POSTING_BUFFER_SIZE →
    termBufferOffset + (terms.map (fun t => t.length + 1)).sum ≤ Parsing.TERM_BUFFER_SIZE →
    Parsing.tokenizeLoop docId terms (postingBuffer, termBufferOffset, termCount) =
      .ok (postingBuffer ++ terms.map (fun t => ⟨Parsing.cstr t, docId⟩),
        termBufferOffset + (terms.map (fun t => t.length + 1)).sum,
        termCount + terms.length)
  | [], postingBuffer, termBufferOffset, termCount, _, _, _ => by
    simp [Parsing.tokenizeLoop]
  | t :: rest, postingBuffer, termBufferOffset, termCount, hne, hp, ht => by
    simp only [List.length_cons, List.map_cons, List.sum_cons] at hp ht
    simp only [Parsing.tokenizeLoop]
    rw [if_neg (hne t (List.mem_cons_self _ _)), if_neg (by omega), if_neg (by omega)]
    rw [tokenizeLoop_ok docId rest _ _ _ (fun u hu => hne u (List.mem_cons_of_mem _ hu))
      (by simp only [List.length_append, List.length_singleton]; omega) (by omega)]
    congr 1
    refine Prod.ext ?_ (Prod.ext ?_ ?_)
    · simp
    · simp only [List.map_cons, List.sum_cons]
      omega
    · simp only [List.length_cons]
      push_cast
      ring

/-! ## Claims -/

/-- C1 (varbyte round trip).  For every `n < 2 ^ 32`, every buffer `pre` already
written and every byte suffix `rest`, decoding at the position where
`varbyteEncode` started writing `n` returns `n` and leaves the position just
after the bytes written for `n`; with `pre = []` decoding starts at position
`0` and stops at the length of the encoding of `n`, so consecutive encoded
numbers decode one after another. -/
theorem varbyte_round_trip (n : Nat) (hn : n < 2 ^ 32) (pre rest : List Nat) :
    varbyteDecode (varbyteEncode pre n ++ rest) pre.length =
      some (n, (varbyteEncode pre n).length) := by
  rw [varbyteEncode_append, varbyteDecode_encode n hn]
  simp

/-- Witness for C1 at `n = 300`, starting from the empty buffer. -/
theorem varbyte_round_trip_witness :
    (300 : Nat) < 2 ^ 32 ∧
      varbyteDecode (varbyteEncode [] 300 ++ [7, 9]) 0 = some (300, 2) :=
  ⟨by decide, varbyte_round_trip 300 (by decide) [] [7, 9]⟩

/-- C2 (gap reconstruction).  For every block, decoding the docId byte stream
that `compressBlock` writes, one varbyte at a time and summing the gaps from 0
in 32-bit unsigned arithmetic, yields the block's docIds in order, each as the
`uint32_t` the cursor works with; that value is the docId itself for every
non-negative docId.  The stream is the one `compressBlock` appends to the index
file, and the block `[5, 7, 10, 100]` gives bytes `[0x05, 0x02, 0x03, 0x5A]`. -/
theorem gap_reconstruction (block : Block) :
    decodeDocStream (docStream block) (docStream block).length 0 0 =
        some (block.docIds.map toU32) ∧
      (∀ d ∈ block.docIds, 0 ≤ d → d < 2 ^ 32 → (toU32 d : Int) = d) ∧
      (∀ (ofs : List Nat) (metadata : List BlockMetadata) (blockCount : Nat),
        ((compressBlock ofs block metadata blockCount).1.drop ofs.length).take
          (docStream block).length = docStream block) ∧
      docStream ⟨[5, 7, 10, 100], [1, 2, 1, 3]⟩ = [0x05, 0x02, 0x03, 0x5A] := by
  refine ⟨?_, fun d _ h0 h1 => toU32_of_nonneg d h0 h1, ?_, by decide⟩
  · have h := decodeDocStream_encodeDocIds block.docIds [] 0 (docStream block).length
      (le_refl _)
    simpa [docStream, toU32] using h
  · intro ofs metadata blockCount
    simp [compressBlock, List.append_assoc]

/-- C3 (merge correctness), evaluated on two sorted files of which the first
starts with a record whose term is empty.  The parser writes such a record for
a token that starts with a NUL byte: the text `<NUL>x a` of document 1 gives the
postings `("", 1)` and `("a", 1)`, and `outputFile` writes the sorted file
`("", 1, 2), ("a", 1, 1)`, the first record with `termLen = 0`.
`readNextRecord` returns `false` on a zero `termLen`, so `mergeBuffers` reads
nothing of that file: merged with the file `("a", 2, 1)` the output is the one
record `("a", 2, 1)`, and both records of the first file are lost.  The output
is not a permutation of the union of the input files' records. -/
theorem merge_drops_file_after_empty_term :
    (Parsing.tokenizeSentence 1 (Parsing.cleanSentence [0, 120, 32, 97]) [] 0).toOption =
        some ([⟨[], 1⟩, ⟨[97], 1⟩], 5, 2) ∧
      Parsing.outputFile [⟨[], 1⟩, ⟨[97], 1⟩] = some [⟨[], 1, 2⟩, ⟨[97], 1, 1⟩] ∧
      (∀ f ∈ ([[⟨[], 1, 2⟩, ⟨[97], 1, 1⟩], [⟨[97], 2, 1⟩]] : List (List Record)),
        f.Pairwise recordLe) ∧
      Merging.mergeBuffers Merging.heapPop [[⟨[], 1, 2⟩, ⟨[97], 1, 1⟩], [⟨[97], 2, 1⟩]] =
        some [⟨[97], 2, 1⟩] ∧
      ¬ List.Perm ([⟨[97], 2, 1⟩] : List Record)
        ([[⟨[], 1, 2⟩, ⟨[97], 1, 1⟩], [⟨[97], 2, 1⟩]] : List (List Record)).flatten :=
  ⟨by decide, by decide, by decide, by decide, fun h => by simpa using h.length_eq⟩

/-- C3, amended.  For every priority queue meeting the contract of
`std::priority_queue` and every list of input files whose records are sorted by
`(term, docId)`, `mergeBuffers` terminates, the record sequence it writes is
sorted by `(term, docId)` ascending and is, as a multiset, exactly the union of
the records each file holds before its first record with an empty term
(`fileRecords`: a zero `termLen` is read as the end of the file), nothing of
them lost and nothing duplicated; when no record of any file has an empty term
it is exactly the union of the input files' records. -/
theorem merge_correctness
    (pop : List Merging.PostingEntry → Option (Merging.PostingEntry × List Merging.PostingEntry))
    (hpop : Merging.PopSpec pop) (inputFiles : List (List Record))
    (hsorted : ∀ f ∈ inputFiles, (fileRecords f).Pairwise recordLe) :
    ∃ out, Merging.mergeBuffers pop inputFiles = some out ∧
      out.Pairwise recordLe ∧
      List.Perm out (inputFiles.map fileRecords).flatten ∧
      ((∀ f ∈ inputFiles, ∀ r ∈ f, r.term ≠ []) → List.Perm out inputFiles.flatten) := by
  have key := mergeInit_inv inputFiles hsorted inputFiles.length (le_refl _)
  unfold Merging.mergeBuffers Merging.mergeInit
  simp only
  generalize (List.range inputFiles.length).foldl Merging.initStep (inputFiles, []) = st at key
  obtain ⟨hinv, hmeas, hlen⟩ := key
  rw [← hlen] at hinv
  obtain ⟨res, h1, h2, h3⟩ := mergeLoop_correct pop hpop _
    ((inputFiles.map List.length).sum + 1) _ _ _ hinv (by omega)
  refine ⟨res, h1, h2, h3, ?_⟩
  intro hne
  have e : inputFiles.map fileRecords = inputFiles := by
    conv => rhs; rw [← List.map_id inputFiles]
    exact List.map_congr_left (fun f hf => fileRecords_eq_self f (hne f hf))
  rw [e] at h3
  exact h3

/-- Witness for C3: the two files `A = [(a,1,1), (b,2,1)]` and
`B = [(a,2,1), (c,1,1)]` merge to `(a,1,1), (a,2,1), (b,2,1), (c,1,1)`. -/
theorem merge_correctness_witness :
    Merging.mergeBuffers Merging.heapPop
        [[⟨[97], 1, 1⟩, ⟨[98], 2, 1⟩], [⟨[97], 2, 1⟩, ⟨[99], 1, 1⟩]] =
      some [⟨[97], 1, 1⟩, ⟨[97], 2, 1⟩, ⟨[98], 2, 1⟩, ⟨[99], 1, 1⟩] ∧
    ∃ out, Merging.mergeBuffers Merging.heapPop
        [[⟨[97], 1, 1⟩, ⟨[98], 2, 1⟩], [⟨[97], 2, 1⟩, ⟨[99], 1, 1⟩]] = some out ∧
      out.Pairwise recordLe ∧
      List.Perm out ([[⟨[97], 1, 1⟩, ⟨[98], 2, 1⟩], [⟨[97], 2, 1⟩, ⟨[99], 1, 1⟩]].map
        fileRecords).flatten ∧
      ((∀ f ∈ ([[⟨[97], 1, 1⟩, ⟨[98], 2, 1⟩], [⟨[97], 2, 1⟩, ⟨[99], 1, 1⟩]] :
          List (List Record)), ∀ r ∈ f, r.term ≠ []) →
        List.Perm out ([[⟨[97], 1, 1⟩, ⟨[98], 2, 1⟩], [⟨[97], 2, 1⟩, ⟨[99], 1, 1⟩]] :
          List (List Record)).flatten) :=
  ⟨by decide,
   merge_correctness Merging.heapPop heapPop_spec
    [[⟨[97], 1, 1⟩, ⟨[98], 2, 1⟩], [⟨[97], 2, 1⟩, ⟨[99], 1, 1⟩]] (by decide)⟩

/-- C4 (collapse frequency), evaluated at the buffer holding the single posting
`("a", 1)`: the pair occurs once, yet the one record `outputFile` emits, the
first record of the file, carries freq 2.  The collapse loop starts at
`i = 0` with `freq = 1` already counting `postingBuffer[0]`, so the first
record of every file is one too high (`outputFile_spec` gives the general
form). -/
theorem collapse_frequency_first_record :
    Parsing.outputFile [⟨[97], 1⟩] = some [⟨[97], 1, 2⟩] ∧
      occurrences [⟨[97], 1⟩] [97] 1 = 1 ∧
      Parsing.outputFile [⟨[98], 2⟩, ⟨[97], 1⟩, ⟨[98], 2⟩, ⟨[97], 3⟩, ⟨[97], 1⟩, ⟨[97], 1⟩] =
        some [⟨[97], 1, 4⟩, ⟨[97], 3, 1⟩, ⟨[98], 2, 2⟩] := by
  refine ⟨by decide, by decide, by decide⟩

/-- C5 (dedup).  For every non-empty posting buffer `outputFile` returns, and
the records it emits are strictly increasing in `(term bytes, docId)`; hence
records of the same term have strictly increasing docIds, every
`(term, docId)` pair of the buffer is the key of exactly one emitted record,
and every emitted record has the key of some posting of the buffer. -/
theorem dedup_strictly_increasing (postingBuffer : List Parsing.Posting)
    (hne : postingBuffer ≠ []) :
    ∃ out, Parsing.outputFile postingBuffer = some out ∧
      out.Pairwise recordLt ∧
      out.Pairwise (fun a b => a.term = b.term → a.docId < b.docId) ∧
      (∀ p ∈ postingBuffer,
        out.countP (fun r => decide (r.term = p.termPtr ∧ r.docId = p.docId)) = 1) ∧
      (∀ r ∈ out, ∃ p ∈ postingBuffer, p.termPtr = r.term ∧ p.docId = r.docId) := by
  obtain ⟨first, out, h1, _, _, h4, h5, h6⟩ := outputFile_spec postingBuffer hne
  refine ⟨out, h1, h4, ?_, ?_, fun r hr => (h6 r hr).1⟩
  · refine h4.imp ?_
    intro a b hab e
    unfold recordLt keyLt at hab
    rcases hab with hab | hab
    · rw [e, strcmp_self] at hab
      exact absurd hab (by decide)
    · exact hab.2
  · intro p hp
    have hle := countP_key_le_one out h4 p.termPtr p.docId
    obtain ⟨r, hr, e1, e2⟩ := h5 p hp
    have hpos : 0 < out.countP (fun r => decide (r.term = p.termPtr ∧ r.docId = p.docId)) := by
      rw [List.countP_pos_iff]
      exact ⟨r, hr, by simp [e1, e2]⟩
    omega

/-- Witness for C5: a buffer of six postings with three distinct keys. -/
theorem dedup_strictly_increasing_witness :
    ∃ out, Parsing.outputFile
        [⟨[98], 2⟩, ⟨[97], 1⟩, ⟨[98], 2⟩, ⟨[97], 3⟩, ⟨[97], 1⟩, ⟨[97], 1⟩] = some out ∧
      out.Pairwise recordLt ∧
      out.Pairwise (fun a b => a.term = b.term → a.docId < b.docId) ∧
      (∀ p ∈ ([⟨[98], 2⟩, ⟨[97], 1⟩, ⟨[98], 2⟩, ⟨[97], 3⟩, ⟨[97], 1⟩, ⟨[97], 1⟩] :
          List Parsing.Posting),
        out.countP (fun r => decide (r.term = p.termPtr ∧ r.docId = p.docId)) = 1) ∧
      (∀ r ∈ out, ∃ p ∈ ([⟨[98], 2⟩, ⟨[97], 1⟩, ⟨[98], 2⟩, ⟨[97], 3⟩, ⟨[97], 1⟩, ⟨[97], 1⟩] :
          List Parsing.Posting), p.termPtr = r.term ∧ p.docId = r.docId) :=
  dedup_strictly_increasing _ (by decide)

/-- C6 (lexicon locality).  For every merged stream of fewer than `2 ^ 32`
records in which each term's postings are contiguous (the records read are
`fileRecords ifs`, the whole stream when no term is empty), the lexicon written by
`generateInvertedIndex` has exactly one entry per distinct term of the stream
(no term twice, and a term has an entry iff it occurs), the entries come in
stream order, and every entry `(sb, si, L)` has `si < 128`, `L ≥ 1` and
describes exactly the positions of its term: the record at stream position `q`
has the entry's term iff `128 * sb + si ≤ q < 128 * sb + si + L`.  Stream
position `q` is stored in block `q / 128` at index `q % 128`. -/
theorem lexicon_locality (ifs : List Record)
    (hlen : (fileRecords ifs).length < 2 ^ 32)
    (hc : TermsContiguous (fileRecords ifs)) :
    ((Index.generateInvertedIndex ifs).lexicon.map Prod.fst).Nodup ∧
      (∀ t, t ∈ (Index.generateInvertedIndex ifs).lexicon.map Prod.fst ↔
        t ∈ (fileRecords ifs).map Record.term) ∧
      (Index.generateInvertedIndex ifs).lexicon.Pairwise
        (fun x y => entryPos x.2 + x.2.listLength ≤ entryPos y.2) ∧
      (∀ x ∈ (Index.generateInvertedIndex ifs).lexicon,
        x.2.startIndex < 128 ∧ 1 ≤ x.2.listLength ∧
        entryPos x.2 + x.2.listLength ≤ (fileRecords ifs).length ∧
        ∀ q, q < (fileRecords ifs).length →
          (termAt (fileRecords ifs) q = some x.1 ↔
            entryPos x.2 ≤ q ∧ q < entryPos x.2 + x.2.listLength)) ∧
      (∀ q, ((Index.generateInvertedIndex ifs).blocks[q / 128]?).bind
          (fun b => (blockPairs b)[q % 128]?) =
        ((fileRecords ifs)[q]?).map (fun r => (r.docId, r.freq))) := by
  obtain ⟨hchain, hlocal⟩ := generateInvertedIndex_lexicon ifs hlen
  have hmem := chain_mem _ _ _ hchain
  have hpw := chain_pairwise _ _ _ hchain
  have hcov := chain_cover _ _ _ hchain
  generalize (Index.generateInvertedIndex ifs).lexicon = lex at hchain hlocal hmem hpw hcov
  -- the positions of a term are exactly those of its entry
  have hexact : ∀ x ∈ lex, ∀ q, q < (fileRecords ifs).length →
      (termAt (fileRecords ifs) q = some x.1 ↔
        entryPos x.2 ≤ q ∧ q < entryPos x.2 + x.2.listLength) := by
    intro x hx q hq
    obtain ⟨_, l2, l3, l4, l5⟩ := hlocal x hx
    have hb := (hmem x hx).2
    have hstart : termAt (fileRecords ifs) (entryPos x.2) = some x.1 :=
      l3 _ (le_refl _) (by omega)
    constructor
    · intro hq2
      by_contra hcon
      by_cases hlt : q < entryPos x.2
      · rcases l5 with l5 | l5
        · omega
        · have := hc q (entryPos x.2 - 1) (entryPos x.2) (by omega) (by omega) (by omega)
            (by rw [hq2, hstart])
          rw [hq2] at this
          exact l5 this
      · have := hc (entryPos x.2) (entryPos x.2 + x.2.listLength) q (by omega) (by omega) hq
          (by rw [hq2, hstart])
        rw [hstart] at this
        exact l4 this
    · intro hq2
      exact l3 q hq2.1 hq2.2
  refine ⟨?_, ?_, hpw, ?_, generateInvertedIndex_position ifs⟩
  · rw [List.Nodup, List.pairwise_map]
    refine List.Pairwise.imp_of_mem ?_ hpw
    intro x y hx hy hxy e
    obtain ⟨_, l2, l3, _, _⟩ := hlocal y hy
    have hby := (hmem y hy).2
    have hstart : termAt (fileRecords ifs) (entryPos y.2) = some y.1 :=
      l3 _ (le_refl _) (by omega)
    rw [← e] at hstart
    have := (hexact x hx (entryPos y.2) (by omega)).1 hstart
    omega
  · intro t
    constructor
    · intro ht
      obtain ⟨x, hx, rfl⟩ := List.mem_map.1 ht
      obtain ⟨_, l2, l3, _, _⟩ := hlocal x hx
      have hstart : termAt (fileRecords ifs) (entryPos x.2) = some x.1 :=
        l3 _ (le_refl _) (by omega)
      obtain ⟨r, hr, e⟩ := (termAt_eq_some_iff _ _ _).1 hstart
      exact List.mem_map.2 ⟨r, List.getElem?_mem hr, e⟩
    · intro ht
      obtain ⟨r, hr, rfl⟩ := List.mem_map.1 ht
      obtain ⟨q, hq⟩ := List.mem_iff_getElem?.1 hr
      have hqlt : q < (fileRecords ifs).length := (List.getElem?_eq_some.1 hq).1
      obtain ⟨x, hx, hx1, hx2⟩ := hcov q (Nat.zero_le _) hqlt
      have h1 := (hexact x hx q hqlt).2 ⟨hx1, hx2⟩
      obtain ⟨r2, hr2, e⟩ := (termAt_eq_some_iff _ _ _).1 h1
      rw [hq] at hr2
      have : r = r2 := Option.some.inj hr2
      subst this
      exact List.mem_map.2 ⟨x, hx, e.symm⟩
  · intro x hx
    obtain ⟨l1, l2, _, _, _⟩ := hlocal x hx
    exact ⟨l1, l2, (hmem x hx).2, hexact x hx⟩

/-- Witness for C6: a stream of four records with two terms. -/
theorem lexicon_locality_witness :
    (Index.generateInvertedIndex
        [⟨[97], 5, 1⟩, ⟨[97], 7, 2⟩, ⟨[98], 10, 1⟩, ⟨[98], 100, 3⟩]).lexicon =
      [([97], ⟨0, 0, 2⟩), ([98], ⟨0, 2, 2⟩)] ∧
    ((Index.generateInvertedIndex
        [⟨[97], 5, 1⟩, ⟨[97], 7, 2⟩, ⟨[98], 10, 1⟩, ⟨[98], 100, 3⟩]).lexicon.map
          Prod.fst).Nodup :=
  ⟨by decide,
   (lexicon_locality [⟨[97], 5, 1⟩, ⟨[97], 7, 2⟩, ⟨[98], 10, 1⟩, ⟨[98], 100, 3⟩]
      (by decide)
      (by
        intro i j k hij hjk hk
        have hk4 : k < 4 := hk
        have hi : i = 0 ∨ i = 1 ∨ i = 2 ∨ i = 3 := by omega
        have hj : j = 0 ∨ j = 1 ∨ j = 2 ∨ j = 3 := by omega
        have hk : k = 0 ∨ k = 1 ∨ k = 2 ∨ k = 3 := by omega
        rcases hi with rfl | rfl | rfl | rfl <;> rcases hj with rfl | rfl | rfl | rfl <;>
          rcases hk with rfl | rfl | rfl | rfl <;> first | omega | decide)).1⟩

/-- C7 (block partition).  For every merged stream, with `n` the number of
records read (`fileRecords ifs`, the whole stream when no term is empty),
`generateInvertedIndex` passes exactly `ceil(n / 128)` blocks to
`compressBlock` and writes one metadata entry and one block body for each;
every block but the last holds exactly 128 postings, every block holds between
1 and 128; the blocks' `(docId, freq)` pairs concatenated in emission order are
the stream; and for `n = 0` no block, no metadata and no lexicon entry is
written. -/
theorem block_partition (ifs : List Record) :
    (Index.generateInvertedIndex ifs).blocks.length = ((fileRecords ifs).length + 127) / 128 ∧
      (Index.generateInvertedIndex ifs).metadata.length =
        (Index.generateInvertedIndex ifs).blocks.length ∧
      (Index.generateInvertedIndex ifs).metadata =
        (Index.generateInvertedIndex ifs).blocks.map blockMeta ∧
      (Index.generateInvertedIndex ifs).ofs =
        ((Index.generateInvertedIndex ifs).blocks.map blockBytes).flatten ∧
      (∀ b ∈ (Index.generateInvertedIndex ifs).blocks.dropLast,
        b.docIds.length = 128 ∧ b.freqs.length = 128) ∧
      (∀ b ∈ (Index.generateInvertedIndex ifs).blocks,
        1 ≤ b.docIds.length ∧ b.docIds.length ≤ 128 ∧ b.freqs.length = b.docIds.length) ∧
      ((Index.generateInvertedIndex ifs).blocks.map blockPairs).flatten =
        (fileRecords ifs).map (fun r => (r.docId, r.freq)) ∧
      ((fileRecords ifs).length = 0 →
        (Index.generateInvertedIndex ifs).blocks = [] ∧
        (Index.generateInvertedIndex ifs).metadata = [] ∧
        (Index.generateInvertedIndex ifs).ofs = [] ∧
        (Index.generateInvertedIndex ifs).lexicon = []) := by
  obtain ⟨h1, h2, h3, h4, h5, h6⟩ := generateInvertedIndex_blocks ifs
  refine ⟨h4, by rw [h5, List.length_map], h5, h6, ?_, h2, h1, ?_⟩
  · intro b hb
    have := h2 b (List.mem_of_mem_dropLast hb)
    have := h3 b hb
    omega
  · intro h0
    rw [generateInvertedIndex_of_nil ifs (List.length_eq_zero.1 h0)]
    simp [Index.initialState]

/-- Witness for C7: with no record read nothing is written. -/
theorem block_partition_witness :
    (Index.generateInvertedIndex []).blocks = [] ∧
      (Index.generateInvertedIndex []).metadata = [] ∧
      (Index.generateInvertedIndex []).ofs = [] ∧
      (Index.generateInvertedIndex []).lexicon = [] :=
  (block_partition []).2.2.2.2.2.2.2 (by decide)

/-- C8 (block offsets locate block bodies).  `computeBlockOffsets` returns one
offset per metadata entry, `offsets[i]` being the sum over `j < i` of
`docSize_j + freqSize_j` computed in 64 bits; and for an index written by
`generateInvertedIndex` whose file is shorter than `2 ^ 64` bytes, that sum is
exact and the `docSize_i` bytes of the index file starting at `offsets[i]` are
block `i`'s varbyte gap stream, the following `freqSize_i` bytes its varbyte
freq stream. -/
theorem block_offsets_locate (metadata : List BlockMetadata) (ifs : List Record) :
    (Querying.computeBlockOffsets metadata).length = metadata.length ∧
      (∀ i, i < metadata.length →
        (Querying.computeBlockOffsets metadata)[i]? =
          some (((metadata.take i).map (fun m => m.docSize + m.freqSize)).sum % 2 ^ 64)) ∧
      ((Index.generateInvertedIndex ifs).ofs.length < 2 ^ 64 →
        ∀ i b, (Index.generateInvertedIndex ifs).blocks[i]? = some b →
          ∃ off m,
            (Querying.computeBlockOffsets (Index.generateInvertedIndex ifs).metadata)[i]? =
              some off ∧
            (Index.generateInvertedIndex ifs).metadata[i]? = some m ∧
            off = ((((Index.generateInvertedIndex ifs).metadata).take i).map
              (fun m => m.docSize + m.freqSize)).sum ∧
            ((Index.generateInvertedIndex ifs).ofs.drop off).take m.docSize = docStream b ∧
            ((Index.generateInvertedIndex ifs).ofs.drop (off + m.docSize)).take m.freqSize =
              freqStream b) := by
  refine ⟨computeBlockOffsetsLoop_length metadata 0, ?_, ?_⟩
  · intro i hi
    have := computeBlockOffsetsLoop_getElem? metadata 0 i (by norm_num) hi
    simpa [Querying.computeBlockOffsets] using this
  · intro hsize i b hb
    obtain ⟨_, h2, _, _, h5, h6⟩ := generateInvertedIndex_blocks ifs
    generalize (Index.generateInvertedIndex ifs).blocks = B at hb h2 h5 h6
    generalize (Index.generateInvertedIndex ifs).metadata = M at h5
    generalize (Index.generateInvertedIndex ifs).ofs = ofs at h6 hsize
    subst h5 h6
    have hbound : ∀ x ∈ B, x.docIds.length ≤ 128 ∧ x.freqs.length ≤ 128 := by
      intro x hx
      have := h2 x hx
      omega
    have hi : i < B.length := (List.getElem?_eq_some.1 hb).1
    have hbmem : b ∈ B := List.getElem?_mem hb
    obtain ⟨e1, e2⟩ := blockMeta_sizes b (hbound b hbmem).1 (hbound b hbmem).2
    have hsplit := flatten_split (B.map blockBytes) i (blockBytes b)
      (by rw [List.getElem?_map, hb]; rfl)
    have hsum : (((B.map blockMeta).take i).map (fun m => m.docSize + m.freqSize)).sum =
        (((B.map blockBytes).take i).flatten).length := by
      rw [← List.map_take, ← List.map_take]
      exact sum_sizes_eq_length (B.take i) (fun x hx => hbound x (List.mem_of_mem_take hx))
    have hle : (((B.map blockBytes).take i).flatten).length ≤
        ((B.map blockBytes).flatten).length := by
      rw [hsplit]
      simp only [List.length_append]
      omega
    have hoff := computeBlockOffsetsLoop_getElem? (B.map blockMeta) 0 i (by norm_num)
      (by simpa using hi)
    rw [Nat.zero_add, hsum, Nat.mod_eq_of_lt (by omega)] at hoff
    refine ⟨_, blockMeta b, hoff, by rw [List.getElem?_map, hb]; rfl, hsum.symm, ?_, ?_⟩
    · rw [e1, hsplit, List.drop_left]
      simp [blockBytes]
    · rw [e1, e2, hsplit, ← List.drop_drop, List.drop_left]
      simp [blockBytes]

/-- Witness for C8: the one-block index of four postings. -/
theorem block_offsets_locate_witness :
    ∃ off m,
      (Querying.computeBlockOffsets (Index.generateInvertedIndex
        [⟨[97], 5, 1⟩, ⟨[97], 7, 2⟩, ⟨[98], 10, 1⟩, ⟨[98], 100, 3⟩]).metadata)[0]? = some off ∧
      (Index.generateInvertedIndex
        [⟨[97], 5, 1⟩, ⟨[97], 7, 2⟩, ⟨[98], 10, 1⟩, ⟨[98], 100, 3⟩]).metadata[0]? = some m ∧
      off = ((((Index.generateInvertedIndex
        [⟨[97], 5, 1⟩, ⟨[97], 7, 2⟩, ⟨[98], 10, 1⟩, ⟨[98], 100, 3⟩]).metadata).take 0).map
          (fun m => m.docSize + m.freqSize)).sum ∧
      ((Index.generateInvertedIndex
        [⟨[97], 5, 1⟩, ⟨[97], 7, 2⟩, ⟨[98], 10, 1⟩, ⟨[98], 100, 3⟩]).ofs.drop off).take
          m.docSize = docStream ⟨[5, 7, 10, 100], [1, 2, 1, 3]⟩ ∧
      ((Index.generateInvertedIndex
        [⟨[97], 5, 1⟩, ⟨[97], 7, 2⟩, ⟨[98], 10, 1⟩, ⟨[98], 100, 3⟩]).ofs.drop
          (off + m.docSize)).take m.freqSize = freqStream ⟨[5, 7, 10, 100], [1, 2, 1, 3]⟩ :=
  (block_offsets_locate [] [⟨[97], 5, 1⟩, ⟨[97], 7, 2⟩, ⟨[98], 10, 1⟩, ⟨[98], 100, 3⟩]).2.2
    (by decide) 0 ⟨[5, 7, 10, 100], [1, 2, 1, 3]⟩ (by decide)

/-- C9 (cursor exhaustion), evaluated on `crossingStream`.  The builder writes
the lexicon entry `(0, 0, 129)` for term `a`, yet a fresh cursor for `a`,
iterated with `loadBlock`, `nextGEQ(0)` and then `nextGEQ(previous + 1)`,
returns 130 docIds before the first `UINT32_MAX`: the 129 docIds of `a` and
then 200, the docId of the posting of term `b` that shares block 1.
`loadBlock` sets `currentPos = 0` also when `nextGEQ` loads the second block,
so the test `currentPos >= listLength` no longer counts the postings of the
first block. -/
theorem cursor_exhaustion_crossing :
    (Index.generateInvertedIndex crossingStream).lexicon =
        [([97], ⟨0, 0, 129⟩), ([98], ⟨1, 1, 1⟩)] ∧
      (Querying.openList (Index.generateInvertedIndex crossingStream) ⟨0, 0, 129⟩).bind
          (fun lp => Querying.enumerate (Index.generateInvertedIndex crossingStream).ofs
            (Index.generateInvertedIndex crossingStream).metadata
            (Querying.computeBlockOffsets (Index.generateInvertedIndex crossingStream).metadata)
            200 0 lp) =
        some ((List.range 129).map (fun i => i + 1) ++ [200]) ∧
      ((List.range 129).map (fun i => i + 1) ++ [200]).length = 130 := by
  decide!

/-- C10 (meaning of `nextGEQ`), evaluated on `sharedBlockStream`.  Term `a`
(lexicon entry `(0, 0, 1)`) has the single docId 1, so no posting of `a` has a
docId `≥ 5`; a fresh cursor for `a` nevertheless answers `nextGEQ(5)` with 10,
the docId of the posting of term `b` in the same block, instead of
`UINT32_MAX`.  The loop of `nextGEQ` tests `currentPos >= listLength` only on
entry, not before decoding each further posting. -/
theorem nextGEQ_returns_other_term :
    (Index.generateInvertedIndex sharedBlockStream).lexicon =
        [([97], ⟨0, 0, 1⟩), ([98], ⟨0, 1, 1⟩)] ∧
      ((Querying.openList (Index.generateInvertedIndex sharedBlockStream) ⟨0, 0, 1⟩).bind
          (fun lp => Querying.nextGEQ 5 (Index.generateInvertedIndex sharedBlockStream).ofs
            (Index.generateInvertedIndex sharedBlockStream).metadata
            (Querying.computeBlockOffsets
              (Index.generateInvertedIndex sharedBlockStream).metadata) lp)).map Prod.fst =
        some 10 := by
  decide

/-- C11 (nextGEQ lower bound).  For every cursor state and every 32-bit target
`t`, a value `d` that `nextGEQ(t)` returns satisfies `t ≤ d`; it is
`UINT32_MAX` or the docId the cursor decoded last (its `currentDoc`), which
passed the test `doc >= targetDoc`. -/
theorem nextGEQ_lower_bound (t : Nat) (ifs : List Nat) (metadata : List BlockMetadata)
    (blockOffsets : List Nat) (lp : Querying.ListPointer) (d : Nat)
    (lp1 : Querying.ListPointer) (ht : t ≤ UINT32_MAX)
    (h : Querying.nextGEQ t ifs metadata blockOffsets lp = some (d, lp1)) :
    t ≤ d ∧ d ≤ UINT32_MAX ∧ (d = UINT32_MAX ∨ d = lp1.currentDoc) :=
  nextGEQ_ge t ifs metadata blockOffsets ht lp d lp1 h

/-- C11 on the index of `sharedBlockStream`: the fresh cursor of term `a` asked
for `nextGEQ(1)` returns the docId 1. -/
theorem nextGEQ_lower_bound_witness :
    1 ≤ UINT32_MAX ∧
      Querying.nextGEQ 1 [1, 9, 1, 1] [⟨10, 2, 2⟩] [0]
          ⟨1, 0, 0, 0, 0, 0, 0, 0, 0, [1, 9], [1, 1], 0, 0⟩ =
        some (1, ⟨1, 1, 1, 1, 0, 0, 0, 0, 1, [1, 9], [1, 1], 1, 1⟩) ∧
      (1 ≤ 1 ∧ 1 ≤ UINT32_MAX ∧
        (1 = UINT32_MAX ∨
          1 = (⟨1, 1, 1, 1, 0, 0, 0, 0, 1, [1, 9], [1, 1], 1, 1⟩ :
            Querying.ListPointer).currentDoc)) :=
  ⟨by decide, by decide,
    nextGEQ_lower_bound 1 [1, 9, 1, 1] [⟨10, 2, 2⟩] [0]
      ⟨1, 0, 0, 0, 0, 0, 0, 0, 0, [1, 9], [1, 1], 0, 0⟩ 1
      ⟨1, 1, 1, 1, 0, 0, 0, 0, 1, [1, 9], [1, 1], 1, 1⟩ (by decide) (by decide)⟩

/-- C19 (text normalizer).  For every byte string `s`, `cleanSentence` replaces
`s` by a string of the same length whose `i`-th byte is the ASCII-lowercased
`s[i]` when `s[i] ≤ 127` and `s[i]` is not ASCII punctuation, and a space
(byte 32) otherwise; every term then read from the result with `ss >> term` is
non-empty, is free of whitespace, and contains no uppercase letter, no
punctuation and no byte above 127. -/
theorem cleanSentence_normalizes (s : List Nat) (hs : ∀ c ∈ s, c < 256) :
    (Parsing.cleanSentence s).length = s.length ∧
      (∀ (i c : Nat), s[i]? = some c →
        (Parsing.cleanSentence s)[i]? =
          some (if c ≤ 127 ∧ ispunct c = false then tolower c else 32)) ∧
      ∀ term ∈ streamTokens (Parsing.cleanSentence s),
        term ≠ [] ∧
          ∀ c ∈ term, isspace c = false ∧ isupper c = false ∧ ispunct c = false ∧ c ≤ 127 := by
  rw [cleanSentence_eq_map]
  refine ⟨by simp, ?_, ?_⟩
  · intro i c hc
    rw [List.getElem?_map, hc, Option.map_some', cleanByte_eq c (hs c (List.getElem?_mem hc))]
  · intro term hterm
    obtain ⟨h1, h2⟩ := streamTokens_mem _ term hterm
    refine ⟨h1, fun c hc => ?_⟩
    obtain ⟨h3, h4⟩ := h2 c hc
    obtain ⟨c0, _, rfl⟩ := List.mem_map.1 h3
    exact ⟨h4, cleanByte_clean c0⟩

/-- C19 on the bytes of `"Hi, É!"` (UTF-8): the result is `"hi"` followed by
five spaces, and its only term is `"hi"`. -/
theorem cleanSentence_normalizes_witness :
    (∀ c ∈ [72, 105, 44, 32, 195, 137, 33], c < 256) ∧
      Parsing.cleanSentence [72, 105, 44, 32, 195, 137, 33] = [104, 105, 32, 32, 32, 32, 32] ∧
      streamTokens (Parsing.cleanSentence [72, 105, 44, 32, 195, 137, 33]) = [[104, 105]] ∧
      ((Parsing.cleanSentence [72, 105, 44, 32, 195, 137, 33]).length =
          [72, 105, 44, 32, 195, 137, 33].length ∧
        (∀ (i c : Nat), [72, 105, 44, 32, 195, 137, 33][i]? = some c →
          (Parsing.cleanSentence [72, 105, 44, 32, 195, 137, 33])[i]? =
            some (if c ≤ 127 ∧ ispunct c = false then tolower c else 32)) ∧
        ∀ term ∈ streamTokens (Parsing.cleanSentence [72, 105, 44, 32, 195, 137, 33]),
          term ≠ [] ∧
            ∀ c ∈ term,
              isspace c = false ∧ isupper c = false ∧ ispunct c = false ∧ c ≤ 127) :=
  ⟨by decide, by decide, by decide,
    cleanSentence_normalizes [72, 105, 44, 32, 195, 137, 33] (by decide)⟩

/-- C20 (unknown query terms).  For every query string and every lookup
`termToIndex`, `processQuery` evaluates `disjunctiveDAAT` on exactly the terms
of the query (read with `ss >> term`) that are keys of `termToIndex`, in query
order with the unknown terms dropped, and returns that result reversed; when
no query term is a key it returns the empty list whatever the index file,
lexicon, metadata and page table are. -/
theorem processQuery_unknown_terms {F : Type} [LinearOrderedField F] (ln : F → F)
    (pop : List (Querying.ScoreDoc F) → Option (Querying.ScoreDoc F × List (Querying.ScoreDoc F)))
    (usePrune : Bool) (query : List Nat) (termToIndex : List Nat → Option Nat)
    (indexIfs : List Nat) (lexicon : List LexiconEntry) (metadata : List BlockMetadata)
    (blockOffsets : List Nat) (pageTable : Int → Int) (averageDocLength : F) :
    Querying.processQuery ln pop usePrune query termToIndex indexIfs lexicon metadata
        blockOffsets pageTable averageDocLength =
      (if (streamTokens query).filter (fun t => (termToIndex t).isSome) = [] then some []
        else
          (Querying.disjunctiveDAAT ln pop usePrune
            ((streamTokens query).filter (fun t => (termToIndex t).isSome)) termToIndex indexIfs
            lexicon metadata blockOffsets pageTable averageDocLength).map List.reverse) ∧
      ((∀ t ∈ streamTokens query, termToIndex t = none) →
        ∀ (ifs2 : List Nat) (lexicon2 : List LexiconEntry) (metadata2 : List BlockMetadata)
          (blockOffsets2 : List Nat) (pageTable2 : Int → Int) (avg2 : F),
          Querying.processQuery ln pop usePrune query termToIndex ifs2 lexicon2 metadata2
            blockOffsets2 pageTable2 avg2 = some []) := by
  have key : ∀ (ifs2 : List Nat) (lexicon2 : List LexiconEntry)
      (metadata2 : List BlockMetadata) (blockOffsets2 : List Nat) (pageTable2 : Int → Int)
      (avg2 : F),
      Querying.processQuery ln pop usePrune query termToIndex ifs2 lexicon2 metadata2
          blockOffsets2 pageTable2 avg2 =
        (if (streamTokens query).filter (fun t => (termToIndex t).isSome) = [] then some []
          else
            (Querying.disjunctiveDAAT ln pop usePrune
              ((streamTokens query).filter (fun t => (termToIndex t).isSome)) termToIndex ifs2
              lexicon2 metadata2 blockOffsets2 pageTable2 avg2).map List.reverse) := by
    intro ifs2 lexicon2 metadata2 blockOffsets2 pageTable2 avg2
    unfold Querying.processQuery
    simp only [foundLoop_eq, List.nil_append]
    by_cases h : (streamTokens query).filter (fun t => (termToIndex t).isSome) = []
    · simp [h]
    · have h2 : ((streamTokens query).filter (fun t => (termToIndex t).isSome)).isEmpty = false := by
        cases hq : (streamTokens query).filter (fun t => (termToIndex t).isSome) with
        | nil => exact absurd hq h
        | cons a l => rfl
      rw [if_pos h2, if_neg h]
  refine ⟨key _ _ _ _ _ _, ?_⟩
  intro hnone ifs2 lexicon2 metadata2 blockOffsets2 pageTable2 avg2
  rw [key, if_pos]
  rw [List.filter_eq_nil_iff]
  intro t ht
  simp [hnone t ht]

/-- C20 on the query `"x a  q"` with the single key `"a"`: the found terms are
`["a"]`; with no key at all the result is empty for any index. -/
theorem processQuery_unknown_terms_witness :
    (streamTokens [120, 32, 97, 32, 32, 113]).filter
        (fun t => ((fun t => if t = [97] then some 0 else none) t :
          Option Nat).isSome) = [[97]] ∧
      (∀ t ∈ streamTokens [120, 32, 97, 32, 32, 113], (fun _ => none : List Nat → Option Nat) t = none) ∧
      Querying.processQuery (fun x : ℚ => x) Querying.topPop true [120, 32, 97, 32, 32, 113]
        (fun _ => none) [1, 2, 3] [⟨0, 0, 7⟩] [] [] (fun _ => 0) 10 = some [] :=
  ⟨by decide, by decide,
    (processQuery_unknown_terms (fun x : ℚ => x) Querying.topPop true [120, 32, 97, 32, 32, 113]
      (fun _ => none) [] [] [] [] (fun _ => 0) 0).2 (by decide) [1, 2, 3] [⟨0, 0, 7⟩] [] []
      (fun _ => 0) 10⟩

/-- C18 (BM25 score).  Read over the real numbers, with `log` the natural
logarithm, for a cursor with `df = listLength ≤ N` (where the argument of the
logarithm is positive) and `avgDocLength ≠ 0`:
`getScore(docLength, avgDocLength)` equals
`ln((N - df + 0.5) / (df + 0.5)) * ((k1 + 1) * freq / (K + freq))` with
`K = k1 * ((1 - b) + b * docLength / avgDocLength)`, `freq = currentFreq`,
`N = 1000000`, `k1 = 1.2`, `b = 0.75`; `K = 1.2` when
`docLength = avgDocLength`; and the idf factor is negative exactly when
`df > N / 2`. -/
theorem getScore_bm25 (lp : Querying.ListPointer) (docLength averageDocLength : ℝ)
    (havg : averageDocLength ≠ 0) (hdf : lp.listLength ≤ 1000000) :
    Querying.getScore Real.log lp docLength averageDocLength =
        Real.log ((1000000 - (lp.listLength : ℝ) + 0.5) / ((lp.listLength : ℝ) + 0.5)) *
          ((1.2 + 1) * (lp.currentFreq : ℝ) /
            (1.2 * ((1 - 0.75) + 0.75 * docLength / averageDocLength) +
              (lp.currentFreq : ℝ))) ∧
      (docLength = averageDocLength →
        (1.2 : ℝ) * ((1 - 0.75) + 0.75 * docLength / averageDocLength) = 1.2) ∧
      (Real.log ((1000000 - (lp.listLength : ℝ) + 0.5) / ((lp.listLength : ℝ) + 0.5)) < 0 ↔
        (lp.listLength : ℝ) > 1000000 / 2) := by
  have hdf2 : (lp.listLength : ℝ) ≤ 1000000 := by exact_mod_cast hdf
  have hnn : (0 : ℝ) ≤ (lp.listLength : ℝ) := Nat.cast_nonneg _
  refine ⟨?_, ?_, ?_⟩
  · unfold Querying.getScore Querying.N Querying.k1 Querying.b
    norm_num [mul_div_assoc]
  · intro h
    rw [h, mul_div_assoc, div_self havg]
    norm_num
  · have hden : (0 : ℝ) < (lp.listLength : ℝ) + 0.5 := by norm_num; linarith
    have hnum : (0 : ℝ) < 1000000 - (lp.listLength : ℝ) + 0.5 := by norm_num; linarith
    rw [Real.log_neg_iff (div_pos hnum hden), div_lt_one hden]
    have e : (1000000 : ℝ) / 2 = 500000 := by norm_num
    rw [gt_iff_lt, e]
    constructor <;> intro h <;> linarith

/-- C18 at `df = 600000`, `freq = 2`, `docLength = avgDocLength = 10`. -/
theorem getScore_bm25_witness :
    (10 : ℝ) ≠ 0 ∧ (Querying.scoreCursor 600000 2).listLength ≤ 1000000 ∧
      Real.log ((1000000 - ((Querying.scoreCursor 600000 2).listLength : ℝ) + 0.5) /
        (((Querying.scoreCursor 600000 2).listLength : ℝ) + 0.5)) < 0 :=
  ⟨by norm_num, by decide,
    ((getScore_bm25 (Querying.scoreCursor 600000 2) 10 10 (by norm_num) (by decide)).2.2).2
      (by norm_num [Querying.scoreCursor])⟩

/-- C15 (tie-breaking), evaluated on a full heap whose 1000 entries all have
score 1 and the docIds `0 .. 999`.  Admitting the candidate `(2, 5000)` evicts
the entry with docId 0, the smallest docId among the tied entries; the entry
with the largest docId, 999, is retained. -/
theorem eviction_keeps_largest_docId :
    Querying.heapUpdate Querying.topPop false
        ((List.range 1000).map (fun i => (⟨1, i⟩ : Querying.ScoreDoc ℚ))) 2 0 5000 =
      some (⟨2, 5000⟩ :: (List.range 999).map (fun i => (⟨1, i + 1⟩ : Querying.ScoreDoc ℚ)),
        false) ∧
      (⟨1, 999⟩ : Querying.ScoreDoc ℚ) ∈
        (⟨2, 5000⟩ :: (List.range 999).map (fun i => (⟨1, i + 1⟩ : Querying.ScoreDoc ℚ))) ∧
      (⟨1, 0⟩ : Querying.ScoreDoc ℚ) ∉
        (⟨2, 5000⟩ :: (List.range 999).map (fun i => (⟨1, i + 1⟩ : Querying.ScoreDoc ℚ))) := by
  decide!

/-- C15, amended.  For every priority queue meeting the contract of
`std::priority_queue` with `MinHeapComp`: when the heap is full and a candidate
scoring above the heap top is admitted, the evicted entry is the top `x`; it
has the minimum score of the heap and, among the entries tied at that score,
the smallest docId, so that larger docIds are the ones retained. -/
theorem eviction_smallest_docId {F : Type} [LinearOrderedField F]
    (pop : List (Querying.ScoreDoc F) → Option (Querying.ScoreDoc F × List (Querying.ScoreDoc F)))
    (hpop : Querying.TopSpec pop) (usePrune : Bool) (topK : List (Querying.ScoreDoc F))
    (score remainingMax : F) (candidate : Nat) (x : Querying.ScoreDoc F)
    (rest : List (Querying.ScoreDoc F)) (hfull : Querying.k ≤ topK.length)
    (hx : pop topK = some (x, rest)) (hs : x.score < score)
    (hnp : usePrune = true → ¬ score + remainingMax ≤ x.score) :
    Querying.heapUpdate pop usePrune topK score remainingMax candidate =
        some (⟨score, candidate⟩ :: rest, false) ∧
      List.Perm (x :: rest) topK ∧
      ∀ y ∈ topK, x.score ≤ y.score ∧ (y.score = x.score → x.docId ≤ y.docId) := by
  have hne : topK ≠ [] := by
    intro h0; rw [h0] at hfull; simp [Querying.k] at hfull
  obtain ⟨x1, rest1, hp, hperm, hmin⟩ := hpop topK hne
  rw [hx] at hp
  simp only [Option.some.injEq, Prod.mk.injEq] at hp
  obtain ⟨e1, e2⟩ := hp
  subst e1
  subst e2
  refine ⟨?_, hperm, fun y hy => MinHeapComp_false_score (hmin y hy)⟩
  unfold Querying.heapUpdate
  rw [if_neg (by omega), hx]
  simp only
  rw [if_neg (fun h => hnp h.1 h.2), if_pos hs]

/-- C15 amended, on the full heap of 1000 entries of score 1 and docIds
`0 .. 999`, with the candidate `(2, 5000)`: the entry with docId 0 is evicted. -/
theorem eviction_smallest_docId_witness :
    Querying.heapUpdate Querying.topPop true
        ((List.range 1000).map (fun i => (⟨1, i⟩ : Querying.ScoreDoc ℚ))) 2 (1 / 2) 5000 =
      some (⟨2, 5000⟩ :: (List.range 999).map (fun i => (⟨1, i + 1⟩ : Querying.ScoreDoc ℚ)),
        false) ∧
      List.Perm
        (⟨1, 0⟩ :: (List.range 999).map (fun i => (⟨1, i + 1⟩ : Querying.ScoreDoc ℚ)))
        ((List.range 1000).map (fun i => (⟨1, i⟩ : Querying.ScoreDoc ℚ))) ∧
      ∀ y ∈ (List.range 1000).map (fun i => (⟨1, i⟩ : Querying.ScoreDoc ℚ)),
        (⟨1, 0⟩ : Querying.ScoreDoc ℚ).score ≤ y.score ∧
          (y.score = (⟨1, 0⟩ : Querying.ScoreDoc ℚ).score →
            (⟨1, 0⟩ : Querying.ScoreDoc ℚ).docId ≤ y.docId) :=
  eviction_smallest_docId Querying.topPop topPop_spec true
    ((List.range 1000).map (fun i => (⟨1, i⟩ : Querying.ScoreDoc ℚ))) 2 (1 / 2) 5000 ⟨1, 0⟩
    ((List.range 999).map (fun i => (⟨1, i + 1⟩ : Querying.ScoreDoc ℚ))) (by decide!)
    (by decide!) (by decide!) (by decide!)

/-- C16 (result order).  For every priority queue meeting the contract of
`std::priority_queue` and every query, index and page table, the scores of the
list `processQuery` returns are non-increasing along the list: the heap is
drained lowest score first and the list is then reversed. -/
theorem processQuery_scores_nonincreasing {F : Type} [LinearOrderedField F] (ln : F → F)
    (pop : List (Querying.ScoreDoc F) → Option (Querying.ScoreDoc F × List (Querying.ScoreDoc F)))
    (hpop : Querying.TopSpec pop) (usePrune : Bool) (query : List Nat)
    (termToIndex : List Nat → Option Nat) (indexIfs : List Nat) (lexicon : List LexiconEntry)
    (metadata : List BlockMetadata) (blockOffsets : List Nat) (pageTable : Int → Int)
    (averageDocLength : F) (results : List (Querying.ScoreDoc F))
    (h : Querying.processQuery ln pop usePrune query termToIndex indexIfs lexicon metadata
      blockOffsets pageTable averageDocLength = some results) :
    results.Pairwise (fun a b => b.score ≤ a.score) := by
  unfold Querying.processQuery at h
  simp only at h
  obtain ⟨r0, hr0, hrev⟩ := Option.map_eq_some'.1 h
  rw [← hrev, List.pairwise_reverse]
  split at hr0
  · unfold Querying.disjunctiveDAAT at hr0
    split at hr0
    · simp at hr0
    · rename_i st _
      obtain ⟨d, hd, _, hsorted⟩ := drainLoop_spec pop hpop st.topK.length st.topK [] rfl
      rw [hd] at hr0
      simp only [List.nil_append, Option.some.injEq] at hr0
      rw [← hr0]
      exact hsorted.imp (fun hab => (MinHeapComp_false_score hab).1)
  · simp only [Option.some.injEq] at hr0
    rw [← hr0]
    exact List.Pairwise.nil

/-- C16 on the index of `twoTermStream`, query `"a x b"`, every document of
length 10, with the identity in place of `log`: the result lists the documents
7, 100, 5 with decreasing scores. -/
theorem processQuery_scores_nonincreasing_witness :
    Querying.processQuery (fun x : ℚ => x) Querying.topPop true [97, 32, 120, 32, 98]
        twoTermLookup (Index.generateInvertedIndex twoTermStream).ofs
        ((Index.generateInvertedIndex twoTermStream).lexicon.map Prod.snd)
        (Index.generateInvertedIndex twoTermStream).metadata
        (Querying.computeBlockOffsets (Index.generateInvertedIndex twoTermStream).metadata)
        (fun _ => 10) 10 =
      some [⟨37999943 / 40, 7⟩, ⟨21999967 / 35, 100⟩, ⟨1999997 / 5, 5⟩] ∧
      ([⟨37999943 / 40, 7⟩, ⟨21999967 / 35, 100⟩, ⟨1999997 / 5, 5⟩] :
        List (Querying.ScoreDoc ℚ)).Pairwise (fun a b => b.score ≤ a.score) :=
  ⟨by decide!,
    processQuery_scores_nonincreasing (fun x : ℚ => x) Querying.topPop topPop_spec true
      [97, 32, 120, 32, 98] twoTermLookup (Index.generateInvertedIndex twoTermStream).ofs
      ((Index.generateInvertedIndex twoTermStream).lexicon.map Prod.snd)
      (Index.generateInvertedIndex twoTermStream).metadata
      (Querying.computeBlockOffsets (Index.generateInvertedIndex twoTermStream).metadata)
      (fun _ => 10) 10 [⟨37999943 / 40, 7⟩, ⟨21999967 / 35, 100⟩, ⟨1999997 / 5, 5⟩]
      (by decide!)⟩

/-- C17 (result size).  For every priority queue meeting the contract of
`std::priority_queue`: one candidate takes a heap of at most `k = 1000`
entries to a heap of at most `k` entries, so the heap, empty at the start,
never holds more than `k` entries in the main loop; and when
`disjunctiveDAAT` returns, it returns as many pairs as the heap holds at the
end of the main loop, at most 1000, and exactly
`min(1000, number of candidates visited)` (whether or not candidates were
pruned, since none is pruned before the heap is full). -/
theorem result_size_bound {F : Type} [LinearOrderedField F] (ln : F → F)
    (pop : List (Querying.ScoreDoc F) → Option (Querying.ScoreDoc F × List (Querying.ScoreDoc F)))
    (hpop : Querying.TopSpec pop) (usePrune : Bool) (queryTerms : List (List Nat))
    (termToIndex : List Nat → Option Nat) (ifs : List Nat) (lexicon : List LexiconEntry)
    (metadata : List BlockMetadata) (blockOffsets : List Nat) (pageTable : Int → Int)
    (averageDocLength : F) (results : List (Querying.ScoreDoc F))
    (h : Querying.disjunctiveDAAT ln pop usePrune queryTerms termToIndex ifs lexicon metadata
      blockOffsets pageTable averageDocLength = some results) :
    (∀ (topK : List (Querying.ScoreDoc F)) (score remainingMax : F) (candidate : Nat)
        (topK1 : List (Querying.ScoreDoc F)) ( wasPruned : Bool),
        topK.length ≤ 1000 →
        Querying.heapUpdate pop usePrune topK score remainingMax candidate =
          some (topK1, wasPruned) →
        topK1.length ≤ 1000) ∧
      ∃ st, Querying.daatRun ln pop usePrune queryTerms termToIndex ifs lexicon metadata
          blockOffsets pageTable averageDocLength = some st ∧
        st.topK.length ≤ 1000 ∧
        results.length = st.topK.length ∧
        results.length ≤ 1000 ∧
        results.length = min 1000 st.visited ∧
        (st.pruned = 0 → results.length = min 1000 st.visited) := by
  constructor
  · intro topK score remainingMax candidate topK1 wasPruned hle hu
    have := heapUpdate_length pop hpop usePrune topK score remainingMax candidate topK1
      wasPruned hle hu
    rw [this]
    exact min_le_left _ _
  · unfold Querying.disjunctiveDAAT at h
    split at h
    · simp at h
    · rename_i st hst
      have hst0 := hst
      have hlen : st.topK.length = min Querying.k st.visited := by
        unfold Querying.daatRun at hst
        split at hst
        · simp at hst
        · split at hst
          · simp at hst
          · exact mainLoop_length ln pop hpop usePrune ifs metadata blockOffsets pageTable
              averageDocLength _ _ _ _ st (by simp) hst
      obtain ⟨d, hd, hperm, _⟩ := drainLoop_spec pop hpop st.topK.length st.topK [] rfl
      rw [hd] at h
      simp only [List.nil_append, Option.some.injEq] at h
      have hr : results.length = st.topK.length := by rw [← h]; exact hperm.length_eq
      have hk : Querying.k = 1000 := rfl
      rw [hk] at hlen
      refine ⟨st, hst0, ?_, hr, ?_, ?_, fun _ => ?_⟩ <;> omega

/-- C17 on the index of `twoTermStream`, query terms `a` and `b`: three
candidates are visited and three pairs are returned. -/
theorem result_size_bound_witness :
    Querying.disjunctiveDAAT (fun x : ℚ => x) Querying.topPop true [[97], [98]]
        twoTermLookup (Index.generateInvertedIndex twoTermStream).ofs
        ((Index.generateInvertedIndex twoTermStream).lexicon.map Prod.snd)
        (Index.generateInvertedIndex twoTermStream).metadata
        (Querying.computeBlockOffsets (Index.generateInvertedIndex twoTermStream).metadata)
        (fun _ => 10) 10 =
      some [⟨1999997 / 5, 5⟩, ⟨21999967 / 35, 100⟩, ⟨37999943 / 40, 7⟩] ∧
      ∃ st, Querying.daatRun (fun x : ℚ => x) Querying.topPop true [[97], [98]]
          twoTermLookup (Index.generateInvertedIndex twoTermStream).ofs
          ((Index.generateInvertedIndex twoTermStream).lexicon.map Prod.snd)
          (Index.generateInvertedIndex twoTermStream).metadata
          (Querying.computeBlockOffsets (Index.generateInvertedIndex twoTermStream).metadata)
          (fun _ => 10) 10 = some st ∧
        st.topK.length ≤ 1000 ∧
        ([⟨1999997 / 5, 5⟩, ⟨21999967 / 35, 100⟩, ⟨37999943 / 40, 7⟩] :
          List (Querying.ScoreDoc ℚ)).length = st.topK.length ∧
        ([⟨1999997 / 5, 5⟩, ⟨21999967 / 35, 100⟩, ⟨37999943 / 40, 7⟩] :
          List (Querying.ScoreDoc ℚ)).length ≤ 1000 ∧
        ([⟨1999997 / 5, 5⟩, ⟨21999967 / 35, 100⟩, ⟨37999943 / 40, 7⟩] :
          List (Querying.ScoreDoc ℚ)).length = min 1000 st.visited ∧
        (st.pruned = 0 →
          ([⟨1999997 / 5, 5⟩, ⟨21999967 / 35, 100⟩, ⟨37999943 / 40, 7⟩] :
            List (Querying.ScoreDoc ℚ)).length = min 1000 st.visited) :=
  ⟨by decide!,
    (result_size_bound (fun x : ℚ => x) Querying.topPop topPop_spec true [[97], [98]]
      twoTermLookup (Index.generateInvertedIndex twoTermStream).ofs
      ((Index.generateInvertedIndex twoTermStream).lexicon.map Prod.snd)
      (Index.generateInvertedIndex twoTermStream).metadata
      (Querying.computeBlockOffsets (Index.generateInvertedIndex twoTermStream).metadata)
      (fun _ => 10) 10 [⟨1999997 / 5, 5⟩, ⟨21999967 / 35, 100⟩, ⟨37999943 / 40, 7⟩]
      (by decide!)).2⟩

/-- C14 (pruning invariance), evaluated at the prune and admit steps for one
candidate.  The heap is full: 1000 entries with the docIds `1 .. 1000`, all of
score 6.6339.  The candidate 1001 scores 6.9053, above the heap top, and
`remainingMax = -0.8920` is the upper bound of the one non-matching list.
With the prune step the candidate is skipped and the heap is unchanged
(`6.9053 - 0.8920 ≤ 6.6339`); without it the candidate is admitted and the
entry with docId 1 is evicted.  Such a negative bound arises: over the reals
`maxScores[i]` is negative for a term with `listLength = 600000`, which the
last conjunct states with `pageTable[8841709] = 0` and `averageDocLength = 10`.
When no bound is negative the two loops agree (`disjunctiveDAAT_prune_eq`). -/
theorem prune_skips_top_candidate :
    Querying.heapUpdate Querying.topPop true
        ((List.range 1000).map (fun i => (⟨66339 / 10000, i + 1⟩ : Querying.ScoreDoc ℚ)))
        (69053 / 10000) (-8920 / 10000) 1001 =
      some ((List.range 1000).map (fun i => (⟨66339 / 10000, i + 1⟩ : Querying.ScoreDoc ℚ)),
        true) ∧
      Querying.heapUpdate Querying.topPop false
        ((List.range 1000).map (fun i => (⟨66339 / 10000, i + 1⟩ : Querying.ScoreDoc ℚ)))
        (69053 / 10000) (-8920 / 10000) 1001 =
      some (⟨69053 / 10000, 1001⟩ ::
        (List.range 999).map (fun i => (⟨66339 / 10000, i + 2⟩ : Querying.ScoreDoc ℚ)),
        false) ∧
      Querying.getScore Real.log
        (Querying.setCurrentFrequency (Querying.scoreCursor 600000 0) 600000) 0 10 < 0 := by
  refine ⟨by decide!, by decide!, ?_⟩
  exact maxScore_neg (Querying.scoreCursor 600000 0) 0 10 (by decide) (by decide) (le_refl _)
    (by norm_num)

/-- C13 (top-k correctness without pruning).  For every priority queue meeting
the contract of `std::priority_queue` and every query whose cursors enumerate
the posting lists `terms` (each a document frequency and its `(docId, freq)`
pairs), `disjunctiveDAAT` with the prune step removed returns, and what it
returns are the `min(k, |union|)` highest-scoring documents of the reference
(`referenceScore`, which sums `getScore` over the terms whose list contains
the docId, and `unionDocs`), up to the order and the choice among equal
scores: the list has `min(1000, |union|)` entries with distinct docIds of the
union, each with its reference score, and no document of the union left out
scores above an entry of the list. -/
theorem topk_correct_without_pruning {F : Type} [LinearOrderedField F] (ln : F → F)
    (pop : List (Querying.ScoreDoc F) → Option (Querying.ScoreDoc F × List (Querying.ScoreDoc F)))
    (hpop : Querying.TopSpec pop) (queryTerms : List (List Nat))
    (termToIndex : List Nat → Option Nat) (ifs : List Nat) (lexicon : List LexiconEntry)
    (metadata : List BlockMetadata) (blockOffsets : List Nat) (pageTable : Int → Int)
    (averageDocLength : F) (terms : List (Nat × List (Nat × Nat)))
    (henum : Querying.queryLists queryTerms termToIndex ifs lexicon metadata blockOffsets =
      some terms) :
    ∃ results, Querying.disjunctiveDAAT ln pop false queryTerms termToIndex ifs lexicon
        metadata blockOffsets pageTable averageDocLength = some results ∧
      results.length = min 1000 (Querying.unionDocs terms).length ∧
      (results.map Querying.ScoreDoc.docId).Nodup ∧
      (∀ e ∈ results, e.docId ∈ Querying.unionDocs terms ∧
        e.score = Querying.referenceScore ln pageTable averageDocLength terms e.docId) ∧
      (∀ d ∈ Querying.unionDocs terms, d ∉ results.map Querying.ScoreDoc.docId →
        ∀ e ∈ results,
          Querying.referenceScore ln pageTable averageDocLength terms d ≤ e.score) := by
  unfold Querying.queryLists at henum
  split at henum
  · simp at henum
  · rename_i lp0 hopen
    obtain ⟨lp1, currDoc, ls, hinit, hcur, hlen, hsorted, hf2⟩ :=
      initCurrDoc_spec ifs metadata blockOffsets _ terms henum
    have hinit2 : Querying.initCurrDoc ifs metadata blockOffsets
        (Querying.computeMaxScores ln pageTable averageDocLength lp0).1 =
          some (lp1, currDoc) := hinit
    have hmslen : (Querying.computeMaxScores ln pageTable averageDocLength lp0).2.length =
        ls.length := by
      rw [hlen]
      simp [Querying.computeMaxScores]
    have horder : List.Perm
        (Querying.sortOrder (Querying.computeMaxScores ln pageTable averageDocLength lp0).2)
        (List.range ls.length) := by
      unfold Querying.sortOrder
      rw [hmslen]
      exact List.perm_insertionSort _ _
    have hfilter0 : ls.map (fun l => l.filter (fun e => decide (0 ≤ e.1))) = ls := by
      conv => rhs; rw [← List.map_id ls]
      apply List.map_congr_left
      intro l _
      simp
    obtain ⟨st1, v1, hrun, hheap, hnd, hv⟩ :=
      mainLoop_correct ln pop hpop ifs metadata blockOffsets pageTable averageDocLength
        (Querying.computeMaxScores ln pageTable averageDocLength lp0).2
        (Querying.sortOrder (Querying.computeMaxScores ln pageTable averageDocLength lp0).2)
        ls hsorted horder (2 ^ 32) ⟨lp1, currDoc, [], 0, 0⟩ 0 [] (Nat.zero_le _)
        (by unfold UINT32_MAX; norm_num) (by rw [hfilter0]; exact hcur)
        ⟨by simp, by simp, by simp, by simp⟩ List.nodup_nil (by simp)
    obtain ⟨hmem, hndh, hlenh, hexc⟩ := hheap
    obtain ⟨d, hd, hperm, _⟩ := drainLoop_spec pop hpop st1.topK.length st1.topK [] rfl
    have hvu : List.Perm v1 (Querying.unionDocs terms) := by
      have hnu : (Querying.unionDocs terms).Nodup := by
        unfold Querying.unionDocs
        exact List.nodup_dedup _
      rw [List.perm_ext_iff_of_nodup hnd hnu]
      intro x
      rw [hv x, unionDocs_mem x terms ls hf2]
    refine ⟨d, ?_, ?_, ?_, ?_, ?_⟩
    · unfold Querying.disjunctiveDAAT Querying.daatRun
      rw [hopen]
      simp only
      rw [hinit2]
      simp only
      rw [hrun]
      simp only
      rw [hd]
      rfl
    · rw [hperm.length_eq, hlenh, hvu.length_eq]
      rfl
    · exact ((hperm.map Querying.ScoreDoc.docId).nodup_iff).2 hndh
    · intro e he
      obtain ⟨h1, h2⟩ := hmem e (hperm.subset he)
      refine ⟨hvu.subset h1, ?_⟩
      rw [h2, referenceScore_eq_runScore ln pageTable averageDocLength e.docId terms ls hf2]
    · intro x hx hxn e he
      have h1 : x ∈ v1 := hvu.symm.subset hx
      have h2 : x ∉ st1.topK.map Querying.ScoreDoc.docId := by
        intro h3
        exact hxn ((hperm.map Querying.ScoreDoc.docId).symm.subset h3)
      have := hexc x h1 h2 e (hperm.subset he)
      rw [referenceScore_eq_runScore ln pageTable averageDocLength x terms ls hf2]
      exact this

/-- C13 on the index of `twoTermStream` with the query terms `a` and `b`,
every document of length 10 and the identity in place of `log`: the cursors
enumerate `a = [(5, 1), (7, 2)]` and `b = [(7, 1), (100, 3)]`, and the three
documents of the union are returned with their reference scores. -/
theorem topk_correct_without_pruning_witness :
    Querying.queryLists [[97], [98]] twoTermLookup
        (Index.generateInvertedIndex twoTermStream).ofs
        ((Index.generateInvertedIndex twoTermStream).lexicon.map Prod.snd)
        (Index.generateInvertedIndex twoTermStream).metadata
        (Querying.computeBlockOffsets (Index.generateInvertedIndex twoTermStream).metadata) =
      some [(2, [(5, 1), (7, 2)]), (2, [(7, 1), (100, 3)])] ∧
      Querying.disjunctiveDAAT (fun x : ℚ => x) Querying.topPop false [[97], [98]]
        twoTermLookup (Index.generateInvertedIndex twoTermStream).ofs
        ((Index.generateInvertedIndex twoTermStream).lexicon.map Prod.snd)
        (Index.generateInvertedIndex twoTermStream).metadata
        (Querying.computeBlockOffsets (Index.generateInvertedIndex twoTermStream).metadata)
        (fun _ => 10) 10 =
      some [⟨1999997 / 5, 5⟩, ⟨21999967 / 35, 100⟩, ⟨37999943 / 40, 7⟩] ∧
      Querying.unionDocs [(2, [(5, 1), (7, 2)]), (2, [(7, 1), (100, 3)])] = [5, 7, 100] ∧
      ∃ results, Querying.disjunctiveDAAT (fun x : ℚ => x) Querying.topPop false [[97], [98]]
          twoTermLookup (Index.generateInvertedIndex twoTermStream).ofs
          ((Index.generateInvertedIndex twoTermStream).lexicon.map Prod.snd)
          (Index.generateInvertedIndex twoTermStream).metadata
          (Querying.computeBlockOffsets (Index.generateInvertedIndex twoTermStream).metadata)
          (fun _ => 10) 10 = some results ∧
        results.length =
          min 1000 (Querying.unionDocs [(2, [(5, 1), (7, 2)]), (2, [(7, 1), (100, 3)])]).length ∧
        (results.map Querying.ScoreDoc.docId).Nodup ∧
        (∀ e ∈ results,
          e.docId ∈ Querying.unionDocs [(2, [(5, 1), (7, 2)]), (2, [(7, 1), (100, 3)])] ∧
          e.score = Querying.referenceScore (fun x : ℚ => x) (fun _ => 10) 10
            [(2, [(5, 1), (7, 2)]), (2, [(7, 1), (100, 3)])] e.docId) ∧
        (∀ d ∈ Querying.unionDocs [(2, [(5, 1), (7, 2)]), (2, [(7, 1), (100, 3)])],
          d ∉ results.map Querying.ScoreDoc.docId →
          ∀ e ∈ results,
            Querying.referenceScore (fun x : ℚ => x) (fun _ => 10) 10
              [(2, [(5, 1), (7, 2)]), (2, [(7, 1), (100, 3)])] d ≤ e.score) :=
  ⟨by decide!, by decide!, by decide!,
    topk_correct_without_pruning (fun x : ℚ => x) Querying.topPop topPop_spec [[97], [98]]
      twoTermLookup (Index.generateInvertedIndex twoTermStream).ofs
      ((Index.generateInvertedIndex twoTermStream).lexicon.map Prod.snd)
      (Index.generateInvertedIndex twoTermStream).metadata
      (Querying.computeBlockOffsets (Index.generateInvertedIndex twoTermStream).metadata)
      (fun _ => 10) 10 [(2, [(5, 1), (7, 2)]), (2, [(7, 1), (100, 3)])] (by decide!)⟩

/-- C21 (malformed and empty lines), evaluated on four small files.  After
the line `1<TAB>hi`, the line `abc x`, whose first token is not a decimal
docId, adds the posting `("hi", 0)` and the page-table entry `(0, 1)`: the
failed extraction stores 0 in `docId` and leaves the stream failed, so
`getline(ss, sentence)` does not touch `sentence`, which still holds the text
of the preceding line.  Likewise the line `2`, a docId without text, adds the
posting `("hi", 2)`: reading the digits up to the end of the line sets the
end-of-stream state, and `getline` again leaves `sentence` as it was.  An
empty line adds the posting `("hi", 1)` a second time, `docId` being unchanged
as well.  The file with the first line only gives the one posting
`("hi", 1)`. -/
theorem readFile_reuses_previous_text :
    (Parsing.readFile [49, 9, 104, 105, 10]).toOption.map
        (fun s => (s.postingBuffer, s.pageTable)) =
      some ([⟨[104, 105], 1⟩], [(1, 1)]) ∧
    (Parsing.readFile [49, 9, 104, 105, 10, 97, 98, 99, 32, 120, 10]).toOption.map
        (fun s => (s.postingBuffer, s.pageTable)) =
      some ([⟨[104, 105], 1⟩, ⟨[104, 105], 0⟩], [(1, 1), (0, 1)]) ∧
    (Parsing.readFile [49, 9, 104, 105, 10, 50, 10]).toOption.map
        (fun s => (s.postingBuffer, s.pageTable)) =
      some ([⟨[104, 105], 1⟩, ⟨[104, 105], 2⟩], [(1, 1), (2, 1)]) ∧
    (Parsing.readFile [49, 9, 104, 105, 10, 10]).toOption.map
        (fun s => (s.postingBuffer, s.pageTable)) =
      some ([⟨[104, 105], 1⟩, ⟨[104, 105], 1⟩], [(1, 1)]) := by
  decide

/-- C22 (quicksort).  For every posting buffer and every `n ≥ 1` entries in use,
`quickSortBuffer(0, n - 1)` terminates (a recursion depth above `n` is never
reached) and leaves `postingBuffer[0 .. n)` a permutation of its previous
contents, sorted non-decreasingly by `(term bytes, docId)`, which is the order
of `compareCstring` (no later entry compares before an earlier one); the
entries from `n` on are untouched. -/
theorem quickSortBuffer_sorts (postingBuffer : List Parsing.Posting) (n fuel : Nat)
    (hn : 1 ≤ n) (hlen : n ≤ postingBuffer.length) (hfuel : n < fuel) :
    ∃ sorted, Parsing.quickSortBuffer fuel 0 ((n : Int) - 1) postingBuffer = some sorted ∧
      sorted.length = postingBuffer.length ∧
      List.Perm (sorted.take n) (postingBuffer.take n) ∧
      sorted.drop n = postingBuffer.drop n ∧
      (sorted.take n).Pairwise postingLe ∧
      (sorted.take n).Pairwise (fun a b => Parsing.compareCstring b a = false) := by
  obtain ⟨s, h1, h2, h3, h4, h5⟩ := quickSortBuffer_spec fuel 0 ((n : Int) - 1) postingBuffer
    (by omega) (by omega) (by omega)
  have hdrop : s.drop n = postingBuffer.drop n := by
    apply List.ext_getElem?
    intro i
    rw [List.getElem?_drop, List.getElem?_drop]
    exact h4 (n + i) (Or.inr (by omega))
  have hperm : List.Perm (s.take n) (postingBuffer.take n) := by
    have e1 : s = s.take n ++ s.drop n := (List.take_append_drop n s).symm
    have e2 : postingBuffer = postingBuffer.take n ++ postingBuffer.drop n :=
      (List.take_append_drop n postingBuffer).symm
    rw [e1, e2, hdrop] at h3
    exact (List.perm_append_right_iff _).1 h3
  have hsorted : (s.take n).Pairwise postingLe := by
    rw [List.pairwise_iff_getElem]
    intro i j hi hj hij
    rw [List.length_take] at hi hj
    have := h5 i j (Nat.zero_le _) hij (by omega)
    have e1 := getD_of_lt s i (by omega)
    have e2 := getD_of_lt s j (by omega)
    rw [List.getElem?_eq_getElem (by omega)] at e1 e2
    simp only [Option.some.injEq] at e1 e2
    rw [List.getElem_take, List.getElem_take, e1, e2]
    exact this
  refine ⟨s, h1, h2, hperm, hdrop, hsorted, ?_⟩
  exact hsorted.imp (fun hab => (compareCstring_false_iff _ _).2 hab)

/-- C22 on a buffer of five entries of which the first four are in use. -/
theorem quickSortBuffer_sorts_witness :
    Parsing.quickSortBuffer 5 0 ((4 : Nat) - 1 : Int)
        [⟨[98], 2⟩, ⟨[97], 3⟩, ⟨[98], 1⟩, ⟨[97], 3⟩, ⟨[0], 0⟩] =
      some [⟨[97], 3⟩, ⟨[97], 3⟩, ⟨[98], 1⟩, ⟨[98], 2⟩, ⟨[0], 0⟩] ∧
    ∃ sorted, Parsing.quickSortBuffer 5 0 ((4 : Nat) - 1 : Int)
        [⟨[98], 2⟩, ⟨[97], 3⟩, ⟨[98], 1⟩, ⟨[97], 3⟩, ⟨[0], 0⟩] = some sorted ∧
      sorted.length =
        ([⟨[98], 2⟩, ⟨[97], 3⟩, ⟨[98], 1⟩, ⟨[97], 3⟩, ⟨[0], 0⟩] : List Parsing.Posting).length ∧
      List.Perm (sorted.take 4)
        (([⟨[98], 2⟩, ⟨[97], 3⟩, ⟨[98], 1⟩, ⟨[97], 3⟩, ⟨[0], 0⟩] :
          List Parsing.Posting).take 4) ∧
      sorted.drop 4 =
        ([⟨[98], 2⟩, ⟨[97], 3⟩, ⟨[98], 1⟩, ⟨[97], 3⟩, ⟨[0], 0⟩] : List Parsing.Posting).drop 4 ∧
      (sorted.take 4).Pairwise postingLe ∧
      (sorted.take 4).Pairwise (fun a b => Parsing.compareCstring b a = false) :=
  ⟨by decide,
    quickSortBuffer_sorts [⟨[98], 2⟩, ⟨[97], 3⟩, ⟨[98], 1⟩, ⟨[97], 3⟩, ⟨[0], 0⟩] 4 5
      (by decide) (by decide) (by decide)⟩

/-- C23 (finalBlock).  For every lexicon entry `(sb, si, L)` with `si < 128`,
`L ≥ 1` and no 32-bit overflow (`L + 127 < 2 ^ 32`, and the result below
`2 ^ 32`), the constructor of `ListPointer` sets
`finalBlock = sb + ceil(max(0, L - (128 - si)) / 128)`, which is
`sb + floor((si + L - 1) / 128)`, the number of the block that holds stream
position `128 * sb + si + L - 1`, the term's last posting. -/
theorem finalBlock_formula (sb si L : Nat) (hsi : si < 128) (hL : 1 ≤ L)
    (hL32 : L + 127 < 2 ^ 32) (hov : sb + (si + L - 1) / 128 < 2 ^ 32) :
    ((Querying.ListPointer.new ⟨sb, si, L⟩).finalBlock : Int) =
        sb + ⌈max (0 : ℚ) ((L : ℚ) - (128 - si)) / 128⌉ ∧
      (Querying.ListPointer.new ⟨sb, si, L⟩).finalBlock = sb + (si + L - 1) / 128 ∧
      (Querying.ListPointer.new ⟨sb, si, L⟩).finalBlock =
        (entryPos ⟨sb, si, L⟩ + L - 1) / 128 := by
  have h128 : Querying.subU32 128 si = 128 - si := by
    unfold Querying.subU32
    omega
  have hfb : (Querying.ListPointer.new ⟨sb, si, L⟩).finalBlock = sb + (si + L - 1) / 128 := by
    unfold Querying.ListPointer.new
    simp only [h128]
    by_cases hgt : L > 128 - si
    · rw [if_pos hgt]
      have hsub : Querying.subU32 L (128 - si) = L - (128 - si) := by
        unfold Querying.subU32
        omega
      rw [hsub]
      have e1 : (L - (128 - si) + 127) % 2 ^ 32 = L - (128 - si) + 127 :=
        Nat.mod_eq_of_lt (by omega)
      have e2 : (L - (128 - si) + 127) / 128 = (si + L - 1) / 128 := by omega
      rw [e1, e2]
      exact Nat.mod_eq_of_lt hov
    · rw [if_neg hgt]
      have e2 : (si + L - 1) / 128 = 0 := by omega
      rw [e2] at hov ⊢
      simp only [Nat.zero_add, Nat.add_zero]
      have e3 : (127 : Nat) % 2 ^ 32 / 128 = 0 := by norm_num
      rw [e3, Nat.add_zero]
      exact Nat.mod_eq_of_lt hov
  refine ⟨?_, hfb, ?_⟩
  · rw [hfb]
    generalize hz : (si + L - 1) / 128 = z
    have hz1 : 128 * z ≤ si + L - 1 := by omega
    have hz2 : si + L - 1 < 128 * z + 128 := by omega
    rw [Nat.cast_add]
    congr 1
    symm
    rw [Int.ceil_eq_iff]
    simp only [Int.cast_natCast]
    by_cases hgt : L + si ≤ 128
    · have hz0 : z = 0 := by omega
      have hmax : max (0 : ℚ) ((L : ℚ) - (128 - si)) = 0 := by
        apply max_eq_left
        have : ((L + si : Nat) : ℚ) ≤ 128 := by exact_mod_cast hgt
        push_cast at this
        linarith
      rw [hmax, hz0]
      norm_num
    · have hmax : max (0 : ℚ) ((L : ℚ) - (128 - si)) = (L : ℚ) - (128 - si) := by
        apply max_eq_right
        have : (128 : ℚ) ≤ ((L + si : Nat) : ℚ) := by exact_mod_cast (show 128 ≤ L + si by omega)
        push_cast at this
        linarith
      have q1 : (128 : ℚ) * z < (si : ℚ) + L := by
        exact_mod_cast (show 128 * z < si + L by omega)
      have q2 : (si : ℚ) + L ≤ 128 * z + 128 := by
        exact_mod_cast (show si + L ≤ 128 * z + 128 by omega)
      rw [hmax]
      constructor
      · rw [lt_div_iff₀ (by norm_num)]
        linarith
      · rw [div_le_iff₀ (by norm_num)]
        linarith
  · rw [hfb]
    unfold entryPos
    simp only
    omega

/-- C23 at the entry `(0, 126, 130)`: `finalBlock = 1`. -/
theorem finalBlock_formula_witness :
    (Querying.ListPointer.new ⟨0, 126, 130⟩).finalBlock = 1 ∧
      (Querying.ListPointer.new ⟨0, 126, 130⟩).finalBlock = 0 + (126 + 130 - 1) / 128 :=
  ⟨by decide, (finalBlock_formula 0 126 130 (by decide) (by decide) (by decide) (by decide)).2.1⟩

/-- C24 (first posting after `loadBlock`).  For every merged stream of fewer
than `2 ^ 32` records whose terms are contiguous, and every entry of the
lexicon `generateInvertedIndex` writes for it, with `r` the first record of the
entry's term in the stream: constructing the cursor from the entry and calling
`loadBlock` succeeds, and the first `nextGEQ(0)` on that cursor returns
`r.docId` and leaves `currentDoc = r.docId`, `currentFreq = r.freq` (both as
the `uint32_t` values the index file stores), whatever postings of other terms
precede the term in its start block. -/
theorem first_posting_after_loadBlock (ifs : List Record)
    (hlen : (fileRecords ifs).length < 2 ^ 32)
    (hc : TermsContiguous (fileRecords ifs))
    (x : List Nat × LexiconEntry) (hx : x ∈ (Index.generateInvertedIndex ifs).lexicon) :
    ∃ r lp lp1,
      (fileRecords ifs).find? (fun s => decide (s.term = x.1)) = some r ∧
      (fileRecords ifs)[entryPos x.2]? = some r ∧
      Querying.openList (Index.generateInvertedIndex ifs) x.2 = some lp ∧
      Querying.nextGEQ 0 (Index.generateInvertedIndex ifs).ofs
        (Index.generateInvertedIndex ifs).metadata
        (Querying.computeBlockOffsets (Index.generateInvertedIndex ifs).metadata) lp =
        some (toU32 r.docId, lp1) ∧
      lp1.currentDoc = toU32 r.docId ∧ lp1.currentFreq = toU32 r.freq := by
  obtain ⟨r, lp, lp1, hr, _, hopen, _, hnext, hdoc, hfreq⟩ :=
    openList_first_posting ifs hlen (index_file_size ifs hlen) x hx
  exact ⟨r, lp, lp1, entry_first_record ifs hlen hc x hx r hr, hr, hopen, hnext, hdoc, hfreq⟩

/-- Witness for C24: term `b` of `twoTermStream`, whose entry `(0, 2, 2)`
starts at index 2 of block 0 behind the two postings of term `a`; the cursor
returns docId 7 with freq 1. -/
theorem first_posting_after_loadBlock_witness :
    (([98], ⟨0, 2, 2⟩) : List Nat × LexiconEntry) ∈
        (Index.generateInvertedIndex twoTermStream).lexicon ∧
      ((Querying.openList (Index.generateInvertedIndex twoTermStream) ⟨0, 2, 2⟩).bind
        (Querying.nextGEQ 0 (Index.generateInvertedIndex twoTermStream).ofs
          (Index.generateInvertedIndex twoTermStream).metadata
          (Querying.computeBlockOffsets
            (Index.generateInvertedIndex twoTermStream).metadata))).map
        (fun p => (p.1, p.2.currentFreq)) = some (7, 1) ∧
      ∃ r lp lp1,
        (fileRecords twoTermStream).find? (fun s => decide (s.term = [98])) = some r ∧
        (fileRecords twoTermStream)[2]? = some r ∧
        Querying.openList (Index.generateInvertedIndex twoTermStream) ⟨0, 2, 2⟩ = some lp ∧
        Querying.nextGEQ 0 (Index.generateInvertedIndex twoTermStream).ofs
          (Index.generateInvertedIndex twoTermStream).metadata
          (Querying.computeBlockOffsets (Index.generateInvertedIndex twoTermStream).metadata)
          lp = some (toU32 r.docId, lp1) ∧
        lp1.currentDoc = toU32 r.docId ∧ lp1.currentFreq = toU32 r.freq :=
  ⟨by decide, by decide,
   first_posting_after_loadBlock twoTermStream (by decide)
    (by
      intro i j k hij hjk hk
      have hk4 : k < 4 := hk
      have hi : i = 0 ∨ i = 1 ∨ i = 2 ∨ i = 3 := by omega
      have hj : j = 0 ∨ j = 1 ∨ j = 2 ∨ j = 3 := by omega
      have hk : k = 0 ∨ k = 1 ∨ k = 2 ∨ k = 3 := by omega
      rcases hi with rfl | rfl | rfl | rfl <;> rcases hj with rfl | rfl | rfl | rfl <;>
        rcases hk with rfl | rfl | rfl | rfl <;> first | omega | decide)
    ([98], ⟨0, 2, 2⟩) (by decide)⟩

/-- C25 (cursor position invariant), evaluated on the index of
`sharedBlockStream`.  The fresh cursor of term `a` (lexicon entry `(0, 0, 1)`,
so `listLength = 1`) is loaded and asked for `nextGEQ(5)`: the call decodes the
posting of `a` and then the posting of term `b`, and leaves
`currentPos = 2 > 1 = listLength`.  The loop of `nextGEQ` increments
`currentPos` for every posting it decodes and tests
`currentPos >= listLength` only on entry. -/
theorem currentPos_exceeds_listLength :
    (Index.generateInvertedIndex sharedBlockStream).lexicon =
        [([97], ⟨0, 0, 1⟩), ([98], ⟨0, 1, 1⟩)] ∧
      ((Querying.openList (Index.generateInvertedIndex sharedBlockStream) ⟨0, 0, 1⟩).bind
          (fun lp => Querying.nextGEQ 5 (Index.generateInvertedIndex sharedBlockStream).ofs
            (Index.generateInvertedIndex sharedBlockStream).metadata
            (Querying.computeBlockOffsets
              (Index.generateInvertedIndex sharedBlockStream).metadata) lp)).map
          (fun r => (r.2.currentPos, r.2.listLength)) =
        some (2, 1) ∧
      ¬ (2 ≤ 1) := by
  decide

/-- C26 (ascending candidates).  For every priority queue meeting the contract
of `std::priority_queue`, with or without the prune step, in every run of
`disjunctiveDAAT`: the main loop ends within `2 ^ 32` iterations (the trace of
its candidates exists with that fuel, also for a run that ends in undefined
behaviour), and the successive candidates are strictly increasing, hence
pairwise distinct and fewer than `2 ^ 32`; when the run completes, no docId is
scored twice (`visited` counts each candidate once) and the docIds in the heap
are distinct candidates; the returned list contains no docId twice; and more
fuel than `2 ^ 32` gives the same result. -/
theorem candidates_strictly_increasing {F : Type} [LinearOrderedField F] (ln : F → F)
    (pop : List (Querying.ScoreDoc F) → Option (Querying.ScoreDoc F × List (Querying.ScoreDoc F)))
    (hpop : Querying.TopSpec pop) (usePrune : Bool) (queryTerms : List (List Nat))
    (termToIndex : List Nat → Option Nat) (ifs : List Nat) (lexicon : List LexiconEntry)
    (metadata : List BlockMetadata) (blockOffsets : List Nat) (pageTable : Int → Int)
    (averageDocLength : F) :
    (∃ cs, Querying.daatCandidates ln pop usePrune queryTerms termToIndex ifs lexicon
          metadata blockOffsets pageTable averageDocLength = some cs ∧
        cs.Pairwise (fun a b => a < b) ∧ cs.Nodup ∧ cs.length < 2 ^ 32 ∧
        ∀ st, Querying.daatRun ln pop usePrune queryTerms termToIndex ifs lexicon metadata
            blockOffsets pageTable averageDocLength = some st →
          cs.length = st.visited ∧ (st.topK.map Querying.ScoreDoc.docId).Nodup ∧
          ∀ e ∈ st.topK, e.docId ∈ cs) ∧
      (∀ results, Querying.disjunctiveDAAT ln pop usePrune queryTerms termToIndex ifs lexicon
          metadata blockOffsets pageTable averageDocLength = some results →
        (results.map Querying.ScoreDoc.docId).Nodup) ∧
      (∀ lp0 lp1 currDoc,
        Querying.openLists termToIndex lexicon ifs metadata blockOffsets queryTerms =
          some lp0 →
        Querying.initCurrDoc ifs metadata blockOffsets
          (Querying.computeMaxScores ln pageTable averageDocLength lp0).1 =
            some (lp1, currDoc) →
        ∀ fuel, 2 ^ 32 ≤ fuel →
          Querying.mainLoop ln pop usePrune ifs metadata blockOffsets pageTable
            averageDocLength (Querying.computeMaxScores ln pageTable averageDocLength lp0).2
            (Querying.sortOrder (Querying.computeMaxScores ln pageTable averageDocLength lp0).2)
            fuel ⟨lp1, currDoc, [], 0, 0⟩ =
          Querying.mainLoop ln pop usePrune ifs metadata blockOffsets pageTable
            averageDocLength (Querying.computeMaxScores ln pageTable averageDocLength lp0).2
            (Querying.sortOrder (Querying.computeMaxScores ln pageTable averageDocLength lp0).2)
            (2 ^ 32) ⟨lp1, currDoc, [], 0, 0⟩) := by
  have hsetup : ∀ lp0 lp1 currDoc,
      Querying.initCurrDoc ifs metadata blockOffsets
        (Querying.computeMaxScores ln pageTable averageDocLength lp0).1 = some (lp1, currDoc) →
      (∀ x ∈ currDoc, 0 ≤ x ∧ x ≤ UINT32_MAX) ∧
      ∀ i, i < currDoc.length →
        i ∈ Querying.sortOrder
          (Querying.computeMaxScores ln pageTable averageDocLength lp0).2 := by
    intro lp0 lp1 currDoc hinit
    obtain ⟨h1, h2⟩ := initCurrDoc_bounds ifs metadata blockOffsets _ lp1 currDoc hinit
    refine ⟨h2, fun i hi => ?_⟩
    have hperm : List.Perm
        (Querying.sortOrder (Querying.computeMaxScores ln pageTable averageDocLength lp0).2)
        (List.range (Querying.computeMaxScores ln pageTable averageDocLength lp0).2.length) :=
      List.perm_insertionSort _ _
    apply hperm.symm.subset
    rw [List.mem_range]
    simp only [Querying.computeMaxScores, List.length_map] at h1 ⊢
    omega
  have hshort : ∀ cs : List Nat, cs.Pairwise (fun a b => a < b) →
      (∀ c ∈ cs, 0 ≤ c ∧ c < UINT32_MAX) → cs.length < 2 ^ 32 := by
    intro cs hpw hb
    have hnd : cs.Nodup := hpw.imp (fun h => Nat.ne_of_lt h)
    have hsub : cs ⊆ List.range UINT32_MAX := fun c hc => List.mem_range.2 (hb c hc).2
    have := (hnd.subperm hsub).length_le
    rw [List.length_range] at this
    unfold UINT32_MAX at this
    omega
  have htrace : ∃ cs, Querying.daatCandidates ln pop usePrune queryTerms termToIndex ifs
        lexicon metadata blockOffsets pageTable averageDocLength = some cs ∧
      cs.Pairwise (fun a b => a < b) ∧ cs.Nodup ∧ cs.length < 2 ^ 32 ∧
      ∀ st, Querying.daatRun ln pop usePrune queryTerms termToIndex ifs lexicon metadata
          blockOffsets pageTable averageDocLength = some st →
        cs.length = st.visited ∧ (st.topK.map Querying.ScoreDoc.docId).Nodup ∧
        ∀ e ∈ st.topK, e.docId ∈ cs := by
    unfold Querying.daatCandidates Querying.daatRun
    cases hopen : Querying.openLists termToIndex lexicon ifs metadata blockOffsets
        queryTerms with
    | none => exact ⟨[], rfl, List.Pairwise.nil, List.nodup_nil, by simp, by simp⟩
    | some lp0 =>
      simp only
      cases hinit : Querying.initCurrDoc ifs metadata blockOffsets
          (Querying.computeMaxScores ln pageTable averageDocLength lp0).1 with
      | none => exact ⟨[], rfl, List.Pairwise.nil, List.nodup_nil, by simp, by simp⟩
      | some r =>
        obtain ⟨lp1, currDoc⟩ := r
        simp only
        obtain ⟨hb, hcov⟩ := hsetup lp0 lp1 currDoc hinit
        obtain ⟨cs, ht, hpw, hbd⟩ := candidateTrace_total ln pop usePrune ifs metadata
          blockOffsets pageTable averageDocLength
          (Querying.computeMaxScores ln pageTable averageDocLength lp0).2
          (Querying.sortOrder (Querying.computeMaxScores ln pageTable averageDocLength lp0).2)
          (2 ^ 32) ⟨lp1, currDoc, [], 0, 0⟩ 0 hb hcov (by unfold UINT32_MAX; norm_num)
        refine ⟨cs, ht, hpw, hpw.imp (fun h => Nat.ne_of_lt h), hshort cs hpw hbd, ?_⟩
        intro st hst
        obtain ⟨cs2, ht2, _, _, hv, hnd, hmem⟩ := mainLoop_trace ln pop hpop usePrune ifs
          metadata blockOffsets pageTable averageDocLength _ _ (2 ^ 32)
          ⟨lp1, currDoc, [], 0, 0⟩ st 0 hb hcov (by simp) (by simp) hst
        rw [ht, Option.some.injEq] at ht2
        subst ht2
        refine ⟨?_, hnd, ?_⟩
        · rw [hv]
          simp
        · intro e he
          rcases hmem e he with h1 | h1
          · simp at h1
          · exact h1
  refine ⟨htrace, ?_, ?_⟩
  · intro results hres
    unfold Querying.disjunctiveDAAT at hres
    split at hres
    · simp at hres
    · rename_i st hst
      obtain ⟨cs, _, _, _, _, hrun⟩ := htrace
      obtain ⟨_, hnd, _⟩ := hrun st hst
      obtain ⟨d, hd, hperm, _⟩ := drainLoop_spec pop hpop st.topK.length st.topK [] rfl
      rw [hd] at hres
      simp only [List.nil_append, Option.some.injEq] at hres
      rw [← hres]
      exact ((hperm.map Querying.ScoreDoc.docId).nodup_iff).2 hnd
  · intro lp0 lp1 currDoc _ hinit fuel hfuel
    obtain ⟨hb, hcov⟩ := hsetup lp0 lp1 currDoc hinit
    exact mainLoop_fuel ln pop usePrune ifs metadata blockOffsets pageTable averageDocLength
      _ _ fuel (2 ^ 32) ⟨lp1, currDoc, [], 0, 0⟩ 0 hb hcov
      (by unfold UINT32_MAX; omega) (by unfold UINT32_MAX; norm_num)

/-- C26 on the index of `twoTermStream` with the query terms `a` and `b`: the
candidates are 5, 7, 100, and the three returned docIds are distinct. -/
theorem candidates_strictly_increasing_witness :
    Querying.daatCandidates (fun x : ℚ => x) Querying.topPop true [[97], [98]]
        twoTermLookup (Index.generateInvertedIndex twoTermStream).ofs
        ((Index.generateInvertedIndex twoTermStream).lexicon.map Prod.snd)
        (Index.generateInvertedIndex twoTermStream).metadata
        (Querying.computeBlockOffsets (Index.generateInvertedIndex twoTermStream).metadata)
        (fun _ => 10) 10 = some [5, 7, 100] ∧
      (([⟨1999997 / 5, 5⟩, ⟨21999967 / 35, 100⟩, ⟨37999943 / 40, 7⟩] :
        List (Querying.ScoreDoc ℚ)).map Querying.ScoreDoc.docId).Nodup :=
  ⟨by decide!,
    (candidates_strictly_increasing (fun x : ℚ => x) Querying.topPop topPop_spec true
      [[97], [98]] twoTermLookup (Index.generateInvertedIndex twoTermStream).ofs
      ((Index.generateInvertedIndex twoTermStream).lexicon.map Prod.snd)
      (Index.generateInvertedIndex twoTermStream).metadata
      (Querying.computeBlockOffsets (Index.generateInvertedIndex twoTermStream).metadata)
      (fun _ => 10) 10).2.1 [⟨1999997 / 5, 5⟩, ⟨21999967 / 35, 100⟩, ⟨37999943 / 40, 7⟩]
      (by decide!)⟩

/-- C27 (upper-bound validity), evaluated over the reals for a term that
occurs five times in the only document containing it: `listLength = 1`,
posting freq 5, document length 10, `averageDocLength = 10` and reference
length `pageTable[8841709] = 10`.  The bound `maxScores[i]` (`getScore` with
`freq = listLength = 1`) is strictly below the score `getScore` returns for the
posting. -/
theorem maxScore_below_posting_score :
    Querying.getScore Real.log (Querying.setCurrentFrequency (Querying.scoreCursor 1 0) 1) 10 10 <
      Querying.getScore Real.log (Querying.scoreCursor 1 5) 10 10 := by
  unfold Querying.getScore Querying.setCurrentFrequency Querying.scoreCursor Querying.N
    Querying.k1 Querying.b
  simp only
  apply mul_lt_mul_of_pos_left
  · norm_num
  · apply Real.log_pos
    norm_num

/-- C27, amended.  Over the reals, for every cursor with
`listLength ≤ N / 2 = 500000`, every posting state of its list with
`freq ≤ listLength`, and every document length that is at least the reference
length `pageTable[8841709] ≥ 0` (with `averageDocLength > 0`), the bound
`maxScores[i]`, which is `getScore` with `freq = listLength` against the
reference length, is `≥` the score `getScore` returns for the posting. -/
theorem maxScore_upper_bound (p q : Querying.ListPointer)
    (docLength refLength averageDocLength : ℝ) (hq : q.listLength = p.listLength)
    (hdf : p.listLength ≤ 500000) (hfreq : q.currentFreq ≤ p.listLength)
    (href : 0 ≤ refLength) (hlen : refLength ≤ docLength) (havg : 0 < averageDocLength) :
    Querying.getScore Real.log q docLength averageDocLength ≤
      Querying.getScore Real.log (Querying.setCurrentFrequency p p.listLength) refLength
        averageDocLength := by
  have hmod : p.listLength % 2 ^ 32 = p.listLength := Nat.mod_eq_of_lt (by omega)
  have hl : (p.listLength : ℝ) ≤ 500000 := by exact_mod_cast hdf
  have hl0 : (0 : ℝ) ≤ (p.listLength : ℝ) := Nat.cast_nonneg _
  have hf0 : (0 : ℝ) ≤ (q.currentFreq : ℝ) := Nat.cast_nonneg _
  have hf : (q.currentFreq : ℝ) ≤ (p.listLength : ℝ) := by exact_mod_cast hfreq
  unfold Querying.getScore Querying.setCurrentFrequency Querying.N Querying.k1 Querying.b
  simp only [hmod, hq]
  apply mul_le_mul_of_nonneg_left
  · have hr : refLength / averageDocLength ≤ docLength / averageDocLength :=
      div_le_div_of_nonneg_right hlen havg.le
    have hr0 : 0 ≤ refLength / averageDocLength := div_nonneg href havg.le
    have hk1 : (0 : ℝ) < 12 / 10 * (1 - 75 / 100 + 75 / 100 * (refLength / averageDocLength)) := by
      apply mul_pos (by norm_num)
      linarith
    have hk2 : 12 / 10 * (1 - 75 / 100 + 75 / 100 * (refLength / averageDocLength)) ≤
        (12 / 10 : ℝ) * (1 - 75 / 100 + 75 / 100 * (docLength / averageDocLength)) := by
      apply mul_le_mul_of_nonneg_left _ (by norm_num)
      linarith
    rw [div_le_div_iff₀ (by linarith) (by linarith)]
    have key : (q.currentFreq : ℝ) *
        (12 / 10 * (1 - 75 / 100 + 75 / 100 * (refLength / averageDocLength))) ≤
        (p.listLength : ℝ) *
          (12 / 10 * (1 - 75 / 100 + 75 / 100 * (docLength / averageDocLength))) :=
      mul_le_mul hf hk2 hk1.le hl0
    nlinarith
  · apply Real.log_nonneg
    rw [le_div_iff₀ (by linarith)]
    linarith

/-- C27 amended, at `listLength = 3`, posting freq 2, document length 12 and
reference length 10. -/
theorem maxScore_upper_bound_witness :
    Querying.getScore Real.log (Querying.scoreCursor 3 2) 12 10 ≤
      Querying.getScore Real.log
        (Querying.setCurrentFrequency (Querying.scoreCursor 3 0)
          (Querying.scoreCursor 3 0).listLength) 10 10 :=
  maxScore_upper_bound (Querying.scoreCursor 3 0) (Querying.scoreCursor 3 2) 12 10 10 rfl
    (by decide) (by decide) (by norm_num) (by norm_num) (by norm_num)

/-- C28 (buffer bounds), on the file of one line `1<TAB>` followed by 6553601
times `a<SPACE>`.  `POSTING_BUFFER_SIZE` is 6553600; `tokenizeSentence` writes
one posting per term with no check of `postingBufferIndex`, and `readFile`
flushes only after a whole line, when `docCount` is a multiple of
`DOCS_PER_FILE`; so the posting of the last term is written to
`postingBuffer[POSTING_BUFFER_SIZE]`, outside the array, with no flush before
it. -/
theorem readFile_posting_buffer_overflow :
    Parsing.POSTING_BUFFER_SIZE = 6553600 ∧
      Parsing.readFile (49 :: 9 :: (List.replicate 6553601 [97, 32]).flatten) =
        .error .postingBufferOverflow :=
  ⟨by decide, readFile_long_line 6553601 (by unfold Parsing.POSTING_BUFFER_SIZE; norm_num)
    (by unfold Parsing.TERM_BUFFER_SIZE; norm_num)⟩

/-- C29 (varbyte length).  For every `n < 2 ^ 32`, `varbyteEncode` appends to
the buffer exactly `max(1, ceil(bitlength(n) / 7))` bytes (`bitlength` is
`Nat.size`), between 1 and 5 of them; every byte but the last has its top bit
set (is in `[128, 256)`) and the last has it clear (is below 128).  The
encodings of 0, 127, 128 and 300 are `[0x00]`, `[0x7F]`, `[0x80, 0x01]` and
`[0xAC, 0x02]`. -/
theorem varbyteEncode_length (n : Nat) (hn : n < 2 ^ 32) (buffer : List Nat) :
    (∃ bytes, varbyteEncode buffer n = buffer ++ bytes ∧
      (bytes.length : Int) = max 1 ⌈(Nat.size n : ℚ) / 7⌉ ∧
      bytes.length = max 1 ((Nat.size n + 6) / 7) ∧
      1 ≤ bytes.length ∧ bytes.length ≤ 5 ∧
      (∀ x ∈ bytes.dropLast, 128 ≤ x ∧ x < 256) ∧
      (∀ x ∈ bytes.getLast?, x < 128)) ∧
    varbyteEncode [] 0 = [0x00] ∧ varbyteEncode [] 127 = [0x7F] ∧
    varbyteEncode [] 128 = [0x80, 0x01] ∧ varbyteEncode [] 300 = [0xAC, 0x02] := by
  refine ⟨?_, by decide, by decide, by decide, by decide⟩
  have hmod : n % 2 ^ 32 = n := Nat.mod_eq_of_lt hn
  obtain ⟨h1, h2, h3⟩ := varbyteEncodeLoop_shape 5 n (by norm_num; omega)
  have hsz : Nat.size n ≤ 32 := Nat.size_le.2 hn
  refine ⟨varbyteEncodeLoop 5 [] n, ?_, ?_, h1, ?_, ?_, h2, h3⟩
  · rw [varbyte_encode_unfold buffer n hmod]
  · have hc := ceil_div_nat (Nat.size n) 7 (by norm_num)
    simp only [Nat.cast_ofNat] at hc
    rw [h1, hc]
    have e : Nat.size n + 7 - 1 = Nat.size n + 6 := by omega
    rw [e]
    push_cast
    rfl
  · rw [h1]; omega
  · rw [h1]; omega

/-- C29 at `n = 300`: two bytes, `0xAC` with the top bit set and `0x02`. -/
theorem varbyteEncode_length_witness :
    300 < 2 ^ 32 ∧ varbyteEncode [7] 300 = [7, 0xAC, 0x02] ∧
      ∃ bytes, varbyteEncode [7] 300 = [7] ++ bytes ∧
        (bytes.length : Int) = max 1 ⌈(Nat.size 300 : ℚ) / 7⌉ ∧
        bytes.length = max 1 ((Nat.size 300 + 6) / 7) ∧
        1 ≤ bytes.length ∧ bytes.length ≤ 5 ∧
        (∀ x ∈ bytes.dropLast, 128 ≤ x ∧ x < 256) ∧
        (∀ x ∈ bytes.getLast?, x < 128) :=
  ⟨by decide, by decide, (varbyteEncode_length 300 (by decide) [7]).1⟩

/-- C30 (prune soundness under non-negative bounds).  If every entry of the
`maxScores` of a query is `≥ 0`, then in every state of the main loop a
candidate that the prune test skips (the heap holds `k` entries and
`score + remainingMax <= topK.top().score`) has `score ≤ topK.top().score`, and
the loop without the prune step leaves the heap unchanged for it as well; so
`disjunctiveDAAT` returns the same list with and without the prune step. -/
theorem prune_sound_nonneg {F : Type} [LinearOrderedField F] (ln : F → F)
    (pop : List (Querying.ScoreDoc F) → Option (Querying.ScoreDoc F × List (Querying.ScoreDoc F)))
    (queryTerms : List (List Nat)) (termToIndex : List Nat → Option Nat) (ifs : List Nat)
    (lexicon : List LexiconEntry) (metadata : List BlockMetadata) (blockOffsets : List Nat)
    (pageTable : Int → Int) (averageDocLength : F)
    (hms : ∀ m ∈ ((Querying.openLists termToIndex lexicon ifs metadata blockOffsets
        queryTerms).map
        (fun lp0 => (Querying.computeMaxScores ln pageTable averageDocLength lp0).2)).getD [],
      0 ≤ m) :
    (∀ (candidate : Nat) (order : List Nat) (lp lp1 : List Querying.ListPointer)
        (currDoc currDoc1 : List Nat) (score remainingMax : F)
        (topK topK1 : List (Querying.ScoreDoc F)),
        Querying.scoreLoop ln ifs metadata blockOffsets pageTable averageDocLength
            (((Querying.openLists termToIndex lexicon ifs metadata blockOffsets
              queryTerms).map
              (fun lp0 => (Querying.computeMaxScores ln pageTable averageDocLength lp0).2)).getD
              [])
            candidate order (lp, currDoc, 0, 0) =
          some (lp1, currDoc1, score, remainingMax) →
        Querying.heapUpdate pop true topK score remainingMax candidate = some (topK1, true) →
        0 ≤ remainingMax ∧ topK1 = topK ∧ Querying.k ≤ topK.length ∧
          (∃ top rest, pop topK = some (top, rest) ∧ score + remainingMax ≤ top.score ∧
            score ≤ top.score) ∧
          Querying.heapUpdate pop false topK score remainingMax candidate =
            some (topK, false)) ∧
      Querying.disjunctiveDAAT ln pop true queryTerms termToIndex ifs lexicon metadata
          blockOffsets pageTable averageDocLength =
        Querying.disjunctiveDAAT ln pop false queryTerms termToIndex ifs lexicon metadata
          blockOffsets pageTable averageDocLength := by
  constructor
  · intro candidate order lp lp1 currDoc currDoc1 score remainingMax topK topK1 hsl hu
    have hrm := scoreLoop_remainingMax_nonneg ln ifs metadata blockOffsets pageTable
      averageDocLength _ candidate hms order lp lp1 currDoc currDoc1 0 score 0 remainingMax
      (le_refl _) hsl
    unfold Querying.heapUpdate at hu ⊢
    by_cases hlt : topK.length < Querying.k
    · rw [if_pos hlt] at hu
      simp at hu
    · rw [if_neg hlt] at hu ⊢
      cases hp : pop topK with
      | none => rw [hp] at hu; simp at hu
      | some r =>
        obtain ⟨top, rest⟩ := r
        rw [hp] at hu
        simp only at hu ⊢
        by_cases hc : score + remainingMax ≤ top.score
        · have hle : score ≤ top.score := le_trans (le_add_of_nonneg_right hrm) hc
          simp only [hc, and_self, if_true, Option.some.injEq, Prod.mk.injEq, and_true] at hu
          refine ⟨hrm, hu.symm, by omega, ⟨top, rest, rfl, hc, hle⟩, ?_⟩
          simp [not_lt.2 hle]
        · simp only [hc, and_false, if_false] at hu
          split at hu <;> simp at hu
  · apply disjunctiveDAAT_prune_eq
    intro lp0 hopen
    rw [hopen] at hms
    exact hms

/-- C30 on the index of `twoTermStream` with the query terms `a` and `b`: both
bounds are positive, and the result is the same with and without the prune
step. -/
theorem prune_sound_nonneg_witness :
    (∀ m ∈ ((Querying.openLists twoTermLookup
        ((Index.generateInvertedIndex twoTermStream).lexicon.map Prod.snd)
        (Index.generateInvertedIndex twoTermStream).ofs
        (Index.generateInvertedIndex twoTermStream).metadata
        (Querying.computeBlockOffsets (Index.generateInvertedIndex twoTermStream).metadata)
        [[97], [98]]).map
        (fun lp0 => (Querying.computeMaxScores (fun x : ℚ => x) (fun _ => 10) 10 lp0).2)).getD [],
      0 ≤ m) ∧
      Querying.disjunctiveDAAT (fun x : ℚ => x) Querying.topPop true [[97], [98]]
          twoTermLookup (Index.generateInvertedIndex twoTermStream).ofs
          ((Index.generateInvertedIndex twoTermStream).lexicon.map Prod.snd)
          (Index.generateInvertedIndex twoTermStream).metadata
          (Querying.computeBlockOffsets (Index.generateInvertedIndex twoTermStream).metadata)
          (fun _ => 10) 10 =
        Querying.disjunctiveDAAT (fun x : ℚ => x) Querying.topPop false [[97], [98]]
          twoTermLookup (Index.generateInvertedIndex twoTermStream).ofs
          ((Index.generateInvertedIndex twoTermStream).lexicon.map Prod.snd)
          (Index.generateInvertedIndex twoTermStream).metadata
          (Querying.computeBlockOffsets (Index.generateInvertedIndex twoTermStream).metadata)
          (fun _ => 10) 10 :=
  ⟨by decide!,
    (prune_sound_nonneg (fun x : ℚ => x) Querying.topPop [[97], [98]] twoTermLookup
      (Index.generateInvertedIndex twoTermStream).ofs
      ((Index.generateInvertedIndex twoTermStream).lexicon.map Prod.snd)
      (Index.generateInvertedIndex twoTermStream).metadata
      (Querying.computeBlockOffsets (Index.generateInvertedIndex twoTermStream).metadata)
      (fun _ => 10) 10 (by decide!)).2⟩

/-- C31 (normalization agreement), evaluated on the text `<TAB>a<NUL>b`.
`cleanQuery` and `cleanSentence` both keep the NUL byte, and the query side
tokenizes the text into the one term `a<NUL>b` of three bytes.  The parser
copies the same term into the term buffer with `memcpy(ptr, term.c_str(), ..)`
and indexes the C string at `ptr`, which ends at the NUL: for the line
`1<TAB>a<NUL>b` the posting buffer holds the term `a`.  The two terms differ,
and the query term is not found in a map whose only key is the indexed
term. -/
theorem query_term_differs_from_indexed_term :
    Querying.cleanQuery [9, 97, 0, 98] = [9, 97, 0, 98] ∧
      Parsing.cleanSentence [9, 97, 0, 98] = [9, 97, 0, 98] ∧
      streamTokens (Querying.cleanQuery [9, 97, 0, 98]) = [[97, 0, 98]] ∧
      (Parsing.tokenizeSentence 1 (Parsing.cleanSentence [9, 97, 0, 98]) [] 0).toOption =
        some ([⟨[97], 1⟩], 4, 1) ∧
      (Parsing.readFile [49, 9, 97, 0, 98, 10]).toOption.map (fun s => s.postingBuffer) =
        some [⟨[97], 1⟩] ∧
      ([97, 0, 98] : List Nat) ≠ [97] ∧
      Querying.foundLoop (fun t => if t = [97] then some 0 else none)
        (streamTokens (Querying.cleanQuery [9, 97, 0, 98])) [] = [] := by
  decide

/-- C31, amended.  For every byte string `s`, `cleanQuery(s) = cleanSentence(s)`,
so the query side and the parser tokenize the same text into the same sequence
of terms; `tokenizeSentence`, when the terms fit into its two buffers, appends
one posting per term of the query, holding the C string copied for the term,
which is the term up to its first NUL byte; and when `s` has no NUL byte every
term tokenized from the query is byte-identical to the C string the parser
indexes for it. -/
theorem cleanQuery_eq_cleanSentence (s : List Nat) :
    Querying.cleanQuery s = Parsing.cleanSentence s ∧
      streamTokens (Querying.cleanQuery s) = streamTokens (Parsing.cleanSentence s) ∧
      (∀ (docId : Int) (postingBuffer : List Parsing.Posting) (termBufferOffset : Nat),
        postingBuffer.length + (streamTokens (Querying.cleanQuery s)).length ≤
          Parsing.POSTING_BUFFER_SIZE →
        termBufferOffset +
            ((streamTokens (Querying.cleanQuery s)).map (fun t => t.length + 1)).sum ≤
          Parsing.TERM_BUFFER_SIZE →
        Parsing.tokenizeSentence docId (Parsing.cleanSentence s) postingBuffer
            termBufferOffset =
          .ok (postingBuffer ++
              (streamTokens (Querying.cleanQuery s)).map (fun t => ⟨Parsing.cstr t, docId⟩),
            termBufferOffset +
              ((streamTokens (Querying.cleanQuery s)).map (fun t => t.length + 1)).sum,
            ((streamTokens (Querying.cleanQuery s)).length : Int))) ∧
      ((∀ c ∈ s, c % 256 ≠ 0) →
        ∀ t ∈ streamTokens (Querying.cleanQuery s), Parsing.cstr t = t) := by
  have heq : Querying.cleanQuery s = Parsing.cleanSentence s := by
    rw [cleanQuery_eq_map, cleanSentence_eq_map]
  refine ⟨heq, by rw [heq], ?_, ?_⟩
  · intro docId postingBuffer termBufferOffset hp ht
    rw [heq] at hp ht ⊢
    unfold Parsing.tokenizeSentence
    rw [tokenizeLoop_ok docId _ postingBuffer termBufferOffset 0
      (fun t h => (streamTokens_mem _ t h).1) hp ht]
    simp
  · intro hs t ht
    apply cstr_eq_self
    intro c hc
    have hmem := ((streamTokens_mem _ t ht).2 c hc).1
    rw [cleanQuery_eq_map, List.mem_map] at hmem
    obtain ⟨c0, hc0, rfl⟩ := hmem
    exact cleanByte_ne_zero c0 (hs c0 hc0)

/-- C31 amended, on the text `Hi, A.b`, which has no NUL byte: the query terms
`hi`, `a`, `b` are the C strings of the three postings the parser appends. -/
theorem cleanQuery_eq_cleanSentence_witness :
    streamTokens (Querying.cleanQuery [72, 105, 44, 32, 65, 46, 98]) =
        [[104, 105], [97], [98]] ∧
      (Parsing.tokenizeSentence 1 (Parsing.cleanSentence [72, 105, 44, 32, 65, 46, 98])
          [] 0).toOption = some ([⟨[104, 105], 1⟩, ⟨[97], 1⟩, ⟨[98], 1⟩], 7, 3) ∧
      (∀ c ∈ ([72, 105, 44, 32, 65, 46, 98] : List Nat), c % 256 ≠ 0) ∧
      ∀ t ∈ streamTokens (Querying.cleanQuery [72, 105, 44, 32, 65, 46, 98]),
        Parsing.cstr t = t :=
  ⟨by decide, by decide, by decide,
    (cleanQuery_eq_cleanSentence [72, 105, 44, 32, 65, 46, 98]).2.2.2 (by decide)⟩

end WSE
